import Mathlib

set_option maxRecDepth 40000

/-!
# Verification of an Adaptive Radix Tree (ART) implementation

A shallow embedding of the Go ART package (`tree.go` and the node source file).
Go's in-place pointer mutation becomes explicit state passing: every operation
returns the new subtree.  Go `int` values that can go negative along reachable
paths (`prefixLen`, node and tree sizes, depths) are modelled as `Int`.
Byte-array reads and writes go through bounds-checked helpers returning `Res`,
whose `oob` constructor models a Go runtime panic (index out of range); `ok`
is a normal return.  Keys are `List Nat` (Go `[]byte`; theorems that quantify
over keys restrict the entries to `< 256` where the claim needs it).
-/

namespace Art

/-- Result of running a Go code path: `ok` is a normal return and `oob` models
a runtime panic (out-of-range slice or array index).  The recursive operations
are defined by structural recursion on an iteration budget; `fuelOut` reports
an exhausted budget and never occurs once the budget exceeds the recursion
depth (the theorems quantify over or exhibit a sufficient budget). -/
inductive Res (α : Type u) where
  | ok (val : α)
  | oob
  | fuelOut
  deriving DecidableEq

namespace Res

def bind : Res α → (α → Res β) → Res β
  | ok a, f => f a
  | oob, _ => oob
  | fuelOut, _ => fuelOut

instance : Monad Res where
  pure := ok
  bind := bind

/-- Did this run end in a Go runtime panic? -/
def isOob : Res α → Bool
  | oob => true
  | _ => false

/-- Map over a normal result. -/
def map (f : α → β) : Res α → Res β
  | ok a => ok (f a)
  | oob => oob
  | fuelOut => fuelOut

end Res

/-- Go slice read `l[i]` with an `int` index: panics outside `[0, len)`. -/
def arrGet (l : List α) (i : Int) : Res α :=
  if h : 0 ≤ i ∧ i.toNat < l.length then .ok (l.get ⟨i.toNat, h.2⟩) else .oob

/-- Go slice write `l[i] = v` with an `int` index: panics outside `[0, len)`. -/
def arrSet (l : List α) (i : Int) (v : α) : Res (List α) :=
  if 0 ≤ i ∧ i.toNat < l.length then .ok (l.set i.toNat v) else .oob

/-- Go slice expression `l[i:]`: panics unless `0 ≤ i ≤ len`. -/
def arrDrop (l : List α) (i : Int) : Res (List α) :=
  if 0 ≤ i ∧ i.toNat ≤ l.length then .ok (l.drop i.toNat) else .oob

/-- The Go helper `min(a, b int) int`. -/
def goMin (a b : Int) : Int := if a < b then a else b

/-- Go `memcpy(dst, src, numBytes)`: copies while `i < numBytes && i < len(src)
&& i < len(dst)`, so it never faults; a negative count copies nothing. -/
def memcpy (dst src : List Nat) (numBytes : Int) : List Nat :=
  let k := min numBytes.toNat (min src.length dst.length)
  src.take k ++ dst.drop k

/-- Go `memmove(dst, src, numBytes)`: the loop has no bounds guard, so it
panics as soon as `i` reaches the length of either slice. -/
def memmove (dst src : List Nat) (numBytes : Int) : Res (List Nat) :=
  if numBytes.toNat ≤ src.length ∧ numBytes.toNat ≤ dst.length then
    .ok (src.take numBytes.toNat ++ dst.drop numBytes.toNat)
  else .oob

/-- Go `bytes.IndexByte`: index of the first occurrence, `-1` if absent. -/
def indexByte (l : List Nat) (b : Nat) : Int :=
  match l.findIdx? (· == b) with
  | some i => (i : Int)
  | none => -1

/-- First `i < n` with `p i = true`. -/
def firstIdx (n : Nat) (p : Nat → Bool) : Option Nat :=
  (List.range n).find? p

-- Node capacity constants from the source.
def node4Min : Int := 2
def node4Max : Int := 4
def node16Min : Int := 5
def node16Max : Int := 16
def node48Min : Int := 17
def node48Max : Int := 48
def node256Min : Int := 49
def node256Max : Int := 256
def maxPrefixLen : Int := 10

/-- The shared inner-node header `node`: child count, logical compressed-path
length, and the inline prefix buffer of `maxPrefixLen = 10` bytes. -/
structure NodeMeta where
  size : Int
  prefixLen : Int
  prefixBytes : List Nat
  deriving DecidableEq

/-- An `artNode`.  The Go code discriminates on `nodeType` and reinterprets an
`unsafe.Pointer`; here each variant carries its fields directly.  `node4`/
`node16` hold parallel arrays `keys`/`children` of length 4/16; `node48` holds
the 256-entry byte-to-slot table `keys` and 49 children (slot 0 unused);
`node256` holds 256 children indexed by byte. -/
inductive ArtNode (V : Type) where
  | leaf (key : List Nat) (value : V)
  | node4 (meta : NodeMeta) (keys : List Nat) (children : List (Option (ArtNode V)))
  | node16 (meta : NodeMeta) (keys : List Nat) (children : List (Option (ArtNode V)))
  | node48 (meta : NodeMeta) (keys : List Nat) (children : List (Option (ArtNode V)))
  | node256 (meta : NodeMeta) (children : List (Option (ArtNode V)))

namespace ArtNode

variable {V : Type}

/-- `newLeafNode`: the Go code copies the key bytes into a fresh slice; list
values already have copy semantics. -/
def mkLeaf (key : List Nat) (value : V) : ArtNode V := .leaf key value

def emptyMeta : NodeMeta := ⟨0, 0, List.replicate 10 0⟩

def newNode4 : ArtNode V := .node4 emptyMeta (List.replicate 4 0) (List.replicate 4 none)

def newNode16 : ArtNode V := .node16 emptyMeta (List.replicate 16 0) (List.replicate 16 none)

def newNode48 : ArtNode V := .node48 emptyMeta (List.replicate 256 0) (List.replicate 49 none)

def newNode256 : ArtNode V := .node256 emptyMeta (List.replicate 256 none)

/-- The little-endian bytes of a Go `int` (8 bytes). -/
def leBytes8 (n : Nat) : List Nat :=
  [n % 256, n / 256 % 256, n / 256 ^ 2 % 256, n / 256 ^ 3 % 256,
   n / 256 ^ 4 % 256, n / 256 ^ 5 % 256, n / 256 ^ 6 % 256, n / 256 ^ 7 % 256]

/-- Go `n.node()`: reads the header through the unsafe pointer.  On a leaf this
reinterprets the `leafNode` struct laid out as (key data pointer, key length,
key capacity, value word 0, value word 1): `size` lands on the data pointer,
`prefixLen` on the slice length (= key length), and the 10 prefix bytes on the
capacity (= key length, since `newLeafNode` allocates with `make(len)`)
followed by two bytes of the value's interface type pointer.  The two pointer
fields are not deterministic in Go; we determinise them to 0.  Every reachable
path that consults this garbage header either returns "not found" or panics
regardless of those two bytes. -/
def node : ArtNode V → NodeMeta
  | .leaf k _ => ⟨0, (k.length : Int), leBytes8 k.length ++ [0, 0]⟩
  | .node4 m _ _ => m
  | .node16 m _ _ => m
  | .node48 m _ _ => m
  | .node256 m _ => m

/-- Replace the header (used to model Go's in-place field writes). -/
def withMeta (m : NodeMeta) : ArtNode V → ArtNode V
  | .leaf k v => .leaf k v
  | .node4 _ ks cs => .node4 m ks cs
  | .node16 _ ks cs => .node16 m ks cs
  | .node48 _ ks cs => .node48 m ks cs
  | .node256 _ cs => .node256 m cs

def isLeaf : ArtNode V → Bool
  | .leaf _ _ => true
  | _ => false

def Key : ArtNode V → List Nat
  | .leaf k _ => k
  | _ => []

def Value : ArtNode V → Option V
  | .leaf _ v => some v
  | _ => none

def minSize : ArtNode V → Int
  | .node4 _ _ _ => node4Min
  | .node16 _ _ _ => node16Min
  | .node48 _ _ _ => node48Min
  | .node256 _ _ => node256Min
  | .leaf _ _ => 0

def maxSize : ArtNode V → Int
  | .node4 _ _ _ => node4Max
  | .node16 _ _ _ => node16Max
  | .node48 _ _ _ => node48Max
  | .node256 _ _ => node256Max
  | .leaf _ _ => 0

def isFull (n : ArtNode V) : Bool := n.node.size == n.maxSize

/-- `isMatch`: leaf key equality; false on every non-leaf. -/
def isMatch (n : ArtNode V) (key : List Nat) : Bool :=
  match n with
  | .leaf k _ => k == key
  | _ => false

/-- `index`: position of the byte's child pointer.  N4/N16 scan the whole
fixed array (including the zero padding past `size`); N48 reads the slot
table; N256 returns the byte itself. -/
def index (n : ArtNode V) (b : Nat) : Int :=
  match n with
  | .node4 _ ks _ => indexByte ks b
  | .node16 _ ks _ => indexByte ks b
  | .node48 _ ks _ => (ks.getD b 0 : Int)
  | .node256 _ _ => (b : Int)
  | .leaf _ _ => -1

def leafValue {V : Type} : ArtNode V → Option V
  | .leaf _ v => some v
  | _ => none

def setValue {V : Type} (n : ArtNode V) (v : V) : ArtNode V :=
  match n with
  | .leaf k _ => .leaf k v
  | x => x

/-- `minimum`: descend along the smallest present child. The N48/N256 scans
have no bound check, so a childless node makes Go run past the array (oob);
calling through a nil child link returns nil. -/
def minimum : Nat → Option (ArtNode V) → Res (Option (ArtNode V))
  | 0, _ => .fuelOut
  | _ + 1, none => .ok none
  | _ + 1, some (.leaf k v) => .ok (some (.leaf k v))
  | fuel + 1, some (.node4 _ _ cs) => minimum fuel (cs.getD 0 none)
  | fuel + 1, some (.node16 _ _ cs) => minimum fuel (cs.getD 0 none)
  | fuel + 1, some (.node48 _ ks cs) =>
    match firstIdx ks.length (fun i => ks.getD i 0 != 0) with
    | none => .oob
    | some i => do minimum fuel (← arrGet cs ((ks.getD i 0 : Nat) : Int))
  | fuel + 1, some (.node256 _ cs) =>
    match firstIdx cs.length (fun i => (cs.getD i none).isSome) with
    | none => .oob
    | some i => minimum fuel (cs.getD i none)

/-- The `n.minimum().leafNode().key` idiom: reading `leafNode()` through nil or
a non-leaf dereferences reinterpreted memory, modelled as a trap. -/
def minLeafKey (fuel : Nat) (n : ArtNode V) : Res (List Nat) := do
  match ← minimum fuel (some n) with
  | some (.leaf k _) => .ok k
  | _ => .oob

/-- Tail of `prefixMismatch` past the inline buffer: unguarded reads of both
the query key and the minimum leaf key. -/
def pmLoop (key minKey : List Nat) (depth : Int) : Nat → Nat → Res Nat
  | 0, idx => .ok idx
  | rem + 1, idx => do
    let a ← arrGet key (depth + idx)
    let b ← arrGet minKey (depth + idx)
    if a ≠ b then .ok idx else pmLoop key minKey depth rem (idx + 1)

/-- `prefixMismatch(key, depth)`: first offset where the key differs from the
compressed path.  In the inline portion an out-of-range key byte reads as 0;
in the overflow portion (`prefixLen > maxPrefixLen`) the reads are unguarded
and compare against the minimum leaf's key. -/
def prefixMismatch (fuel : Nat) (n : ArtNode V) (key : List Nat) (depth : Int) :
    Res Int :=
  let m := n.node
  let lim := (goMin maxPrefixLen m.prefixLen).toNat
  match firstIdx lim (fun i =>
      (if depth + i < 0 ∨ (key.length : Int) ≤ depth + i then 0
       else key.getD (depth + i).toNat 0) != m.prefixBytes.getD i 0) with
  | some i => .ok i
  | none =>
    if maxPrefixLen < m.prefixLen then do
      let minKey ← minLeafKey fuel n
      let r ← pmLoop key minKey depth (m.prefixLen - lim).toNat lim
      .ok (r : Int)
    else .ok (lim : Int)

/-- `longestCommonPrefix` of two leaves starting at `depth`. -/
def longestCommonPrefix (n other : ArtNode V) (depth : Int) : Res Int :=
  match n, other with
  | .leaf k1 _, .leaf k2 _ =>
    let limit : Int := goMin k1.length k2.length - depth
    if depth < 0 ∧ 0 < limit then .oob
    else
      match firstIdx limit.toNat (fun i =>
          k1.getD (depth + i).toNat 0 != k2.getD (depth + i).toNat 0) with
      | some i => .ok (i : Int)
      | none => .ok limit
  | _, _ => .oob

/-- `findChild`: the pointer Go returns reads as the child under the byte, or
nil.  A leaf receiver falls through every switch case and yields nil. -/
def findChild : Option (ArtNode V) → Nat → Res (Option (ArtNode V))
  | none, _ => .ok none
  | some (.leaf _ _), _ => .ok none
  | some (.node4 _ ks cs), b =>
    let idx := indexByte ks b
    if idx < 0 then .ok none else arrGet cs idx
  | some (.node16 _ ks cs), b =>
    let idx := indexByte ks b
    if idx < 0 then .ok none else arrGet cs idx
  | some (.node48 _ ks cs), b =>
    let idx : Int := (ks.getD b 0 : Int)
    if idx = 0 then .ok none else arrGet cs idx
  | some (.node256 _ cs), b => arrGet cs (b : Int)

/-- Go's `findChild` hands back a pointer into the child array and the
recursive helpers write through it; the functional embedding re-locates that
slot by the same index computation when writing the child back. -/
def setChild (n : ArtNode V) (b : Nat) (c : Option (ArtNode V)) : ArtNode V :=
  match n with
  | .node4 m ks cs =>
    let idx := indexByte ks b
    if 0 ≤ idx then .node4 m ks (cs.set idx.toNat c) else n
  | .node16 m ks cs =>
    let idx := indexByte ks b
    if 0 ≤ idx then .node16 m ks (cs.set idx.toNat c) else n
  | .node48 m ks cs =>
    let idx := ks.getD b 0
    if idx ≠ 0 then .node48 m ks (cs.set idx c) else n
  | .node256 m cs => .node256 m (cs.set b c)
  | .leaf _ _ => n

/-- `copyMeta`: copy size, prefixLen and the first `min(prefixLen, P)` inline
prefix bytes from `src` into `n`'s header. -/
def copyMeta (n src : ArtNode V) : ArtNode V :=
  let fromM := src.node
  let toM := n.node
  let k := (goMin fromM.prefixLen maxPrefixLen).toNat
  n.withMeta ⟨fromM.size, fromM.prefixLen,
    fromM.prefixBytes.take k ++ toM.prefixBytes.drop k⟩

/-- `grow`: upgrade to the next variant.  N4→N16 copies the pairs in order;
N16→N48 assigns slot `i+1` to byte `keys[i]`; N48→N256 installs each keyed,
non-nil child under its byte.  N256 (and a leaf) cannot grow. -/
def grow (n : ArtNode V) : Res (ArtNode V) :=
  match n with
  | .node4 m ks cs => do
    let init := (copyMeta newNode16 n, (List.replicate 16 0 : List Nat),
                 (List.replicate 16 none : List (Option (ArtNode V))))
    let r ← (List.range m.size.toNat).foldlM (fun acc (i : Nat) => do
      let kv ← arrGet ks (i : Int)
      let cv ← arrGet cs (i : Int)
      let ks16 ← arrSet acc.2.1 (i : Int) kv
      let cs16 ← arrSet acc.2.2 (i : Int) cv
      pure (acc.1, ks16, cs16)) init
    .ok (.node16 r.1.node r.2.1 r.2.2)
  | .node16 m ks cs => do
    let init := ((List.replicate 256 0 : List Nat),
                 (List.replicate 49 none : List (Option (ArtNode V))))
    let r ← (List.range m.size.toNat).foldlM
      (fun (acc : List Nat × List (Option (ArtNode V))) (i : Nat) => do
      let kv ← arrGet ks (i : Int)
      let cv ← arrGet cs (i : Int)
      let slotv : Nat := (i + 1) % 256
      let ks48 ← arrSet acc.1 (kv : Int) slotv
      let cs48 ← arrSet acc.2 ((i : Int) + 1) cv
      pure (ks48, cs48)) init
    .ok (.node48 (copyMeta newNode48 n).node r.1 r.2)
  | .node48 _ ks cs => do
    let r ← (List.range ks.length).foldlM (fun acc (i : Nat) => do
      if ks.getD i 0 = 0 then pure acc
      else do
        let cv ← arrGet cs ((ks.getD i 0 : Nat) : Int)
        match cv with
        | some c => arrSet acc (((i % 256 : Nat)) : Int) (some c)
        | none => pure acc) (List.replicate 256 none : List (Option (ArtNode V)))
    .ok (.node256 (copyMeta newNode256 n).node r)
  | .node256 m cs => .ok (.node256 m cs)
  | .leaf k v => .ok (.leaf k v)

/-- The scan in N4's `addChild` for the insertion point (first `idx < size`
with `key < keys[idx]`, else `size`), iterated on the remaining count
`size - idx` so that it is structural. -/
def addIdxScan (ks : List Nat) (b : Nat) : Nat → Nat → Res Nat
  | 0, i => .ok i
  | rem + 1, i => do
    let k ← arrGet ks (i : Int)
    if b < k then .ok i else addIdxScan ks b rem (i + 1)

/-- The shift in N4/N16 `addChild`:
`for i := size; i > idx; i-- { keys[i] = keys[i-1]; children[i] = children[i-1] }`,
iterated on the count `size - idx`. -/
def shiftRight : Nat → List Nat → List (Option (ArtNode V)) → Int →
    Res (List Nat × List (Option (ArtNode V)))
  | 0, ks, cs, _ => .ok (ks, cs)
  | rem + 1, ks, cs, i => do
    let kv ← arrGet ks (i - 1)
    let cv ← arrGet cs (i - 1)
    let ks2 ← arrSet ks i kv
    let cs2 ← arrSet cs i cv
    shiftRight rem ks2 cs2 (i - 1)

/-- Go `sort.Search(n, f)`: the exact binary-search loop.  The iteration
budget starts at the gap `j - i`, which the loop shrinks by at least one per
step, so the budget never runs out and the two exits coincide. -/
def sortSearchLoop (f : Nat → Res Bool) : Nat → Nat → Nat → Res Nat
  | 0, i, _ => .ok i
  | rem + 1, i, j =>
    if i < j then do
      let h := (i + j) / 2
      if ← f h then sortSearchLoop f rem i h else sortSearchLoop f rem (h + 1) j
    else .ok i

def sortSearch (n : Nat) (f : Nat → Res Bool) : Res Nat := sortSearchLoop f n 0 n

/-- The first free slot scan in N48's `addChild`
(`idx := 1; for children[idx] != nil { idx++ }`); the budget covers one read
past the array, where Go's unguarded loop would fault. -/
def n48FreeSlot : Nat → List (Option (ArtNode V)) → Nat → Res Nat
  | 0, _, _ => .oob
  | rem + 1, cs, idx =>
    match arrGet cs (idx : Int) with
    | .ok none => .ok idx
    | .ok (some _) => n48FreeSlot rem cs (idx + 1)
    | _ => .oob

/-- The per-variant insertion bodies of `addChild` (the code after the
`isFull` check). -/
def addChildOnce (n : ArtNode V) (b : Nat) (child : ArtNode V) : Res (ArtNode V) :=
  match n with
  | .leaf k v => .ok (.leaf k v)
  | .node4 m ks cs => do
    let idx ← if m.size == 0 then .ok 0 else addIdxScan ks b m.size.toNat 0
    let (ks2, cs2) ← shiftRight (m.size - idx).toNat ks cs m.size
    let ks3 ← arrSet ks2 (idx : Int) b
    let cs3 ← arrSet cs2 (idx : Int) (some child)
    .ok (.node4 ⟨m.size + 1, m.prefixLen, m.prefixBytes⟩ ks3 cs3)
  | .node16 m ks cs => do
    let idx ← if m.size == 0 then .ok 0
              else sortSearch m.size.toNat (fun i => do
                let k ← arrGet ks ((i % 256 : Nat) : Int)
                pure (decide (b ≤ k)))
    let (ks2, cs2) ← shiftRight (m.size - idx).toNat ks cs m.size
    let ks3 ← arrSet ks2 (idx : Int) b
    let cs3 ← arrSet cs2 (idx : Int) (some child)
    .ok (.node16 ⟨m.size + 1, m.prefixLen, m.prefixBytes⟩ ks3 cs3)
  | .node48 m ks cs => do
    let idx ← n48FreeSlot (cs.length + 1) cs 1
    let cs2 ← arrSet cs (idx : Int) (some child)
    let ks2 ← arrSet ks (b : Int) (idx % 256)
    .ok (.node48 ⟨m.size + 1, m.prefixLen, m.prefixBytes⟩ ks2 cs2)
  | .node256 m cs => do
    let cs2 ← arrSet cs (b : Int) (some child)
    .ok (.node256 ⟨m.size + 1, m.prefixLen, m.prefixBytes⟩ cs2)

/-- `addChild`.  Go checks `isFull`, grows and recursively retries; after a
grow the variant's capacity strictly exceeds the current size, so the retry
cannot grow again and is unrolled here.  A full N256 cannot grow: Go silently
breaks out of the switch, leaving the child not installed. -/
def addChild (n : ArtNode V) (b : Nat) (child : ArtNode V) : Res (ArtNode V) :=
  match n with
  | .leaf k v => .ok (.leaf k v)
  | .node256 m cs =>
    if (ArtNode.node256 m cs : ArtNode V).isFull then .ok (.node256 m cs)
    else addChildOnce (.node256 m cs) b child
  | x =>
    if x.isFull then do addChildOnce (← grow x) b child
    else addChildOnce x b child

/-- `shrink`: downgrade to the previous variant.  An N4 with its single
remaining child collapses into that child; when the child is an inner node its
compressed path absorbs the N4's prefix and the edge byte (capped at the
inline buffer), and its logical `prefixLen` grows by `n4.prefixLen + 1`.  A
leaf child simply replaces the N4. -/
def shrink (n : ArtNode V) : Res (ArtNode V) :=
  match n with
  | .leaf k v => .ok (.leaf k v)
  | .node4 m ks cs =>
    match cs.getD 0 none with
    | none => .oob   -- Go calls isLeaf() through a nil child pointer
    | some c =>
      if ¬ c.isLeaf then do
        let cpl := m.prefixLen
        let (pfx, cpl) ←
          if cpl < maxPrefixLen then do
            let pfx ← arrSet m.prefixBytes cpl (ks.getD 0 0)
            pure (pfx, cpl + 1)
          else pure (m.prefixBytes, cpl)
        let (pfx, cpl) ←
          if cpl < maxPrefixLen then do
            let childPl := goMin c.node.prefixLen (maxPrefixLen - cpl)
            let tail ← arrDrop pfx cpl
            let tail := memcpy tail c.node.prefixBytes childPl
            pure (pfx.take cpl.toNat ++ tail, cpl + childPl)
          else pure (pfx, cpl)
        let cm := c.node
        let newBytes := memcpy cm.prefixBytes pfx (goMin cpl maxPrefixLen)
        .ok (c.withMeta ⟨cm.size, cm.prefixLen + m.prefixLen + 1, newBytes⟩)
      else .ok c
  | .node16 m ks cs => do
    let base := copyMeta newNode4 (.node16 m ks cs)
    let r ← (List.range m.size.toNat).foldlM
      (fun (acc : List Nat × List (Option (ArtNode V)) × Int) (i : Nat) => do
        let kv ← arrGet ks (i : Int)
        let cv ← arrGet cs (i : Int)
        let ks4 ← arrSet acc.1 acc.2.2 kv
        let cs4 ← arrSet acc.2.1 acc.2.2 cv
        pure (ks4, cs4, acc.2.2 + 1))
      (List.replicate 4 0, List.replicate 4 none, 0)
    .ok (.node4 ⟨r.2.2, base.node.prefixLen, base.node.prefixBytes⟩ r.1 r.2.1)
  | .node48 m ks cs => do
    let base := copyMeta newNode16 (.node48 m ks cs)
    let r ← (List.range ks.length).foldlM
      (fun (acc : List Nat × List (Option (ArtNode V)) × Int) (i : Nat) => do
        let idx := ks.getD i 0
        if idx = 0 then pure acc
        else do
          let cv ← arrGet cs (idx : Int)
          let ks16 ← arrSet acc.1 acc.2.2 ((i % 256 : Nat))
          let cs16 ← arrSet acc.2.1 acc.2.2 cv
          pure (ks16, cs16, acc.2.2 + 1))
      (List.replicate 16 0, List.replicate 16 none, 0)
    .ok (.node16 ⟨r.2.2, base.node.prefixLen, base.node.prefixBytes⟩ r.1 r.2.1)
  | .node256 m cs => do
    let base := copyMeta newNode48 (.node256 m cs)
    let r ← (List.range cs.length).foldlM
      (fun (acc : List Nat × List (Option (ArtNode V)) × Int) (i : Nat) => do
        match cs.getD ((i % 256 : Nat)) none with
        | none => pure acc
        | some c => do
          let cs48 ← arrSet acc.2.1 (acc.2.2 + 1) (some c)
          let ks48 ← arrSet acc.1 ((i % 256 : Nat)) (((acc.2.2 + 1).toNat % 256 : Nat))
          pure (ks48, cs48, acc.2.2 + 1))
      (List.replicate 256 0, List.replicate 49 none, 0)
    .ok (.node48 ⟨r.2.2, base.node.prefixLen, base.node.prefixBytes⟩ r.1 r.2.1)

/-- The left-shift loop of N4/N16 `RemoveChild`
(`for i := idx; i < size-1; i++ { keys[i] = keys[i+1]; children[i] = children[i+1] }`),
iterated on the count `(size-1) - idx`. -/
def removeShift : Nat → List Nat → List (Option (ArtNode V)) → Int →
    Res (List Nat × List (Option (ArtNode V)))
  | 0, ks, cs, _ => .ok (ks, cs)
  | rem + 1, ks, cs, i => do
    let kv ← arrGet ks (i + 1)
    let cv ← arrGet cs (i + 1)
    let ks2 ← arrSet ks i kv
    let cs2 ← arrSet cs i cv
    removeShift rem ks2 cs2 (i + 1)

/-- `RemoveChild`: remove the child under the byte (a miss falls through), then
shrink if the size dropped below the variant's minimum.  N256 decrements its
size unconditionally. -/
def RemoveChild (n : ArtNode V) (b : Nat) : Res (ArtNode V) := do
  let n2 : ArtNode V ←
    match n with
    | .leaf k v => .ok (.leaf k v)
    | .node4 m ks cs =>
      let idx := indexByte ks b
      if idx < 0 then .ok (.node4 m ks cs)
      else do
        let ks2 ← arrSet ks idx 0
        let cs2 ← arrSet cs idx none
        let (ks3, cs3) ← removeShift (m.size - 1 - idx).toNat ks2 cs2 idx
        let ks4 ← arrSet ks3 (m.size - 1) 0
        let cs4 ← arrSet cs3 (m.size - 1) none
        .ok (.node4 ⟨m.size - 1, m.prefixLen, m.prefixBytes⟩ ks4 cs4)
    | .node16 m ks cs =>
      let idx := indexByte ks b
      if idx < 0 then .ok (.node16 m ks cs)
      else do
        let ks2 ← arrSet ks idx 0
        let cs2 ← arrSet cs idx none
        let (ks3, cs3) ← removeShift (m.size - 1 - idx).toNat ks2 cs2 idx
        let ks4 ← arrSet ks3 (m.size - 1) 0
        let cs4 ← arrSet cs3 (m.size - 1) none
        .ok (.node16 ⟨m.size - 1, m.prefixLen, m.prefixBytes⟩ ks4 cs4)
    | .node48 m ks cs =>
      let idx : Int := (ks.getD b 0 : Int)
      if idx ≤ 0 then .ok (.node48 m ks cs)
      else do
        let cs2 ← arrSet cs idx none
        let ks2 ← arrSet ks (b : Int) 0
        .ok (.node48 ⟨m.size - 1, m.prefixLen, m.prefixBytes⟩ ks2 cs2)
    | .node256 m cs => do
      let cs2 ← arrSet cs (b : Int) none
      .ok (.node256 ⟨m.size - 1, m.prefixLen, m.prefixBytes⟩ cs2)
  if n2.node.size < n2.minSize then shrink n2 else .ok n2

/-- `searchHelper`: the iterative descent of `Search`, as a recursion on the
current node with an iteration budget. -/
def searchHelper : Nat → Option (ArtNode V) → List Nat → Int → Res (Option V)
  | 0, _, _, _ => .fuelOut
  | _ + 1, none, _, _ => .ok none
  | fuel + 1, some cur, key, depth =>
    if cur.isLeaf then
      if cur.isMatch key then .ok (leafValue cur) else .ok none
    else do
      let m ← prefixMismatch fuel cur key depth
      if m ≠ cur.node.prefixLen then .ok none
      else do
        let depth2 := depth + cur.node.prefixLen
        let keyChar := if depth2 < 0 ∨ (key.length : Int) ≤ depth2 then 0
                       else key.getD depth2.toNat 0
        let next ← findChild (some cur) keyChar
        searchHelper fuel next key (depth2 + 1)

/-- The prefix-split branch of `insertHelper` (`mismatch ≠ prefixLen` on an
inner node).  Go hangs `current` under a fresh N4 and then mutates
`current`'s header through the shared pointer; since the fresh N4's
`addChild` never reads into the child, the header update is applied before
the insertion here, with the same observable result. -/
def insertSplit (fuel : Nat) (cur : ArtNode V) (key : List Nat) (value : V)
    (depth mismatch : Int) : Res (ArtNode V × Int) := do
  let m := cur.node
  let pfx := memcpy (List.replicate 10 0) m.prefixBytes mismatch
  let n4 : ArtNode V := .node4 ⟨0, mismatch, pfx⟩ (List.replicate 4 0) (List.replicate 4 none)
  let n4 ←
    if m.prefixLen < maxPrefixLen then do
      let bOld ← arrGet m.prefixBytes mismatch
      let tailBytes ← arrDrop m.prefixBytes (mismatch + 1)
      let newPfx ← memmove m.prefixBytes tailBytes
        (goMin (m.prefixLen - (mismatch + 1)) maxPrefixLen)
      let cur2 := cur.withMeta ⟨m.size, m.prefixLen - (mismatch + 1), newPfx⟩
      addChild n4 bOld cur2
    else do
      let minKey ← minLeafKey fuel cur
      let bOld ← arrGet minKey (depth + mismatch)
      let tailBytes ← arrDrop minKey (depth + mismatch + 1)
      let newPfx ← memmove m.prefixBytes tailBytes
        (goMin (m.prefixLen - (mismatch + 1)) maxPrefixLen)
      let cur2 := cur.withMeta ⟨m.size, m.prefixLen - (mismatch + 1), newPfx⟩
      addChild n4 bOld cur2
  let c ← arrGet key (depth + mismatch)
  let n4 ← addChild n4 c (mkLeaf key value)
  .ok (n4, 1)

/-- `insertHelper`: returns the new subtree for the slot together with the net
`t.size` increment.  The descent tail after the prefix block (Go falls
through to it) is written out in both branches. -/
def insertHelper : Nat → Option (ArtNode V) → List Nat → V → Int → Res (ArtNode V × Int)
  | 0, _, _, _, _ => .fuelOut
  | _ + 1, none, key, value, _ => .ok (mkLeaf key value, 1)
  | fuel + 1, some cur, key, value, depth =>
    if cur.isLeaf then
      if cur.isMatch key then .ok (setValue cur value, 0)
      else do
        let limit ← longestCommonPrefix cur (mkLeaf key value) depth
        let keySuffix ← arrDrop key depth
        let pfx := memcpy (List.replicate 10 0) keySuffix (goMin limit maxPrefixLen)
        let n4 : ArtNode V := .node4 ⟨0, limit, pfx⟩ (List.replicate 4 0) (List.replicate 4 none)
        let ck := cur.Key
        let n4 ← if depth + limit < 0 ∨ (ck.length : Int) ≤ depth + limit
                 then addChild n4 0 cur
                 else addChild n4 (ck.getD (depth + limit).toNat 0) cur
        let n4 ← if depth + limit < 0 ∨ (key.length : Int) ≤ depth + limit
                 then addChild n4 0 (mkLeaf key value)
                 else addChild n4 (key.getD (depth + limit).toNat 0) (mkLeaf key value)
        .ok (n4, 1)
    else
      let m := cur.node
      if m.prefixLen ≠ 0 then do
        let mismatch ← prefixMismatch fuel cur key depth
        if mismatch ≠ m.prefixLen then insertSplit fuel cur key value depth mismatch
        else do
          let depth2 := depth + m.prefixLen
          let c ← arrGet key depth2
          let next ← findChild (some cur) c
          match next with
          | some child => do
            let (child2, d) ← insertHelper fuel (some child) key value (depth2 + 1)
            .ok (setChild cur c (some child2), d)
          | none => do
            let n2 ← addChild cur c (mkLeaf key value)
            .ok (n2, 1)
      else do
        let c ← arrGet key depth
        let next ← findChild (some cur) c
        match next with
        | some child => do
          let (child2, d) ← insertHelper fuel (some child) key value (depth + 1)
          .ok (setChild cur c (some child2), d)
        | none => do
          let n2 ← addChild cur c (mkLeaf key value)
          .ok (n2, 1)

/-- `deleteHelper`: returns whether a pair was removed together with the new
content of the slot (`none` clears it).  The tail after the prefix block is
written out in both branches. -/
def deleteHelper : Nat → Option (ArtNode V) → List Nat → Int → Res (Bool × Option (ArtNode V))
  | 0, _, _, _ => .fuelOut
  | _ + 1, none, _, _ => .ok (false, none)
  | fuel + 1, some cur, key, depth =>
    if key.length = 0 then .ok (false, some cur)
    else if cur.isLeaf && cur.isMatch key then .ok (true, none)
    else
      let m := cur.node
      if m.prefixLen ≠ 0 then do
        let mm ← prefixMismatch fuel cur key depth
        if mm ≠ m.prefixLen then .ok (false, some cur)
        else do
          let depth2 := depth + m.prefixLen
          let keyChar := if depth2 < 0 ∨ (key.length : Int) ≤ depth2 then 0
                         else key.getD depth2.toNat 0
          let next ← findChild (some cur) keyChar
          match next with
          | some child =>
            if child.isLeaf && child.isMatch key then do
              let cur2 ← RemoveChild cur keyChar
              .ok (true, some cur2)
            else do
              let (b, child2) ← deleteHelper fuel (some child) key (depth2 + 1)
              .ok (b, some (setChild cur keyChar child2))
          | none => .ok (false, some cur)
      else do
        let keyChar := if depth < 0 ∨ (key.length : Int) ≤ depth then 0
                       else key.getD depth.toNat 0
        let next ← findChild (some cur) keyChar
        match next with
        | some child =>
          if child.isLeaf && child.isMatch key then do
            let cur2 ← RemoveChild cur keyChar
            .ok (true, some cur2)
          else do
            let (b, child2) ← deleteHelper fuel (some child) key (depth + 1)
            .ok (b, some (setChild cur keyChar child2))
        | none => .ok (false, some cur)

/-- `eachHelper` as a visit list: the node itself, then its children in the
array (N4/N16/N256) or slot-table (N48) order; nil links are skipped. -/
def eachList : Nat → Option (ArtNode V) → Res (List (ArtNode V))
  | 0, _ => .fuelOut
  | _ + 1, none => .ok []
  | fuel + 1, some cur =>
    match cur with
    | .leaf k v => .ok [.leaf k v]
    | .node4 m ks cs => do
      .ok (.node4 m ks cs :: (← cs.foldlM (fun acc c => do
        pure (acc ++ (← eachList fuel c))) []))
    | .node16 m ks cs => do
      .ok (.node16 m ks cs :: (← cs.foldlM (fun acc c => do
        pure (acc ++ (← eachList fuel c))) []))
    | .node48 m ks cs => do
      .ok (.node48 m ks cs :: (← ks.foldlM (fun acc (i : Nat) => do
        if 0 < i then
          match ← arrGet cs (i : Int) with
          | some next => do pure (acc ++ (← eachList fuel (some next)))
          | none => pure acc
        else pure acc) []))
    | .node256 m cs => do
      .ok (.node256 m cs :: (← cs.foldlM (fun acc c => do
        pure (acc ++ (← eachList fuel c))) []))

end ArtNode

/-- The `tree` façade: root link and leaf count. -/
structure Tree (V : Type) where
  root : Option (ArtNode V)
  size : Int

variable {V : Type}

/-- `newArt`: the empty tree. -/
def newArt : Tree V := ⟨none, 0⟩

/-- `Search`. -/
def Tree.Search (fuel : Nat) (t : Tree V) (key : List Nat) : Res (Option V) :=
  ArtNode.searchHelper fuel t.root key 0

/-- `Insert`: Go mutates `t.root` and `t.size` in place; the model returns the
updated tree. -/
def Tree.Insert (fuel : Nat) (t : Tree V) (key : List Nat) (value : V) : Res (Tree V) := do
  let (r, d) ← ArtNode.insertHelper fuel t.root key value 0
  .ok ⟨some r, t.size + d⟩

/-- `Delete`: the deleted flag plus the updated tree (each `return true` path
decrements `t.size` exactly once). -/
def Tree.Delete (fuel : Nat) (t : Tree V) (key : List Nat) : Res (Bool × Tree V) := do
  let (b, r) ← ArtNode.deleteHelper fuel t.root key 0
  .ok (b, ⟨r, t.size - if b then 1 else 0⟩)

/-- `Size`. -/
def Tree.Size (t : Tree V) : Int := t.size

/-- `Each` as the list of visited nodes in visit order. -/
def Tree.Each (fuel : Nat) (t : Tree V) : Res (List (ArtNode V)) :=
  ArtNode.eachList fuel t.root

/-! ## Derived definitions used by the statements -/

/-- Run a sequence of inserts from the empty tree with one iteration budget. -/
def runInserts (fuel : Nat) (ops : List (List Nat × V)) : Res (Tree V) :=
  ops.foldlM (fun t (kv : List Nat × V) => t.Insert fuel kv.1 kv.2) newArt

/-- An externally observable mutating operation. -/
inductive Op (V : Type) where
  | ins (key : List Nat) (value : V)
  | del (key : List Nat)

/-- Apply one operation; each carries its own iteration budget. -/
def applyOp (t : Tree V) : Nat × Op V → Res (Tree V)
  | (fuel, .ins k v) => t.Insert fuel k v
  | (fuel, .del k) => (t.Delete fuel k).map (·.2)

/-- A tree is reachable when a sequence of budgeted operations runs from the
empty tree to it without trapping or exhausting a budget. -/
def runOps (ops : List (Nat × Op V)) : Res (Tree V) :=
  ops.foldlM applyOp newArt

/-- The keys a sequence inserts. -/
def insKeysOf : List (Nat × Op V) → List (List Nat)
  | [] => []
  | (_, .ins k _) :: rest => k :: insKeysOf rest
  | (_, .del _) :: rest => insKeysOf rest

/-- All keys an operation sequence mentions. -/
def opKeysOf : List (Nat × Op V) → List (List Nat)
  | [] => []
  | (_, .ins k _) :: rest => k :: opKeysOf rest
  | (_, .del k) :: rest => k :: opKeysOf rest

/-- Association-list lookup. -/
def mapGet (k : List Nat) : List (List Nat × V) → Option V
  | [] => none
  | (k2, v) :: rest => if k2 = k then some v else mapGet k rest

/-- Association-list update: overwrite in place, else append. -/
def mapPut (k : List Nat) (v : V) : List (List Nat × V) → List (List Nat × V)
  | [] => [(k, v)]
  | (k2, v2) :: rest => if k2 = k then (k2, v) :: rest else (k2, v2) :: mapPut k v rest

/-- Association-list removal. -/
def mapDel (k : List Nat) (M : List (List Nat × V)) : List (List Nat × V) :=
  M.filter (fun p => p.1 ≠ k)

/-- The reference map semantics of a sequence of operations. -/
def modelMap : List (Nat × Op V) → List (List Nat × V)
  | [] => []
  | (_, .ins k v) :: rest => mapPut k v (modelMap rest)
  | (_, .del k) :: rest => mapDel k (modelMap rest)

/-- `modelMap` folds from the left; recursion above is on the reversed list. -/
def modelMapOf (ops : List (Nat × Op V)) : List (List Nat × V) :=
  modelMap ops.reverse

/-- Strict lexicographic (shortlex-free, true byte-wise) order on keys. -/
def lexLt : List Nat → List Nat → Bool
  | [], [] => false
  | [], _ :: _ => true
  | _ :: _, [] => false
  | a :: as, b :: bs => if a < b then true else if b < a then false else lexLt as bs

/-- Consecutive entries strictly ascending. -/
def ascending : List (List Nat) → Bool
  | [] => true
  | [_] => true
  | a :: b :: rest => lexLt a b && ascending (b :: rest)

/-- The keys of the leaves in a visit list, in visit order. -/
def leafKeys (l : List (ArtNode V)) : List (List Nat) :=
  l.filterMap (fun n => match n with | .leaf k _ => some k | _ => none)

/-- Claimed N4/N16 key-array invariant: `keys[0:size]` strictly ascending
(vacuous on the other variants). -/
def strictKeysOK : ArtNode V → Bool
  | .node4 m ks _ => ascending ((List.range m.size.toNat).map (fun i => [ks.getD i 0]))
  | .node16 m ks _ => ascending ((List.range m.size.toNat).map (fun i => [ks.getD i 0]))
  | _ => true

/-- Claimed size bounds per variant (`size` is the stored child count). -/
def sizeBoundsOK : ArtNode V → Bool
  | .leaf _ _ => true
  | n => decide (n.minSize ≤ n.node.size) && decide (n.node.size ≤ n.maxSize)

/-- `a` is a proper prefix of `b`. -/
def properPrefix (a b : List Nat) : Prop := a.length < b.length ∧ b.take a.length = a

instance (a b : List Nat) : Decidable (properPrefix a b) := by
  unfold properPrefix; infer_instance

/-- The key sets our amended claims quantify over: pairwise distinct, no key a
proper prefix of another, every byte below 256, and no empty key. -/
def KeysIndep (ks : List (List Nat)) : Prop :=
  ks.Pairwise (fun a b => a ≠ b ∧ ¬ properPrefix a b ∧ ¬ properPrefix b a) ∧
  ∀ k ∈ ks, k ≠ [] ∧ ∀ b ∈ k, b < 256

instance (ks : List (List Nat)) : Decidable (KeysIndep ks) := by
  unfold KeysIndep; infer_instance


/-- The logical child directory of a node: (edge byte, child) pairs in the
order the structure stores them (array order for N4/N16, ascending byte order
for N48/N256). -/
def childAssoc : ArtNode V → List (Nat × ArtNode V)
  | .leaf _ _ => []
  | .node4 m ks cs => (List.range m.size.toNat).filterMap (fun i =>
      match cs.getD i none with
      | some c => some (ks.getD i 0, c)
      | none => none)
  | .node16 m ks cs => (List.range m.size.toNat).filterMap (fun i =>
      match cs.getD i none with
      | some c => some (ks.getD i 0, c)
      | none => none)
  | .node48 m ks cs => (List.range 256).filterMap (fun b =>
      if ks.getD b 0 = 0 then none
      else match cs.getD (ks.getD b 0) none with
        | some c => some (b, c)
        | none => none)
  | .node256 _ cs => (List.range 256).filterMap (fun b =>
      match cs.getD b none with
      | some c => some (b, c)
      | none => none)


/-- The child directory of the packed N4/N16 layout: pairs in array order. -/
def packedAssoc (s : Nat) (ks : List Nat) (cs : List (Option (ArtNode V))) :
    List (Nat × ArtNode V) :=
  (List.range s).filterMap (fun i =>
    match cs.getD i none with
    | some c => some (ks.getD i 0, c)
    | none => none)

/-- Lookup in an association list by byte. -/
def assocGet (b : Nat) : List (Nat × α) → Option α
  | [] => none
  | (b2, c) :: rest => if b2 = b then some c else assocGet b rest

/-- Sorted insertion into a byte-keyed association list. -/
def assocPut (b : Nat) (c : α) : List (Nat × α) → List (Nat × α)
  | [] => [(b, c)]
  | (b2, c2) :: rest =>
    if b < b2 then (b, c) :: (b2, c2) :: rest
    else (b2, c2) :: assocPut b c rest

/-- The structural (per-variant) invariant of an inner node: array lengths,
size bounds, contiguity and zero padding, strictly ascending key arrays
(N4/N16), slot-table injectivity and consistency (N48), and the size /
directory agreement. -/
def InnerShape : ArtNode V → Prop
  | .leaf _ _ => False
  | .node4 m ks cs =>
      ks.length = 4 ∧ cs.length = 4 ∧ m.prefixBytes.length = 10 ∧
      node4Min ≤ m.size ∧ m.size ≤ node4Max ∧
      (∀ i, i < m.size.toNat → (cs.getD i none).isSome) ∧
      (∀ i, m.size.toNat ≤ i → i < 4 → ks.getD i 0 = 0 ∧ cs.getD i none = none) ∧
      (∀ i j, i < j → j < m.size.toNat → ks.getD i 0 < ks.getD j 0) ∧
      (∀ i, i < m.size.toNat → ks.getD i 0 < 256)
  | .node16 m ks cs =>
      ks.length = 16 ∧ cs.length = 16 ∧ m.prefixBytes.length = 10 ∧
      node16Min ≤ m.size ∧ m.size ≤ node16Max ∧
      (∀ i, i < m.size.toNat → (cs.getD i none).isSome) ∧
      (∀ i, m.size.toNat ≤ i → i < 16 → ks.getD i 0 = 0 ∧ cs.getD i none = none) ∧
      (∀ i j, i < j → j < m.size.toNat → ks.getD i 0 < ks.getD j 0) ∧
      (∀ i, i < m.size.toNat → ks.getD i 0 < 256)
  | .node48 m ks cs =>
      ks.length = 256 ∧ cs.length = 49 ∧ m.prefixBytes.length = 10 ∧
      node48Min ≤ m.size ∧ m.size ≤ node48Max ∧
      cs.getD 0 none = none ∧
      (∀ b, b < 256 → ks.getD b 0 ≤ 48) ∧
      (∀ b1 b2, b1 < 256 → b2 < 256 → ks.getD b1 0 ≠ 0 → ks.getD b1 0 = ks.getD b2 0 →
        b1 = b2) ∧
      (∀ s, 1 ≤ s → s ≤ 48 →
        ((cs.getD s none).isSome ↔ ∃ b, b < 256 ∧ ks.getD b 0 = s)) ∧
      ((childAssoc (.node48 m ks cs)).length : Int) = m.size
  | .node256 m cs =>
      cs.length = 256 ∧ m.prefixBytes.length = 10 ∧
      node256Min ≤ m.size ∧ m.size ≤ node256Max ∧
      ((childAssoc (.node256 m cs)).length : Int) = m.size

/-- The structural conditions of `InnerShape` without the per-variant minimum
occupancy bound (a freshly grown node sits below its new variant's minimum
until the pending child is inserted). -/
def PreShape : ArtNode V → Prop
  | .leaf _ _ => False
  | .node4 m ks cs =>
      ks.length = 4 ∧ cs.length = 4 ∧ m.prefixBytes.length = 10 ∧
      0 ≤ m.size ∧ m.size ≤ node4Max ∧
      (∀ i, i < m.size.toNat → (cs.getD i none).isSome) ∧
      (∀ i, m.size.toNat ≤ i → i < 4 → ks.getD i 0 = 0 ∧ cs.getD i none = none) ∧
      (∀ i j, i < j → j < m.size.toNat → ks.getD i 0 < ks.getD j 0) ∧
      (∀ i, i < m.size.toNat → ks.getD i 0 < 256)
  | .node16 m ks cs =>
      ks.length = 16 ∧ cs.length = 16 ∧ m.prefixBytes.length = 10 ∧
      0 ≤ m.size ∧ m.size ≤ node16Max ∧
      (∀ i, i < m.size.toNat → (cs.getD i none).isSome) ∧
      (∀ i, m.size.toNat ≤ i → i < 16 → ks.getD i 0 = 0 ∧ cs.getD i none = none) ∧
      (∀ i j, i < j → j < m.size.toNat → ks.getD i 0 < ks.getD j 0) ∧
      (∀ i, i < m.size.toNat → ks.getD i 0 < 256)
  | .node48 m ks cs =>
      ks.length = 256 ∧ cs.length = 49 ∧ m.prefixBytes.length = 10 ∧
      0 ≤ m.size ∧ m.size ≤ node48Max ∧
      cs.getD 0 none = none ∧
      (∀ b, b < 256 → ks.getD b 0 ≤ 48) ∧
      (∀ b1 b2, b1 < 256 → b2 < 256 → ks.getD b1 0 ≠ 0 → ks.getD b1 0 = ks.getD b2 0 →
        b1 = b2) ∧
      (∀ s, 1 ≤ s → s ≤ 48 →
        ((cs.getD s none).isSome ↔ ∃ b, b < 256 ∧ ks.getD b 0 = s)) ∧
      ((childAssoc (.node48 m ks cs)).length : Int) = m.size
  | .node256 m cs =>
      cs.length = 256 ∧ m.prefixBytes.length = 10 ∧
      0 ≤ m.size ∧ m.size ≤ node256Max ∧
      ((childAssoc (.node256 m cs)).length : Int) = m.size

/-- A key agrees with the compressed path `p` of a node at depth `d` and hangs
under edge byte `b`: it extends past the prefix, matches it byte for byte, and
carries `b` right after it. -/
def KeyAgrees (d : Nat) (p : List Nat) (b : Nat) (k : List Nat) : Prop :=
  d + p.length < k.length ∧
  (∀ j, j < p.length → k.getD (d + j) 0 = p.getD j 0) ∧
  k.getD (d + p.length) 0 = b

mutual
/-- Well-formedness of a subtree hanging at byte depth `d`, together with the
exact ordered association list `M` of the key/value pairs it stores.  An
inner node's logical compressed path is the list `p`: `prefixLen = |p|`, the
inline buffer carries its first `min(|p|, 10)` bytes, and every key below
agrees with it. -/
inductive WF : Nat → ArtNode V → List (List Nat × V) → Prop
  | leaf (d : Nat) (k : List Nat) (v : V) :
      d ≤ k.length → (∀ b ∈ k, b < 256) →
      WF d (.leaf k v) [(k, v)]
  | inner (d : Nat) (n : ArtNode V) (p : List Nat) (M : List (List Nat × V)) :
      InnerShape n →
      n.node.prefixLen = (p.length : Int) →
      (∀ b ∈ p, b < 256) →
      (∀ i, i < min p.length 10 → n.node.prefixBytes.getD i 0 = p.getD i 0) →
      WFChildren (d + p.length + 1) d p (childAssoc n) M →
      WF d n M

/-- Well-formedness of a child directory: each child is well-formed at the
deeper depth and all of its keys agree with the node's path and its edge
byte; `M` is the concatenation of the children's maps in directory order. -/
inductive WFChildren : Nat → Nat → List Nat → List (Nat × ArtNode V) →
    List (List Nat × V) → Prop
  | nil (d2 d : Nat) (p : List Nat) : WFChildren d2 d p [] []
  | cons (d2 d : Nat) (p : List Nat) (b : Nat) (c : ArtNode V)
      (rest : List (Nat × ArtNode V)) (Mc Mr : List (List Nat × V)) :
      WF d2 c Mc →
      (∀ kv ∈ Mc, KeyAgrees d p b kv.1) →
      WFChildren d2 d p rest Mr →
      WFChildren d2 d p ((b, c) :: rest) (Mc ++ Mr)
end

/-- Well-formedness of the whole tree: the root is absent exactly on the
empty map, and the size counter equals the number of stored pairs. -/
def TreeWF (t : Tree V) (M : List (List Nat × V)) : Prop :=
  (t.size = (M.length : Int)) ∧
  ((t.root = none ∧ M = []) ∨ (∃ n, t.root = some n ∧ WF 0 n M))

/-- Concrete N4-collapse instance: parent header. -/
def c9ParentMeta : NodeMeta := ⟨1, 2, [5, 6, 0, 0, 0, 0, 0, 0, 0, 0]⟩

/-- Concrete N4-collapse instance: parent key array. -/
def c9Keys : List Nat := [7, 0, 0, 0]

/-- Concrete N4-collapse instance: the surviving inner child. -/
def c9Child : ArtNode Nat :=
  .node4 ⟨2, 1, [8, 0, 0, 0, 0, 0, 0, 0, 0, 0]⟩ [3, 4, 0, 0]
    [some (ArtNode.mkLeaf [0] 0), some (ArtNode.mkLeaf [1] 1), none, none]

/-- Concrete N4-collapse instance: parent children. -/
def c9Children : List (Option (ArtNode Nat)) := [some c9Child, none, none, none]

/-- A full N256 node (every byte mapped to a leaf), for the `addChild`
saturation claim. -/
def fullNode256Ex : ArtNode Nat :=
  .node256 ⟨256, 0, List.replicate 10 0⟩ (List.replicate 256 (some (ArtNode.mkLeaf [9] 9)))

/-- An insert sequence whose byte-0 edge aliasing leaves a duplicate key 0 in
the root node: `[0]` and `[0,0]` collide on edge 0, then 14 more children fill
the node to a full N16. -/
def dupSeq : List (List Nat × Nat) :=
  ([0], 100) :: ([0, 0], 101) :: (List.range 14).map (fun i => ([0, i + 1], i))

/-! ## Basic lemmas -/

namespace Res

@[simp] theorem bind_ok (a : α) (f : α → Res β) : bind (ok a) f = f a := rfl

@[simp] theorem bind_oob (f : α → Res β) : bind (oob : Res α) f = oob := rfl

@[simp] theorem bind_fuelOut (f : α → Res β) : bind (fuelOut : Res α) f = fuelOut := rfl

@[simp] theorem pure_def (a : α) : (pure a : Res α) = ok a := rfl

@[simp] theorem bind_def (x : Res α) (f : α → Res β) : (x >>= f) = bind x f := rfl

theorem bind_eq_ok {x : Res α} {f : α → Res β} {b : β}
    (h : bind x f = ok b) : ∃ a, x = ok a ∧ f a = ok b := by
  cases x with
  | ok a => exact ⟨a, rfl, h⟩
  | oob => exact absurd h (by simp)
  | fuelOut => exact absurd h (by simp)

end Res

/-- A successful bounds-checked read returns an element of the list. -/
theorem arrGet_mem {α} {l : List α} {i : Int} {a : α} (h : arrGet l i = .ok a) :
    a ∈ l := by
  unfold arrGet at h
  split at h
  · injection h with h2
    rw [← h2]
    exact List.get_mem _ _ _
  · exact absurd h (by simp)

theorem arrSet_ok {α} {l : List α} {i : Int} (v : α) (h0 : 0 ≤ i)
    (h1 : i.toNat < l.length) : arrSet l i v = .ok (l.set i.toNat v) := by
  unfold arrSet
  rw [if_pos ⟨h0, h1⟩]

theorem arrDrop_ok {α} {l : List α} {i : Int} (h0 : 0 ≤ i)
    (h1 : i.toNat ≤ l.length) : arrDrop l i = .ok (l.drop i.toNat) := by
  unfold arrDrop
  rw [if_pos ⟨h0, h1⟩]

theorem goMin_eq (a b : Int) : goMin a b = min a b := by
  unfold goMin
  split <;> omega

theorem take_set_succ {α} (l : List α) (i : Nat) (a : α) (h : i < l.length) :
    (l.set i a).take (i + 1) = l.take i ++ [a] := by
  rw [List.set_eq_take_cons_drop a h, List.take_append_eq_append_take]
  have h1 : (l.take i).length = i := by simp; omega
  rw [List.take_take]
  have h2 : min (i + 1) i = i := by omega
  rw [h2, h1]
  simp

theorem c9_take_lhs (pB cB : List Nat) (k0 : Nat) (l cpn K : Nat)
    (hpB : pB.length = 10) (hcB : cB.length = 10) (hl : l + 1 < 10)
    (hcpn : cpn ≤ 9 - l) (hK : K = l + 1 + cpn) :
    ((((pB.set l k0).take (l+1) ++ (cB.take cpn ++ ((pB.set l k0).drop (l+1)).drop cpn)).take K)
       ++ cB.drop K).take K
      = pB.take l ++ k0 :: cB.take cpn := by
  have hp1len : ((pB.set l k0).take (l+1)).length = l + 1 := by
    simp [List.length_set, hpB]; omega
  have hpfx2len : ((pB.set l k0).take (l+1) ++ (cB.take cpn ++ ((pB.set l k0).drop (l+1)).drop cpn)).length = 10 := by
    simp [List.length_set, hpB, hcB]
    omega
  rw [List.take_append_of_le_length (by simp [hpfx2len]; omega)]
  rw [List.take_take]
  have : min K K = K := by omega
  rw [this]
  rw [List.take_append_eq_append_take, hp1len]
  rw [List.take_take]
  have : min K (l+1) = l + 1 := by omega
  rw [this]
  have : K - (l+1) = cpn := by omega
  rw [this]
  rw [List.take_append_of_le_length (by simp [hcB]; omega)]
  rw [List.take_take]
  have : min cpn cpn = cpn := by omega
  rw [this]
  rw [take_set_succ pB l k0 (by omega)]
  simp

theorem c9_take_rhs (pB cB : List Nat) (k0 : Nat) (l cpn K lc : Nat)
    (hpB : pB.length = 10) (hcB : cB.length = 10) (hl : l < 10)
    (hcpn : cpn ≤ lc) (hcpn2 : cpn ≤ 9 - l) (hK : K = l + 1 + cpn) :
    (pB.take l ++ k0 :: cB.take (min lc 10)).take K
      = pB.take l ++ k0 :: cB.take cpn := by
  have hlen : (pB.take l).length = l := by simp [hpB]; omega
  rw [List.take_append_eq_append_take, hlen]
  rw [List.take_take]
  have : min K l = l := by omega
  rw [this]
  have : K - l = cpn + 1 := by omega
  rw [this]
  simp [List.take_take]
  rw [hcB]
  omega

/-- Deleting the empty key never touches the tree and reports false, whatever
the tree is. -/
theorem delete_empty_key_eq {V : Type} (t : Tree V) (fuel : Nat) :
    t.Delete (fuel + 1) [] = .ok (false, t) := by
  rcases t with ⟨root, size⟩
  cases root <;> simp [Tree.Delete, ArtNode.deleteHelper, Res.bind]

/-! ## Fuel monotonicity -/

theorem Res.ne_fuelOut_of_bind {α β} {x : Res α} {f : α → Res β}
    (h : Res.bind x f ≠ .fuelOut) : x ≠ .fuelOut := by
  intro hx; rw [hx] at h; exact h rfl

theorem ne_fuelOut_of_ite_bind {α β : Type} {c : Prop} [Decidable c] {A : Res β}
    {x : Res α} {f : α → Res β} (hc : ¬ c)
    (h : (if c then A else Res.bind x f) ≠ .fuelOut) : x ≠ .fuelOut := by
  rw [if_neg hc] at h
  exact Res.ne_fuelOut_of_bind h

theorem minimum_succ {V : Type} : ∀ (fuel : Nat) (x : Option (ArtNode V)),
    ArtNode.minimum fuel x ≠ .fuelOut →
    ArtNode.minimum (fuel + 1) x = ArtNode.minimum fuel x := by
  intro fuel
  induction fuel with
  | zero => intro x h; exact absurd rfl h
  | succ f ih =>
    intro x h
    cases x with
    | none => rfl
    | some n =>
      cases n with
      | leaf k v => rfl
      | node4 m ks cs =>
        simp only [ArtNode.minimum] at h ⊢
        exact ih _ h
      | node16 m ks cs =>
        simp only [ArtNode.minimum] at h ⊢
        exact ih _ h
      | node48 m ks cs =>
        simp only [ArtNode.minimum] at h ⊢
        cases hfi : firstIdx ks.length (fun i => ks.getD i 0 != 0) with
        | none => simp only [hfi]
        | some i =>
          simp only [hfi, Res.bind_def] at h ⊢
          cases hg : arrGet cs ((ks.getD i 0 : Nat) : Int) with
          | ok c =>
            rw [hg] at h
            simp only [Res.bind_ok] at h ⊢
            exact ih _ h
          | oob => rfl
          | fuelOut =>
            rw [hg] at h
            simp only [Res.bind_fuelOut] at h
            exact absurd rfl h
      | node256 m cs =>
        simp only [ArtNode.minimum] at h ⊢
        cases hfi : firstIdx cs.length (fun i => (cs.getD i none).isSome) with
        | none => simp only [hfi]
        | some i =>
          simp only [hfi] at h ⊢
          exact ih _ h

theorem minimum_mono {V : Type} {fuel fuel' : Nat} {x : Option (ArtNode V)}
    {r : Res (Option (ArtNode V))} (h : ArtNode.minimum fuel x = r)
    (hr : r ≠ .fuelOut) (hle : fuel ≤ fuel') : ArtNode.minimum fuel' x = r := by
  induction fuel', hle using Nat.le_induction with
  | base => exact h
  | succ n _ ih => rw [minimum_succ n x (by rw [ih]; exact hr)]; exact ih

theorem minLeafKey_succ {V : Type} (fuel : Nat) (n : ArtNode V)
    (h : ArtNode.minLeafKey fuel n ≠ .fuelOut) :
    ArtNode.minLeafKey (fuel + 1) n = ArtNode.minLeafKey fuel n := by
  unfold ArtNode.minLeafKey at h ⊢
  simp only [Res.bind_def] at h ⊢
  rw [minimum_succ fuel (some n) (Res.ne_fuelOut_of_bind h)]

theorem minLeafKey_mono {V : Type} {fuel fuel' : Nat} {n : ArtNode V}
    {r : Res (List Nat)} (h : ArtNode.minLeafKey fuel n = r)
    (hr : r ≠ .fuelOut) (hle : fuel ≤ fuel') : ArtNode.minLeafKey fuel' n = r := by
  induction fuel', hle using Nat.le_induction with
  | base => exact h
  | succ m _ ih => rw [minLeafKey_succ m n (by rw [ih]; exact hr)]; exact ih

theorem prefixMismatch_succ {V : Type} (fuel : Nat) (n : ArtNode V)
    (key : List Nat) (depth : Int)
    (h : ArtNode.prefixMismatch fuel n key depth ≠ .fuelOut) :
    ArtNode.prefixMismatch (fuel + 1) n key depth =
      ArtNode.prefixMismatch fuel n key depth := by
  simp only [ArtNode.prefixMismatch] at h ⊢
  cases hfi : firstIdx (goMin maxPrefixLen n.node.prefixLen).toNat (fun i =>
      (if depth + i < 0 ∨ (key.length : Int) ≤ depth + i then 0
       else key.getD (depth + i).toNat 0) != n.node.prefixBytes.getD i 0) with
  | some i => simp only [hfi]
  | none =>
    rw [hfi] at h
    simp only [hfi]
    by_cases hov : maxPrefixLen < n.node.prefixLen
    · rw [if_pos hov] at h
      rw [if_pos hov]
      rw [if_pos hov]
      simp only [Res.bind_def] at h ⊢
      rw [minLeafKey_succ fuel n (Res.ne_fuelOut_of_bind h)]
    · rw [if_neg hov, if_neg hov]

theorem prefixMismatch_mono {V : Type} {fuel fuel' : Nat} {n : ArtNode V}
    {key : List Nat} {depth : Int} {r : Res Int}
    (h : ArtNode.prefixMismatch fuel n key depth = r)
    (hr : r ≠ .fuelOut) (hle : fuel ≤ fuel') :
    ArtNode.prefixMismatch fuel' n key depth = r := by
  induction fuel', hle using Nat.le_induction with
  | base => exact h
  | succ m _ ih => rw [prefixMismatch_succ m n key depth (by rw [ih]; exact hr)]; exact ih

theorem insertSplit_succ {V : Type} (fuel : Nat) (cur : ArtNode V)
    (key : List Nat) (value : V) (depth mismatch : Int)
    (h : ArtNode.insertSplit fuel cur key value depth mismatch ≠ .fuelOut) :
    ArtNode.insertSplit (fuel + 1) cur key value depth mismatch =
      ArtNode.insertSplit fuel cur key value depth mismatch := by
  unfold ArtNode.insertSplit at h ⊢
  simp only [Res.bind_def] at h ⊢
  by_cases hlt : cur.node.prefixLen < maxPrefixLen
  · rw [if_pos hlt]
    rw [if_pos hlt]
  · rw [if_neg hlt] at h
    rw [if_neg hlt]
    rw [if_neg hlt]
    cases hmk : ArtNode.minLeafKey fuel cur with
    | ok mk => rw [minLeafKey_succ fuel cur (by rw [hmk]; simp), hmk]
    | oob => rw [minLeafKey_succ fuel cur (by rw [hmk]; simp), hmk]
    | fuelOut =>
      rw [hmk] at h
      simp only [Res.bind_fuelOut] at h
      exact absurd rfl h

theorem insertSplit_mono {V : Type} {fuel fuel' : Nat} {cur : ArtNode V}
    {key : List Nat} {value : V} {depth mismatch : Int} {r : Res (ArtNode V × Int)}
    (h : ArtNode.insertSplit fuel cur key value depth mismatch = r)
    (hr : r ≠ .fuelOut) (hle : fuel ≤ fuel') :
    ArtNode.insertSplit fuel' cur key value depth mismatch = r := by
  induction fuel', hle using Nat.le_induction with
  | base => exact h
  | succ m _ ih =>
    rw [insertSplit_succ m cur key value depth mismatch (by rw [ih]; exact hr)]
    exact ih

theorem insertHelper_succ {V : Type} : ∀ (fuel : Nat) (x : Option (ArtNode V))
    (key : List Nat) (value : V) (depth : Int),
    ArtNode.insertHelper fuel x key value depth ≠ .fuelOut →
    ArtNode.insertHelper (fuel + 1) x key value depth =
      ArtNode.insertHelper fuel x key value depth := by
  intro fuel
  induction fuel with
  | zero => intro x key value depth h; exact absurd rfl h
  | succ f ih =>
    intro x key value depth h
    cases x with
    | none => rfl
    | some cur =>
      simp only [ArtNode.insertHelper] at h ⊢
      by_cases hleaf : cur.isLeaf = true
      · rw [if_pos hleaf]
        rw [if_pos hleaf]
      · rw [if_neg hleaf] at h
        rw [if_neg hleaf]
        rw [if_neg hleaf]
        by_cases hpl : cur.node.prefixLen ≠ 0
        · rw [if_pos hpl] at h
          rw [if_pos hpl]
          rw [if_pos hpl]
          simp only [Res.bind_def] at h ⊢
          cases hpm : ArtNode.prefixMismatch f cur key depth with
          | fuelOut =>
            rw [hpm] at h
            simp only [Res.bind_fuelOut] at h
            exact absurd rfl h
          | oob =>
            rw [prefixMismatch_succ f cur key depth (by rw [hpm]; simp), hpm]
            rfl
          | ok mm =>
            rw [hpm] at h
            simp only [Res.bind_ok] at h
            rw [prefixMismatch_succ f cur key depth (by rw [hpm]; simp), hpm]
            simp only [Res.bind_ok]
            by_cases hmm : mm ≠ cur.node.prefixLen
            · rw [if_pos hmm] at h
              rw [if_pos hmm]
              rw [if_pos hmm]
              exact insertSplit_succ f cur key value depth mm h
            · rw [if_neg hmm] at h
              rw [if_neg hmm]
              rw [if_neg hmm]
              cases hg : arrGet key (depth + cur.node.prefixLen) with
              | oob => rfl
              | fuelOut =>
                rw [hg] at h
                simp only [Res.bind_fuelOut] at h
                exact absurd rfl h
              | ok c =>
                rw [hg] at h
                simp only [Res.bind_ok] at h ⊢
                cases hfc : ArtNode.findChild (some cur) c with
                | oob => rfl
                | fuelOut =>
                  rw [hfc] at h
                  simp only [Res.bind_fuelOut] at h
                  exact absurd rfl h
                | ok nxt =>
                  rw [hfc] at h
                  simp only [Res.bind_ok] at h ⊢
                  cases nxt with
                  | none => rfl
                  | some child =>
                    exact congrArg
                      (fun r => Res.bind r (fun p => Res.ok (cur.setChild c (some p.1), p.2)))
                      (ih (some child) key value (depth + cur.node.prefixLen + 1)
                        (Res.ne_fuelOut_of_bind h))
        · rw [if_neg hpl] at h
          rw [if_neg hpl]
          rw [if_neg hpl]
          simp only [Res.bind_def] at h ⊢
          cases hg : arrGet key depth with
          | oob => rfl
          | fuelOut =>
            rw [hg] at h
            simp only [Res.bind_fuelOut] at h
            exact absurd rfl h
          | ok c =>
            rw [hg] at h
            simp only [Res.bind_ok] at h ⊢
            cases hfc : ArtNode.findChild (some cur) c with
            | oob => rfl
            | fuelOut =>
              rw [hfc] at h
              simp only [Res.bind_fuelOut] at h
              exact absurd rfl h
            | ok nxt =>
              rw [hfc] at h
              simp only [Res.bind_ok] at h ⊢
              cases nxt with
              | none => rfl
              | some child =>
                exact congrArg
                  (fun r => Res.bind r (fun p => Res.ok (cur.setChild c (some p.1), p.2)))
                  (ih (some child) key value (depth + 1) (Res.ne_fuelOut_of_bind h))

theorem insertHelper_mono {V : Type} {fuel fuel' : Nat} {x : Option (ArtNode V)}
    {key : List Nat} {value : V} {depth : Int} {r : Res (ArtNode V × Int)}
    (h : ArtNode.insertHelper fuel x key value depth = r)
    (hr : r ≠ .fuelOut) (hle : fuel ≤ fuel') :
    ArtNode.insertHelper fuel' x key value depth = r := by
  induction fuel', hle using Nat.le_induction with
  | base => exact h
  | succ m _ ih =>
    rw [insertHelper_succ m x key value depth (by rw [ih]; exact hr)]
    exact ih

theorem deleteHelper_succ {V : Type} : ∀ (fuel : Nat) (x : Option (ArtNode V))
    (key : List Nat) (depth : Int),
    ArtNode.deleteHelper fuel x key depth ≠ .fuelOut →
    ArtNode.deleteHelper (fuel + 1) x key depth =
      ArtNode.deleteHelper fuel x key depth := by
  intro fuel
  induction fuel with
  | zero => intro x key depth h; exact absurd rfl h
  | succ f ih =>
    intro x key depth h
    cases x with
    | none => rfl
    | some cur =>
      simp only [ArtNode.deleteHelper] at h ⊢
      by_cases hk0 : key.length = 0
      · rw [if_pos hk0]
        rw [if_pos hk0]
      · rw [if_neg hk0] at h
        rw [if_neg hk0]
        rw [if_neg hk0]
        by_cases hlm : (cur.isLeaf && cur.isMatch key) = true
        · rw [if_pos hlm]
          rw [if_pos hlm]
        · rw [if_neg hlm] at h
          rw [if_neg hlm]
          rw [if_neg hlm]
          by_cases hpl : cur.node.prefixLen ≠ 0
          · rw [if_pos hpl] at h
            rw [if_pos hpl]
            rw [if_pos hpl]
            simp only [Res.bind_def] at h ⊢
            cases hpm : ArtNode.prefixMismatch f cur key depth with
            | fuelOut =>
              rw [hpm] at h
              simp only [Res.bind_fuelOut] at h
              exact absurd rfl h
            | oob =>
              rw [prefixMismatch_succ f cur key depth (by rw [hpm]; simp), hpm]
              rfl
            | ok mm =>
              rw [hpm] at h
              simp only [Res.bind_ok] at h
              rw [prefixMismatch_succ f cur key depth (by rw [hpm]; simp), hpm]
              simp only [Res.bind_ok]
              by_cases hmm : mm ≠ cur.node.prefixLen
              · rw [if_pos hmm]
                rw [if_pos hmm]
              · rw [if_neg hmm] at h
                rw [if_neg hmm]
                rw [if_neg hmm]
                cases hfc : ArtNode.findChild (some cur)
                    (if depth + cur.node.prefixLen < 0 ∨
                        (key.length : Int) ≤ depth + cur.node.prefixLen then 0
                     else key.getD (depth + cur.node.prefixLen).toNat 0) with
                | oob => rfl
                | fuelOut =>
                  rw [hfc] at h
                  simp only [Res.bind_fuelOut] at h
                  exact absurd rfl h
                | ok nxt =>
                  rw [hfc] at h
                  simp only [Res.bind_ok] at h ⊢
                  cases nxt with
                  | none => rfl
                  | some child =>
                    show (if (child.isLeaf && child.isMatch key) = true
                          then Res.bind (ArtNode.RemoveChild cur
                              (if depth + cur.node.prefixLen < 0 ∨
                                  (key.length : Int) ≤ depth + cur.node.prefixLen then 0
                               else key.getD (depth + cur.node.prefixLen).toNat 0))
                            (fun cur2 => Res.ok (true, some cur2))
                          else Res.bind (ArtNode.deleteHelper (f + 1) (some child) key
                              (depth + cur.node.prefixLen + 1))
                            (fun p => Res.ok (p.1, some (cur.setChild
                              (if depth + cur.node.prefixLen < 0 ∨
                                  (key.length : Int) ≤ depth + cur.node.prefixLen then 0
                               else key.getD (depth + cur.node.prefixLen).toNat 0) p.2))))
                        = (if (child.isLeaf && child.isMatch key) = true
                          then Res.bind (ArtNode.RemoveChild cur
                              (if depth + cur.node.prefixLen < 0 ∨
                                  (key.length : Int) ≤ depth + cur.node.prefixLen then 0
                               else key.getD (depth + cur.node.prefixLen).toNat 0))
                            (fun cur2 => Res.ok (true, some cur2))
                          else Res.bind (ArtNode.deleteHelper f (some child) key
                              (depth + cur.node.prefixLen + 1))
                            (fun p => Res.ok (p.1, some (cur.setChild
                              (if depth + cur.node.prefixLen < 0 ∨
                                  (key.length : Int) ≤ depth + cur.node.prefixLen then 0
                               else key.getD (depth + cur.node.prefixLen).toNat 0) p.2))))
                    by_cases hlm2 : (child.isLeaf && child.isMatch key) = true
                    · rw [if_pos hlm2, if_pos hlm2]
                    · rw [if_neg hlm2, if_neg hlm2,
                        ih (some child) key (depth + cur.node.prefixLen + 1)
                          (ne_fuelOut_of_ite_bind hlm2 h)]
          · rw [if_neg hpl] at h
            rw [if_neg hpl]
            rw [if_neg hpl]
            simp only [Res.bind_def] at h ⊢
            cases hfc : ArtNode.findChild (some cur)
                (if depth < 0 ∨ (key.length : Int) ≤ depth then 0
                 else key.getD depth.toNat 0) with
            | oob => rfl
            | fuelOut =>
              rw [hfc] at h
              simp only [Res.bind_fuelOut] at h
              exact absurd rfl h
            | ok nxt =>
              rw [hfc] at h
              simp only [Res.bind_ok] at h ⊢
              cases nxt with
              | none => rfl
              | some child =>
                show (if (child.isLeaf && child.isMatch key) = true
                      then Res.bind (ArtNode.RemoveChild cur
                          (if depth < 0 ∨ (key.length : Int) ≤ depth then 0
                           else key.getD depth.toNat 0))
                        (fun cur2 => Res.ok (true, some cur2))
                      else Res.bind (ArtNode.deleteHelper (f + 1) (some child) key (depth + 1))
                        (fun p => Res.ok (p.1, some (cur.setChild
                          (if depth < 0 ∨ (key.length : Int) ≤ depth then 0
                           else key.getD depth.toNat 0) p.2))))
                    = (if (child.isLeaf && child.isMatch key) = true
                      then Res.bind (ArtNode.RemoveChild cur
                          (if depth < 0 ∨ (key.length : Int) ≤ depth then 0
                           else key.getD depth.toNat 0))
                        (fun cur2 => Res.ok (true, some cur2))
                      else Res.bind (ArtNode.deleteHelper f (some child) key (depth + 1))
                        (fun p => Res.ok (p.1, some (cur.setChild
                          (if depth < 0 ∨ (key.length : Int) ≤ depth then 0
                           else key.getD depth.toNat 0) p.2))))
                by_cases hlm2 : (child.isLeaf && child.isMatch key) = true
                · rw [if_pos hlm2, if_pos hlm2]
                · rw [if_neg hlm2, if_neg hlm2,
                    ih (some child) key (depth + 1) (ne_fuelOut_of_ite_bind hlm2 h)]

theorem deleteHelper_mono {V : Type} {fuel fuel' : Nat} {x : Option (ArtNode V)}
    {key : List Nat} {depth : Int} {r : Res (Bool × Option (ArtNode V))}
    (h : ArtNode.deleteHelper fuel x key depth = r)
    (hr : r ≠ .fuelOut) (hle : fuel ≤ fuel') :
    ArtNode.deleteHelper fuel' x key depth = r := by
  induction fuel', hle using Nat.le_induction with
  | base => exact h
  | succ m _ ih =>
    rw [deleteHelper_succ m x key depth (by rw [ih]; exact hr)]
    exact ih

/-! ## List-level tools: indexByte, packedAssoc, assocGet -/

theorem getD_mem {α} {l : List α} {i : Nat} {d : α} (h : i < l.length) :
    l.getD i d ∈ l := by
  rw [List.getD_eq_getElem l d h]
  exact List.getElem_mem h

theorem findIdx?_aux_some (p : Nat → Bool) : ∀ (l : List Nat) (s j : Nat),
    j < l.length → p (l.getD j 0) = true → (∀ i, i < j → p (l.getD i 0) = false) →
    l.findIdx? p s = some (s + j) := by
  intro l
  induction l with
  | nil => intro s j hj; exact absurd hj (by simp)
  | cons x xs ih =>
    intro s j hj hpj hfirst
    rw [List.findIdx?_cons]
    cases j with
    | zero =>
      simp only [List.getD] at hpj
      simp at hpj
      rw [if_pos hpj, Nat.add_zero]
    | succ j' =>
      have hx : p x = false := by
        have := hfirst 0 (Nat.succ_pos j')
        simpa using this
      rw [if_neg (by simp [hx])]
      have hres := ih (s + 1) j' (by simpa using hj)
        (by simpa using hpj)
        (fun i hi => by
          have := hfirst (i + 1) (by omega)
          simpa using this)
      rw [hres]
      congr 1
      omega

theorem findIdx?_aux_none (p : Nat → Bool) : ∀ (l : List Nat) (s : Nat),
    (∀ i, i < l.length → p (l.getD i 0) = false) →
    l.findIdx? p s = none := by
  intro l
  induction l with
  | nil => intro s _; rfl
  | cons x xs ih =>
    intro s hall
    rw [List.findIdx?_cons]
    have hx : p x = false := by
      have := hall 0 (by simp)
      simpa using this
    rw [if_neg (by simp [hx])]
    exact ih (s + 1) (fun i hi => by
      have := hall (i + 1) (by simpa using Nat.succ_lt_succ hi)
      simpa using this)

/-- `indexByte` finds the first occurrence. -/
theorem indexByte_eq {l : List Nat} {b : Nat} {j : Nat} (hj : j < l.length)
    (hjb : l.getD j 0 = b) (hfirst : ∀ i, i < j → l.getD i 0 ≠ b) :
    indexByte l b = (j : Int) := by
  unfold indexByte
  rw [findIdx?_aux_some (· == b) l 0 j hj
    (by simp only [beq_iff_eq]; exact hjb)
    (fun i hi => by simp only [beq_eq_false_iff_ne]; exact hfirst i hi)]
  simp

/-- `indexByte` misses: every entry differs from the byte. -/
theorem indexByte_neg {l : List Nat} {b : Nat}
    (h : ∀ i, i < l.length → l.getD i 0 ≠ b) : indexByte l b = -1 := by
  unfold indexByte
  rw [findIdx?_aux_none (· == b) l 0
    (fun i hi => by simp only [beq_eq_false_iff_ne]; exact h i hi)]

theorem packedAssoc_zero {V : Type} (ks : List Nat) (cs : List (Option (ArtNode V))) :
    packedAssoc 0 ks cs = [] := rfl

theorem packedAssoc_succ_some {V : Type} {s : Nat} {ks : List Nat}
    {cs : List (Option (ArtNode V))} {c : ArtNode V} (hs : cs.getD s none = some c) :
    packedAssoc (s + 1) ks cs = packedAssoc s ks cs ++ [(ks.getD s 0, c)] := by
  unfold packedAssoc
  rw [List.range_succ, List.filterMap_append]
  congr 1
  simp only [List.filterMap_cons, List.filterMap_nil, hs]

theorem packedAssoc_succ_none {V : Type} {s : Nat} {ks : List Nat}
    {cs : List (Option (ArtNode V))} (hs : cs.getD s none = none) :
    packedAssoc (s + 1) ks cs = packedAssoc s ks cs := by
  unfold packedAssoc
  rw [List.range_succ, List.filterMap_append]
  simp only [List.filterMap_cons, List.filterMap_nil, hs]
  simp

theorem packedAssoc_length {V : Type} : ∀ (s : Nat) (ks : List Nat)
    (cs : List (Option (ArtNode V))),
    (∀ i, i < s → (cs.getD i none).isSome) →
    (packedAssoc s ks cs).length = s := by
  intro s
  induction s with
  | zero => intro ks cs _; rfl
  | succ s ih =>
    intro ks cs hfull
    cases hs : cs.getD s none with
    | some c =>
      rw [packedAssoc_succ_some hs]
      simp [ih ks cs (fun i hi => hfull i (by omega))]
    | none =>
      have := hfull s (by omega)
      rw [hs] at this
      simp at this

theorem packedAssoc_mem {V : Type} {s : Nat} {ks : List Nat}
    {cs : List (Option (ArtNode V))} {b : Nat} {c : ArtNode V} :
    (b, c) ∈ packedAssoc s ks cs ↔
      ∃ i, i < s ∧ ks.getD i 0 = b ∧ cs.getD i none = some c := by
  unfold packedAssoc
  rw [List.mem_filterMap]
  constructor
  · rintro ⟨i, hi, hF⟩
    rw [List.mem_range] at hi
    refine ⟨i, hi, ?_⟩
    cases hcs : cs.getD i none with
    | some c2 =>
      rw [hcs] at hF
      simp only [Option.some.injEq, Prod.mk.injEq] at hF
      exact ⟨hF.1, by rw [hF.2]⟩
    | none => rw [hcs] at hF; exact absurd hF (by simp)
  · rintro ⟨i, hi, hk, hc⟩
    exact ⟨i, List.mem_range.mpr hi, by rw [hc, hk]⟩

theorem packedAssoc_get? {V : Type} : ∀ (s : Nat) (ks : List Nat)
    (cs : List (Option (ArtNode V))),
    (∀ i, i < s → (cs.getD i none).isSome) →
    ∀ i, i < s → ∃ c, cs.getD i none = some c ∧
      (packedAssoc s ks cs).get? i = some (ks.getD i 0, c) := by
  intro s
  induction s with
  | zero => intro ks cs _ i hi; omega
  | succ s ih =>
    intro ks cs hfull i hi
    have hlen := packedAssoc_length s ks cs (fun j hj => hfull j (by omega))
    rcases hsome : cs.getD s none with _ | cl
    · have := hfull s (by omega)
      rw [hsome] at this
      simp at this
    by_cases his : i < s
    · obtain ⟨c, hc, hget⟩ := ih ks cs (fun j hj => hfull j (by omega)) i his
      refine ⟨c, hc, ?_⟩
      rw [packedAssoc_succ_some hsome]
      rw [List.get?_append (by omega)]
      exact hget
    · have hieq : i = s := by omega
      subst hieq
      refine ⟨cl, hsome, ?_⟩
      rw [packedAssoc_succ_some hsome]
      rw [List.get?_append_right (by omega)]
      rw [hlen]
      simp

/-- Keys pairwise distinct gives unique association lookup. -/
theorem assocGet_of_mem {α} : ∀ {l : List (Nat × α)} {b : Nat} {c : α},
    l.Pairwise (fun x y => x.1 ≠ y.1) → (b, c) ∈ l → assocGet b l = some c := by
  intro l
  induction l with
  | nil => intro b c _ h; exact absurd h (by simp)
  | cons x xs ih =>
    intro b c hpw hmem
    rw [List.pairwise_cons] at hpw
    unfold assocGet
    rcases List.mem_cons.mp hmem with heq | htail
    · rw [← heq]
      simp
    · have hne : x.1 ≠ b := by
        intro hx
        exact (hpw.1 (b, c) htail) (by rw [hx])
      rw [if_neg hne]
      exact ih hpw.2 htail

theorem assocGet_eq_none {α} : ∀ {l : List (Nat × α)} {b : Nat},
    (∀ c : α, (b, c) ∉ l) → assocGet b l = none := by
  intro l
  induction l with
  | nil => intro b _; rfl
  | cons x xs ih =>
    intro b hni
    unfold assocGet
    have hx : x.1 ≠ b := by
      intro hb
      exact hni x.2 (by rw [← hb]; exact List.mem_cons_self x xs)
    rw [if_neg hx]
    exact ih (fun c hc => hni c (List.mem_cons_of_mem x hc))

theorem assocGet_mem {α} : ∀ {l : List (Nat × α)} {b : Nat} {c : α},
    assocGet b l = some c → (b, c) ∈ l := by
  intro l
  induction l with
  | nil => intro b c h; exact absurd h (by simp [assocGet])
  | cons x xs ih =>
    intro b c h
    unfold assocGet at h
    by_cases hx : x.1 = b
    · rw [if_pos hx] at h
      injection h with h
      have hbc : (b, c) = x := by rw [← hx, ← h]
      rw [hbc]
      exact List.mem_cons_self x xs
    · rw [if_neg hx] at h
      exact List.mem_cons_of_mem x (ih h)

/-! ## findChild agrees with the child directory -/

theorem childAssoc_node4 {V : Type} (m : NodeMeta) (ks : List Nat)
    (cs : List (Option (ArtNode V))) :
    childAssoc (ArtNode.node4 m ks cs) = packedAssoc m.size.toNat ks cs := rfl

theorem childAssoc_node16 {V : Type} (m : NodeMeta) (ks : List Nat)
    (cs : List (Option (ArtNode V))) :
    childAssoc (ArtNode.node16 m ks cs) = packedAssoc m.size.toNat ks cs := rfl

theorem childAssoc_node48 {V : Type} (m : NodeMeta) (ks : List Nat)
    (cs : List (Option (ArtNode V))) :
    childAssoc (ArtNode.node48 m ks cs) = (List.range 256).filterMap (fun b =>
      if ks.getD b 0 = 0 then none
      else match cs.getD (ks.getD b 0) none with
        | some c => some (b, c)
        | none => none) := rfl

theorem childAssoc_node256 {V : Type} (m : NodeMeta)
    (cs : List (Option (ArtNode V))) :
    childAssoc (ArtNode.node256 m cs) = (List.range 256).filterMap (fun b =>
      match cs.getD b none with
      | some c => some (b, c)
      | none => none) := rfl

theorem arrGet_getD {α} {l : List α} {i : Nat} (d : α) (h : i < l.length) :
    arrGet l (i : Int) = .ok (l.getD i d) := by
  unfold arrGet
  rw [dif_pos ⟨by omega, by simpa using h⟩]
  rw [List.getD_eq_getElem l d (by simpa using h)]
  rfl

theorem n48Assoc_mem {V : Type} {m : NodeMeta} {ks : List Nat}
    {cs : List (Option (ArtNode V))} {b : Nat} {c : ArtNode V} :
    (b, c) ∈ childAssoc (ArtNode.node48 m ks cs) ↔
      b < 256 ∧ ks.getD b 0 ≠ 0 ∧ cs.getD (ks.getD b 0) none = some c := by
  rw [childAssoc_node48, List.mem_filterMap]
  constructor
  · rintro ⟨i, hi, hF⟩
    rw [List.mem_range] at hi
    by_cases hz : ks.getD i 0 = 0
    · rw [if_pos hz] at hF
      exact absurd hF (by simp)
    · rw [if_neg hz] at hF
      cases hcs : cs.getD (ks.getD i 0) none with
      | some c2 =>
        rw [hcs] at hF
        simp only [Option.some.injEq, Prod.mk.injEq] at hF
        rw [← hF.1]
        exact ⟨hi, hz, by rw [hcs, hF.2]⟩
      | none => rw [hcs] at hF; exact absurd hF (by simp)
  · rintro ⟨hb, hz, hc⟩
    exact ⟨b, List.mem_range.mpr hb, by rw [if_neg hz, hc]⟩

theorem n256Assoc_mem {V : Type} {m : NodeMeta} {cs : List (Option (ArtNode V))}
    {b : Nat} {c : ArtNode V} :
    (b, c) ∈ childAssoc (ArtNode.node256 m cs) ↔
      b < 256 ∧ cs.getD b none = some c := by
  rw [childAssoc_node256, List.mem_filterMap]
  constructor
  · rintro ⟨i, hi, hF⟩
    rw [List.mem_range] at hi
    cases hcs : cs.getD i none with
    | some c2 =>
      rw [hcs] at hF
      simp only [Option.some.injEq, Prod.mk.injEq] at hF
      rw [← hF.1]
      exact ⟨hi, by rw [hcs, hF.2]⟩
    | none => rw [hcs] at hF; exact absurd hF (by simp)
  · rintro ⟨hb, hc⟩
    exact ⟨b, List.mem_range.mpr hb, by rw [hc]⟩

theorem filterMap_range_pairwise_fst {α} (n : Nat) (F : Nat → Option (Nat × α))
    (hF : ∀ i p, F i = some p → p.1 = i) :
    ((List.range n).filterMap F).Pairwise (fun x y => x.1 < y.1) := by
  rw [List.pairwise_filterMap]
  refine (List.pairwise_lt_range n).imp ?_
  intro a b hab x hx y hy
  rw [hF a x hx, hF b y hy]
  exact hab

theorem packedAssoc_pairwise {V : Type} {s : Nat} {ks : List Nat}
    {cs : List (Option (ArtNode V))}
    (hfull : ∀ i, i < s → (cs.getD i none).isSome)
    (hsorted : ∀ i j, i < j → j < s → ks.getD i 0 < ks.getD j 0) :
    (packedAssoc s ks cs).Pairwise (fun x y => x.1 < y.1) := by
  rw [List.pairwise_iff_getElem]
  intro i j hi hj hij
  have hlen := packedAssoc_length s ks cs hfull
  rw [hlen] at hi hj
  obtain ⟨ci, hci, hgi⟩ := packedAssoc_get? s ks cs hfull i hi
  obtain ⟨cj, hcj, hgj⟩ := packedAssoc_get? s ks cs hfull j hj
  rw [List.get?_eq_getElem?] at hgi hgj
  rw [List.getElem?_eq_getElem (by rw [hlen]; exact hi)] at hgi
  rw [List.getElem?_eq_getElem (by rw [hlen]; exact hj)] at hgj
  injection hgi with hgi
  injection hgj with hgj
  rw [hgi, hgj]
  exact hsorted i j hij hj

/-- Every well-shaped node satisfies the grown-node conditions. -/
theorem innerShape_pre {V : Type} {n : ArtNode V} (h : InnerShape n) :
    PreShape n := by
  cases n with
  | leaf k v => exact absurd h (by simp [InnerShape])
  | node4 m ks cs =>
    obtain ⟨hkl, hcl, hpb, hmin, hmax, hfull, hpad, hsorted, hby⟩ := h
    exact ⟨hkl, hcl, hpb, by simp [node4Min] at hmin; omega, hmax, hfull, hpad,
      hsorted, hby⟩
  | node16 m ks cs =>
    obtain ⟨hkl, hcl, hpb, hmin, hmax, hfull, hpad, hsorted, hby⟩ := h
    exact ⟨hkl, hcl, hpb, by simp [node16Min] at hmin; omega, hmax, hfull, hpad,
      hsorted, hby⟩
  | node48 m ks cs =>
    obtain ⟨hkl, hcl, hpb, hmin, hmax, hc0, hle48, hinj, hiff, hsz⟩ := h
    exact ⟨hkl, hcl, hpb, by simp [node48Min] at hmin; omega, hmax, hc0, hle48,
      hinj, hiff, hsz⟩
  | node256 m cs =>
    obtain ⟨hcl, hpb, hmin, hmax, hsz⟩ := h
    exact ⟨hcl, hpb, by simp [node256Min] at hmin; omega, hmax, hsz⟩

/-- The child directory's edge bytes are strictly ascending on every
well-shaped node. -/
theorem childAssoc_pairwise {V : Type} {n : ArtNode V} (h : PreShape n) :
    (childAssoc n).Pairwise (fun x y => x.1 < y.1) := by
  cases n with
  | leaf k v => exact absurd h (by simp [PreShape])
  | node4 m ks cs =>
    obtain ⟨hkl, hcl, hpb, hmin, hmax, hfull, hpad, hsorted, hby⟩ := h
    rw [childAssoc_node4]
    exact packedAssoc_pairwise hfull hsorted
  | node16 m ks cs =>
    obtain ⟨hkl, hcl, hpb, hmin, hmax, hfull, hpad, hsorted, hby⟩ := h
    rw [childAssoc_node16]
    exact packedAssoc_pairwise hfull hsorted
  | node48 m ks cs =>
    rw [childAssoc_node48]
    refine filterMap_range_pairwise_fst 256 _ ?_
    intro i p hp
    by_cases hz : ks.getD i 0 = 0
    · rw [if_pos hz] at hp; exact absurd hp (by simp)
    · rw [if_neg hz] at hp
      cases hcs : cs.getD (ks.getD i 0) none with
      | some c2 =>
        rw [hcs] at hp
        injection hp with hp
        rw [← hp]
      | none => rw [hcs] at hp; exact absurd hp (by simp)
  | node256 m cs =>
    rw [childAssoc_node256]
    refine filterMap_range_pairwise_fst 256 _ ?_
    intro i p hp
    cases hcs : cs.getD i none with
    | some c2 =>
      rw [hcs] at hp
      injection hp with hp
      rw [← hp]
    | none => rw [hcs] at hp; exact absurd hp (by simp)

theorem childAssoc_pairwise_ne {V : Type} {n : ArtNode V} (h : PreShape n) :
    (childAssoc n).Pairwise (fun x y => x.1 ≠ y.1) :=
  (childAssoc_pairwise h).imp (fun hab => Nat.ne_of_lt hab)

/-- `findChild` on the packed N4/N16 layout. -/
theorem findChild_packed {V : Type} {L : Nat} {s : Nat} {ks : List Nat}
    {cs : List (Option (ArtNode V))}
    (hkl : ks.length = L) (hcl : cs.length = L) (hsle : s ≤ L)
    (hfull : ∀ i, i < s → (cs.getD i none).isSome)
    (hpad : ∀ i, s ≤ i → i < L → ks.getD i 0 = 0 ∧ cs.getD i none = none)
    (hsorted : ∀ i j, i < j → j < s → ks.getD i 0 < ks.getD j 0)
    (b : Nat) :
    (if indexByte ks b < 0 then (Res.ok none : Res (Option (ArtNode V)))
     else arrGet cs (indexByte ks b)) = .ok (assocGet b (packedAssoc s ks cs)) := by
  have hpw : (packedAssoc s ks cs).Pairwise (fun x y => x.1 ≠ y.1) :=
    (packedAssoc_pairwise hfull hsorted).imp (fun hab => Nat.ne_of_lt hab)
  by_cases hex : ∃ i, i < s ∧ ks.getD i 0 = b
  · have hspec := Nat.find_spec hex
    set i0 := Nat.find hex with hi0def
    have hidx : indexByte ks b = (i0 : Int) := by
      refine indexByte_eq (by omega) hspec.2 ?_
      intro i hi
      have hni := Nat.find_min hex hi
      intro hib
      exact hni ⟨by omega, hib⟩
    rw [hidx]
    rw [if_neg (by omega)]
    obtain ⟨c, hc⟩ := Option.isSome_iff_exists.mp (hfull i0 hspec.1)
    rw [arrGet_getD none (by omega), hc]
    have hmem : (b, c) ∈ packedAssoc s ks cs :=
      packedAssoc_mem.mpr ⟨i0, hspec.1, hspec.2, hc⟩
    rw [assocGet_of_mem hpw hmem]
  · push_neg at hex
    have hrhs : assocGet b (packedAssoc s ks cs) = none := by
      refine assocGet_eq_none ?_
      intro c hmem
      obtain ⟨i, hi, hki, _⟩ := packedAssoc_mem.mp hmem
      exact hex i hi hki
    rw [hrhs]
    by_cases hsL : s < L
    · by_cases hb0 : b = 0
      · have hidx : indexByte ks b = (s : Int) := by
          refine indexByte_eq (by omega) ?_ ?_
          · rw [(hpad s (le_refl s) hsL).1, hb0]
          · intro i hi
            exact hex i hi
        rw [hidx]
        rw [if_neg (by omega)]
        rw [arrGet_getD none (by omega), (hpad s (le_refl s) hsL).2]
      · have hidx : indexByte ks b = -1 := by
          refine indexByte_neg ?_
          intro i hi
          by_cases his : i < s
          · exact hex i his
          · rw [(hpad i (by omega) (by omega)).1]
            intro hc
            exact hb0 hc.symm
        rw [hidx]
        rw [if_pos (by omega)]
    · have hsL2 : s = L := by omega
      have hidx : indexByte ks b = -1 := by
        refine indexByte_neg ?_
        intro i hi
        exact hex i (by omega)
      rw [hidx]
      rw [if_pos (by omega)]

/-- `findChild` returns exactly the child directory lookup on every
well-shaped node. -/
theorem findChild_spec {V : Type} {n : ArtNode V} (h : PreShape n) {b : Nat}
    (hb : b < 256) :
    ArtNode.findChild (some n) b = .ok (assocGet b (childAssoc n)) := by
  cases n with
  | leaf k v => exact absurd h (by simp [PreShape])
  | node4 m ks cs =>
    obtain ⟨hkl, hcl, hpb, hmin, hmax, hfull, hpad, hsorted, hby⟩ := h
    rw [childAssoc_node4]
    show (if indexByte ks b < 0 then (Res.ok none : Res (Option (ArtNode V)))
          else arrGet cs (indexByte ks b)) = _
    exact findChild_packed hkl hcl (by simp [node4Max] at hmax ⊢; omega)
      hfull hpad hsorted b
  | node16 m ks cs =>
    obtain ⟨hkl, hcl, hpb, hmin, hmax, hfull, hpad, hsorted, hby⟩ := h
    rw [childAssoc_node16]
    show (if indexByte ks b < 0 then (Res.ok none : Res (Option (ArtNode V)))
          else arrGet cs (indexByte ks b)) = _
    exact findChild_packed hkl hcl (by simp [node16Max] at hmax ⊢; omega)
      hfull hpad hsorted b
  | node48 m ks cs =>
    obtain ⟨hkl, hcl, hpb, hmin, hmax, hc0, hle48, hinj, hiff, hsz⟩ := h
    have hpw := childAssoc_pairwise_ne
      (show PreShape (ArtNode.node48 m ks cs) from
        ⟨hkl, hcl, hpb, hmin, hmax, hc0, hle48, hinj, hiff, hsz⟩)
    show (if (ks.getD b 0 : Int) = 0 then (Res.ok none : Res (Option (ArtNode V)))
          else arrGet cs (ks.getD b 0 : Int)) = _
    by_cases hz : ks.getD b 0 = 0
    · rw [if_pos (by exact_mod_cast hz)]
      have : assocGet b (childAssoc (ArtNode.node48 m ks cs)) = none := by
        refine assocGet_eq_none ?_
        intro c hmem
        obtain ⟨_, hnz, _⟩ := n48Assoc_mem.mp hmem
        exact hnz hz
      rw [this]
    · rw [if_neg (by exact_mod_cast hz)]
      have hslot := hle48 b hb
      have hsome : (cs.getD (ks.getD b 0) none).isSome :=
        (hiff (ks.getD b 0) (by omega) hslot).mpr ⟨b, hb, rfl⟩
      obtain ⟨c, hc⟩ := Option.isSome_iff_exists.mp hsome
      rw [arrGet_getD none (by omega), hc]
      have hmem : (b, c) ∈ childAssoc (ArtNode.node48 m ks cs) :=
        n48Assoc_mem.mpr ⟨hb, hz, hc⟩
      rw [assocGet_of_mem hpw hmem]
  | node256 m cs =>
    obtain ⟨hcl, hpb, hmin, hmax, hsz⟩ := h
    have hpw := childAssoc_pairwise_ne
      (show PreShape (ArtNode.node256 m cs) from ⟨hcl, hpb, hmin, hmax, hsz⟩)
    show arrGet cs (b : Int) = _
    cases hc : cs.getD b none with
    | some c =>
      rw [arrGet_getD none (by omega), hc]
      have hmem : (b, c) ∈ childAssoc (ArtNode.node256 m cs) :=
        n256Assoc_mem.mpr ⟨hb, hc⟩
      rw [assocGet_of_mem hpw hmem]
    | none =>
      rw [arrGet_getD none (by omega), hc]
      have : assocGet b (childAssoc (ArtNode.node256 m cs)) = none := by
        refine assocGet_eq_none ?_
        intro c hmem
        obtain ⟨_, hcs⟩ := n256Assoc_mem.mp hmem
        rw [hc] at hcs
        exact absurd hcs (by simp)
      rw [this]

/-! ## Structural induction over the well-formedness invariant -/

theorem getD_some_lt {α} {l : List (Option α)} {i : Nat} {c : α}
    (h : l.getD i none = some c) : i < l.length := by
  by_contra hge
  rw [List.getD_eq_default l none (by omega)] at h
  exact absurd h (by simp)

theorem sizeOf_child_lt {V : Type} {cs : List (Option (ArtNode V))} {i : Nat}
    {c : ArtNode V} (h : cs.getD i none = some c) : sizeOf c < sizeOf cs := by
  have hi := getD_some_lt h
  have hmem : some c ∈ cs := by
    rw [List.getD_eq_getElem cs none hi] at h
    rw [← h]
    exact List.getElem_mem hi
  have h1 := List.sizeOf_lt_of_mem hmem
  have h2 : sizeOf (some c) = 1 + sizeOf c := by simp
  omega

theorem childAssoc_sizeOf {V : Type} {n : ArtNode V} {b : Nat} {c : ArtNode V}
    (h : (b, c) ∈ childAssoc n) : sizeOf c < sizeOf n := by
  cases n with
  | leaf k v => exact absurd h (by simp [childAssoc])
  | node4 m ks cs =>
    rw [childAssoc_node4] at h
    obtain ⟨i, _, _, hc⟩ := packedAssoc_mem.mp h
    have := sizeOf_child_lt hc
    have : sizeOf (ArtNode.node4 m ks cs) = 1 + sizeOf m + sizeOf ks + sizeOf cs := by
      simp
    omega
  | node16 m ks cs =>
    rw [childAssoc_node16] at h
    obtain ⟨i, _, _, hc⟩ := packedAssoc_mem.mp h
    have := sizeOf_child_lt hc
    have : sizeOf (ArtNode.node16 m ks cs) = 1 + sizeOf m + sizeOf ks + sizeOf cs := by
      simp
    omega
  | node48 m ks cs =>
    obtain ⟨_, _, hc⟩ := n48Assoc_mem.mp h
    have := sizeOf_child_lt hc
    have : sizeOf (ArtNode.node48 m ks cs) = 1 + sizeOf m + sizeOf ks + sizeOf cs := by
      simp
    omega
  | node256 m cs =>
    obtain ⟨_, hc⟩ := n256Assoc_mem.mp h
    have := sizeOf_child_lt hc
    have : sizeOf (ArtNode.node256 m cs) = 1 + sizeOf m + sizeOf cs := by simp
    omega

/-- Strong induction over `WF` derivations, recursing into every child of the
directory. -/
theorem WF_strong_ind {V : Type} (motive : Nat → ArtNode V → List (List Nat × V) → Prop)
    (hleaf : ∀ d k v, d ≤ k.length → (∀ b ∈ k, b < 256) →
      motive d (.leaf k v) [(k, v)])
    (hinner : ∀ d n p M, InnerShape n → n.node.prefixLen = (p.length : Int) →
      (∀ b ∈ p, b < 256) →
      (∀ i, i < min p.length 10 → n.node.prefixBytes.getD i 0 = p.getD i 0) →
      WFChildren (d + p.length + 1) d p (childAssoc n) M →
      (∀ b c Mc, (b, c) ∈ childAssoc n → WF (d + p.length + 1) c Mc →
        motive (d + p.length + 1) c Mc) →
      motive d n M) :
    ∀ (d : Nat) (n : ArtNode V) (M : List (List Nat × V)), WF d n M → motive d n M := by
  have main : ∀ (sz : Nat) (n : ArtNode V), sizeOf n ≤ sz →
      ∀ d M, WF d n M → motive d n M := by
    intro sz
    induction sz with
    | zero =>
      intro n hsz
      exfalso
      cases n <;> simp at hsz
    | succ sz ih =>
      intro n hsz d M hwf
      cases hwf with
      | leaf d k v hlen hbytes => exact hleaf d k v hlen hbytes
      | inner d nn p M hshape hpl hpb hinline hch =>
        refine hinner d _ p M hshape hpl hpb hinline hch ?_
        intro b c Mc hmem hwfc
        exact ih c (by have := childAssoc_sizeOf hmem; omega) _ _ hwfc
  intro d n M h
  exact main (sizeOf n) n (le_refl _) d M h

theorem WFChildren_nil_inv {V : Type} {d2 d : Nat} {p : List Nat}
    {M : List (List Nat × V)} (h : WFChildren d2 d p [] M) : M = [] := by
  cases h
  rfl

theorem WFChildren_cons_inv {V : Type} {d2 d : Nat} {p : List Nat} {b : Nat}
    {c : ArtNode V} {rest : List (Nat × ArtNode V)} {M : List (List Nat × V)}
    (h : WFChildren d2 d p ((b, c) :: rest) M) :
    ∃ Mc Mr, M = Mc ++ Mr ∧ WF d2 c Mc ∧ (∀ kv ∈ Mc, KeyAgrees d p b kv.1) ∧
      WFChildren d2 d p rest Mr := by
  cases h with
  | cons _ _ _ _ _ _ Mc Mr hwf hagree hrest => exact ⟨Mc, Mr, rfl, hwf, hagree, hrest⟩

/-- Every directory entry carries a well-formed sub-map whose entries all sit
in the node's map. -/
theorem WFChildren_mem {V : Type} : ∀ {l : List (Nat × ArtNode V)} {d2 d : Nat}
    {p : List Nat} {M : List (List Nat × V)} {b : Nat} {c : ArtNode V},
    WFChildren d2 d p l M → (b, c) ∈ l →
    ∃ Mc, WF d2 c Mc ∧ (∀ kv ∈ Mc, KeyAgrees d p b kv.1) ∧ ∀ kv ∈ Mc, kv ∈ M := by
  intro l
  induction l with
  | nil => intro _ _ _ _ _ _ _ hmem; exact absurd hmem (by simp)
  | cons x rest ih =>
    intro d2 d p M b c hch hmem
    rcases x with ⟨b2, c2⟩
    obtain ⟨Mc, Mr, hM, hwf, hagree, hrest⟩ := WFChildren_cons_inv hch
    rcases List.mem_cons.mp hmem with heq | htail
    · injection heq with h1 h2
      subst h1
      subst h2
      exact ⟨Mc, hwf, hagree, fun kv hkv => by rw [hM]; exact List.mem_append_left _ hkv⟩
    · obtain ⟨Mc2, hwf2, hagree2, hsub⟩ := ih hrest htail
      exact ⟨Mc2, hwf2, hagree2, fun kv hkv => by
        rw [hM]; exact List.mem_append_right _ (hsub kv hkv)⟩

/-- Every map entry belongs to some directory child and agrees with the path
and that child's edge byte. -/
theorem WFChildren_entry {V : Type} : ∀ {l : List (Nat × ArtNode V)} {d2 d : Nat}
    {p : List Nat} {M : List (List Nat × V)},
    WFChildren d2 d p l M → ∀ kv ∈ M,
    ∃ b c Mc, (b, c) ∈ l ∧ kv ∈ Mc ∧ WF d2 c Mc ∧
      (∀ kv2 ∈ Mc, KeyAgrees d p b kv2.1) := by
  intro l
  induction l with
  | nil =>
    intro _ _ _ M hch kv hkv
    rw [WFChildren_nil_inv hch] at hkv
    exact absurd hkv (by simp)
  | cons x rest ih =>
    intro d2 d p M hch kv hkv
    rcases x with ⟨b2, c2⟩
    obtain ⟨Mc, Mr, hM, hwf, hagree, hrest⟩ := WFChildren_cons_inv hch
    rw [hM] at hkv
    rcases List.mem_append.mp hkv with hl | hr
    · exact ⟨b2, c2, Mc, List.mem_cons_self _ _, hl, hwf, hagree⟩
    · obtain ⟨b3, c3, Mc3, hmem3, hkv3, hwf3, hagree3⟩ := ih hrest kv hr
      exact ⟨b3, c3, Mc3, List.mem_cons_of_mem _ hmem3, hkv3, hwf3, hagree3⟩

/-- A well-formed subtree stores at least one pair. -/
theorem WF_ne_nil {V : Type} : ∀ (d : Nat) (n : ArtNode V) (M : List (List Nat × V)),
    WF d n M → M ≠ [] := by
  refine WF_strong_ind _ ?_ ?_
  · intro d k v _ _
    simp
  · intro d n p M hshape hpl hpb hinline hch hih
    have hne : childAssoc n ≠ [] := by
      intro hnil
      cases n with
      | leaf k v => exact absurd hshape (by simp [InnerShape])
      | node4 m ks cs =>
        obtain ⟨hkl, hcl, hpbl, hmin, hmax, hfull, hpad, hsorted, hby⟩ := hshape
        have hlen := packedAssoc_length m.size.toNat ks cs hfull
        rw [childAssoc_node4] at hnil
        rw [hnil] at hlen
        simp [node4Min] at hlen hmin
        omega
      | node16 m ks cs =>
        obtain ⟨hkl, hcl, hpbl, hmin, hmax, hfull, hpad, hsorted, hby⟩ := hshape
        have hlen := packedAssoc_length m.size.toNat ks cs hfull
        rw [childAssoc_node16] at hnil
        rw [hnil] at hlen
        simp [node16Min] at hlen hmin
        omega
      | node48 m ks cs =>
        obtain ⟨hkl, hcl, hpbl, hmin, hmax, hc0, hle48, hinj, hiff, hsz⟩ := hshape
        rw [hnil] at hsz
        simp [node48Min] at hsz hmin
        omega
      | node256 m cs =>
        obtain ⟨hcl, hpbl, hmin, hmax, hsz⟩ := hshape
        rw [hnil] at hsz
        simp [node256Min] at hsz hmin
        omega
    rcases hl : childAssoc n with _ | ⟨⟨b, c⟩, rest⟩
    · exact absurd hl hne
    rw [hl] at hch
    obtain ⟨Mc, Mr, hM, hwf, hagree, hrest⟩ := WFChildren_cons_inv hch
    have := hih b c Mc (by rw [hl]; exact List.mem_cons_self _ _) hwf
    intro hMnil
    rw [hM] at hMnil
    rcases List.append_eq_nil.mp hMnil with ⟨h1, _⟩
    exact this h1

/-- Every stored key extends past the subtree's depth and has byte values. -/
theorem WF_keys {V : Type} : ∀ (d : Nat) (n : ArtNode V) (M : List (List Nat × V)),
    WF d n M → ∀ kv ∈ M, d ≤ kv.1.length ∧ ∀ b ∈ kv.1, b < 256 := by
  refine WF_strong_ind _ ?_ ?_
  · intro d k v hlen hbytes kv hkv
    rw [List.mem_singleton] at hkv
    rw [hkv]
    exact ⟨hlen, hbytes⟩
  · intro d n p M hshape hpl hpb hinline hch hih kv hkv
    obtain ⟨b, c, Mc, hbc, hkvMc, hwfc, hagree⟩ := WFChildren_entry hch kv hkv
    have := hih b c Mc hbc hwfc kv hkvMc
    obtain ⟨hag1, _, _⟩ := hagree kv hkvMc
    exact ⟨by omega, this.2⟩

/-! ## The minimum leaf of a well-formed subtree -/

theorem firstIdx_mem {n : Nat} {p : Nat → Bool} {j : Nat}
    (h : firstIdx n p = some j) : j < n ∧ p j = true := by
  unfold firstIdx at h
  have h1 := List.find?_some h
  have h2 := List.find?_mem h
  rw [List.mem_range] at h2
  exact ⟨h2, h1⟩

theorem firstIdx_ne_none {n : Nat} {p : Nat → Bool} {j : Nat} (hj : j < n)
    (hp : p j = true) : firstIdx n p ≠ none := by
  unfold firstIdx
  intro h
  rw [List.find?_eq_none] at h
  exact h j (List.mem_range.mpr hj) hp

/-- A well-shaped inner node has at least one child. -/
theorem childAssoc_ne_nil {V : Type} {n : ArtNode V} (h : InnerShape n) :
    childAssoc n ≠ [] := by
  intro hnil
  cases n with
  | leaf k v => exact absurd h (by simp [InnerShape])
  | node4 m ks cs =>
    obtain ⟨hkl, hcl, hpbl, hmin, hmax, hfull, hpad, hsorted, hby⟩ := h
    have hlen := packedAssoc_length m.size.toNat ks cs hfull
    rw [childAssoc_node4] at hnil
    rw [hnil] at hlen
    simp [node4Min] at hlen hmin
    omega
  | node16 m ks cs =>
    obtain ⟨hkl, hcl, hpbl, hmin, hmax, hfull, hpad, hsorted, hby⟩ := h
    have hlen := packedAssoc_length m.size.toNat ks cs hfull
    rw [childAssoc_node16] at hnil
    rw [hnil] at hlen
    simp [node16Min] at hlen hmin
    omega
  | node48 m ks cs =>
    obtain ⟨hkl, hcl, hpbl, hmin, hmax, hc0, hle48, hinj, hiff, hsz⟩ := h
    rw [hnil] at hsz
    simp [node48Min] at hsz hmin
    omega
  | node256 m cs =>
    obtain ⟨hcl, hpbl, hmin, hmax, hsz⟩ := h
    rw [hnil] at hsz
    simp [node256Min] at hsz hmin
    omega

/-- On a well-formed subtree, `minimum` eventually returns a leaf holding one
of the subtree's pairs. -/
theorem minimum_exists {V : Type} : ∀ (d : Nat) (n : ArtNode V)
    (M : List (List Nat × V)), WF d n M →
    ∃ f0 k v, (k, v) ∈ M ∧ ∀ fuel, f0 ≤ fuel →
      ArtNode.minimum fuel (some n) = .ok (some (.leaf k v)) := by
  refine WF_strong_ind _ ?_ ?_
  · intro d k v _ _
    refine ⟨1, k, v, List.mem_singleton_self _, ?_⟩
    intro fuel hf
    cases fuel with
    | zero => omega
    | succ g => rfl
  · intro d n p M hshape hpl hpb hinline hch hih
    cases n with
    | leaf k v => exact absurd hshape (by simp [InnerShape])
    | node4 m ks cs =>
      obtain ⟨hkl, hcl, hpbl, hmin, hmax, hfull, hpad, hsorted, hby⟩ := hshape
      have hs0 : 0 < m.size.toNat := by simp [node4Min] at hmin; omega
      obtain ⟨c0, hc0⟩ := Option.isSome_iff_exists.mp (hfull 0 hs0)
      have hmem : (ks.getD 0 0, c0) ∈ childAssoc (ArtNode.node4 m ks cs) := by
        rw [childAssoc_node4]
        exact packedAssoc_mem.mpr ⟨0, hs0, rfl, hc0⟩
      obtain ⟨Mc, hwfc, _, hsub⟩ := WFChildren_mem hch hmem
      obtain ⟨f0, k, v, hkv, hrun⟩ := hih _ _ _ hmem hwfc
      refine ⟨f0 + 1, k, v, hsub _ hkv, ?_⟩
      intro fuel hf
      cases fuel with
      | zero => omega
      | succ g =>
        show ArtNode.minimum g (cs.getD 0 none) = _
        rw [hc0]
        exact hrun g (by omega)
    | node16 m ks cs =>
      obtain ⟨hkl, hcl, hpbl, hmin, hmax, hfull, hpad, hsorted, hby⟩ := hshape
      have hs0 : 0 < m.size.toNat := by simp [node16Min] at hmin; omega
      obtain ⟨c0, hc0⟩ := Option.isSome_iff_exists.mp (hfull 0 hs0)
      have hmem : (ks.getD 0 0, c0) ∈ childAssoc (ArtNode.node16 m ks cs) := by
        rw [childAssoc_node16]
        exact packedAssoc_mem.mpr ⟨0, hs0, rfl, hc0⟩
      obtain ⟨Mc, hwfc, _, hsub⟩ := WFChildren_mem hch hmem
      obtain ⟨f0, k, v, hkv, hrun⟩ := hih _ _ _ hmem hwfc
      refine ⟨f0 + 1, k, v, hsub _ hkv, ?_⟩
      intro fuel hf
      cases fuel with
      | zero => omega
      | succ g =>
        show ArtNode.minimum g (cs.getD 0 none) = _
        rw [hc0]
        exact hrun g (by omega)
    | node48 m ks cs =>
      obtain ⟨hkl, hcl, hpbl, hmin, hmax, hc0, hle48, hinj, hiff, hsz⟩ := hshape
      rcases ha : childAssoc (ArtNode.node48 m ks cs) with _ | ⟨⟨b1, c1⟩, rest⟩
      · exact absurd ha (childAssoc_ne_nil ⟨hkl, hcl, hpbl, hmin, hmax, hc0,
          hle48, hinj, hiff, hsz⟩)
      have hb1 : b1 < 256 ∧ ks.getD b1 0 ≠ 0 ∧
          cs.getD (ks.getD b1 0) none = some c1 :=
        n48Assoc_mem.mp (by rw [ha]; exact List.mem_cons_self _ _)
      cases hfi : firstIdx ks.length (fun i => ks.getD i 0 != 0) with
      | none =>
        exfalso
        refine firstIdx_ne_none (j := b1) (by omega) ?_ hfi
        simp only [bne_iff_ne, ne_eq]
        exact hb1.2.1
      | some j =>
        obtain ⟨hjlt, hpj⟩ := firstIdx_mem hfi
        have hjne : ks.getD j 0 ≠ 0 := by simpa using hpj
        have hslot := hle48 j (by omega)
        have hsome : (cs.getD (ks.getD j 0) none).isSome :=
          (hiff (ks.getD j 0) (by omega) hslot).mpr ⟨j, by omega, rfl⟩
        obtain ⟨c, hc⟩ := Option.isSome_iff_exists.mp hsome
        have hmem : (j, c) ∈ childAssoc (ArtNode.node48 m ks cs) :=
          n48Assoc_mem.mpr ⟨by omega, hjne, hc⟩
        obtain ⟨Mc, hwfc, _, hsub⟩ := WFChildren_mem hch hmem
        obtain ⟨f0, k, v, hkv, hrun⟩ := hih _ _ _ hmem hwfc
        refine ⟨f0 + 1, k, v, hsub _ hkv, ?_⟩
        intro fuel hf
        cases fuel with
        | zero => omega
        | succ g =>
          show (match firstIdx ks.length (fun i => ks.getD i 0 != 0) with
                | none => (Res.oob : Res (Option (ArtNode V)))
                | some i => Res.bind (arrGet cs ((ks.getD i 0 : Nat) : Int))
                    (fun cv => ArtNode.minimum g cv)) = _
          rw [hfi]
          show Res.bind (arrGet cs ((ks.getD j 0 : Nat) : Int))
            (fun cv => ArtNode.minimum g cv) = _
          rw [arrGet_getD none (by omega), hc]
          show ArtNode.minimum g (some c) = _
          exact hrun g (by omega)
    | node256 m cs =>
      obtain ⟨hcl, hpbl, hmin, hmax, hsz⟩ := hshape
      rcases ha : childAssoc (ArtNode.node256 m cs) with _ | ⟨⟨b1, c1⟩, rest⟩
      · exact absurd ha (childAssoc_ne_nil ⟨hcl, hpbl, hmin, hmax, hsz⟩)
      have hb1 : b1 < 256 ∧ cs.getD b1 none = some c1 :=
        n256Assoc_mem.mp (by rw [ha]; exact List.mem_cons_self _ _)
      cases hfi : firstIdx cs.length (fun i => (cs.getD i none).isSome) with
      | none =>
        exfalso
        refine firstIdx_ne_none (j := b1) (by omega) ?_ hfi
        rw [hb1.2]
        rfl
      | some j =>
        obtain ⟨hjlt, hpj⟩ := firstIdx_mem hfi
        obtain ⟨c, hc⟩ := Option.isSome_iff_exists.mp hpj
        have hmem : (j, c) ∈ childAssoc (ArtNode.node256 m cs) :=
          n256Assoc_mem.mpr ⟨by omega, hc⟩
        obtain ⟨Mc, hwfc, _, hsub⟩ := WFChildren_mem hch hmem
        obtain ⟨f0, k, v, hkv, hrun⟩ := hih _ _ _ hmem hwfc
        refine ⟨f0 + 1, k, v, hsub _ hkv, ?_⟩
        intro fuel hf
        cases fuel with
        | zero => omega
        | succ g =>
          show (match firstIdx cs.length (fun i => (cs.getD i none).isSome) with
                | none => (Res.oob : Res (Option (ArtNode V)))
                | some i => ArtNode.minimum g (cs.getD i none)) = _
          rw [hfi]
          show ArtNode.minimum g (cs.getD j none) = _
          rw [hc]
          exact hrun g (by omega)

/-- `minLeafKey` eventually returns the key of one of the subtree's pairs. -/
theorem minLeafKey_exists {V : Type} {d : Nat} {n : ArtNode V}
    {M : List (List Nat × V)} (h : WF d n M) :
    ∃ f0 k, (∃ v, (k, v) ∈ M) ∧ ∀ fuel, f0 ≤ fuel →
      ArtNode.minLeafKey fuel n = .ok k := by
  obtain ⟨f0, k, v, hkv, hrun⟩ := minimum_exists d n M h
  refine ⟨f0, k, ⟨v, hkv⟩, ?_⟩
  intro fuel hf
  unfold ArtNode.minLeafKey
  rw [Res.bind_def, hrun fuel hf]
  rfl

/-! ## prefixMismatch on well-formed nodes -/

theorem WF_inv_inner {V : Type} {d : Nat} {M : List (List Nat × V)} {n : ArtNode V}
    (h : WF d n M) (hn : n.isLeaf = false) :
    ∃ p, InnerShape n ∧ n.node.prefixLen = (p.length : Int) ∧ (∀ b ∈ p, b < 256) ∧
      (∀ i, i < min p.length 10 → n.node.prefixBytes.getD i 0 = p.getD i 0) ∧
      WFChildren (d + p.length + 1) d p (childAssoc n) M := by
  cases h with
  | leaf d k v => simp [ArtNode.isLeaf] at hn
  | inner d n p M hs h1 h2 h3 h4 => exact ⟨p, hs, h1, h2, h3, h4⟩

theorem WF_leaf_inv {V : Type} {d : Nat} {M : List (List Nat × V)} {k : List Nat}
    {v : V} (h : WF d (.leaf k v) M) :
    M = [(k, v)] ∧ d ≤ k.length ∧ ∀ b ∈ k, b < 256 := by
  cases h with
  | leaf d k v hlen hby => exact ⟨rfl, hlen, hby⟩
  | inner d n p M hs h1 h2 h3 h4 => exact absurd hs (by simp [InnerShape])

theorem arrGet_ok {α} {l : List α} {i : Int} (d : α) (h0 : 0 ≤ i)
    (h : i.toNat < l.length) : arrGet l i = .ok (l.getD i.toNat d) := by
  unfold arrGet
  rw [dif_pos ⟨h0, h⟩]
  rw [List.getD_eq_getElem l d h]
  rfl

theorem arrGet_oob {α} {l : List α} {i : Int}
    (h : i < 0 ∨ (l.length : Int) ≤ i) : arrGet l i = .oob := by
  unfold arrGet
  rw [dif_neg]
  intro hcon
  rcases h with h | h
  · omega
  · rcases hcon with ⟨h1, h2⟩
    omega

theorem firstIdx_eq_none {n : Nat} {p : Nat → Bool}
    (h : ∀ i, i < n → p i = false) : firstIdx n p = none := by
  unfold firstIdx
  rw [List.find?_eq_none]
  intro i hi
  rw [List.mem_range] at hi
  simp [h i hi]

theorem find?_first {α} (p : α → Bool) (dflt : α) : ∀ (l : List α) (j : Nat),
    j < l.length → p (l.getD j dflt) = true →
    (∀ i, i < j → p (l.getD i dflt) = false) →
    l.find? p = some (l.getD j dflt) := by
  intro l
  induction l with
  | nil => intro j hj; exact absurd hj (by simp)
  | cons x xs ih =>
    intro j hj hpj hfirst
    cases j with
    | zero =>
      rw [List.getD_cons_zero] at hpj ⊢
      rw [List.find?_cons_of_pos _ hpj]
    | succ j' =>
      have hx : p x = false := by
        have := hfirst 0 (Nat.succ_pos j')
        rw [List.getD_cons_zero] at this
        exact this
      rw [List.find?_cons_of_neg _ (by simp [hx])]
      rw [List.getD_cons_succ]
      refine ih j' (by simpa using hj) ?_ ?_
      · rw [List.getD_cons_succ] at hpj
        exact hpj
      · intro i hi
        have := hfirst (i + 1) (by omega)
        rw [List.getD_cons_succ] at this
        exact this

theorem firstIdx_eq_some {n : Nat} {p : Nat → Bool} {j : Nat} (hj : j < n)
    (hpj : p j = true) (hmin : ∀ i, i < j → p i = false) :
    firstIdx n p = some j := by
  unfold firstIdx
  have hget : ∀ i, i < n → (List.range n).getD i 0 = i := by
    intro i hi
    rw [List.getD_eq_getElem _ 0 (by simpa using hi)]
    exact List.getElem_range _ _
  have := find?_first p 0 (List.range n) j (by simpa using hj)
    (by rw [hget j hj]; exact hpj)
    (fun i hi => by rw [hget i (by omega)]; exact hmin i hi)
  rw [this, hget j hj]

/-- `pmLoop` runs to the end when the two keys agree at every scanned
position. -/
theorem pmLoop_all_eq (key minKey : List Nat) (depth : Int) :
    ∀ (rem idx : Nat),
    (∀ t, idx ≤ t → t < idx + rem →
      0 ≤ depth + t ∧ (depth + t).toNat < key.length ∧
      (depth + t).toNat < minKey.length ∧
      key.getD (depth + t).toNat 0 = minKey.getD (depth + t).toNat 0) →
    ArtNode.pmLoop key minKey depth rem idx = .ok (idx + rem) := by
  intro rem
  induction rem with
  | zero => intro idx _; rfl
  | succ r ih =>
    intro idx hall
    obtain ⟨h0, hk, hm, heq⟩ := hall idx (le_refl _) (by omega)
    show Res.bind (arrGet key (depth + idx)) _ = _
    rw [arrGet_ok 0 (by omega) hk]
    show Res.bind (arrGet minKey (depth + idx)) _ = _
    rw [arrGet_ok 0 (by omega) hm]
    show (if key.getD (depth + idx).toNat 0 ≠ minKey.getD (depth + idx).toNat 0
          then Res.ok idx
          else ArtNode.pmLoop key minKey depth r (idx + 1)) = _
    rw [if_neg (fun hcon => hcon heq)]
    rw [ih (idx + 1) (fun t ht1 ht2 => hall t (by omega) (by omega))]
    congr 1
    omega

/-- `pmLoop` stops at the first scanned position where the keys differ. -/
theorem pmLoop_stop (key minKey : List Nat) (depth : Int) (j0 : Nat) :
    ∀ (rem idx : Nat), idx ≤ j0 → j0 < idx + rem →
    (∀ t, idx ≤ t → t ≤ j0 →
      0 ≤ depth + t ∧ (depth + t).toNat < key.length ∧
      (depth + t).toNat < minKey.length) →
    (∀ t, idx ≤ t → t < j0 →
      key.getD (depth + t).toNat 0 = minKey.getD (depth + t).toNat 0) →
    key.getD (depth + j0).toNat 0 ≠ minKey.getD (depth + j0).toNat 0 →
    ArtNode.pmLoop key minKey depth rem idx = .ok j0 := by
  intro rem
  induction rem with
  | zero => intro idx h1 h2; omega
  | succ r ih =>
    intro idx hle hlt hbounds heq hne
    obtain ⟨h0, hk, hm⟩ := hbounds idx (le_refl _) hle
    show Res.bind (arrGet key (depth + idx)) _ = _
    rw [arrGet_ok 0 (by omega) hk]
    show Res.bind (arrGet minKey (depth + idx)) _ = _
    rw [arrGet_ok 0 (by omega) hm]
    show (if key.getD (depth + idx).toNat 0 ≠ minKey.getD (depth + idx).toNat 0
          then Res.ok idx
          else ArtNode.pmLoop key minKey depth r (idx + 1)) = _
    by_cases hij : idx = j0
    · subst hij
      rw [if_pos hne]
    · rw [if_neg (fun hcon => hcon (heq idx (le_refl _) (by omega)))]
      exact ih (idx + 1) (by omega) (by omega)
        (fun t ht1 ht2 => hbounds t (by omega) ht2)
        (fun t ht1 ht2 => heq t (by omega) ht2) hne

/-- On a full prefix match, `prefixMismatch` returns the logical prefix
length. -/
theorem prefixMismatch_full {V : Type} {d : Nat} {n : ArtNode V}
    {M : List (List Nat × V)} {p : List Nat}
    (hpl : n.node.prefixLen = (p.length : Int))
    (hinline : ∀ i, i < min p.length 10 → n.node.prefixBytes.getD i 0 = p.getD i 0)
    (hwf : WF d n M) {k : List Nat} (hklen : d + p.length < k.length)
    (hagree : ∀ j, j < p.length → k.getD (d + j) 0 = p.getD j 0)
    (hMagree : ∀ kv ∈ M, d + p.length < kv.1.length ∧
      ∀ j, j < p.length → kv.1.getD (d + j) 0 = p.getD j 0) :
    ∃ f0, ∀ fuel, f0 ≤ fuel →
      ArtNode.prefixMismatch fuel n k (d : Int) = .ok (p.length : Int) := by
  have hlim : (goMin maxPrefixLen n.node.prefixLen).toNat = min 10 p.length := by
    rw [hpl, goMin_eq]
    simp [maxPrefixLen]
    omega
  have hscan : firstIdx (goMin maxPrefixLen n.node.prefixLen).toNat (fun i =>
      (if (d : Int) + i < 0 ∨ (k.length : Int) ≤ (d : Int) + i then 0
       else k.getD ((d : Int) + i).toNat 0) != n.node.prefixBytes.getD i 0) = none := by
    refine firstIdx_eq_none ?_
    intro i hi
    rw [hlim] at hi
    have hir : ¬ ((d : Int) + i < 0 ∨ (k.length : Int) ≤ (d : Int) + i) := by
      push_neg
      constructor <;> omega
    rw [if_neg hir]
    have htn : ((d : Int) + i).toNat = d + i := by omega
    rw [htn]
    rw [hagree i (by omega), ← hinline i (by omega)]
    simp
  by_cases hov : maxPrefixLen < n.node.prefixLen
  · obtain ⟨f0, mk, ⟨mv, hmk⟩, hmrun⟩ := minLeafKey_exists hwf
    refine ⟨f0, ?_⟩
    intro fuel hf
    simp only [ArtNode.prefixMismatch]
    simp only [hscan]
    rw [if_pos hov]
    rw [Res.bind_def, hmrun fuel hf, Res.bind_ok]
    obtain ⟨hmlen0, hmag0⟩ := hMagree (mk, mv) hmk
    have hmlen : d + p.length < mk.length := hmlen0
    have hmag : ∀ j, j < p.length → mk.getD (d + j) 0 = p.getD j 0 := hmag0
    have hpm : ArtNode.pmLoop k mk (d : Int)
        (n.node.prefixLen - ((goMin maxPrefixLen n.node.prefixLen).toNat : Int)).toNat
        (goMin maxPrefixLen n.node.prefixLen).toNat = .ok p.length := by
      have h10 : min 10 p.length = 10 := by
        simp [maxPrefixLen] at hov
        rw [hpl] at hov
        simp
        omega
      have hrem : (n.node.prefixLen -
          ((goMin maxPrefixLen n.node.prefixLen).toNat : Int)).toNat =
          p.length - 10 := by
        rw [hlim, hpl, h10]
        omega
      rw [hrem, hlim, h10]
      have hrun := pmLoop_all_eq k mk (d : Int) (p.length - 10) 10 ?_
      · rw [hrun]
        congr 1
        simp [maxPrefixLen] at hov
        rw [hpl] at hov
        omega
      · intro t ht1 ht2
        have htn : ((d : Int) + t).toNat = d + t := by omega
        refine ⟨by omega, by rw [htn]; omega, by rw [htn]; omega, ?_⟩
        rw [htn, hagree t (by omega), hmag t (by omega)]
    rw [hpm]
    rfl
  · refine ⟨0, ?_⟩
    intro fuel _
    simp only [ArtNode.prefixMismatch]
    simp only [hscan]
    rw [if_neg hov]
    rw [hlim]
    have hple : min 10 p.length = p.length := by
      simp [maxPrefixLen] at hov
      rw [hpl] at hov
      simp at hov
      omega
    rw [hple]

/-- When the key first diverges from the path at offset `j0` (a real key
byte), `prefixMismatch` returns `j0`. -/
theorem prefixMismatch_diverge {V : Type} {d : Nat} {n : ArtNode V}
    {M : List (List Nat × V)} {p : List Nat}
    (hpl : n.node.prefixLen = (p.length : Int))
    (hinline : ∀ i, i < min p.length 10 → n.node.prefixBytes.getD i 0 = p.getD i 0)
    (hwf : WF d n M) {k : List Nat} {j0 : Nat} (hj0 : j0 < p.length)
    (hj0len : d + j0 < k.length)
    (hagree : ∀ j, j < j0 → k.getD (d + j) 0 = p.getD j 0)
    (hne : k.getD (d + j0) 0 ≠ p.getD j0 0)
    (hMagree : ∀ kv ∈ M, d + p.length < kv.1.length ∧
      ∀ j, j < p.length → kv.1.getD (d + j) 0 = p.getD j 0) :
    ∃ f0, ∀ fuel, f0 ≤ fuel →
      ArtNode.prefixMismatch fuel n k (d : Int) = .ok (j0 : Int) := by
  have hlim : (goMin maxPrefixLen n.node.prefixLen).toNat = min 10 p.length := by
    rw [hpl, goMin_eq]
    simp [maxPrefixLen]
    omega
  by_cases hj10 : j0 < 10
  · refine ⟨0, ?_⟩
    intro fuel _
    simp only [ArtNode.prefixMismatch]
    have hscan : firstIdx (goMin maxPrefixLen n.node.prefixLen).toNat (fun i =>
        (if (d : Int) + i < 0 ∨ (k.length : Int) ≤ (d : Int) + i then 0
         else k.getD ((d : Int) + i).toNat 0) != n.node.prefixBytes.getD i 0) =
        some j0 := by
      refine firstIdx_eq_some (by rw [hlim]; omega) ?_ ?_
      · have hir : ¬ ((d : Int) + j0 < 0 ∨ (k.length : Int) ≤ (d : Int) + j0) := by
          push_neg
          constructor <;> omega
        rw [if_neg hir]
        have htn : ((d : Int) + j0).toNat = d + j0 := by omega
        rw [htn]
        rw [← hinline j0 (by omega)] at hne
        simpa using hne
      · intro i hi
        have hir : ¬ ((d : Int) + i < 0 ∨ (k.length : Int) ≤ (d : Int) + i) := by
          push_neg
          constructor <;> omega
        rw [if_neg hir]
        have htn : ((d : Int) + i).toNat = d + i := by omega
        rw [htn]
        rw [hagree i hi, ← hinline i (by omega)]
        simp
    simp only [hscan]
  · -- mismatch in the overflow region
    have h10p : 10 < p.length := by omega
    have hscan : firstIdx (goMin maxPrefixLen n.node.prefixLen).toNat (fun i =>
        (if (d : Int) + i < 0 ∨ (k.length : Int) ≤ (d : Int) + i then 0
         else k.getD ((d : Int) + i).toNat 0) != n.node.prefixBytes.getD i 0) =
        none := by
      refine firstIdx_eq_none ?_
      intro i hi
      rw [hlim] at hi
      have hir : ¬ ((d : Int) + i < 0 ∨ (k.length : Int) ≤ (d : Int) + i) := by
        push_neg
        constructor <;> omega
      rw [if_neg hir]
      have htn : ((d : Int) + i).toNat = d + i := by omega
      rw [htn]
      rw [hagree i (by omega), ← hinline i (by omega)]
      simp
    obtain ⟨f0, mk, ⟨mv, hmk⟩, hmrun⟩ := minLeafKey_exists hwf
    refine ⟨f0, ?_⟩
    intro fuel hf
    simp only [ArtNode.prefixMismatch]
    simp only [hscan]
    rw [if_pos (by rw [hpl]; simp [maxPrefixLen]; omega)]
    rw [Res.bind_def, hmrun fuel hf, Res.bind_ok]
    obtain ⟨hmlen0, hmag0⟩ := hMagree (mk, mv) hmk
    have hmlen : d + p.length < mk.length := hmlen0
    have hmag : ∀ j, j < p.length → mk.getD (d + j) 0 = p.getD j 0 := hmag0
    have hpm : ArtNode.pmLoop k mk (d : Int)
        (n.node.prefixLen - ((goMin maxPrefixLen n.node.prefixLen).toNat : Int)).toNat
        (goMin maxPrefixLen n.node.prefixLen).toNat = .ok j0 := by
      have h10 : min 10 p.length = 10 := by omega
      have hrem : (n.node.prefixLen -
          ((goMin maxPrefixLen n.node.prefixLen).toNat : Int)).toNat =
          p.length - 10 := by
        rw [hlim, hpl, h10]
        omega
      rw [hrem, hlim, h10]
      refine pmLoop_stop k mk (d : Int) j0 (p.length - 10) 10
        (by omega) (by omega) ?_ ?_ ?_
      · intro t ht1 ht2
        have htn : ((d : Int) + t).toNat = d + t := by omega
        refine ⟨by omega, by rw [htn]; omega, by rw [htn]; omega⟩
      · intro t ht1 ht2
        have htn : ((d : Int) + t).toNat = d + t := by omega
        rw [htn, hagree t (by omega), hmag t (by omega)]
      · have htn : ((d : Int) + j0).toNat = d + j0 := by omega
        rw [htn, hmag j0 (by omega)]
        exact hne
    rw [hpm]
    rfl

/-! ## Loop specifications: scans, binary search, shifts -/

theorem getD_set_self {α} {l : List α} {i : Nat} {a : α} (d : α)
    (h : i < l.length) : (l.set i a).getD i d = a := by
  rw [List.getD_eq_getElem _ d (by rw [List.length_set]; exact h)]
  exact List.getElem_set_self _

theorem getD_set_ne {α} {l : List α} {i j : Nat} {a : α} (d : α) (h : i ≠ j) :
    (l.set i a).getD j d = l.getD j d := by
  by_cases hj : j < l.length
  · rw [List.getD_eq_getElem _ d (by rw [List.length_set]; exact hj)]
    rw [List.getD_eq_getElem _ d hj]
    exact List.getElem_set_ne h _
  · rw [List.getD_eq_default _ d (by rw [List.length_set]; omega)]
    rw [List.getD_eq_default _ d (by omega)]

theorem foldlM_append_ok {α β : Type} {l1 : List α} {l2 : List α}
    {f : β → α → Res β} {b0 b1 : β} (h : List.foldlM f b0 l1 = .ok b1) :
    List.foldlM f b0 (l1 ++ l2) = List.foldlM f b1 l2 := by
  induction l1 generalizing b0 with
  | nil =>
    injection h with h
    rw [List.nil_append, h]
  | cons x xs ih =>
    have her : List.foldlM f b0 (x :: xs) = Res.bind (f b0 x)
        (fun b => List.foldlM f b xs) := rfl
    have her2 : List.foldlM f b0 ((x :: xs) ++ l2) = Res.bind (f b0 x)
        (fun b => List.foldlM f b (xs ++ l2)) := rfl
    rw [her] at h
    rw [her2]
    cases hx : f b0 x with
    | ok b2 =>
      rw [hx, Res.bind_ok] at h
      rw [Res.bind_ok]
      exact ih h
    | oob =>
      rw [hx] at h
      exact absurd h (by simp)
    | fuelOut =>
      rw [hx] at h
      exact absurd h (by simp)

theorem addIdxScan_spec (ks : List Nat) (b : Nat) (s L : Nat)
    (hkl : ks.length = L) (hsL : s ≤ L) :
    ∀ (rem i : Nat), i + rem = s →
    (∀ x, x < i → ¬ b < ks.getD x 0) →
    ∃ idx, ArtNode.addIdxScan ks b rem i = .ok idx ∧ i ≤ idx ∧ idx ≤ s ∧
      (∀ x, x < idx → ¬ b < ks.getD x 0) ∧
      (idx < s → b < ks.getD idx 0) := by
  intro rem
  induction rem with
  | zero =>
    intro i hi hbelow
    exact ⟨i, rfl, le_refl _, by omega, hbelow, by omega⟩
  | succ r ih =>
    intro i hi hbelow
    have hget : arrGet ks (i : Int) = .ok (ks.getD i 0) := arrGet_getD 0 (by omega)
    by_cases hb : b < ks.getD i 0
    · refine ⟨i, ?_, le_refl _, by omega, hbelow, fun _ => hb⟩
      show Res.bind (arrGet ks (i : Int)) _ = _
      rw [hget, Res.bind_ok]
      rw [if_pos hb]
    · have hmore : ∀ x, x < i + 1 → ¬ b < ks.getD x 0 := by
        intro x hx
        by_cases hxi : x < i
        · exact hbelow x hxi
        · have hxe : x = i := by omega
          rw [hxe]
          exact hb
      obtain ⟨idx, hrun, h1, h2, h3, h4⟩ := ih (i + 1) (by omega) hmore
      refine ⟨idx, ?_, by omega, h2, h3, h4⟩
      show Res.bind (arrGet ks (i : Int)) _ = _
      rw [hget, Res.bind_ok, if_neg hb]
      exact hrun

theorem sortSearchLoop_spec (f : Nat → Res Bool) (P : Nat → Bool) (n : Nat)
    (hf : ∀ x, x < n → f x = .ok (P x))
    (hmono : ∀ x y, x ≤ y → y < n → P x = true → P y = true) :
    ∀ (gap i j : Nat), i ≤ j → j ≤ n → j - i ≤ gap →
    (∀ x, x < i → P x = false) → (∀ x, j ≤ x → x < n → P x = true) →
    ∃ r, ArtNode.sortSearchLoop f gap i j = .ok r ∧ i ≤ r ∧ r ≤ j ∧
      (∀ x, x < r → P x = false) ∧ (∀ x, r ≤ x → x < n → P x = true) := by
  intro gap
  induction gap with
  | zero =>
    intro i j hij hjn hgap hlow hhigh
    have hieq : i = j := by omega
    subst hieq
    exact ⟨i, rfl, le_refl _, le_refl _, hlow, hhigh⟩
  | succ g ih =>
    intro i j hij hjn hgap hlow hhigh
    have hunf : ArtNode.sortSearchLoop f (g + 1) i j =
        (if i < j then Res.bind (f ((i + j) / 2))
          (fun x => if x = true then ArtNode.sortSearchLoop f g i ((i + j) / 2)
                    else ArtNode.sortSearchLoop f g ((i + j) / 2 + 1) j)
         else .ok i) := rfl
    by_cases hlt : i < j
    · have hfh : f ((i + j) / 2) = .ok (P ((i + j) / 2)) := hf _ (by omega)
      cases hP : P ((i + j) / 2) with
      | true =>
        have hhigh2 : ∀ x, (i + j) / 2 ≤ x → x < n → P x = true :=
          fun x hx1 hx2 => hmono _ _ hx1 hx2 hP
        obtain ⟨r, hrun, h1, h2, h3, h4⟩ := ih i ((i + j) / 2) (by omega)
          (by omega) (by omega) hlow hhigh2
        refine ⟨r, ?_, h1, by omega, h3, h4⟩
        rw [hunf, if_pos hlt, hfh, Res.bind_ok, if_pos hP]
        exact hrun
      | false =>
        have hlow2 : ∀ x, x < (i + j) / 2 + 1 → P x = false := by
          intro x hx
          by_cases hxi : x < i
          · exact hlow x hxi
          · by_contra hPx
            have hPx2 : P x = true := by
              cases hPx3 : P x
              · exact absurd hPx3 hPx
              · rfl
            have hcon := hmono x ((i + j) / 2) (by omega) (by omega) hPx2
            rw [hP] at hcon
            exact absurd hcon (by simp)
        obtain ⟨r, hrun, h1, h2, h3, h4⟩ := ih ((i + j) / 2 + 1) j (by omega)
          (by omega) (by omega) hlow2 hhigh
        refine ⟨r, ?_, by omega, h2, h3, h4⟩
        rw [hunf, if_pos hlt, hfh, Res.bind_ok, if_neg (by simp [hP])]
        exact hrun
    · have hieq : i = j := by omega
      subst hieq
      rw [hunf, if_neg hlt]
      exact ⟨i, rfl, le_refl _, le_refl _, hlow, hhigh⟩

theorem shiftRight_spec {V : Type} {L : Nat} :
    ∀ (cnt : Nat) (ks : List Nat) (cs : List (Option (ArtNode V))) (i : Int),
    ks.length = L → cs.length = L → 0 ≤ i - cnt → i < L →
    ∃ ks2 cs2, ArtNode.shiftRight cnt ks cs i = .ok (ks2, cs2) ∧
      ks2.length = L ∧ cs2.length = L ∧
      (∀ j : Nat, (j : Int) ≤ i - cnt ∨ i < j →
        ks2.getD j 0 = ks.getD j 0 ∧ cs2.getD j none = cs.getD j none) ∧
      (∀ j : Nat, i - cnt < (j : Int) → (j : Int) ≤ i →
        ks2.getD j 0 = ks.getD (j - 1) 0 ∧ cs2.getD j none = cs.getD (j - 1) none) := by
  intro cnt
  induction cnt with
  | zero =>
    intro ks cs i hkl hcl h0 hiL
    exact ⟨ks, cs, rfl, hkl, hcl, fun j _ => ⟨rfl, rfl⟩, fun j h1 h2 => by omega⟩
  | succ c ih =>
    intro ks cs i hkl hcl h0 hiL
    have hi1 : (0 : Int) ≤ i - 1 := by omega
    have hget1 : arrGet ks (i - 1) = .ok (ks.getD (i - 1).toNat 0) :=
      arrGet_ok 0 (by omega) (by omega)
    have hget2 : arrGet cs (i - 1) = .ok (cs.getD (i - 1).toNat none) :=
      arrGet_ok none (by omega) (by omega)
    have hset1 : arrSet ks i (ks.getD (i - 1).toNat 0) =
        .ok (ks.set i.toNat (ks.getD (i - 1).toNat 0)) :=
      arrSet_ok _ (by omega) (by omega)
    have hset2 : arrSet cs i (cs.getD (i - 1).toNat none) =
        .ok (cs.set i.toNat (cs.getD (i - 1).toNat none)) :=
      arrSet_ok _ (by omega) (by omega)
    obtain ⟨ks2, cs2, hrun, hl1, hl2, huns, hsh⟩ := ih
      (ks.set i.toNat (ks.getD (i - 1).toNat 0))
      (cs.set i.toNat (cs.getD (i - 1).toNat none))
      (i - 1) (by rw [List.length_set]; exact hkl)
      (by rw [List.length_set]; exact hcl) (by omega) (by omega)
    refine ⟨ks2, cs2, ?_, hl1, hl2, ?_, ?_⟩
    · show Res.bind (arrGet ks (i - 1)) _ = _
      rw [hget1, Res.bind_ok]
      show Res.bind (arrGet cs (i - 1)) _ = _
      rw [hget2, Res.bind_ok]
      show Res.bind (arrSet ks i (ks.getD (i - 1).toNat 0)) _ = _
      rw [hset1, Res.bind_ok]
      show Res.bind (arrSet cs i (cs.getD (i - 1).toNat none)) _ = _
      rw [hset2, Res.bind_ok]
      exact hrun
    · intro j hj
      have hj2 : (j : Int) ≤ (i - 1) - c ∨ i - 1 < j := by omega
      obtain ⟨e1, e2⟩ := huns j hj2
      have hne : i.toNat ≠ j := by omega
      rw [e1, e2, getD_set_ne 0 hne, getD_set_ne none hne]
      exact ⟨rfl, rfl⟩
    · intro j hj1 hj2
      by_cases hji : (j : Int) = i
      · have hji2 : j = i.toNat := by omega
        obtain ⟨e1, e2⟩ := huns j (by omega)
        rw [e1, e2, hji2]
        rw [getD_set_self 0 (by omega), getD_set_self none (by omega)]
        have : i.toNat - 1 = (i - 1).toNat := by omega
        rw [this]
        exact ⟨rfl, rfl⟩
      · obtain ⟨e1, e2⟩ := hsh j (by omega) (by omega)
        have hne : i.toNat ≠ j - 1 := by omega
        rw [e1, e2, getD_set_ne 0 hne, getD_set_ne none hne]
        exact ⟨rfl, rfl⟩

/-! ## The grow copy loops -/

theorem foldlM_singleton_ok {α β : Type} {f : β → α → Res β} {b r : β} {a : α}
    (h : f b a = .ok r) : List.foldlM f b [a] = .ok r := by
  show Res.bind (f b a) _ = _
  rw [h, Res.bind_ok]
  rfl

theorem grow4_fold {V : Type} (ks : List Nat) (cs : List (Option (ArtNode V))) :
    ∀ (s : Nat) (x : ArtNode V) (a : List Nat) (b : List (Option (ArtNode V))),
    s ≤ ks.length → s ≤ cs.length → s ≤ a.length → s ≤ b.length →
    ∃ a2 b2, List.foldlM (fun acc (i : Nat) => do
        let kv ← arrGet ks (i : Int)
        let cv ← arrGet cs (i : Int)
        let ks16 ← arrSet acc.2.1 (i : Int) kv
        let cs16 ← arrSet acc.2.2 (i : Int) cv
        pure (acc.1, ks16, cs16)) (x, a, b) (List.range s) = .ok (x, a2, b2) ∧
      a2.length = a.length ∧ b2.length = b.length ∧
      (∀ j, j < s → a2.getD j 0 = ks.getD j 0 ∧ b2.getD j none = cs.getD j none) ∧
      (∀ j, s ≤ j → a2.getD j 0 = a.getD j 0 ∧ b2.getD j none = b.getD j none) := by
  intro s
  induction s with
  | zero =>
    intro x a b _ _ _ _
    exact ⟨a, b, rfl, rfl, rfl, fun j hj => by omega, fun j _ => ⟨rfl, rfl⟩⟩
  | succ s ih =>
    intro x a b hks hcs ha hb
    obtain ⟨a2, b2, hrun, hal, hbl, hdone, hrest⟩ := ih x a b (by omega) (by omega)
      (by omega) (by omega)
    rw [List.range_succ]
    rw [foldlM_append_ok hrun]
    have hf : (fun (acc : ArtNode V × List Nat × List (Option (ArtNode V)))
        (i : Nat) => do
        let kv ← arrGet ks (i : Int)
        let cv ← arrGet cs (i : Int)
        let ks16 ← arrSet acc.2.1 (i : Int) kv
        let cs16 ← arrSet acc.2.2 (i : Int) cv
        pure (acc.1, ks16, cs16)) (x, a2, b2) s =
        .ok (x, a2.set s (ks.getD s 0), b2.set s (cs.getD s none)) := by
      show Res.bind (arrGet ks (s : Int)) _ = _
      rw [arrGet_getD 0 (by omega), Res.bind_ok]
      show Res.bind (arrGet cs (s : Int)) _ = _
      rw [arrGet_getD none (by omega), Res.bind_ok]
      show Res.bind (arrSet a2 (s : Int) (ks.getD s 0)) _ = _
      rw [arrSet_ok _ (by omega) (by omega), Res.bind_ok]
      show Res.bind (arrSet b2 (s : Int) (cs.getD s none)) _ = _
      rw [arrSet_ok _ (by omega) (by omega), Res.bind_ok]
      rfl
    refine ⟨a2.set s (ks.getD s 0), b2.set s (cs.getD s none),
      foldlM_singleton_ok hf,
      by rw [List.length_set]; exact hal, by rw [List.length_set]; exact hbl,
      ?_, ?_⟩
    · intro j hj
      by_cases hjs : j < s
      · have hne : s ≠ j := by omega
        rw [getD_set_ne 0 hne, getD_set_ne none hne]
        exact hdone j hjs
      · have hje : j = s := by omega
        subst hje
        rw [getD_set_self 0 (by omega), getD_set_self none (by omega)]
        exact ⟨rfl, rfl⟩
    · intro j hj
      have hne : s ≠ j := by omega
      rw [getD_set_ne 0 hne, getD_set_ne none hne]
      exact hrest j (by omega)

theorem grow16_fold {V : Type} (ks : List Nat) (cs : List (Option (ArtNode V))) :
    ∀ (s : Nat) (a : List Nat) (b : List (Option (ArtNode V))),
    s ≤ ks.length → s ≤ cs.length → a.length = 256 → s < b.length →
    (∀ i, i < s → ks.getD i 0 < 256) →
    (∀ i j, i < j → j < s → ks.getD i 0 < ks.getD j 0) →
    ∃ a2 b2, List.foldlM
      (fun (acc : List Nat × List (Option (ArtNode V))) (i : Nat) => do
        let kv ← arrGet ks (i : Int)
        let cv ← arrGet cs (i : Int)
        let slotv : Nat := (i + 1) % 256
        let ks48 ← arrSet acc.1 (kv : Int) slotv
        let cs48 ← arrSet acc.2 ((i : Int) + 1) cv
        pure (ks48, cs48)) (a, b) (List.range s) = .ok (a2, b2) ∧
      a2.length = 256 ∧ b2.length = b.length ∧
      (∀ i, i < s → a2.getD (ks.getD i 0) 0 = (i + 1) % 256) ∧
      (∀ bb, bb < 256 → (∀ i, i < s → ks.getD i 0 ≠ bb) →
        a2.getD bb 0 = a.getD bb 0) ∧
      (∀ j, 1 ≤ j → j ≤ s → b2.getD j none = cs.getD (j - 1) none) ∧
      (∀ j, j = 0 ∨ s < j → b2.getD j none = b.getD j none) := by
  intro s
  induction s with
  | zero =>
    intro a b _ _ hal _ _ _
    exact ⟨a, b, rfl, hal, rfl, fun i hi => by omega, fun bb _ _ => rfl,
      fun j h1 h2 => by omega, fun j _ => rfl⟩
  | succ s ih =>
    intro a b hks hcs hal hbl hby hsorted
    obtain ⟨a2, b2, hrun, hal2, hbl2, hassign, hmiss, hcopy, hbrest⟩ :=
      ih a b (by omega) (by omega) hal (by omega)
        (fun i hi => hby i (by omega))
        (fun i j hij hj => hsorted i j hij (by omega))
    rw [List.range_succ]
    rw [foldlM_append_ok hrun]
    have hbys : ks.getD s 0 < 256 := hby s (by omega)
    have hf : (fun (acc : List Nat × List (Option (ArtNode V))) (i : Nat) => do
          let kv ← arrGet ks (i : Int)
          let cv ← arrGet cs (i : Int)
          let slotv : Nat := (i + 1) % 256
          let ks48 ← arrSet acc.1 (kv : Int) slotv
          let cs48 ← arrSet acc.2 ((i : Int) + 1) cv
          pure (ks48, cs48)) (a2, b2) s =
        .ok (a2.set (ks.getD s 0) ((s + 1) % 256),
             b2.set (s + 1) (cs.getD s none)) := by
      show Res.bind (arrGet ks (s : Int)) _ = _
      rw [arrGet_getD 0 (by omega), Res.bind_ok]
      show Res.bind (arrGet cs (s : Int)) _ = _
      rw [arrGet_getD none (by omega), Res.bind_ok]
      show Res.bind (arrSet a2 ((ks.getD s 0 : Nat) : Int) ((s + 1) % 256)) _ = _
      rw [arrSet_ok _ (by omega) (by omega), Res.bind_ok]
      show Res.bind (arrSet b2 ((s : Int) + 1) (cs.getD s none)) _ = _
      have hcast : ((s : Int) + 1) = ((s + 1 : Nat) : Int) := by push_cast; ring
      rw [hcast, arrSet_ok _ (by omega) (by omega), Res.bind_ok]
      rfl
    refine ⟨_, _, foldlM_singleton_ok hf, by rw [List.length_set]; exact hal2,
      by rw [List.length_set]; exact hbl2, ?_, ?_, ?_, ?_⟩
    · intro i hi
      by_cases his : i < s
      · have hne : ks.getD s 0 ≠ ks.getD i 0 := by
          have := hsorted i s his (by omega)
          omega
        rw [getD_set_ne 0 hne]
        exact hassign i his
      · have hie : i = s := by omega
        subst hie
        rw [getD_set_self 0 (by omega)]
    · intro bb hbb hnone
      have hne : ks.getD s 0 ≠ bb := hnone s (by omega)
      rw [getD_set_ne 0 hne]
      exact hmiss bb hbb (fun i hi => hnone i (by omega))
    · intro j h1 h2
      by_cases hjs : j ≤ s
      · have hne : s + 1 ≠ j := by omega
        rw [getD_set_ne none hne]
        exact hcopy j h1 hjs
      · have hje : j = s + 1 := by omega
        subst hje
        rw [getD_set_self none (by omega)]
        congr 1
    · intro j hj
      have hne : s + 1 ≠ j := by omega
      rw [getD_set_ne none hne]
      exact hbrest j (by omega)

theorem grow48_fold {V : Type} (ks : List Nat) (cs : List (Option (ArtNode V)))
    (hkl : ks.length = 256) (hcl : cs.length = 49)
    (hslot : ∀ bb, bb < 256 → ks.getD bb 0 ≤ 48) :
    ∀ (s : Nat) (a : List (Option (ArtNode V))), s ≤ 256 → a.length = 256 →
    ∃ a2, List.foldlM (fun acc (i : Nat) => do
        if ks.getD i 0 = 0 then pure acc
        else do
          let cv ← arrGet cs ((ks.getD i 0 : Nat) : Int)
          match cv with
          | some c => arrSet acc (((i % 256 : Nat)) : Int) (some c)
          | none => pure acc) a (List.range s) = .ok a2 ∧
      a2.length = 256 ∧
      (∀ bb, bb < s → ks.getD bb 0 ≠ 0 →
        a2.getD bb none = cs.getD (ks.getD bb 0) none ∨
          (cs.getD (ks.getD bb 0) none = none ∧ a2.getD bb none = a.getD bb none)) ∧
      (∀ bb, bb < s → ks.getD bb 0 = 0 → a2.getD bb none = a.getD bb none) ∧
      (∀ bb, s ≤ bb → a2.getD bb none = a.getD bb none) := by
  intro s
  induction s with
  | zero =>
    intro a _ hal
    exact ⟨a, rfl, hal, fun bb hbb => by omega, fun bb hbb => by omega,
      fun bb _ => rfl⟩
  | succ s ih =>
    intro a hs hal
    obtain ⟨a2, hrun, hal2, hkeyed, hzero, hrest⟩ := ih a (by omega) hal
    rw [List.range_succ]
    rw [foldlM_append_ok hrun]
    by_cases hz : ks.getD s 0 = 0
    · have hf : (fun (acc : List (Option (ArtNode V))) (i : Nat) => do
          if ks.getD i 0 = 0 then pure acc
          else do
            let cv ← arrGet cs ((ks.getD i 0 : Nat) : Int)
            match cv with
            | some c => arrSet acc (((i % 256 : Nat)) : Int) (some c)
            | none => pure acc) a2 s = .ok a2 := by
        show (if ks.getD s 0 = 0 then _ else _) = _
        rw [if_pos hz]
        rfl
      refine ⟨a2, foldlM_singleton_ok hf, hal2, ?_, ?_,
        fun bb hbb => hrest bb (by omega)⟩
      · intro bb hbb hnz
        have hbs : bb < s := by
          rcases Nat.lt_succ_iff_lt_or_eq.mp hbb with h | h
          · exact h
          · subst h; exact absurd hz hnz
        exact hkeyed bb hbs hnz
      · intro bb hbb hbz
        by_cases hbs : bb < s
        · exact hzero bb hbs hbz
        · have hbe : bb = s := by omega
          subst hbe
          exact hrest bb (by omega)
    · have hsl := hslot s (by omega)
      cases hcv : cs.getD (ks.getD s 0) none with
      | some c =>
        have hsmod : s % 256 = s := Nat.mod_eq_of_lt (by omega)
        have hf : (fun (acc : List (Option (ArtNode V))) (i : Nat) => do
            if ks.getD i 0 = 0 then pure acc
            else do
              let cv ← arrGet cs ((ks.getD i 0 : Nat) : Int)
              match cv with
              | some c => arrSet acc (((i % 256 : Nat)) : Int) (some c)
              | none => pure acc) a2 s = .ok (a2.set s (some c)) := by
          show (if ks.getD s 0 = 0 then _ else _) = _
          rw [if_neg hz]
          show Res.bind (arrGet cs ((ks.getD s 0 : Nat) : Int)) _ = _
          rw [arrGet_getD none (by omega), Res.bind_ok]
          rw [hcv]
          show arrSet a2 (((s % 256 : Nat)) : Int) (some c) = _
          rw [hsmod]
          exact arrSet_ok _ (by omega) (by omega)
        refine ⟨_, foldlM_singleton_ok hf, by rw [List.length_set]; exact hal2,
          ?_, ?_, ?_⟩
        · intro bb hbb hnz
          by_cases hbs : bb < s
          · have hne : s ≠ bb := by omega
            rw [getD_set_ne none hne]
            exact hkeyed bb hbs hnz
          · have hbe : bb = s := by omega
            subst hbe
            rw [getD_set_self none (by omega)]
            left
            rw [hcv]
        · intro bb hbb hbz
          have hbs : bb < s := by
            rcases Nat.lt_succ_iff_lt_or_eq.mp hbb with h | h
            · exact h
            · subst h; exact absurd hbz hz
          have hne : s ≠ bb := by omega
          rw [getD_set_ne none hne]
          exact hzero bb hbs hbz
        · intro bb hbb
          have hne : s ≠ bb := by omega
          rw [getD_set_ne none hne]
          exact hrest bb (by omega)
      | none =>
        have hf : (fun (acc : List (Option (ArtNode V))) (i : Nat) => do
            if ks.getD i 0 = 0 then pure acc
            else do
              let cv ← arrGet cs ((ks.getD i 0 : Nat) : Int)
              match cv with
              | some c => arrSet acc (((i % 256 : Nat)) : Int) (some c)
              | none => pure acc) a2 s = .ok a2 := by
          show (if ks.getD s 0 = 0 then _ else _) = _
          rw [if_neg hz]
          show Res.bind (arrGet cs ((ks.getD s 0 : Nat) : Int)) _ = _
          rw [arrGet_getD none (by omega), Res.bind_ok]
          rw [hcv]
          rfl
        refine ⟨a2, foldlM_singleton_ok hf, hal2, ?_, ?_,
          fun bb hbb => hrest bb (by omega)⟩
        · intro bb hbb hnz
          by_cases hbs : bb < s
          · exact hkeyed bb hbs hnz
          · have hbe : bb = s := by omega
            subst hbe
            right
            exact ⟨hcv, hrest bb (by omega)⟩
        · intro bb hbb hbz
          have hbs : bb < s := by
            rcases Nat.lt_succ_iff_lt_or_eq.mp hbb with h | h
            · exact h
            · subst h; exact absurd hbz hz
          exact hzero bb hbs hbz


/-! ## grow preserves the directory -/

theorem getD_replicate {α} {n i : Nat} {a : α} :
    (List.replicate n a).getD i a = a := by
  by_cases h : i < n
  · rw [List.getD_eq_getElem _ a (by simpa using h)]
    simp
  · rw [List.getD_eq_default _ a (by simpa using h)]

theorem getD_take_append {α} {l r : List α} {k i : Nat} (d : α) (h1 : i < k)
    (h2 : i < l.length) : (l.take k ++ r).getD i d = l.getD i d := by
  rw [List.getD_eq_getElem _ d (by
    rw [List.length_append, List.length_take]
    omega)]
  rw [List.getD_eq_getElem _ d h2]
  rw [List.getElem_append_left (by rw [List.length_take]; omega)]
  simp [List.getElem_take]

theorem packedAssoc_congr {V : Type} {s : Nat} {ks1 ks2 : List Nat}
    {cs1 cs2 : List (Option (ArtNode V))}
    (h : ∀ i, i < s → ks1.getD i 0 = ks2.getD i 0 ∧ cs1.getD i none = cs2.getD i none) :
    packedAssoc s ks1 cs1 = packedAssoc s ks2 cs2 := by
  unfold packedAssoc
  refine List.filterMap_congr ?_
  intro i hi
  rw [List.mem_range] at hi
  rw [(h i hi).1, (h i hi).2]

theorem assoc_ext {V : Type} {l1 l2 : List (Nat × ArtNode V)}
    (h1 : l1.Pairwise (fun x y => x.1 < y.1))
    (h2 : l2.Pairwise (fun x y => x.1 < y.1))
    (hmem : ∀ x, x ∈ l1 ↔ x ∈ l2) : l1 = l2 := by
  haveI : IsAntisymm (Nat × ArtNode V) (fun x y => x.1 < y.1) :=
    ⟨fun a b hab hba => by omega⟩
  have nd1 : l1.Nodup := by
    haveI : IsIrrefl (Nat × ArtNode V) (fun x y => x.1 < y.1) :=
      ⟨fun a => by omega⟩
    exact h1.nodup
  have nd2 : l2.Nodup := by
    haveI : IsIrrefl (Nat × ArtNode V) (fun x y => x.1 < y.1) :=
      ⟨fun a => by omega⟩
    exact h2.nodup
  exact List.eq_of_perm_of_sorted
    ((List.perm_ext_iff_of_nodup nd1 nd2).mpr hmem) h1 h2

theorem grow_spec4 {V : Type} {m : NodeMeta} {ks : List Nat}
    {cs : List (Option (ArtNode V))} (h : PreShape (ArtNode.node4 m ks cs)) :
    ∃ g, ArtNode.grow (ArtNode.node4 m ks cs) = .ok g ∧ PreShape g ∧
      g.node.size = m.size ∧ g.node.prefixLen = m.prefixLen ∧
      g.node.prefixBytes.length = 10 ∧
      (∀ i : Nat, (i : Int) < goMin m.prefixLen maxPrefixLen →
        g.node.prefixBytes.getD i 0 = m.prefixBytes.getD i 0) ∧
      childAssoc g = childAssoc (ArtNode.node4 m ks cs) ∧
      g.node.size < g.maxSize ∧ g.minSize = node16Min := by
  obtain ⟨hkl, hcl, hpb, hmin, hmax, hfull, hpad, hsorted, hby⟩ := h
  have hmax4 : m.size ≤ 4 := by simpa [node4Max] using hmax
  obtain ⟨a2, b2, hrun, hal, hbl, hdone, hrest⟩ :=
    grow4_fold ks cs m.size.toNat
      (ArtNode.copyMeta ArtNode.newNode16 (ArtNode.node4 m ks cs))
      (List.replicate 16 0) (List.replicate 16 none)
      (by omega) (by omega) (by simp; omega) (by simp; omega)
  have hal16 : a2.length = 16 := by simpa using hal
  have hbl16 : b2.length = 16 := by simpa using hbl
  have hX : (ArtNode.copyMeta ArtNode.newNode16 (ArtNode.node4 m ks cs)).node =
      ⟨m.size, m.prefixLen,
        m.prefixBytes.take (goMin m.prefixLen maxPrefixLen).toNat ++
        (List.replicate 10 (0 : Nat)).drop (goMin m.prefixLen maxPrefixLen).toNat⟩ :=
    rfl
  have hkle : (goMin m.prefixLen maxPrefixLen).toNat ≤ 10 := by
    rw [goMin_eq]
    simp only [maxPrefixLen]
    omega
  have hbuflen : (m.prefixBytes.take (goMin m.prefixLen maxPrefixLen).toNat ++
      (List.replicate 10 (0 : Nat)).drop (goMin m.prefixLen maxPrefixLen).toNat).length
      = 10 := by
    rw [List.length_append, List.length_take, List.length_drop]
    simp [hpb]
    omega
  refine ⟨ArtNode.node16
      (ArtNode.copyMeta ArtNode.newNode16 (ArtNode.node4 m ks cs)).node a2 b2,
    ?_, ?_, ?_, ?_, ?_, ?_, ?_, ?_, rfl⟩
  · show Res.bind (List.foldlM (fun acc (i : Nat) => do
        let kv ← arrGet ks (i : Int)
        let cv ← arrGet cs (i : Int)
        let ks16 ← arrSet acc.2.1 (i : Int) kv
        let cs16 ← arrSet acc.2.2 (i : Int) cv
        pure (acc.1, ks16, cs16))
      (ArtNode.copyMeta ArtNode.newNode16 (ArtNode.node4 m ks cs),
       (List.replicate 16 0 : List Nat),
       (List.replicate 16 none : List (Option (ArtNode V))))
      (List.range m.size.toNat))
      (fun r => Res.ok (ArtNode.node16 r.1.node r.2.1 r.2.2)) = _
    rw [hrun, Res.bind_ok]
  · refine ⟨hal16, hbl16, hbuflen, hmin,
      (by show m.size ≤ node16Max; simp [node16Max]; omega), ?_, ?_, ?_, ?_⟩
    · intro i hi
      have hi2 : i < m.size.toNat := hi
      rw [(hdone i hi2).2]
      exact hfull i hi2
    · intro i hi1 hi2
      have hi1b : m.size.toNat ≤ i := hi1
      obtain ⟨e1, e2⟩ := hrest i hi1b
      rw [e1, e2]
      exact ⟨getD_replicate, getD_replicate⟩
    · intro i j hij hj
      have hj2 : j < m.size.toNat := hj
      rw [(hdone i (by omega)).1, (hdone j hj2).1]
      exact hsorted i j hij hj2
    · intro i hi
      have hi2 : i < m.size.toNat := hi
      rw [(hdone i hi2).1]
      exact hby i hi2
  · rfl
  · rfl
  · exact hbuflen
  · intro i hilt
    show (m.prefixBytes.take (goMin m.prefixLen maxPrefixLen).toNat ++
        (List.replicate 10 (0 : Nat)).drop (goMin m.prefixLen maxPrefixLen).toNat).getD
        i 0 = _
    exact getD_take_append 0 (by omega) (by omega)
  · rw [childAssoc_node16, childAssoc_node4]
    show packedAssoc m.size.toNat a2 b2 = _
    refine packedAssoc_congr ?_
    intro i hi
    exact hdone i hi
  · show m.size < node16Max
    simp [node16Max]
    omega


/-! ## grow: the N16→N48 and N48→N256 transitions -/

theorem grow_spec16 {V : Type} {m : NodeMeta} {ks : List Nat}
    {cs : List (Option (ArtNode V))} (h : PreShape (ArtNode.node16 m ks cs)) :
    ∃ g, ArtNode.grow (ArtNode.node16 m ks cs) = .ok g ∧ PreShape g ∧
      g.node.size = m.size ∧ g.node.prefixLen = m.prefixLen ∧
      g.node.prefixBytes.length = 10 ∧
      (∀ i : Nat, (i : Int) < goMin m.prefixLen maxPrefixLen →
        g.node.prefixBytes.getD i 0 = m.prefixBytes.getD i 0) ∧
      childAssoc g = childAssoc (ArtNode.node16 m ks cs) ∧
      g.node.size < g.maxSize ∧ g.minSize = node48Min := by
  have hpre := h
  obtain ⟨hkl, hcl, hpb, hmin, hmax, hfull, hpad, hsorted, hby⟩ := h
  have hmax16 : m.size ≤ 16 := by simpa [node16Max] using hmax
  obtain ⟨a2, b2, hrun, hal2, hbl2, hassign, hmiss, hcopy, hbrest⟩ :=
    grow16_fold ks cs m.size.toNat (List.replicate 256 0) (List.replicate 49 none)
      (by omega) (by omega) (by simp) (by simp; omega) hby hsorted
  have hbl49 : b2.length = 49 := by simpa using hbl2
  have hX : (ArtNode.copyMeta ArtNode.newNode48 (ArtNode.node16 m ks cs)).node =
      ⟨m.size, m.prefixLen,
        m.prefixBytes.take (goMin m.prefixLen maxPrefixLen).toNat ++
        (List.replicate 10 (0 : Nat)).drop (goMin m.prefixLen maxPrefixLen).toNat⟩ :=
    rfl
  have hkle : (goMin m.prefixLen maxPrefixLen).toNat ≤ 10 := by
    rw [goMin_eq]
    simp only [maxPrefixLen]
    omega
  have hbuflen : (m.prefixBytes.take (goMin m.prefixLen maxPrefixLen).toNat ++
      (List.replicate 10 (0 : Nat)).drop (goMin m.prefixLen maxPrefixLen).toNat).length
      = 10 := by
    rw [List.length_append, List.length_take, List.length_drop]
    simp [hpb]
    omega
  have hkeyval : ∀ i, i < m.size.toNat → a2.getD (ks.getD i 0) 0 = i + 1 := by
    intro i hi
    rw [hassign i hi]
    omega
  have hkeyiff : ∀ bb, bb < 256 →
      (a2.getD bb 0 ≠ 0 ↔ ∃ i, i < m.size.toNat ∧ ks.getD i 0 = bb) := by
    intro bb hbb
    constructor
    · intro hnz
      by_contra hng
      push_neg at hng
      rw [hmiss bb hbb (fun i hi hc => hng i hi hc)] at hnz
      exact hnz getD_replicate
    · rintro ⟨i, hi, rfl⟩
      rw [hkeyval i hi]
      omega
  have hslotle : ∀ bb, bb < 256 → a2.getD bb 0 ≤ 48 := by
    intro bb hbb
    by_cases hk : ∃ i, i < m.size.toNat ∧ ks.getD i 0 = bb
    · obtain ⟨i, hi, rfl⟩ := hk
      rw [hkeyval i hi]
      omega
    · push_neg at hk
      rw [hmiss bb hbb (fun i hi hc => hk i hi hc)]
      rw [getD_replicate]
      omega
  have hinj2 : ∀ b1 b2r, b1 < 256 → b2r < 256 → a2.getD b1 0 ≠ 0 →
      a2.getD b1 0 = a2.getD b2r 0 → b1 = b2r := by
    intro b1 b2r hb1 hb2 hnz heq
    obtain ⟨i1, hi1, hk1⟩ := (hkeyiff b1 hb1).mp hnz
    have hnz2 : a2.getD b2r 0 ≠ 0 := by rw [← heq]; exact hnz
    obtain ⟨i2, hi2, hk2⟩ := (hkeyiff b2r hb2).mp hnz2
    rw [← hk1, ← hk2] at heq
    rw [hkeyval i1 hi1, hkeyval i2 hi2] at heq
    have : i1 = i2 := by omega
    rw [← hk1, ← hk2, this]
  have hslotiff : ∀ sl, 1 ≤ sl → sl ≤ 48 →
      ((b2.getD sl none).isSome ↔ ∃ b, b < 256 ∧ a2.getD b 0 = sl) := by
    intro sl h1 h48
    by_cases hsl : sl ≤ m.size.toNat
    · constructor
      · intro _
        refine ⟨ks.getD (sl - 1) 0, hby _ (by omega), ?_⟩
        rw [hkeyval (sl - 1) (by omega)]
        omega
      · intro _
        rw [hcopy sl h1 hsl]
        exact hfull (sl - 1) (by omega)
    · constructor
      · intro hcon
        rw [hbrest sl (by omega)] at hcon
        rw [getD_replicate] at hcon
        exact absurd hcon (by simp)
      · rintro ⟨b, hb, hslot⟩
        exfalso
        by_cases hk : a2.getD b 0 ≠ 0
        · obtain ⟨i, hi, hki⟩ := (hkeyiff b hb).mp hk
          rw [← hki, hkeyval i hi] at hslot
          omega
        · push_neg at hk
          rw [hk] at hslot
          omega
  have hassoc : childAssoc (ArtNode.node48
      ⟨m.size, m.prefixLen,
        m.prefixBytes.take (goMin m.prefixLen maxPrefixLen).toNat ++
        (List.replicate 10 (0 : Nat)).drop (goMin m.prefixLen maxPrefixLen).toNat⟩
      a2 b2) = childAssoc (ArtNode.node16 m ks cs) := by
    refine assoc_ext ?_ ?_ ?_
    · rw [childAssoc_node48]
      refine filterMap_range_pairwise_fst 256 _ ?_
      intro i p hp
      by_cases hz : a2.getD i 0 = 0
      · rw [if_pos hz] at hp; exact absurd hp (by simp)
      · rw [if_neg hz] at hp
        cases hcs2 : b2.getD (a2.getD i 0) none with
        | some c2 =>
          rw [hcs2] at hp
          injection hp with hp
          rw [← hp]
        | none => rw [hcs2] at hp; exact absurd hp (by simp)
    · exact childAssoc_pairwise hpre
    · rintro ⟨bb, c⟩
      rw [n48Assoc_mem, childAssoc_node16, packedAssoc_mem]
      constructor
      · rintro ⟨hbb, hnz, hc⟩
        obtain ⟨i, hi, hki⟩ := (hkeyiff bb hbb).mp hnz
        refine ⟨i, hi, hki, ?_⟩
        rw [← hki, hkeyval i hi] at hc
        have hc2 := hcopy (i + 1) (by omega) (by omega)
        simp only [Nat.add_sub_cancel] at hc2
        rw [← hc2]
        exact hc
      · rintro ⟨i, hi, hki, hc⟩
        have hbb : bb < 256 := by rw [← hki]; exact hby i hi
        refine ⟨hbb, (hkeyiff bb hbb).mpr ⟨i, hi, hki⟩, ?_⟩
        rw [← hki, hkeyval i hi]
        rw [hcopy (i + 1) (by omega) (by omega)]
        simpa using hc
  refine ⟨ArtNode.node48
      (ArtNode.copyMeta ArtNode.newNode48 (ArtNode.node16 m ks cs)).node a2 b2,
    ?_, ?_, rfl, rfl, hbuflen, ?_, ?_, ?_, rfl⟩
  · show Res.bind (List.foldlM
      (fun (acc : List Nat × List (Option (ArtNode V))) (i : Nat) => do
        let kv ← arrGet ks (i : Int)
        let cv ← arrGet cs (i : Int)
        let slotv : Nat := (i + 1) % 256
        let ks48 ← arrSet acc.1 (kv : Int) slotv
        let cs48 ← arrSet acc.2 ((i : Int) + 1) cv
        pure (ks48, cs48))
      ((List.replicate 256 0 : List Nat),
       (List.replicate 49 none : List (Option (ArtNode V))))
      (List.range m.size.toNat))
      (fun r => Res.ok (ArtNode.node48
        (ArtNode.copyMeta ArtNode.newNode48 (ArtNode.node16 m ks cs)).node
        r.1 r.2)) = _
    rw [hrun, Res.bind_ok]
  · refine ⟨hal2, hbl49, hbuflen, hmin,
      (by show m.size ≤ node48Max; simp [node48Max]; omega), ?_, hslotle, hinj2,
      hslotiff, ?_⟩
    · rw [hbrest 0 (by omega)]
      exact getD_replicate
    · rw [hX, hassoc, childAssoc_node16]
      rw [packedAssoc_length _ _ _ hfull]
      show (m.size.toNat : Int) = m.size
      omega
  · intro i hilt
    show (m.prefixBytes.take (goMin m.prefixLen maxPrefixLen).toNat ++
        (List.replicate 10 (0 : Nat)).drop (goMin m.prefixLen maxPrefixLen).toNat).getD
        i 0 = _
    exact getD_take_append 0 (by omega) (by omega)
  · exact hassoc
  · show m.size < node48Max
    simp [node48Max]
    omega

theorem grow_spec48 {V : Type} {m : NodeMeta} {ks : List Nat}
    {cs : List (Option (ArtNode V))} (h : PreShape (ArtNode.node48 m ks cs)) :
    ∃ g, ArtNode.grow (ArtNode.node48 m ks cs) = .ok g ∧ PreShape g ∧
      g.node.size = m.size ∧ g.node.prefixLen = m.prefixLen ∧
      g.node.prefixBytes.length = 10 ∧
      (∀ i : Nat, (i : Int) < goMin m.prefixLen maxPrefixLen →
        g.node.prefixBytes.getD i 0 = m.prefixBytes.getD i 0) ∧
      childAssoc g = childAssoc (ArtNode.node48 m ks cs) ∧
      g.node.size < g.maxSize ∧ g.minSize = node256Min := by
  have hpre := h
  obtain ⟨hkl, hcl, hpb, hmin, hmax, hc0, hle48, hinj, hiff, hsz⟩ := h
  have hmax48 : m.size ≤ 48 := by simpa [node48Max] using hmax
  obtain ⟨a2, hrun, hal2, hkeyed, hzero, hrest⟩ :=
    grow48_fold ks cs hkl hcl hle48 256 (List.replicate 256 none) (by omega) (by simp)
  have hX : (ArtNode.copyMeta ArtNode.newNode256 (ArtNode.node48 m ks cs)).node =
      ⟨m.size, m.prefixLen,
        m.prefixBytes.take (goMin m.prefixLen maxPrefixLen).toNat ++
        (List.replicate 10 (0 : Nat)).drop (goMin m.prefixLen maxPrefixLen).toNat⟩ :=
    rfl
  have hkle : (goMin m.prefixLen maxPrefixLen).toNat ≤ 10 := by
    rw [goMin_eq]
    simp only [maxPrefixLen]
    omega
  have hbuflen : (m.prefixBytes.take (goMin m.prefixLen maxPrefixLen).toNat ++
      (List.replicate 10 (0 : Nat)).drop (goMin m.prefixLen maxPrefixLen).toNat).length
      = 10 := by
    rw [List.length_append, List.length_take, List.length_drop]
    simp [hpb]
    omega
  have hassoc : childAssoc (ArtNode.node256
      ⟨m.size, m.prefixLen,
        m.prefixBytes.take (goMin m.prefixLen maxPrefixLen).toNat ++
        (List.replicate 10 (0 : Nat)).drop (goMin m.prefixLen maxPrefixLen).toNat⟩
      a2) = childAssoc (ArtNode.node48 m ks cs) := by
    refine assoc_ext ?_ ?_ ?_
    · rw [childAssoc_node256]
      refine filterMap_range_pairwise_fst 256 _ ?_
      intro i p hp
      cases hcs2 : a2.getD i none with
      | some c2 =>
        rw [hcs2] at hp
        injection hp with hp
        rw [← hp]
      | none => rw [hcs2] at hp; exact absurd hp (by simp)
    · exact childAssoc_pairwise hpre
    · rintro ⟨bb, c⟩
      rw [n256Assoc_mem, n48Assoc_mem]
      constructor
      · rintro ⟨hbb, hc⟩
        by_cases hz : ks.getD bb 0 = 0
        · rw [hzero bb hbb hz] at hc
          rw [getD_replicate] at hc
          exact absurd hc (by simp)
        · refine ⟨hbb, hz, ?_⟩
          rcases hkeyed bb hbb hz with he | ⟨hn, he⟩
          · rw [← he]
            exact hc
          · rw [he] at hc
            rw [getD_replicate] at hc
            exact absurd hc (by simp)
      · rintro ⟨hbb, hz, hc⟩
        refine ⟨hbb, ?_⟩
        rcases hkeyed bb hbb hz with he | ⟨hn, he⟩
        · rw [he]
          exact hc
        · rw [hn] at hc
          exact absurd hc (by simp)
  refine ⟨ArtNode.node256
      (ArtNode.copyMeta ArtNode.newNode256 (ArtNode.node48 m ks cs)).node a2,
    ?_, ?_, rfl, rfl, hbuflen, ?_, ?_, ?_, rfl⟩
  · show Res.bind (List.foldlM (fun acc (i : Nat) => do
        if ks.getD i 0 = 0 then pure acc
        else do
          let cv ← arrGet cs ((ks.getD i 0 : Nat) : Int)
          match cv with
          | some c => arrSet acc (((i % 256 : Nat)) : Int) (some c)
          | none => pure acc)
      (List.replicate 256 none : List (Option (ArtNode V)))
      (List.range ks.length))
      (fun r => Res.ok (ArtNode.node256
        (ArtNode.copyMeta ArtNode.newNode256 (ArtNode.node48 m ks cs)).node r)) = _
    rw [hkl, hrun, Res.bind_ok]
  · refine ⟨hal2, hbuflen, hmin,
      (by show m.size ≤ node256Max; simp [node256Max]; omega), ?_⟩
    rw [hX, hassoc]
    exact hsz
  · intro i hilt
    show (m.prefixBytes.take (goMin m.prefixLen maxPrefixLen).toNat ++
        (List.replicate 10 (0 : Nat)).drop (goMin m.prefixLen maxPrefixLen).toNat).getD
        i 0 = _
    exact getD_take_append 0 (by omega) (by omega)
  · exact hassoc
  · show m.size < node256Max
    simp [node256Max]
    omega

theorem grow_spec256 {V : Type} {m : NodeMeta} {cs : List (Option (ArtNode V))}
    (h : PreShape (ArtNode.node256 m cs)) :
    ArtNode.grow (ArtNode.node256 m cs) = .ok (ArtNode.node256 m cs) := rfl


/-! ## Association-list insertion -/

theorem assocPut_mem {α} : ∀ {l : List (Nat × α)} {b : Nat} {c : α}
    {x : Nat × α}, x ∈ assocPut b c l ↔ x = (b, c) ∨ x ∈ l := by
  intro l
  induction l with
  | nil =>
    intro b c x
    simp [assocPut]
  | cons y ys ih =>
    intro b c x
    unfold assocPut
    by_cases hlt : b < y.1
    · rw [if_pos hlt]
      simp only [List.mem_cons]
    · rw [if_neg hlt]
      simp only [List.mem_cons, ih]
      tauto

theorem assocPut_length {α} : ∀ {l : List (Nat × α)} {b : Nat} {c : α},
    (assocPut b c l).length = l.length + 1 := by
  intro l
  induction l with
  | nil => intro b c; rfl
  | cons y ys ih =>
    intro b c
    unfold assocPut
    by_cases hlt : b < y.1
    · rw [if_pos hlt]
      simp
    · rw [if_neg hlt]
      simp [ih]

theorem assocPut_pairwise {α} : ∀ {l : List (Nat × α)} {b : Nat} {c : α},
    l.Pairwise (fun x y => x.1 < y.1) → (∀ p ∈ l, p.1 ≠ b) →
    (assocPut b c l).Pairwise (fun x y => x.1 < y.1) := by
  intro l
  induction l with
  | nil =>
    intro b c _ _
    simp [assocPut]
  | cons y ys ih =>
    intro b c hpw hne
    rw [List.pairwise_cons] at hpw
    unfold assocPut
    by_cases hlt : b < y.1
    · rw [if_pos hlt]
      rw [List.pairwise_cons]
      refine ⟨?_, List.pairwise_cons.mpr hpw⟩
      intro p hp
      rcases List.mem_cons.mp hp with heq | htail
      · rw [heq]
        exact hlt
      · exact lt_trans hlt (hpw.1 p htail)
    · rw [if_neg hlt]
      rw [List.pairwise_cons]
      have hyb : y.1 < b := by
        have := hne y (List.mem_cons_self y ys)
        omega
      refine ⟨?_, ih hpw.2 (fun p hp => hne p (List.mem_cons_of_mem y hp))⟩
      intro p hp
      rcases assocPut_mem.mp hp with heq | htail
      · rw [heq]
        exact hyb
      · exact hpw.1 p htail

theorem assocGet_none_not_mem {α} : ∀ {l : List (Nat × α)} {b : Nat},
    assocGet b l = none → ∀ c : α, (b, c) ∉ l := by
  intro l
  induction l with
  | nil =>
    intro b _ c
    simp
  | cons y ys ih =>
    intro b h c hmem
    unfold assocGet at h
    by_cases he : y.1 = b
    · rw [if_pos he] at h
      exact absurd h (by simp)
    · rw [if_neg he] at h
      rcases List.mem_cons.mp hmem with heq | htail
      · exact he (by rw [← heq])
      · exact ih h c htail

/-! ## Shape bridges -/

theorem preShape_inner {V : Type} {n : ArtNode V} (h : PreShape n)
    (hmin : n.minSize ≤ n.node.size) : InnerShape n := by
  cases n with
  | leaf k v => exact absurd h (by simp [PreShape])
  | node4 m ks cs =>
    obtain ⟨h1, h2, h3, _, h5, h6, h7, h8, h9⟩ := h
    exact ⟨h1, h2, h3, hmin, h5, h6, h7, h8, h9⟩
  | node16 m ks cs =>
    obtain ⟨h1, h2, h3, _, h5, h6, h7, h8, h9⟩ := h
    exact ⟨h1, h2, h3, hmin, h5, h6, h7, h8, h9⟩
  | node48 m ks cs =>
    obtain ⟨h1, h2, h3, _, h5, h6, h7, h8, h9, h10⟩ := h
    exact ⟨h1, h2, h3, hmin, h5, h6, h7, h8, h9, h10⟩
  | node256 m cs =>
    obtain ⟨h1, h2, _, h4, h5⟩ := h
    exact ⟨h1, h2, hmin, h4, h5⟩

theorem innerShape_min {V : Type} {n : ArtNode V} (h : InnerShape n) :
    n.minSize ≤ n.node.size := by
  cases n with
  | leaf k v => exact absurd h (by simp [InnerShape])
  | node4 m ks cs => exact h.2.2.2.1
  | node16 m ks cs => exact h.2.2.2.1
  | node48 m ks cs => exact h.2.2.2.1
  | node256 m cs => exact h.2.2.1

/-! ## The N48 free-slot scan -/

theorem n48FreeSlot_spec {V : Type} {cs : List (Option (ArtNode V))}
    (hcl : cs.length = 49) :
    ∀ (rem idx : Nat), idx < 49 → 49 - idx ≤ rem →
    (∃ j, idx ≤ j ∧ j < 49 ∧ cs.getD j none = none) →
    ∃ r, ArtNode.n48FreeSlot rem cs idx = .ok r ∧ idx ≤ r ∧ r < 49 ∧
      cs.getD r none = none := by
  intro rem
  induction rem with
  | zero =>
    intro idx hidx hrem _
    omega
  | succ g ih =>
    intro idx hidx hrem hex
    have hget : arrGet cs ((idx : Nat) : Int) = .ok (cs.getD idx none) :=
      arrGet_getD none (by omega)
    cases hcs : cs.getD idx none with
    | none =>
      refine ⟨idx, ?_, le_refl _, hidx, hcs⟩
      show (match arrGet cs ((idx : Nat) : Int) with
        | Res.ok none => Res.ok idx
        | Res.ok (some _) => ArtNode.n48FreeSlot g cs (idx + 1)
        | _ => Res.oob) = _
      rw [hget, hcs]
    | some c0 =>
      obtain ⟨j, hj1, hj2, hj3⟩ := hex
      have hji : j ≠ idx := by
        intro he
        rw [he, hcs] at hj3
        exact absurd hj3 (by simp)
      obtain ⟨r, hrun, h1, h2, h3⟩ := ih (idx + 1) (by omega) (by omega)
        ⟨j, by omega, hj2, hj3⟩
      refine ⟨r, ?_, by omega, h2, h3⟩
      show (match arrGet cs ((idx : Nat) : Int) with
        | Res.ok none => Res.ok idx
        | Res.ok (some _) => ArtNode.n48FreeSlot g cs (idx + 1)
        | _ => Res.oob) = _
      rw [hget, hcs]
      exact hrun

theorem n48_exists_free {V : Type} {m : NodeMeta} {ks : List Nat}
    {cs : List (Option (ArtNode V))} (h : PreShape (ArtNode.node48 m ks cs))
    (hroom : m.size < 48) : ∃ j, 1 ≤ j ∧ j < 49 ∧ cs.getD j none = none := by
  obtain ⟨hkl, hcl, hpb, hmin, hmax, hc0, hle48, hinj, hiff, hsz⟩ := h
  by_contra hno
  push_neg at hno
  have hall : ∀ j, 1 ≤ j → j ≤ 48 → (cs.getD j none).isSome := by
    intro j h1 h2
    have := hno j h1 (by omega)
    cases hj : cs.getD j none with
    | none => exact absurd hj this
    | some c => simp
  have hexb : ∀ j, 1 ≤ j → j ≤ 48 → ∃ b, b < 256 ∧ ks.getD b 0 = j := by
    intro j h1 h2
    exact (hiff j h1 h2).mp (hall j h1 h2)
  classical
  let f : Nat → Nat := fun j =>
    if hx : ∃ b, b < 256 ∧ ks.getD b 0 = j then Classical.choose hx else 0
  have hfspec : ∀ j, 1 ≤ j → j ≤ 48 → f j < 256 ∧ ks.getD (f j) 0 = j := by
    intro j h1 h2
    have hx := hexb j h1 h2
    show (if hx : ∃ b, b < 256 ∧ ks.getD b 0 = j then Classical.choose hx
          else 0) < 256 ∧ ks.getD (if hx : ∃ b, b < 256 ∧ ks.getD b 0 = j then
          Classical.choose hx else 0) 0 = j
    rw [dif_pos hx]
    exact Classical.choose_spec hx
  have hinjOn : Set.InjOn f (Finset.Icc 1 48) := by
    intro j1 hj1 j2 hj2 hfe
    rw [Finset.coe_Icc, Set.mem_Icc] at hj1 hj2
    have h1 := hfspec j1 hj1.1 hj1.2
    have h2 := hfspec j2 hj2.1 hj2.2
    rw [← h1.2, ← h2.2, hfe]
  have hsub : (Finset.Icc 1 48).image f ⊆
      ((childAssoc (ArtNode.node48 m ks cs)).map Prod.fst).toFinset := by
    intro t ht
    rw [Finset.mem_image] at ht
    obtain ⟨j, hj, hfj⟩ := ht
    subst hfj
    rw [Finset.mem_Icc] at hj
    obtain ⟨hf1, hf2⟩ := hfspec j hj.1 hj.2
    have hs := hall j hj.1 hj.2
    cases hcj : cs.getD j none with
    | none => rw [hcj] at hs; exact absurd hs (by simp)
    | some c =>
      have hmem : (f j, c) ∈ childAssoc (ArtNode.node48 m ks cs) := by
        rw [n48Assoc_mem]
        exact ⟨hf1, by rw [hf2]; omega, by rw [hf2]; exact hcj⟩
      rw [List.mem_toFinset, List.mem_map]
      exact ⟨(f j, c), hmem, rfl⟩
  have hcard1 : ((Finset.Icc 1 48).image f).card = 48 := by
    rw [Finset.card_image_of_injOn hinjOn]
    simp
  have hcard2 : ((childAssoc (ArtNode.node48 m ks cs)).map
      Prod.fst).toFinset.card ≤ 47 := by
    calc ((childAssoc (ArtNode.node48 m ks cs)).map Prod.fst).toFinset.card
        ≤ ((childAssoc (ArtNode.node48 m ks cs)).map Prod.fst).length :=
          List.toFinset_card_le _
      _ = (childAssoc (ArtNode.node48 m ks cs)).length := List.length_map _ _
      _ ≤ 47 := by omega
  have := Finset.card_le_card hsub
  omega

/-! ## A saturated N256 carries every byte -/

theorem n256_full_all_present {V : Type} {m : NodeMeta}
    {cs : List (Option (ArtNode V))} (h : PreShape (ArtNode.node256 m cs))
    (hfull : m.size = 256) {b : Nat} (hb : b < 256) :
    ∃ c, cs.getD b none = some c := by
  have hpw := childAssoc_pairwise h
  obtain ⟨hcl, hpb, hmin, hmax, hsz⟩ := h
  have hlen : (childAssoc (ArtNode.node256 m cs)).length = 256 := by omega
  have hnd : ((childAssoc (ArtNode.node256 m cs)).map Prod.fst).Nodup := by
    rw [List.nodup_iff_sublist]
    intro a hsubl
    have hpw2 : ((childAssoc (ArtNode.node256 m cs)).map Prod.fst).Pairwise
        (· < ·) := by
      rw [List.pairwise_map]
      exact hpw
    have := hpw2.sublist hsubl
    rw [List.pairwise_cons] at this
    exact absurd (this.1 a (by simp)) (by omega)
  have hsubset : ((childAssoc (ArtNode.node256 m cs)).map Prod.fst).toFinset ⊆
      Finset.range 256 := by
    intro t ht
    rw [List.mem_toFinset, List.mem_map] at ht
    obtain ⟨p, hp, hfst⟩ := ht
    have hm := n256Assoc_mem.mp (by
      show (p.1, p.2) ∈ _
      simpa using hp)
    rw [Finset.mem_range, ← hfst]
    exact hm.1
  have hcards : ((childAssoc (ArtNode.node256 m cs)).map Prod.fst).toFinset.card
      = 256 := by
    rw [List.toFinset_card_of_nodup hnd, List.length_map, hlen]
  have heq : ((childAssoc (ArtNode.node256 m cs)).map Prod.fst).toFinset =
      Finset.range 256 :=
    Finset.eq_of_subset_of_card_le hsubset (by rw [hcards]; simp)
  have hbmem : b ∈ ((childAssoc (ArtNode.node256 m cs)).map Prod.fst).toFinset := by
    rw [heq, Finset.mem_range]
    exact hb
  rw [List.mem_toFinset, List.mem_map] at hbmem
  obtain ⟨p, hp, hfst⟩ := hbmem
  have hm : (b, p.2) ∈ childAssoc (ArtNode.node256 m cs) := by
    rw [← hfst]
    simpa using hp
  exact ⟨p.2, (n256Assoc_mem.mp hm).2⟩


/-! ## Sorted insertion into the packed N4/N16 layout -/

theorem packedInsert_spec {V : Type} {ks : List Nat} {cs : List (Option (ArtNode V))}
    {L s idx b : Nat} (child : ArtNode V) (cnt : Nat) (iarg : Int)
    (hcnteq : cnt = s - idx) (hiarg : iarg = (s : Int))
    (hkl : ks.length = L) (hcl : cs.length = L) (hsL : s < L) (hidx : idx ≤ s)
    (hfull : ∀ i, i < s → (cs.getD i none).isSome)
    (hpad : ∀ i, s ≤ i → i < L → ks.getD i 0 = 0 ∧ cs.getD i none = none)
    (hsorted : ∀ i j, i < j → j < s → ks.getD i 0 < ks.getD j 0)
    (hby : ∀ i, i < s → ks.getD i 0 < 256) (hb : b < 256)
    (hlow : ∀ x, x < idx → ks.getD x 0 < b)
    (hhigh : ∀ x, idx ≤ x → x < s → b < ks.getD x 0) :
    ∃ ks2 cs2 ks3 cs3,
      ArtNode.shiftRight cnt ks cs iarg = .ok (ks2, cs2) ∧
      arrSet ks2 (idx : Int) b = .ok ks3 ∧
      arrSet cs2 (idx : Int) (some child) = .ok cs3 ∧
      ks3.length = L ∧ cs3.length = L ∧
      (∀ i, i < s + 1 → (cs3.getD i none).isSome) ∧
      (∀ i, s + 1 ≤ i → i < L → ks3.getD i 0 = 0 ∧ cs3.getD i none = none) ∧
      (∀ i j, i < j → j < s + 1 → ks3.getD i 0 < ks3.getD j 0) ∧
      (∀ i, i < s + 1 → ks3.getD i 0 < 256) ∧
      packedAssoc (s + 1) ks3 cs3 = assocPut b child (packedAssoc s ks cs) := by
  subst hcnteq
  subst hiarg
  obtain ⟨ks2, cs2, hrun, hl1, hl2, huns, hsh⟩ :=
    shiftRight_spec (L := L) (s - idx) ks cs (s : Int) hkl hcl (by omega) (by omega)
  have hset1 : arrSet ks2 (idx : Int) b = .ok (ks2.set idx b) :=
    arrSet_ok _ (by omega) (by omega)
  have hset2 : arrSet cs2 (idx : Int) (some child) =
      .ok (cs2.set idx (some child)) :=
    arrSet_ok _ (by omega) (by omega)
  set ks3 := ks2.set idx b with hks3
  set cs3 := cs2.set idx (some child) with hcs3
  have hK1 : ∀ j, j < idx →
      ks3.getD j 0 = ks.getD j 0 ∧ cs3.getD j none = cs.getD j none := by
    intro j hj
    obtain ⟨e1, e2⟩ := huns j (by left; omega)
    rw [hks3, hcs3, getD_set_ne 0 (by omega), getD_set_ne none (by omega), e1, e2]
    exact ⟨rfl, rfl⟩
  have hK2 : ks3.getD idx 0 = b ∧ cs3.getD idx none = some child := by
    rw [hks3, hcs3, getD_set_self 0 (by omega), getD_set_self none (by omega)]
    exact ⟨rfl, rfl⟩
  have hK3 : ∀ j, idx < j → j ≤ s →
      ks3.getD j 0 = ks.getD (j - 1) 0 ∧ cs3.getD j none = cs.getD (j - 1) none := by
    intro j hj1 hj2
    obtain ⟨e1, e2⟩ := hsh j (by omega) (by omega)
    rw [hks3, hcs3, getD_set_ne 0 (by omega), getD_set_ne none (by omega), e1, e2]
    exact ⟨rfl, rfl⟩
  have hK4 : ∀ j, s < j →
      ks3.getD j 0 = ks.getD j 0 ∧ cs3.getD j none = cs.getD j none := by
    intro j hj
    obtain ⟨e1, e2⟩ := huns j (by right; omega)
    rw [hks3, hcs3, getD_set_ne 0 (by omega), getD_set_ne none (by omega), e1, e2]
    exact ⟨rfl, rfl⟩
  have hfull3 : ∀ i, i < s + 1 → (cs3.getD i none).isSome := by
    intro i hi
    by_cases h1 : i < idx
    · rw [(hK1 i h1).2]
      exact hfull i (by omega)
    · by_cases h2 : i = idx
      · rw [h2, hK2.2]
        simp
      · rw [(hK3 i (by omega) (by omega)).2]
        exact hfull (i - 1) (by omega)
  have hpad3 : ∀ i, s + 1 ≤ i → i < L →
      ks3.getD i 0 = 0 ∧ cs3.getD i none = none := by
    intro i hi1 hi2
    obtain ⟨e1, e2⟩ := hK4 i (by omega)
    rw [e1, e2]
    exact hpad i (by omega) hi2
  have hKval : ∀ j, j < s + 1 → ks3.getD j 0 =
      (if j < idx then ks.getD j 0 else if j = idx then b else ks.getD (j - 1) 0) := by
    intro j hj
    by_cases h1 : j < idx
    · rw [if_pos h1]
      exact (hK1 j h1).1
    · rw [if_neg h1]
      by_cases h2 : j = idx
      · rw [if_pos h2, h2]
        exact hK2.1
      · rw [if_neg h2]
        exact (hK3 j (by omega) (by omega)).1
  have hsorted3 : ∀ i j, i < j → j < s + 1 → ks3.getD i 0 < ks3.getD j 0 := by
    intro i j hij hj
    rw [hKval i (by omega), hKval j hj]
    by_cases hi1 : i < idx
    · rw [if_pos hi1]
      by_cases hj1 : j < idx
      · rw [if_pos hj1]
        exact hsorted i j hij (by omega)
      · rw [if_neg hj1]
        by_cases hj2 : j = idx
        · rw [if_pos hj2]
          exact hlow i hi1
        · rw [if_neg hj2]
          by_cases hji : i = j - 1
          · omega
          · exact hsorted i (j - 1) (by omega) (by omega)
    · rw [if_neg hi1]
      have hji : idx < j := by omega
      rw [if_neg (show ¬ j < idx by omega), if_neg (show ¬ j = idx by omega)]
      by_cases hi2 : i = idx
      · rw [if_pos hi2]
        exact hhigh (j - 1) (by omega) (by omega)
      · rw [if_neg hi2]
        exact hsorted (i - 1) (j - 1) (by omega) (by omega)
  have hby3 : ∀ i, i < s + 1 → ks3.getD i 0 < 256 := by
    intro i hi
    rw [hKval i hi]
    by_cases h1 : i < idx
    · rw [if_pos h1]
      exact hby i (by omega)
    · rw [if_neg h1]
      by_cases h2 : i = idx
      · rw [if_pos h2]
        exact hb
      · rw [if_neg h2]
        exact hby (i - 1) (by omega)
  have hfreshOld : ∀ p ∈ packedAssoc s ks cs, p.1 ≠ b := by
    rintro ⟨x, c⟩ hp
    obtain ⟨i, hi, hki, _⟩ := packedAssoc_mem.mp hp
    show x ≠ b
    rw [← hki]
    by_cases h1 : i < idx
    · have := hlow i h1
      omega
    · have := hhigh i (by omega) hi
      omega
  refine ⟨ks2, cs2, ks3, cs3, hrun, hset1, hset2,
    (by rw [hks3, List.length_set]; omega),
    (by rw [hcs3, List.length_set]; omega),
    hfull3, hpad3, hsorted3, hby3, ?_⟩
  refine assoc_ext (packedAssoc_pairwise hfull3 hsorted3)
    (assocPut_pairwise (packedAssoc_pairwise hfull hsorted) hfreshOld) ?_
  rintro ⟨x, c⟩
  rw [packedAssoc_mem, assocPut_mem, packedAssoc_mem]
  constructor
  · rintro ⟨i, hi, hki, hci⟩
    by_cases h1 : i < idx
    · obtain ⟨e1, e2⟩ := hK1 i h1
      right
      exact ⟨i, by omega, by rw [← e1]; exact hki, by rw [← e2]; exact hci⟩
    · by_cases h2 : i = idx
      · left
        rw [h2] at hki hci
        rw [hK2.1] at hki
        rw [hK2.2] at hci
        injection hci with hci
        rw [← hki, hci]
      · obtain ⟨e1, e2⟩ := hK3 i (by omega) (by omega)
        right
        exact ⟨i - 1, by omega, by rw [← e1]; exact hki, by rw [← e2]; exact hci⟩
  · rintro (heq | ⟨i, hi, hki, hci⟩)
    · injection heq with he1 he2
      refine ⟨idx, by omega, ?_, ?_⟩
      · rw [hK2.1, he1]
      · rw [hK2.2, he2]
    · by_cases h1 : i < idx
      · obtain ⟨e1, e2⟩ := hK1 i h1
        exact ⟨i, by omega, by rw [e1]; exact hki, by rw [e2]; exact hci⟩
      · obtain ⟨e1, e2⟩ := hK3 (i + 1) (by omega) (by omega)
        refine ⟨i + 1, by omega, ?_, ?_⟩
        · rw [e1]
          simpa using hki
        · rw [e2]
          simpa using hci


/-! ## Search finds every stored pair -/

theorem innerShape_not_leaf {V : Type} {n : ArtNode V} (h : InnerShape n) :
    n.isLeaf = false := by
  cases n with
  | leaf k v => exact absurd h (by simp [InnerShape])
  | node4 m ks cs => rfl
  | node16 m ks cs => rfl
  | node48 m ks cs => rfl
  | node256 m cs => rfl

theorem WFChildren_Magree {V : Type} {l : List (Nat × ArtNode V)} {d2 d : Nat}
    {p : List Nat} {M : List (List Nat × V)} (h : WFChildren d2 d p l M) :
    ∀ kv ∈ M, d + p.length < kv.1.length ∧
      ∀ j, j < p.length → kv.1.getD (d + j) 0 = p.getD j 0 := by
  intro kv hkv
  obtain ⟨b, c, Mc, _, hmem, _, hagree⟩ := WFChildren_entry h kv hkv
  obtain ⟨h1, h2, _⟩ := hagree kv hmem
  exact ⟨h1, h2⟩

/-- Every stored pair is found by `searchHelper` with enough fuel. -/
theorem search_found {V : Type} : ∀ (d : Nat) (n : ArtNode V)
    (M : List (List Nat × V)), WF d n M → ∀ k v, (k, v) ∈ M →
    ∃ f0, ∀ fuel, f0 ≤ fuel →
      ArtNode.searchHelper fuel (some n) k (d : Int) = .ok (some v) := by
  refine WF_strong_ind _ ?_ ?_
  · intro d k0 v0 hlen hby k v hkv
    rw [List.mem_singleton] at hkv
    injection hkv with hk hv
    subst hk
    subst hv
    refine ⟨1, ?_⟩
    intro fuel hf
    cases fuel with
    | zero => omega
    | succ g =>
      show (if (ArtNode.leaf k v : ArtNode V).isLeaf = true then _ else _) = _
      rw [if_pos (show (ArtNode.leaf (V := V) k v).isLeaf = true from rfl)]
      rw [if_pos (show (ArtNode.leaf (V := V) k v).isMatch k = true by
        simp [ArtNode.isMatch])]
      rfl
  · intro d n p M hshape hpl hpb hinline hch hih k v hkv
    have hwf : WF d n M := WF.inner d n p M hshape hpl hpb hinline hch
    obtain ⟨b, c, Mc, hbc, hkMc, hwfc, hagree⟩ := WFChildren_entry hch (k, v) hkv
    obtain ⟨hklen0, hkag0, hkb0⟩ := hagree (k, v) hkMc
    have hklen : d + p.length < k.length := hklen0
    have hkag : ∀ j, j < p.length → k.getD (d + j) 0 = p.getD j 0 := hkag0
    have hkb : k.getD (d + p.length) 0 = b := hkb0
    have hMagree := WFChildren_Magree hch
    obtain ⟨f0pm, hpmrun⟩ := prefixMismatch_full hpl hinline hwf hklen hkag hMagree
    obtain ⟨f0c, hcrun⟩ := hih b c Mc hbc hwfc k v hkMc
    have hb256 : b < 256 := by
      have hbytes := (WF_keys _ _ _ hwfc (k, v) hkMc).2
      rw [← hkb]
      exact hbytes _ (getD_mem (by omega))
    refine ⟨max f0pm f0c + 1, ?_⟩
    intro fuel hf
    cases fuel with
    | zero => omega
    | succ g =>
      have hg : f0pm ≤ g ∧ f0c ≤ g := by omega
      show (if n.isLeaf = true then _ else _) = _
      rw [if_neg (by simp [innerShape_not_leaf hshape])]
      show Res.bind (ArtNode.prefixMismatch g n k (d : Int)) _ = _
      rw [hpmrun g hg.1, Res.bind_ok]
      rw [hpl]
      rw [if_neg (by simp)]
      show Res.bind (ArtNode.findChild (some n)
          (if (d : Int) + (p.length : Int) < 0 ∨
              (k.length : Int) ≤ (d : Int) + (p.length : Int) then 0
           else k.getD ((d : Int) + (p.length : Int)).toNat 0))
        (fun next => ArtNode.searchHelper g next k
          ((d : Int) + (p.length : Int) + 1)) = _
      have hir : ¬ ((d : Int) + (p.length : Int) < 0 ∨
          (k.length : Int) ≤ (d : Int) + (p.length : Int)) := by
        push_neg
        constructor <;> omega
      rw [if_neg hir]
      have htn : ((d : Int) + (p.length : Int)).toNat = d + p.length := by omega
      rw [htn, hkb]
      rw [findChild_spec (innerShape_pre hshape) hb256]
      rw [assocGet_of_mem (childAssoc_pairwise_ne (innerShape_pre hshape)) hbc]
      rw [Res.bind_ok]
      have hcast : (d : Int) + (p.length : Int) + 1 =
          ((d + p.length + 1 : Nat) : Int) := by push_cast; ring
      rw [hcast]
      exact hcrun g hg.2


/-! ## addChild: the per-variant insertion bodies -/

theorem ite_bind {α β : Type} {c : Prop} [inst : Decidable c] {x y : Res α}
    {f : α → Res β} :
    (if c then Res.bind x f else Res.bind y f) = Res.bind (if c then x else y) f := by
  by_cases h : c
  · rw [if_pos h, if_pos h]
  · rw [if_neg h, if_neg h]

theorem n48Assoc_pairwise_any {V : Type} (m : NodeMeta) (ks : List Nat)
    (cs : List (Option (ArtNode V))) :
    (childAssoc (ArtNode.node48 m ks cs)).Pairwise (fun x y => x.1 < y.1) := by
  rw [childAssoc_node48]
  refine filterMap_range_pairwise_fst 256 _ ?_
  intro i p hp
  by_cases hz : ks.getD i 0 = 0
  · rw [if_pos hz] at hp
    exact absurd hp (by simp)
  · rw [if_neg hz] at hp
    cases hcs : cs.getD (ks.getD i 0) none with
    | some c2 =>
      rw [hcs] at hp
      injection hp with hp
      rw [← hp]
    | none =>
      rw [hcs] at hp
      exact absurd hp (by simp)

theorem n256Assoc_pairwise_any {V : Type} (m : NodeMeta)
    (cs : List (Option (ArtNode V))) :
    (childAssoc (ArtNode.node256 m cs)).Pairwise (fun x y => x.1 < y.1) := by
  rw [childAssoc_node256]
  refine filterMap_range_pairwise_fst 256 _ ?_
  intro i p hp
  cases hcs : cs.getD i none with
  | some c2 =>
    rw [hcs] at hp
    injection hp with hp
    rw [← hp]
  | none =>
    rw [hcs] at hp
    exact absurd hp (by simp)

/-- A fresh byte occurs nowhere in the packed key array. -/
theorem packedFresh {V : Type} {s : Nat} {ks : List Nat}
    {cs : List (Option (ArtNode V))} {b : Nat}
    (hfresh : assocGet b (packedAssoc s ks cs) = none)
    (hfull : ∀ i, i < s → (cs.getD i none).isSome) :
    ∀ x, x < s → ks.getD x 0 ≠ b := by
  intro x hx he
  have hsome := hfull x hx
  cases hc : cs.getD x none with
  | none => rw [hc] at hsome; exact absurd hsome (by simp)
  | some c =>
    have hmem : (b, c) ∈ packedAssoc s ks cs :=
      packedAssoc_mem.mpr ⟨x, hx, he, hc⟩
    exact assocGet_none_not_mem hfresh c hmem

/-- A fresh byte is not a key of the directory. -/
theorem assocFreshNe {α : Type} {l : List (Nat × α)} {b : Nat}
    (hfresh : assocGet b l = none) : ∀ p ∈ l, p.1 ≠ b := by
  rintro ⟨x, c⟩ hp he
  have hx : x = b := he
  subst hx
  exact assocGet_none_not_mem hfresh c hp

theorem addChildOnce_node4 {V : Type} {m : NodeMeta} {ks : List Nat}
    {cs : List (Option (ArtNode V))} {b : Nat} {child : ArtNode V}
    (h : PreShape (ArtNode.node4 m ks cs)) (hb : b < 256)
    (hfresh : assocGet b (childAssoc (ArtNode.node4 m ks cs)) = none)
    (hroom : m.size < node4Max) :
    ∃ n2, ArtNode.addChildOnce (ArtNode.node4 m ks cs) b child = .ok n2 ∧
      PreShape n2 ∧ n2.node = ⟨m.size + 1, m.prefixLen, m.prefixBytes⟩ ∧
      n2.minSize = node4Min ∧ n2.maxSize = node4Max ∧
      childAssoc n2 = assocPut b child (childAssoc (ArtNode.node4 m ks cs)) := by
  obtain ⟨hkl, hcl, hpb, hmin, hmax, hfull, hpad, hsorted, hby⟩ := h
  have hroom4 : m.size < 4 := by simpa [node4Max] using hroom
  rw [childAssoc_node4] at hfresh
  have hne : ∀ x, x < m.size.toNat → ks.getD x 0 ≠ b := packedFresh hfresh hfull
  have hidx : ∃ idx, (if m.size == 0 then (.ok 0 : Res Nat)
        else ArtNode.addIdxScan ks b m.size.toNat 0) = .ok idx ∧
      idx ≤ m.size.toNat ∧
      (∀ x, x < idx → ks.getD x 0 < b) ∧
      (∀ x, idx ≤ x → x < m.size.toNat → b < ks.getD x 0) := by
    by_cases hz : m.size = 0
    · refine ⟨0, ?_, by omega, by omega, by rw [hz]; intro x _ hx2; omega⟩
      rw [if_pos (by simpa using hz)]
    · rw [if_neg (by simpa using hz)]
      obtain ⟨idx, hrun, h1, h2, h3, h4⟩ := addIdxScan_spec ks b m.size.toNat 4
        hkl (by omega) m.size.toNat 0 (by omega) (fun x hx => by omega)
      refine ⟨idx, hrun, h2, ?_, ?_⟩
      · intro x hx
        have := h3 x hx
        have := hne x (by omega)
        omega
      · intro x hx1 hx2
        by_cases hxe : x = idx
        · subst hxe
          exact h4 hx2
        · have hbi := h4 (by omega)
          exact lt_trans hbi (hsorted idx x (by omega) hx2)
  obtain ⟨idx, hidxrun, hidxle, hlow, hhigh⟩ := hidx
  obtain ⟨ks2, cs2, ks3, cs3, hshift, hset1, hset2, hl3, hl4, hfull3, hpad3,
    hsorted3, hby3, hassoc3⟩ :=
    packedInsert_spec child ((m.size - (idx : Int)).toNat) m.size
      (by omega) (by omega)
      hkl hcl (by omega) hidxle hfull hpad hsorted hby hb hlow hhigh
  refine ⟨ArtNode.node4 ⟨m.size + 1, m.prefixLen, m.prefixBytes⟩ ks3 cs3,
    ?_, ?_, rfl, rfl, rfl, ?_⟩
  · simp only [ArtNode.addChildOnce]
    by_cases hz : (m.size == 0) = true
    · rw [if_pos hz] at hidxrun
      injection hidxrun with hid
      subst hid
      rw [if_pos hz]
      show Res.bind (Res.ok 0) _ = _
      rw [Res.bind_ok]
      show Res.bind (ArtNode.shiftRight (m.size - ((0 : Nat) : Int)).toNat ks cs
        m.size) _ = _
      rw [hshift, Res.bind_ok]
      show Res.bind (arrSet ks2 ((0 : Nat) : Int) b) _ = _
      rw [hset1, Res.bind_ok]
      show Res.bind (arrSet cs2 ((0 : Nat) : Int) (some child)) _ = _
      rw [hset2, Res.bind_ok]
    · rw [if_neg hz] at hidxrun
      rw [if_neg hz]
      show Res.bind (ArtNode.addIdxScan ks b m.size.toNat 0) _ = _
      rw [hidxrun, Res.bind_ok]
      show Res.bind (ArtNode.shiftRight (m.size - (idx : Int)).toNat ks cs
        m.size) _ = _
      rw [hshift, Res.bind_ok]
      show Res.bind (arrSet ks2 (idx : Int) b) _ = _
      rw [hset1, Res.bind_ok]
      show Res.bind (arrSet cs2 (idx : Int) (some child)) _ = _
      rw [hset2, Res.bind_ok]
  · have hsz1 : (m.size + 1).toNat = m.size.toNat + 1 := by omega
    refine ⟨hl3, hl4, hpb, (by show (0 : Int) ≤ m.size + 1; omega),
      (by show m.size + 1 ≤ node4Max; simp [node4Max]; omega), ?_, ?_, ?_, ?_⟩
    · intro i hi
      have hi2 : i < (m.size + 1).toNat := hi
      exact hfull3 i (by omega)
    · intro i hi1 hi2
      have hi1b : (m.size + 1).toNat ≤ i := hi1
      exact hpad3 i (by omega) hi2
    · intro i j hij hj
      have hj2 : j < (m.size + 1).toNat := hj
      exact hsorted3 i j hij (by omega)
    · intro i hi
      have hi2 : i < (m.size + 1).toNat := hi
      exact hby3 i (by omega)
  · rw [childAssoc_node4, childAssoc_node4]
    show packedAssoc (m.size + 1).toNat ks3 cs3 = _
    have hsz1 : (m.size + 1).toNat = m.size.toNat + 1 := by omega
    rw [hsz1]
    exact hassoc3

theorem addChildOnce_node16 {V : Type} {m : NodeMeta} {ks : List Nat}
    {cs : List (Option (ArtNode V))} {b : Nat} {child : ArtNode V}
    (h : PreShape (ArtNode.node16 m ks cs)) (hb : b < 256)
    (hfresh : assocGet b (childAssoc (ArtNode.node16 m ks cs)) = none)
    (hroom : m.size < node16Max) :
    ∃ n2, ArtNode.addChildOnce (ArtNode.node16 m ks cs) b child = .ok n2 ∧
      PreShape n2 ∧ n2.node = ⟨m.size + 1, m.prefixLen, m.prefixBytes⟩ ∧
      n2.minSize = node16Min ∧ n2.maxSize = node16Max ∧
      childAssoc n2 = assocPut b child (childAssoc (ArtNode.node16 m ks cs)) := by
  obtain ⟨hkl, hcl, hpb, hmin, hmax, hfull, hpad, hsorted, hby⟩ := h
  have hroom16 : m.size < 16 := by simpa [node16Max] using hroom
  rw [childAssoc_node16] at hfresh
  have hne : ∀ x, x < m.size.toNat → ks.getD x 0 ≠ b := packedFresh hfresh hfull
  have hidx : ∃ idx, (if m.size == 0 then (.ok 0 : Res Nat)
        else ArtNode.sortSearch m.size.toNat (fun i => do
          let k ← arrGet ks ((i % 256 : Nat) : Int)
          pure (decide (b ≤ k)))) = .ok idx ∧
      idx ≤ m.size.toNat ∧
      (∀ x, x < idx → ks.getD x 0 < b) ∧
      (∀ x, idx ≤ x → x < m.size.toNat → b < ks.getD x 0) := by
    by_cases hz : m.size = 0
    · refine ⟨0, ?_, by omega, by omega, by rw [hz]; intro x _ hx2; omega⟩
      rw [if_pos (by simpa using hz)]
    · rw [if_neg (by simpa using hz)]
      obtain ⟨r, hrun, h1, h2, h3, h4⟩ :=
        sortSearchLoop_spec (fun i => do
            let k ← arrGet ks ((i % 256 : Nat) : Int)
            pure (decide (b ≤ k)))
          (fun i => decide (b ≤ ks.getD i 0)) m.size.toNat
          (by
            intro x hx
            show (do
              let k ← arrGet ks ((x % 256 : Nat) : Int)
              pure (decide (b ≤ k)) : Res Bool) = _
            have hmod : x % 256 = x := Nat.mod_eq_of_lt (by omega)
            rw [hmod, arrGet_getD 0 (by omega)]
            rfl)
          (by
            intro x y hxy hy hPx
            simp only [decide_eq_true_iff] at hPx ⊢
            by_cases hxe : x = y
            · rw [← hxe]
              exact hPx
            · exact le_trans hPx (le_of_lt (hsorted x y (by omega) hy)))
          m.size.toNat 0 m.size.toNat (by omega) (by omega) (by omega)
          (fun x hx => absurd hx (by omega))
          (fun x hx1 hx2 => absurd hx2 (by omega))
      refine ⟨r, hrun, h2, ?_, ?_⟩
      · intro x hx
        have hP := h3 x hx
        simp only [decide_eq_false_iff_not] at hP
        omega
      · intro x hx1 hx2
        have hP := h4 x hx1 hx2
        simp only [decide_eq_true_iff] at hP
        have := hne x hx2
        omega
  obtain ⟨idx, hidxrun, hidxle, hlow, hhigh⟩ := hidx
  obtain ⟨ks2, cs2, ks3, cs3, hshift, hset1, hset2, hl3, hl4, hfull3, hpad3,
    hsorted3, hby3, hassoc3⟩ :=
    packedInsert_spec child ((m.size - (idx : Int)).toNat) m.size
      (by omega) (by omega)
      hkl hcl (by omega) hidxle hfull hpad hsorted hby hb hlow hhigh
  refine ⟨ArtNode.node16 ⟨m.size + 1, m.prefixLen, m.prefixBytes⟩ ks3 cs3,
    ?_, ?_, rfl, rfl, rfl, ?_⟩
  · simp only [ArtNode.addChildOnce]
    by_cases hz : (m.size == 0) = true
    · rw [if_pos hz] at hidxrun
      injection hidxrun with hid
      subst hid
      rw [if_pos hz]
      show Res.bind (Res.ok 0) _ = _
      rw [Res.bind_ok]
      show Res.bind (ArtNode.shiftRight (m.size - ((0 : Nat) : Int)).toNat ks cs
        m.size) _ = _
      rw [hshift, Res.bind_ok]
      show Res.bind (arrSet ks2 ((0 : Nat) : Int) b) _ = _
      rw [hset1, Res.bind_ok]
      show Res.bind (arrSet cs2 ((0 : Nat) : Int) (some child)) _ = _
      rw [hset2, Res.bind_ok]
    · rw [if_neg hz] at hidxrun
      rw [if_neg hz]
      show Res.bind (ArtNode.sortSearch m.size.toNat (fun i => do
        let k ← arrGet ks ((i % 256 : Nat) : Int)
        pure (decide (b ≤ k)))) _ = _
      rw [hidxrun, Res.bind_ok]
      show Res.bind (ArtNode.shiftRight (m.size - (idx : Int)).toNat ks cs
        m.size) _ = _
      rw [hshift, Res.bind_ok]
      show Res.bind (arrSet ks2 (idx : Int) b) _ = _
      rw [hset1, Res.bind_ok]
      show Res.bind (arrSet cs2 (idx : Int) (some child)) _ = _
      rw [hset2, Res.bind_ok]
  · refine ⟨hl3, hl4, hpb, (by show (0 : Int) ≤ m.size + 1; omega),
      (by show m.size + 1 ≤ node16Max; simp [node16Max]; omega), ?_, ?_, ?_, ?_⟩
    · intro i hi
      have hi2 : i < (m.size + 1).toNat := hi
      exact hfull3 i (by omega)
    · intro i hi1 hi2
      have hi1b : (m.size + 1).toNat ≤ i := hi1
      exact hpad3 i (by omega) hi2
    · intro i j hij hj
      have hj2 : j < (m.size + 1).toNat := hj
      exact hsorted3 i j hij (by omega)
    · intro i hi
      have hi2 : i < (m.size + 1).toNat := hi
      exact hby3 i (by omega)
  · rw [childAssoc_node16, childAssoc_node16]
    show packedAssoc (m.size + 1).toNat ks3 cs3 = _
    have hsz1 : (m.size + 1).toNat = m.size.toNat + 1 := by omega
    rw [hsz1]
    exact hassoc3

theorem addChildOnce_node48 {V : Type} {m : NodeMeta} {ks : List Nat}
    {cs : List (Option (ArtNode V))} {b : Nat} {child : ArtNode V}
    (h : PreShape (ArtNode.node48 m ks cs)) (hb : b < 256)
    (hfresh : assocGet b (childAssoc (ArtNode.node48 m ks cs)) = none)
    (hroom : m.size < node48Max) :
    ∃ n2, ArtNode.addChildOnce (ArtNode.node48 m ks cs) b child = .ok n2 ∧
      PreShape n2 ∧ n2.node = ⟨m.size + 1, m.prefixLen, m.prefixBytes⟩ ∧
      n2.minSize = node48Min ∧ n2.maxSize = node48Max ∧
      childAssoc n2 = assocPut b child (childAssoc (ArtNode.node48 m ks cs)) := by
  have hpre := h
  obtain ⟨hkl, hcl, hpb, hmin, hmax, hc0, hle48, hinj, hiff, hsz⟩ := h
  have hroom48 : m.size < 48 := by simpa [node48Max] using hroom
  -- the fresh byte has no slot
  have hksb : ks.getD b 0 = 0 := by
    by_contra hnz
    have hs1 : 1 ≤ ks.getD b 0 := by omega
    have hs48 : ks.getD b 0 ≤ 48 := hle48 b hb
    have hsome := (hiff (ks.getD b 0) hs1 hs48).mpr ⟨b, hb, rfl⟩
    cases hc : cs.getD (ks.getD b 0) none with
    | none => rw [hc] at hsome; exact absurd hsome (by simp)
    | some c =>
      exact assocGet_none_not_mem hfresh c (n48Assoc_mem.mpr ⟨hb, hnz, hc⟩)
  obtain ⟨j, hj1, hj2, hj3⟩ := n48_exists_free hpre hroom48
  obtain ⟨r, hrun, hr1, hr2, hr3⟩ := n48FreeSlot_spec hcl (cs.length + 1) 1
    (by omega) (by omega) ⟨j, hj1, hj2, hj3⟩
  have hmod : r % 256 = r := Nat.mod_eq_of_lt (by omega)
  have hset1 : arrSet cs ((r : Nat) : Int) (some child) =
      .ok (cs.set r (some child)) :=
    arrSet_ok _ (by omega) (by omega)
  have hset2 : arrSet ks ((b : Nat) : Int) (r % 256) =
      .ok (ks.set b (r % 256)) :=
    arrSet_ok _ (by omega) (by omega)
  have hK : ∀ x, x < 256 → (ks.set b (r % 256)).getD x 0 =
      (if x = b then r else ks.getD x 0) := by
    intro x hx
    by_cases hxb : x = b
    · rw [if_pos hxb, hxb, getD_set_self 0 (by omega), hmod]
    · rw [if_neg hxb, getD_set_ne 0 (fun he => hxb (by omega))]
  have hC : ∀ x, (cs.set r (some child)).getD x none =
      (if x = r then some child else cs.getD x none) := by
    intro x
    by_cases hxr : x = r
    · rw [if_pos hxr, hxr, getD_set_self none (by omega)]
    · rw [if_neg hxr, getD_set_ne none (fun he => hxr (by omega))]
  -- a slot keyed by some byte is not the free slot
  have hnotr : ∀ x, x < 256 → ks.getD x 0 ≠ 0 → ks.getD x 0 ≠ r := by
    intro x hx hnz he
    have hsome := (hiff r (by omega) (by omega)).mpr ⟨x, hx, he⟩
    rw [hr3] at hsome
    exact absurd hsome (by simp)
  have hassoc : childAssoc (ArtNode.node48 ⟨m.size + 1, m.prefixLen, m.prefixBytes⟩
      (ks.set b (r % 256)) (cs.set r (some child))) =
      assocPut b child (childAssoc (ArtNode.node48 m ks cs)) := by
    refine assoc_ext (n48Assoc_pairwise_any _ _ _)
      (assocPut_pairwise (childAssoc_pairwise hpre) (assocFreshNe hfresh)) ?_
    rintro ⟨x, c⟩
    rw [n48Assoc_mem, assocPut_mem, n48Assoc_mem]
    constructor
    · rintro ⟨hx, hnz, hc⟩
      rw [hK x hx] at hnz hc
      by_cases hxb : x = b
      · rw [if_pos hxb] at hc
        rw [hC (r : Nat)] at hc
        rw [if_pos rfl] at hc
        injection hc with hc
        left
        rw [hxb, ← hc]
      · rw [if_neg hxb] at hnz hc
        rw [hC (ks.getD x 0)] at hc
        rw [if_neg (hnotr x hx hnz)] at hc
        right
        exact ⟨hx, hnz, hc⟩
    · rintro (heq | ⟨hx, hnz, hc⟩)
      · injection heq with he1 he2
        rw [he1, he2]
        refine ⟨hb, ?_, ?_⟩
        · rw [hK b hb, if_pos rfl]
          omega
        · rw [hK b hb, if_pos rfl, hC r, if_pos rfl]
      · have hxb : x ≠ b := by
          intro he
          rw [he, hksb] at hnz
          exact hnz rfl
        refine ⟨hx, ?_, ?_⟩
        · rw [hK x hx, if_neg hxb]
          exact hnz
        · rw [hK x hx, if_neg hxb, hC (ks.getD x 0),
            if_neg (hnotr x hx hnz)]
          exact hc
  refine ⟨ArtNode.node48 ⟨m.size + 1, m.prefixLen, m.prefixBytes⟩
      (ks.set b (r % 256)) (cs.set r (some child)), ?_, ?_, rfl, rfl, rfl, hassoc⟩
  · simp only [ArtNode.addChildOnce]
    show Res.bind (ArtNode.n48FreeSlot (cs.length + 1) cs 1) _ = _
    rw [hrun, Res.bind_ok]
    show Res.bind (arrSet cs ((r : Nat) : Int) (some child)) _ = _
    rw [hset1, Res.bind_ok]
    show Res.bind (arrSet ks ((b : Nat) : Int) (r % 256)) _ = _
    rw [hset2, Res.bind_ok]
  · refine ⟨(by rw [List.length_set]; exact hkl),
      (by rw [List.length_set]; exact hcl), hpb,
      (by show (0 : Int) ≤ m.size + 1; omega),
      (by show m.size + 1 ≤ node48Max; simp [node48Max]; omega), ?_, ?_, ?_, ?_, ?_⟩
    · rw [hC 0, if_neg (by omega)]
      exact hc0
    · intro x hx
      rw [hK x hx]
      by_cases hxb : x = b
      · rw [if_pos hxb]
        omega
      · rw [if_neg hxb]
        exact hle48 x hx
    · intro b1 b2 hb1 hb2 hnz he
      rw [hK b1 hb1] at hnz he
      rw [hK b2 hb2] at he
      by_cases h1 : b1 = b
      · by_cases h2 : b2 = b
        · rw [h1, h2]
        · rw [if_pos h1] at he
          rw [if_neg h2] at he
          exact absurd he.symm (hnotr b2 hb2 (by omega))
      · by_cases h2 : b2 = b
        · rw [if_neg h1] at hnz he
          rw [if_pos h2] at he
          exact absurd he (hnotr b1 hb1 hnz)
        · rw [if_neg h1] at hnz he
          rw [if_neg h2] at he
          exact hinj b1 b2 hb1 hb2 hnz he
    · intro sl hsl1 hsl2
      rw [hC sl]
      by_cases hslr : sl = r
      · rw [if_pos hslr]
        constructor
        · intro _
          refine ⟨b, hb, ?_⟩
          rw [hK b hb, if_pos rfl]
          omega
        · intro _
          simp
      · rw [if_neg hslr]
        rw [hiff sl hsl1 hsl2]
        constructor
        · rintro ⟨x, hx, he⟩
          refine ⟨x, hx, ?_⟩
          have hxb : x ≠ b := by
            intro hxe
            rw [hxe, hksb] at he
            omega
          rw [hK x hx, if_neg hxb]
          exact he
        · rintro ⟨x, hx, he⟩
          rw [hK x hx] at he
          by_cases hxb : x = b
          · rw [if_pos hxb] at he
            exact absurd he.symm hslr
          · rw [if_neg hxb] at he
            exact ⟨x, hx, he⟩
    · show ((childAssoc (ArtNode.node48 _ _ _)).length : Int) = m.size + 1
      rw [hassoc, assocPut_length]
      push_cast
      omega

theorem addChildOnce_node256 {V : Type} {m : NodeMeta}
    {cs : List (Option (ArtNode V))} {b : Nat} {child : ArtNode V}
    (h : PreShape (ArtNode.node256 m cs)) (hb : b < 256)
    (hfresh : assocGet b (childAssoc (ArtNode.node256 m cs)) = none)
    (hroom : m.size < node256Max) :
    ∃ n2, ArtNode.addChildOnce (ArtNode.node256 m cs) b child = .ok n2 ∧
      PreShape n2 ∧ n2.node = ⟨m.size + 1, m.prefixLen, m.prefixBytes⟩ ∧
      n2.minSize = node256Min ∧ n2.maxSize = node256Max ∧
      childAssoc n2 = assocPut b child (childAssoc (ArtNode.node256 m cs)) := by
  have hpre := h
  obtain ⟨hcl, hpb, hmin, hmax, hsz⟩ := h
  have hroom256 : m.size < 256 := by simpa [node256Max] using hroom
  have hcb : cs.getD b none = none := by
    cases hc : cs.getD b none with
    | none => rfl
    | some c =>
      exact absurd (n256Assoc_mem.mpr ⟨hb, hc⟩)
        (assocGet_none_not_mem hfresh c)
  have hset1 : arrSet cs ((b : Nat) : Int) (some child) =
      .ok (cs.set b (some child)) :=
    arrSet_ok _ (by omega) (by omega)
  have hC : ∀ x, (cs.set b (some child)).getD x none =
      (if x = b then some child else cs.getD x none) := by
    intro x
    by_cases hxb : x = b
    · rw [if_pos hxb, hxb, getD_set_self none (by omega)]
    · rw [if_neg hxb, getD_set_ne none (fun he => hxb (by omega))]
  have hassoc : childAssoc (ArtNode.node256 ⟨m.size + 1, m.prefixLen, m.prefixBytes⟩
      (cs.set b (some child))) =
      assocPut b child (childAssoc (ArtNode.node256 m cs)) := by
    refine assoc_ext (n256Assoc_pairwise_any _ _)
      (assocPut_pairwise (childAssoc_pairwise hpre) (assocFreshNe hfresh)) ?_
    rintro ⟨x, c⟩
    rw [n256Assoc_mem, assocPut_mem, n256Assoc_mem]
    constructor
    · rintro ⟨hx, hc⟩
      rw [hC x] at hc
      by_cases hxb : x = b
      · rw [if_pos hxb] at hc
        injection hc with hc
        left
        rw [hxb, ← hc]
      · rw [if_neg hxb] at hc
        right
        exact ⟨hx, hc⟩
    · rintro (heq | ⟨hx, hc⟩)
      · injection heq with he1 he2
        rw [he1, he2]
        refine ⟨hb, ?_⟩
        rw [hC b, if_pos rfl]
      · have hxb : x ≠ b := by
          intro he
          rw [he, hcb] at hc
          exact absurd hc (by simp)
        refine ⟨hx, ?_⟩
        rw [hC x, if_neg hxb]
        exact hc
  refine ⟨ArtNode.node256 ⟨m.size + 1, m.prefixLen, m.prefixBytes⟩
      (cs.set b (some child)), ?_, ?_, rfl, rfl, rfl, hassoc⟩
  · simp only [ArtNode.addChildOnce]
    show Res.bind (arrSet cs ((b : Nat) : Int) (some child)) _ = _
    rw [hset1, Res.bind_ok]
  · refine ⟨(by rw [List.length_set]; exact hcl), hpb,
      (by show (0 : Int) ≤ m.size + 1; omega),
      (by show m.size + 1 ≤ node256Max; simp [node256Max]; omega), ?_⟩
    show ((childAssoc (ArtNode.node256 _ _)).length : Int) = m.size + 1
    rw [hassoc, assocPut_length]
    push_cast
    omega

/-- `addChildOnce` on any shaped node with room: size bumps by one, header and
variant are kept, and the directory gains the new edge. -/
theorem addChildOnce_spec {V : Type} {n : ArtNode V} {b : Nat} {child : ArtNode V}
    (h : PreShape n) (hb : b < 256)
    (hfresh : assocGet b (childAssoc n) = none)
    (hroom : n.node.size < n.maxSize) :
    ∃ n2, ArtNode.addChildOnce n b child = .ok n2 ∧ PreShape n2 ∧
      n2.node.size = n.node.size + 1 ∧
      n2.node.prefixLen = n.node.prefixLen ∧
      n2.node.prefixBytes = n.node.prefixBytes ∧
      n2.minSize = n.minSize ∧
      childAssoc n2 = assocPut b child (childAssoc n) := by
  cases n with
  | leaf k v => exact absurd h (by simp [PreShape])
  | node4 m ks cs =>
    obtain ⟨n2, hrun, hpre, hnode, hmin, hmax, hassoc⟩ :=
      addChildOnce_node4 h hb hfresh (show m.size < node4Max from hroom)
    refine ⟨n2, hrun, hpre, ?_, ?_, ?_, ?_, hassoc⟩
    · rw [hnode]
      rfl
    · rw [hnode]
      rfl
    · rw [hnode]
      rfl
    · rw [hmin]
      rfl
  | node16 m ks cs =>
    obtain ⟨n2, hrun, hpre, hnode, hmin, hmax, hassoc⟩ :=
      addChildOnce_node16 h hb hfresh (show m.size < node16Max from hroom)
    refine ⟨n2, hrun, hpre, ?_, ?_, ?_, ?_, hassoc⟩
    · rw [hnode]
      rfl
    · rw [hnode]
      rfl
    · rw [hnode]
      rfl
    · rw [hmin]
      rfl
  | node48 m ks cs =>
    obtain ⟨n2, hrun, hpre, hnode, hmin, hmax, hassoc⟩ :=
      addChildOnce_node48 h hb hfresh (show m.size < node48Max from hroom)
    refine ⟨n2, hrun, hpre, ?_, ?_, ?_, ?_, hassoc⟩
    · rw [hnode]
      rfl
    · rw [hnode]
      rfl
    · rw [hnode]
      rfl
    · rw [hmin]
      rfl
  | node256 m cs =>
    obtain ⟨n2, hrun, hpre, hnode, hmin, hmax, hassoc⟩ :=
      addChildOnce_node256 h hb hfresh (show m.size < node256Max from hroom)
    refine ⟨n2, hrun, hpre, ?_, ?_, ?_, ?_, hassoc⟩
    · rw [hnode]
      rfl
    · rw [hnode]
      rfl
    · rw [hnode]
      rfl
    · rw [hmin]
      rfl

/-- `addChild` with a fresh byte on a shaped inner node: grows first when at
capacity, installs the child, and every structural invariant is restored. -/
theorem addChild_spec {V : Type} {n : ArtNode V} {b : Nat} {child : ArtNode V}
    (h : InnerShape n) (hb : b < 256)
    (hfresh : assocGet b (childAssoc n) = none) :
    ∃ n2, ArtNode.addChild n b child = .ok n2 ∧ InnerShape n2 ∧
      n2.node.size = n.node.size + 1 ∧
      n2.node.prefixLen = n.node.prefixLen ∧
      (∀ i : Nat, (i : Int) < goMin n.node.prefixLen maxPrefixLen →
        n2.node.prefixBytes.getD i 0 = n.node.prefixBytes.getD i 0) ∧
      childAssoc n2 = assocPut b child (childAssoc n) := by
  have hpre := innerShape_pre h
  cases n with
  | leaf k v => exact absurd h (by simp [InnerShape])
  | node4 m ks cs =>
    by_cases hf : (ArtNode.node4 (V := V) m ks cs).isFull = true
    · have hsm : m.size = node4Max := by
        simpa [ArtNode.isFull, ArtNode.node, ArtNode.maxSize] using hf
      obtain ⟨g, hgrun, hgpre, hgsz, hgpl, hgbl, hginl, hgassoc, hglt, hgmin⟩ :=
        grow_spec4 hpre
      obtain ⟨n2, hrun2, hpre2, hsz2, hpl2, hpb2, hmin2, hassoc2⟩ :=
        addChildOnce_spec hgpre hb (by rw [hgassoc]; exact hfresh) hglt
      refine ⟨n2, ?_, ?_, ?_, ?_, ?_, ?_⟩
      · simp only [ArtNode.addChild]
        rw [if_pos hf]
        show Res.bind (ArtNode.grow (ArtNode.node4 m ks cs)) _ = _
        rw [hgrun, Res.bind_ok]
        exact hrun2
      · refine preShape_inner hpre2 ?_
        rw [hmin2, hgmin, hsz2, hgsz]
        show node16Min ≤ m.size + 1
        simp [node16Min, node4Max] at hsm ⊢
        omega
      · rw [hsz2, hgsz]
        rfl
      · rw [hpl2, hgpl]
        rfl
      · intro i hi
        rw [hpb2]
        exact hginl i hi
      · rw [hassoc2, hgassoc]
    · have hsm : m.size ≠ node4Max := by
        intro he
        exact hf (by simp [ArtNode.isFull, ArtNode.node, ArtNode.maxSize, he])
      have hmax : m.size ≤ node4Max := h.2.2.2.2.1
      obtain ⟨n2, hrun2, hpre2, hsz2, hpl2, hpb2, hmin2, hassoc2⟩ :=
        addChildOnce_spec hpre hb hfresh (show m.size < node4Max by omega)
      refine ⟨n2, ?_, ?_, hsz2, hpl2, (fun i hi => by rw [hpb2]), hassoc2⟩
      · simp only [ArtNode.addChild]
        rw [if_neg hf]
        exact hrun2
      · refine preShape_inner hpre2 ?_
        rw [hmin2, hsz2]
        have h1 : (ArtNode.node4 m ks cs : ArtNode V).minSize ≤ m.size := innerShape_min h
        show (ArtNode.node4 m ks cs : ArtNode V).minSize ≤ m.size + 1
        omega
  | node16 m ks cs =>
    by_cases hf : (ArtNode.node16 (V := V) m ks cs).isFull = true
    · have hsm : m.size = node16Max := by
        simpa [ArtNode.isFull, ArtNode.node, ArtNode.maxSize] using hf
      obtain ⟨g, hgrun, hgpre, hgsz, hgpl, hgbl, hginl, hgassoc, hglt, hgmin⟩ :=
        grow_spec16 hpre
      obtain ⟨n2, hrun2, hpre2, hsz2, hpl2, hpb2, hmin2, hassoc2⟩ :=
        addChildOnce_spec hgpre hb (by rw [hgassoc]; exact hfresh) hglt
      refine ⟨n2, ?_, ?_, ?_, ?_, ?_, ?_⟩
      · simp only [ArtNode.addChild]
        rw [if_pos hf]
        show Res.bind (ArtNode.grow (ArtNode.node16 m ks cs)) _ = _
        rw [hgrun, Res.bind_ok]
        exact hrun2
      · refine preShape_inner hpre2 ?_
        rw [hmin2, hgmin, hsz2, hgsz]
        show node48Min ≤ m.size + 1
        simp [node48Min, node16Max] at hsm ⊢
        omega
      · rw [hsz2, hgsz]
        rfl
      · rw [hpl2, hgpl]
        rfl
      · intro i hi
        rw [hpb2]
        exact hginl i hi
      · rw [hassoc2, hgassoc]
    · have hsm : m.size ≠ node16Max := by
        intro he
        exact hf (by simp [ArtNode.isFull, ArtNode.node, ArtNode.maxSize, he])
      have hmax : m.size ≤ node16Max := h.2.2.2.2.1
      obtain ⟨n2, hrun2, hpre2, hsz2, hpl2, hpb2, hmin2, hassoc2⟩ :=
        addChildOnce_spec hpre hb hfresh (show m.size < node16Max by omega)
      refine ⟨n2, ?_, ?_, hsz2, hpl2, (fun i hi => by rw [hpb2]), hassoc2⟩
      · simp only [ArtNode.addChild]
        rw [if_neg hf]
        exact hrun2
      · refine preShape_inner hpre2 ?_
        rw [hmin2, hsz2]
        have h1 : (ArtNode.node16 m ks cs : ArtNode V).minSize ≤ m.size := innerShape_min h
        show (ArtNode.node16 m ks cs : ArtNode V).minSize ≤ m.size + 1
        omega
  | node48 m ks cs =>
    by_cases hf : (ArtNode.node48 (V := V) m ks cs).isFull = true
    · have hsm : m.size = node48Max := by
        simpa [ArtNode.isFull, ArtNode.node, ArtNode.maxSize] using hf
      obtain ⟨g, hgrun, hgpre, hgsz, hgpl, hgbl, hginl, hgassoc, hglt, hgmin⟩ :=
        grow_spec48 hpre
      obtain ⟨n2, hrun2, hpre2, hsz2, hpl2, hpb2, hmin2, hassoc2⟩ :=
        addChildOnce_spec hgpre hb (by rw [hgassoc]; exact hfresh) hglt
      refine ⟨n2, ?_, ?_, ?_, ?_, ?_, ?_⟩
      · simp only [ArtNode.addChild]
        rw [if_pos hf]
        show Res.bind (ArtNode.grow (ArtNode.node48 m ks cs)) _ = _
        rw [hgrun, Res.bind_ok]
        exact hrun2
      · refine preShape_inner hpre2 ?_
        rw [hmin2, hgmin, hsz2, hgsz]
        show node256Min ≤ m.size + 1
        simp [node256Min, node48Max] at hsm ⊢
        omega
      · rw [hsz2, hgsz]
        rfl
      · rw [hpl2, hgpl]
        rfl
      · intro i hi
        rw [hpb2]
        exact hginl i hi
      · rw [hassoc2, hgassoc]
    · have hsm : m.size ≠ node48Max := by
        intro he
        exact hf (by simp [ArtNode.isFull, ArtNode.node, ArtNode.maxSize, he])
      have hmax : m.size ≤ node48Max := h.2.2.2.2.1
      obtain ⟨n2, hrun2, hpre2, hsz2, hpl2, hpb2, hmin2, hassoc2⟩ :=
        addChildOnce_spec hpre hb hfresh (show m.size < node48Max by omega)
      refine ⟨n2, ?_, ?_, hsz2, hpl2, (fun i hi => by rw [hpb2]), hassoc2⟩
      · simp only [ArtNode.addChild]
        rw [if_neg hf]
        exact hrun2
      · refine preShape_inner hpre2 ?_
        rw [hmin2, hsz2]
        have h1 : (ArtNode.node48 m ks cs : ArtNode V).minSize ≤ m.size := innerShape_min h
        show (ArtNode.node48 m ks cs : ArtNode V).minSize ≤ m.size + 1
        omega
  | node256 m cs =>
    by_cases hf : (ArtNode.node256 (V := V) m cs).isFull = true
    · exfalso
      have hsm : m.size = node256Max := by
        simpa [ArtNode.isFull, ArtNode.node, ArtNode.maxSize] using hf
      obtain ⟨c, hc⟩ := n256_full_all_present hpre
        (by simpa [node256Max] using hsm) hb
      exact assocGet_none_not_mem hfresh c (n256Assoc_mem.mpr ⟨hb, hc⟩)
    · have hsm : m.size ≠ node256Max := by
        intro he
        exact hf (by simp [ArtNode.isFull, ArtNode.node, ArtNode.maxSize, he])
      have hmax : m.size ≤ node256Max := h.2.2.2.1
      obtain ⟨n2, hrun2, hpre2, hsz2, hpl2, hpb2, hmin2, hassoc2⟩ :=
        addChildOnce_spec hpre hb hfresh (show m.size < node256Max by omega)
      refine ⟨n2, ?_, ?_, hsz2, hpl2, (fun i hi => by rw [hpb2]), hassoc2⟩
      · simp only [ArtNode.addChild]
        rw [if_neg hf]
        exact hrun2
      · refine preShape_inner hpre2 ?_
        rw [hmin2, hsz2]
        have h1 : (ArtNode.node256 m cs : ArtNode V).minSize ≤ m.size := innerShape_min h
        show (ArtNode.node256 m cs : ArtNode V).minSize ≤ m.size + 1
        omega

/-! ## The spec's claimed checkers hold on shaped nodes -/

theorem lexLt_singleton {x y : Nat} (h : x < y) : lexLt [x] [y] = true := by
  show (if x < y then true else if y < x then false else lexLt [] []) = true
  rw [if_pos h]

theorem ascending_of_pairwise : ∀ {l : List (List Nat)},
    l.Pairwise (fun a b => lexLt a b = true) → ascending l = true := by
  intro l
  induction l with
  | nil => intro _; rfl
  | cons a t ih =>
    intro h
    rw [List.pairwise_cons] at h
    cases t with
    | nil => rfl
    | cons b r =>
      show (lexLt a b && ascending (b :: r)) = true
      rw [Bool.and_eq_true]
      exact ⟨h.1 b (by simp), ih h.2⟩

theorem sizeBoundsOK_of_shape {V : Type} {n : ArtNode V} (h : InnerShape n) :
    sizeBoundsOK n = true := by
  have h1 := innerShape_min h
  cases n with
  | leaf k v => rfl
  | node4 m ks cs =>
    have h2 : m.size ≤ node4Max := h.2.2.2.2.1
    simp only [sizeBoundsOK, Bool.and_eq_true, decide_eq_true_iff]
    exact ⟨h1, h2⟩
  | node16 m ks cs =>
    have h2 : m.size ≤ node16Max := h.2.2.2.2.1
    simp only [sizeBoundsOK, Bool.and_eq_true, decide_eq_true_iff]
    exact ⟨h1, h2⟩
  | node48 m ks cs =>
    have h2 : m.size ≤ node48Max := h.2.2.2.2.1
    simp only [sizeBoundsOK, Bool.and_eq_true, decide_eq_true_iff]
    exact ⟨h1, h2⟩
  | node256 m cs =>
    have h2 : m.size ≤ node256Max := h.2.2.2.1
    simp only [sizeBoundsOK, Bool.and_eq_true, decide_eq_true_iff]
    exact ⟨h1, h2⟩

theorem packed_strict_ascending {s : Nat} {ks : List Nat}
    (hsorted : ∀ i j, i < j → j < s → ks.getD i 0 < ks.getD j 0) :
    ascending ((List.range s).map (fun i => [ks.getD i 0])) = true := by
  refine ascending_of_pairwise ?_
  rw [List.pairwise_iff_getElem]
  intro i j hi hj hij
  simp only [List.length_map, List.length_range] at hi hj
  simp only [List.getElem_map, List.getElem_range]
  exact lexLt_singleton (hsorted i j hij hj)

theorem strictKeysOK_of_shape {V : Type} {n : ArtNode V} (h : InnerShape n) :
    strictKeysOK n = true := by
  cases n with
  | leaf k v => rfl
  | node4 m ks cs => exact packed_strict_ascending h.2.2.2.2.2.2.2.1
  | node16 m ks cs => exact packed_strict_ascending h.2.2.2.2.2.2.2.1
  | node48 m ks cs => rfl
  | node256 m cs => rfl


/-! ## Lexicographic order on stored keys -/

theorem lexLt_cons_same (x : Nat) (u w : List Nat) :
    lexLt (x :: u) (x :: w) = lexLt u w := by
  show (if x < x then true else if x < x then false else lexLt u w) = lexLt u w
  rw [if_neg (lt_irrefl x), if_neg (lt_irrefl x)]

theorem lexLt_cons_lt {a b : Nat} (h : a < b) (u w : List Nat) :
    lexLt (a :: u) (b :: w) = true := by
  show (if a < b then true else if b < a then false else lexLt u w) = true
  rw [if_pos h]

/-- Agreement on `[d, e)` lifts a tail comparison at `e` to one at `d`. -/
theorem lexLt_lift_agree : ∀ (c d e : Nat) (k1 k2 : List Nat), e - d = c →
    d ≤ e → e ≤ k1.length → e ≤ k2.length →
    (∀ j, d ≤ j → j < e → k1.getD j 0 = k2.getD j 0) →
    lexLt (k1.drop e) (k2.drop e) = true →
    lexLt (k1.drop d) (k2.drop d) = true := by
  intro c
  induction c with
  | zero =>
    intro d e k1 k2 hc hde _ _ _ htail
    have : d = e := by omega
    rw [this]
    exact htail
  | succ c ih =>
    intro d e k1 k2 hc hde hl1 hl2 hagree htail
    have hdlt : d < e := by omega
    have hd1 : d < k1.length := by omega
    have hd2 : d < k2.length := by omega
    rw [List.drop_eq_getElem_cons hd1, List.drop_eq_getElem_cons hd2]
    have he : k1[d] = k2[d] := by
      have := hagree d (le_refl d) hdlt
      rw [List.getD_eq_getElem k1 0 hd1, List.getD_eq_getElem k2 0 hd2] at this
      exact this
    rw [he, lexLt_cons_same]
    exact ih (d + 1) e k1 k2 (by omega) (by omega) hl1 hl2
      (fun j hj1 hj2 => hagree j (by omega) hj2) htail

/-- Agreement on `[d, e)` and a strict byte difference at `e` give the
lexicographic order from `d`. -/
theorem lexLt_agree_then_lt {d e : Nat} {k1 k2 : List Nat}
    (hde : d ≤ e) (hl1 : e < k1.length) (hl2 : e < k2.length)
    (hagree : ∀ j, d ≤ j → j < e → k1.getD j 0 = k2.getD j 0)
    (hlt : k1.getD e 0 < k2.getD e 0) :
    lexLt (k1.drop d) (k2.drop d) = true := by
  refine lexLt_lift_agree (e - d) d e k1 k2 rfl hde (by omega) (by omega) hagree ?_
  rw [List.drop_eq_getElem_cons hl1, List.drop_eq_getElem_cons hl2]
  rw [List.getD_eq_getElem k1 0 hl1, List.getD_eq_getElem k2 0 hl2] at hlt
  exact lexLt_cons_lt hlt _ _

/-! ## A well-formed subtree stores its keys in ascending order -/

theorem WFChildren_sorted {V : Type} {d2 d : Nat} {p : List Nat} :
    ∀ {l : List (Nat × ArtNode V)} {M : List (List Nat × V)},
    WFChildren d2 d p l M →
    l.Pairwise (fun x y => x.1 < y.1) →
    (∀ b c Mc, (b, c) ∈ l → WF d2 c Mc →
      (Mc.map Prod.fst).Pairwise
        (fun k1 k2 => lexLt (k1.drop d2) (k2.drop d2) = true)) →
    d2 = d + p.length + 1 →
    (M.map Prod.fst).Pairwise
      (fun k1 k2 => lexLt (k1.drop d) (k2.drop d) = true) := by
  intro l
  induction l with
  | nil =>
    intro M hch _ _ _
    rw [WFChildren_nil_inv hch]
    simp
  | cons hd rest ih =>
    intro M hch hpw hsub hd2
    obtain ⟨b, c⟩ := hd
    obtain ⟨Mc, Mr, hM, hwfc, hagree, hrest⟩ := WFChildren_cons_inv hch
    subst hM
    rw [List.pairwise_cons] at hpw
    rw [List.map_append, List.pairwise_append]
    refine ⟨?_, ?_, ?_⟩
    · -- within the first child: lift the child's order through the shared
      -- path and edge byte
      have hMc := hsub b c Mc (by simp) hwfc
      refine List.Pairwise.imp_of_mem ?_ hMc
      intro k1 k2 hk1 hk2 hlt
      rw [List.mem_map] at hk1 hk2
      obtain ⟨kv1, hkv1, he1⟩ := hk1
      obtain ⟨kv2, hkv2, he2⟩ := hk2
      obtain ⟨ha1, hb1, hc1⟩ := hagree kv1 hkv1
      obtain ⟨ha2, hb2, hc2⟩ := hagree kv2 hkv2
      rw [← he1, ← he2]
      refine lexLt_lift_agree (d2 - d) d d2 kv1.1 kv2.1 rfl (by omega)
        (by omega) (by omega) ?_ (by rw [he1, he2]; exact hlt)
      intro j hj1 hj2
      by_cases hjp : j < d + p.length
      · have hjd : j = d + (j - d) := by omega
        rw [hjd, hb1 (j - d) (by omega), hb2 (j - d) (by omega)]
      · have hje : j = d + p.length := by omega
        rw [hje, hc1, hc2]
    · -- within the remaining children
      refine ih hrest hpw.2 ?_ hd2
      intro b' c' Mc' hmem hwf
      exact hsub b' c' Mc' (by simp [hmem]) hwf
    · -- across: the edge byte of the first child is smaller
      intro k1 hk1 k2 hk2
      rw [List.mem_map] at hk1 hk2
      obtain ⟨kv1, hkv1, he1⟩ := hk1
      obtain ⟨kv2, hkv2, he2⟩ := hk2
      obtain ⟨ha1, hb1, hc1⟩ := hagree kv1 hkv1
      obtain ⟨b', c', Mc', hmem', hkv2', hwf', hagree'⟩ :=
        WFChildren_entry hrest kv2 hkv2
      obtain ⟨ha2, hb2, hc2⟩ := hagree' kv2 hkv2'
      have hbb : b < b' := hpw.1 (b', c') hmem'
      rw [← he1, ← he2]
      refine lexLt_agree_then_lt (e := d + p.length) (by omega) (by omega)
        (by omega) ?_ ?_
      · intro j hj1 hj2
        have hjd : j = d + (j - d) := by omega
        rw [hjd, hb1 (j - d) (by omega), hb2 (j - d) (by omega)]
      · rw [hc1, hc2]
        exact hbb

/-- The map of a well-formed subtree at depth `d`, compared beyond `d`, is
strictly ascending. -/
theorem WF_sorted {V : Type} : ∀ (d : Nat) (n : ArtNode V)
    (M : List (List Nat × V)), WF d n M →
    (M.map Prod.fst).Pairwise
      (fun k1 k2 => lexLt (k1.drop d) (k2.drop d) = true) := by
  refine WF_strong_ind _ ?_ ?_
  · intro d k v _ _
    simp
  · intro d n p M hshape hpl hpb hinline hch hih
    exact WFChildren_sorted hch
      (childAssoc_pairwise (innerShape_pre hshape)) hih rfl


/-! ## `Each`: the visit list of a well-formed tree -/

theorem eachList_none {V : Type} {fuel : Nat} (h : 1 ≤ fuel) :
    ArtNode.eachList fuel (none : Option (ArtNode V)) = .ok [] := by
  cases fuel with
  | zero => omega
  | succ g => rfl

/-- The accumulator fold of `eachHelper` over the plain child arrays. -/
theorem eachFold_packed {V : Type} (fuel : Nat) (hf : 1 ≤ fuel) {ks : List Nat}
    {cs : List (Option (ArtNode V))} {L s : Nat} (hcl : cs.length = L)
    (hsL : s ≤ L)
    (hfull : ∀ i, i < s → (cs.getD i none).isSome)
    (hpad : ∀ i, s ≤ i → i < L → ks.getD i 0 = 0 ∧ cs.getD i none = none) :
    ∀ (cnt lo : Nat), lo + cnt = L →
    ∀ (prs : List (List (ArtNode V))),
    List.Forall₂ (fun (bc : Nat × ArtNode V) (r : List (ArtNode V)) =>
        ArtNode.eachList fuel (some bc.2) = .ok r)
      ((List.range' lo (s - lo)).filterMap (fun i =>
        match cs.getD i none with
        | some c => some (ks.getD i 0, c)
        | none => none)) prs →
    ∀ acc, List.foldlM (fun acc c => do
        pure (acc ++ (← ArtNode.eachList fuel c))) acc (cs.drop lo)
      = .ok (acc ++ prs.flatten) := by
  intro cnt
  induction cnt with
  | zero =>
    intro lo hlo prs hF2 acc
    have hdrop : cs.drop lo = [] := by
      rw [List.drop_eq_nil_iff]
      omega
    have hslo : s - lo = 0 := by omega
    rw [hslo] at hF2
    cases hF2 with
    | nil =>
      rw [hdrop]
      simp
  | succ c ih =>
    intro lo hlo prs hF2 acc
    have hlos : lo < L := by omega
    have hlo2 : lo < cs.length := by omega
    rw [List.drop_eq_getElem_cons hlo2]
    have hcons : List.foldlM (fun acc c => do
        pure (acc ++ (← ArtNode.eachList fuel c))) acc
        (cs[lo] :: cs.drop (lo + 1)) =
      Res.bind (Res.bind (ArtNode.eachList fuel cs[lo])
        (fun r => Res.ok (acc ++ r)))
        (fun a2 => List.foldlM (fun acc c => do
          pure (acc ++ (← ArtNode.eachList fuel c))) a2 (cs.drop (lo + 1))) := rfl
    rw [hcons]
    by_cases hlt : lo < s
    · -- an occupied slot: the directory has an entry here
      have hrange : List.range' lo (s - lo) =
          lo :: List.range' (lo + 1) (s - (lo + 1)) := by
        have h1 : s - lo = (s - (lo + 1)) + 1 := by omega
        rw [h1, List.range'_succ]
      rw [hrange] at hF2
      have hsome := hfull lo hlt
      cases hc : cs.getD lo none with
      | none => rw [hc] at hsome; exact absurd hsome (by simp)
      | some ch =>
        rw [List.filterMap_cons] at hF2
        rw [hc] at hF2
        cases hF2 with
        | cons hhd htl =>
          rename_i r prsr
          have hhd2 : ArtNode.eachList fuel (some ch) = .ok r := hhd
          have hel : cs[lo] = some ch := by
            rw [← List.getD_eq_getElem cs none hlo2]
            exact hc
          rw [hel]
          rw [hhd2, Res.bind_ok, Res.bind_ok]
          rw [ih (lo + 1) (by omega) prsr htl (acc ++ r)]
          simp
    · -- padding: a nil child contributes nothing
      have hrange : s - lo = 0 := by omega
      rw [hrange] at hF2
      cases hF2 with
      | nil =>
        have hel : cs[lo] = none := by
          rw [← List.getD_eq_getElem cs none hlo2]
          exact (hpad lo (by omega) hlos).2
        rw [hel]
        rw [eachList_none hf, Res.bind_ok, Res.bind_ok]
        rw [ih (lo + 1) (by omega) [] (by
          have : s - (lo + 1) = 0 := by omega
          rw [this]
          exact List.Forall₂.nil) (acc ++ [])]
        simp

/-- The slot-table fold of `eachHelper` on an N48. -/
theorem eachFold_n48 {V : Type} (fuel : Nat) {ks : List Nat}
    {cs : List (Option (ArtNode V))} (hkl : ks.length = 256) (hcl : cs.length = 49)
    (hle48 : ∀ b, b < 256 → ks.getD b 0 ≤ 48) :
    ∀ (cnt lo : Nat), lo + cnt = 256 →
    ∀ (prs : List (List (ArtNode V))),
    List.Forall₂ (fun (bc : Nat × ArtNode V) (r : List (ArtNode V)) =>
        ArtNode.eachList fuel (some bc.2) = .ok r)
      ((List.range' lo cnt).filterMap (fun b =>
        if ks.getD b 0 = 0 then none
        else match cs.getD (ks.getD b 0) none with
          | some c => some (b, c)
          | none => none)) prs →
    ∀ acc, List.foldlM (fun acc (i : Nat) => do
        if 0 < i then
          match ← arrGet cs (i : Int) with
          | some next => do pure (acc ++ (← ArtNode.eachList fuel (some next)))
          | none => pure acc
        else pure acc) acc (ks.drop lo)
      = .ok (acc ++ prs.flatten) := by
  intro cnt
  induction cnt with
  | zero =>
    intro lo hlo prs hF2 acc
    have hdrop : ks.drop lo = [] := by
      rw [List.drop_eq_nil_iff]
      omega
    cases hF2 with
    | nil =>
      rw [hdrop]
      simp
  | succ c ih =>
    intro lo hlo prs hF2 acc
    have hlo2 : lo < ks.length := by omega
    rw [List.drop_eq_getElem_cons hlo2]
    rw [List.range'_succ, List.filterMap_cons] at hF2
    have hel : ks[lo] = ks.getD lo 0 := by
      rw [List.getD_eq_getElem ks 0 hlo2]
    have hcons : List.foldlM (fun acc (i : Nat) => do
        if 0 < i then
          match ← arrGet cs (i : Int) with
          | some next => do pure (acc ++ (← ArtNode.eachList fuel (some next)))
          | none => pure acc
        else pure acc) acc (ks[lo] :: ks.drop (lo + 1)) =
      Res.bind (if 0 < ks[lo] then
          Res.bind (arrGet cs ((ks[lo] : Nat) : Int)) (fun cv =>
            match cv with
            | some next => Res.bind (ArtNode.eachList fuel (some next))
                (fun r => Res.ok (acc ++ r))
            | none => Res.ok acc)
        else Res.ok acc)
        (fun a2 => List.foldlM (fun acc (i : Nat) => do
          if 0 < i then
            match ← arrGet cs (i : Int) with
            | some next => do pure (acc ++ (← ArtNode.eachList fuel (some next)))
            | none => pure acc
          else pure acc) a2 (ks.drop (lo + 1))) := rfl
    rw [hcons]
    by_cases hz : ks.getD lo 0 = 0
    · rw [if_pos hz] at hF2
      rw [if_neg (by rw [hel, hz]; omega)]
      rw [Res.bind_ok]
      exact ih (lo + 1) (by omega) prs hF2 acc
    · rw [if_neg hz] at hF2
      have hget : arrGet cs ((ks.getD lo 0 : Nat) : Int) =
          .ok (cs.getD (ks.getD lo 0) none) := by
        refine arrGet_getD none ?_
        have := hle48 lo (by omega)
        omega
      cases hc : cs.getD (ks.getD lo 0) none with
      | none =>
        rw [hc] at hF2
        rw [if_pos (by rw [hel]; omega)]
        rw [hel, hget, hc, Res.bind_ok]
        show Res.bind (Res.ok acc) _ = _
        rw [Res.bind_ok]
        exact ih (lo + 1) (by omega) prs hF2 acc
      | some ch =>
        rw [hc] at hF2
        cases hF2 with
        | cons hhd htl =>
          rename_i r prsr
          have hhd2 : ArtNode.eachList fuel (some ch) = .ok r := hhd
          rw [if_pos (by rw [hel]; omega)]
          rw [hel, hget, hc, Res.bind_ok]
          show Res.bind (Res.bind (ArtNode.eachList fuel (some ch))
            (fun r => Res.ok (acc ++ r))) _ = _
          rw [hhd2, Res.bind_ok, Res.bind_ok]
          rw [ih (lo + 1) (by omega) prsr htl (acc ++ r)]
          simp

/-- The child fold of `eachHelper` on an N256. -/
theorem eachFold_n256 {V : Type} (fuel : Nat) (hf : 1 ≤ fuel)
    {cs : List (Option (ArtNode V))} (hcl : cs.length = 256) :
    ∀ (cnt lo : Nat), lo + cnt = 256 →
    ∀ (prs : List (List (ArtNode V))),
    List.Forall₂ (fun (bc : Nat × ArtNode V) (r : List (ArtNode V)) =>
        ArtNode.eachList fuel (some bc.2) = .ok r)
      ((List.range' lo cnt).filterMap (fun b =>
        match cs.getD b none with
        | some c => some (b, c)
        | none => none)) prs →
    ∀ acc, List.foldlM (fun acc c => do
        pure (acc ++ (← ArtNode.eachList fuel c))) acc (cs.drop lo)
      = .ok (acc ++ prs.flatten) := by
  intro cnt
  induction cnt with
  | zero =>
    intro lo hlo prs hF2 acc
    have hdrop : cs.drop lo = [] := by
      rw [List.drop_eq_nil_iff]
      omega
    cases hF2 with
    | nil =>
      rw [hdrop]
      simp
  | succ c ih =>
    intro lo hlo prs hF2 acc
    have hlo2 : lo < cs.length := by omega
    rw [List.drop_eq_getElem_cons hlo2]
    rw [List.range'_succ, List.filterMap_cons] at hF2
    have hcons : List.foldlM (fun acc c => do
        pure (acc ++ (← ArtNode.eachList fuel c))) acc
        (cs[lo] :: cs.drop (lo + 1)) =
      Res.bind (Res.bind (ArtNode.eachList fuel cs[lo])
        (fun r => Res.ok (acc ++ r)))
        (fun a2 => List.foldlM (fun acc c => do
          pure (acc ++ (← ArtNode.eachList fuel c))) a2 (cs.drop (lo + 1))) := rfl
    rw [hcons]
    have hel : cs[lo] = cs.getD lo none := by
      rw [List.getD_eq_getElem cs none hlo2]
    cases hc : cs.getD lo none with
    | none =>
      rw [hc] at hF2
      rw [hel, hc]
      rw [eachList_none hf, Res.bind_ok, Res.bind_ok]
      rw [ih (lo + 1) (by omega) prs hF2 (acc ++ [])]
      simp
    | some ch =>
      rw [hc] at hF2
      cases hF2 with
      | cons hhd htl =>
        rename_i r prsr
        have hhd2 : ArtNode.eachList fuel (some ch) = .ok r := hhd
        rw [hel, hc]
        rw [hhd2, Res.bind_ok, Res.bind_ok]
        rw [ih (lo + 1) (by omega) prsr htl (acc ++ r)]
        simp

/-- Collect one iteration budget and one visit list per child. -/
theorem eachChildren_collect {V : Type} {d2 d : Nat} {p : List Nat} :
    ∀ {l : List (Nat × ArtNode V)} {M : List (List Nat × V)},
    WFChildren d2 d p l M →
    (∀ b c Mc, (b, c) ∈ l → WF d2 c Mc →
      ∃ f0, ∀ fuel, f0 ≤ fuel → ∃ Lc, ArtNode.eachList fuel (some c) = .ok Lc ∧
        leafKeys Lc = Mc.map Prod.fst) →
    ∃ f0, ∀ fuel, f0 ≤ fuel → ∃ prs,
      List.Forall₂ (fun (bc : Nat × ArtNode V) (r : List (ArtNode V)) =>
        ArtNode.eachList fuel (some bc.2) = .ok r) l prs ∧
      (prs.map leafKeys).flatten = M.map Prod.fst := by
  intro l
  induction l with
  | nil =>
    intro M hch _
    rw [WFChildren_nil_inv hch]
    exact ⟨0, fun fuel _ => ⟨[], List.Forall₂.nil, rfl⟩⟩
  | cons hd rest ih =>
    intro M hch hsub
    obtain ⟨b, c⟩ := hd
    obtain ⟨Mc, Mr, hM, hwfc, hagree, hrest⟩ := WFChildren_cons_inv hch
    subst hM
    obtain ⟨f0c, hc⟩ := hsub b c Mc (by simp) hwfc
    obtain ⟨f0r, hr⟩ := ih hrest
      (fun b' c' Mc' hmem hwf => hsub b' c' Mc' (by simp [hmem]) hwf)
    refine ⟨max f0c f0r, ?_⟩
    intro fuel hfu
    obtain ⟨Lc, hrun, hkeys⟩ := hc fuel (by omega)
    obtain ⟨prs, hF2, hkeysr⟩ := hr fuel (by omega)
    refine ⟨Lc :: prs, List.Forall₂.cons hrun hF2, ?_⟩
    rw [List.map_cons, List.flatten_cons, hkeys, hkeysr, List.map_append]

/-- `eachHelper` visits, below a well-formed subtree, exactly the stored keys
in directory order. -/
theorem each_spec {V : Type} : ∀ (d : Nat) (n : ArtNode V)
    (M : List (List Nat × V)), WF d n M →
    ∃ f0, ∀ fuel, f0 ≤ fuel → ∃ L, ArtNode.eachList fuel (some n) = .ok L ∧
      leafKeys L = M.map Prod.fst := by
  refine WF_strong_ind _ ?_ ?_
  · intro d k v _ _
    refine ⟨1, ?_⟩
    intro fuel hfu
    cases fuel with
    | zero => omega
    | succ g => exact ⟨[ArtNode.leaf k v], rfl, rfl⟩
  · intro d n p M hshape hpl hpb hinline hch hih
    obtain ⟨f0c, hcol⟩ := eachChildren_collect hch hih
    refine ⟨max f0c 1 + 1, ?_⟩
    intro fuel hfu
    cases fuel with
    | zero => omega
    | succ g =>
      have hg1 : 1 ≤ g := by omega
      obtain ⟨prs, hF2, hkeys⟩ := hcol g (by omega)
      cases n with
      | leaf k v => exact absurd hshape (by simp [InnerShape])
      | node4 m ks cs =>
        obtain ⟨hkl, hcl, _, hmin, hmax, hfull, hpad, _, _⟩ := hshape
        rw [childAssoc_node4] at hF2
        have hs4 : m.size.toNat ≤ 4 := by
          simp [node4Max] at hmax
          omega
        have hF2b : List.Forall₂ (fun (bc : Nat × ArtNode V) r =>
            ArtNode.eachList g (some bc.2) = .ok r)
            ((List.range' 0 (m.size.toNat - 0)).filterMap (fun i =>
              match cs.getD i none with
              | some c => some (ks.getD i 0, c)
              | none => none)) prs := by
          have : packedAssoc m.size.toNat ks cs =
              (List.range' 0 (m.size.toNat - 0)).filterMap (fun i =>
                match cs.getD i none with
                | some c => some (ks.getD i 0, c)
                | none => none) := by
            unfold packedAssoc
            rw [List.range_eq_range', Nat.sub_zero]
          rw [← this]
          exact hF2
        have hfold := eachFold_packed g hg1 hcl hs4 hfull hpad 4 0 rfl prs hF2b []
        rw [List.drop_zero] at hfold
        refine ⟨ArtNode.node4 m ks cs :: prs.flatten, ?_, ?_⟩
        · show Res.bind (List.foldlM (fun acc c => do
            pure (acc ++ (← ArtNode.eachList g c))) [] cs)
            (fun t => Res.ok (ArtNode.node4 m ks cs :: t)) = _
          rw [hfold, Res.bind_ok]
          rfl
        · show leafKeys prs.flatten = _
          show List.filterMap _ prs.flatten = _
          rw [List.filterMap_flatten]
          exact hkeys
      | node16 m ks cs =>
        obtain ⟨hkl, hcl, _, hmin, hmax, hfull, hpad, _, _⟩ := hshape
        rw [childAssoc_node16] at hF2
        have hs16 : m.size.toNat ≤ 16 := by
          simp [node16Max] at hmax
          omega
        have hF2b : List.Forall₂ (fun (bc : Nat × ArtNode V) r =>
            ArtNode.eachList g (some bc.2) = .ok r)
            ((List.range' 0 (m.size.toNat - 0)).filterMap (fun i =>
              match cs.getD i none with
              | some c => some (ks.getD i 0, c)
              | none => none)) prs := by
          have : packedAssoc m.size.toNat ks cs =
              (List.range' 0 (m.size.toNat - 0)).filterMap (fun i =>
                match cs.getD i none with
                | some c => some (ks.getD i 0, c)
                | none => none) := by
            unfold packedAssoc
            rw [List.range_eq_range', Nat.sub_zero]
          rw [← this]
          exact hF2
        have hfold := eachFold_packed g hg1 hcl hs16 hfull hpad 16 0 rfl prs hF2b []
        rw [List.drop_zero] at hfold
        refine ⟨ArtNode.node16 m ks cs :: prs.flatten, ?_, ?_⟩
        · show Res.bind (List.foldlM (fun acc c => do
            pure (acc ++ (← ArtNode.eachList g c))) [] cs)
            (fun t => Res.ok (ArtNode.node16 m ks cs :: t)) = _
          rw [hfold, Res.bind_ok]
          rfl
        · show leafKeys prs.flatten = _
          show List.filterMap _ prs.flatten = _
          rw [List.filterMap_flatten]
          exact hkeys
      | node48 m ks cs =>
        obtain ⟨hkl, hcl, _, hmin, hmax, hc0, hle48, _, _, _⟩ := hshape
        rw [childAssoc_node48] at hF2
        have hF2b : List.Forall₂ (fun (bc : Nat × ArtNode V) r =>
            ArtNode.eachList g (some bc.2) = .ok r)
            ((List.range' 0 256).filterMap (fun b =>
              if ks.getD b 0 = 0 then none
              else match cs.getD (ks.getD b 0) none with
                | some c => some (b, c)
                | none => none)) prs := by
          rw [← List.range_eq_range']
          exact hF2
        have hfold := eachFold_n48 g hkl hcl hle48 256 0 rfl prs hF2b []
        rw [List.drop_zero] at hfold
        refine ⟨ArtNode.node48 m ks cs :: prs.flatten, ?_, ?_⟩
        · show Res.bind (List.foldlM (fun acc (i : Nat) => do
            if 0 < i then
              match ← arrGet cs (i : Int) with
              | some next => do pure (acc ++ (← ArtNode.eachList g (some next)))
              | none => pure acc
            else pure acc) [] ks)
            (fun t => Res.ok (ArtNode.node48 m ks cs :: t)) = _
          rw [hfold, Res.bind_ok]
          rfl
        · show leafKeys prs.flatten = _
          show List.filterMap _ prs.flatten = _
          rw [List.filterMap_flatten]
          exact hkeys
      | node256 m cs =>
        obtain ⟨hcl, _, hmin, hmax, _⟩ := hshape
        rw [childAssoc_node256] at hF2
        have hF2b : List.Forall₂ (fun (bc : Nat × ArtNode V) r =>
            ArtNode.eachList g (some bc.2) = .ok r)
            ((List.range' 0 256).filterMap (fun b =>
              match cs.getD b none with
              | some c => some (b, c)
              | none => none)) prs := by
          rw [← List.range_eq_range']
          exact hF2
        have hfold := eachFold_n256 g hg1 hcl 256 0 rfl prs hF2b []
        rw [List.drop_zero] at hfold
        refine ⟨ArtNode.node256 m cs :: prs.flatten, ?_, ?_⟩
        · show Res.bind (List.foldlM (fun acc c => do
            pure (acc ++ (← ArtNode.eachList g c))) [] cs)
            (fun t => Res.ok (ArtNode.node256 m cs :: t)) = _
          rw [hfold, Res.bind_ok]
          rfl
        · show leafKeys prs.flatten = _
          show List.filterMap _ prs.flatten = _
          rw [List.filterMap_flatten]
          exact hkeys


/-! ## Uniqueness of the stored map and child replacement -/

theorem assoc_key_unique {α : Type} {l : List (Nat × α)}
    (hpw : l.Pairwise (fun x y => x.1 ≠ y.1)) {b : Nat} {x y : α}
    (hx : (b, x) ∈ l) (hy : (b, y) ∈ l) : x = y := by
  have h1 := assocGet_of_mem hpw hx
  have h2 := assocGet_of_mem hpw hy
  rw [h1] at h2
  exact Option.some.inj h2

theorem WFChildren_unique {V : Type} {d2 d d' : Nat} {p p' : List Nat} :
    ∀ {l : List (Nat × ArtNode V)} {M M' : List (List Nat × V)},
    WFChildren d2 d p l M → WFChildren d2 d' p' l M' →
    (∀ b c Mc, (b, c) ∈ l → WF d2 c Mc → ∀ Mc2, WF d2 c Mc2 → Mc = Mc2) →
    M = M' := by
  intro l
  induction l with
  | nil =>
    intro M M' h1 h2 _
    rw [WFChildren_nil_inv h1, WFChildren_nil_inv h2]
  | cons hd rest ih =>
    intro M M' h1 h2 hu
    obtain ⟨b, c⟩ := hd
    obtain ⟨Mc, Mr, hM, hwfc, _, hrest⟩ := WFChildren_cons_inv h1
    obtain ⟨Mc', Mr', hM', hwfc', _, hrest'⟩ := WFChildren_cons_inv h2
    subst hM
    subst hM'
    rw [hu b c Mc (by simp) hwfc Mc' hwfc',
      ih hrest hrest' (fun b' c' Mc0 hmem => hu b' c' Mc0 (by simp [hmem]))]

/-- A node stores exactly one map. -/
theorem WF_unique {V : Type} : ∀ (d : Nat) (n : ArtNode V)
    (M : List (List Nat × V)), WF d n M → ∀ M2, WF d n M2 → M = M2 := by
  refine WF_strong_ind (fun d n M1 => ∀ M2, WF d n M2 → M1 = M2) ?_ ?_
  · intro d k v _ _ M2 h2
    cases h2 with
    | leaf => rfl
    | inner _ _ p _ hs => exact absurd hs (by simp [InnerShape])
  · intro d n p M hshape hpl hpb hinline hch hih M2 h2
    obtain ⟨p', hs', hpl', hpb', hin', hch'⟩ :=
      WF_inv_inner h2 (innerShape_not_leaf hshape)
    have hplen : p.length = p'.length := by
      rw [hpl] at hpl'
      exact_mod_cast hpl'
    rw [← hplen] at hch'
    exact WFChildren_unique hch hch' hih

/-- `setChild` relocates the slot of an existing edge byte and replaces the
child there, leaving the header, the variant and every other edge intact. -/
theorem setChild_spec {V : Type} {n : ArtNode V} (h : PreShape n) {b0 : Nat}
    {cOld : ArtNode V} (hb : b0 < 256)
    (hmem : (b0, cOld) ∈ childAssoc n) (c2 : ArtNode V) :
    PreShape (n.setChild b0 (some c2)) ∧
    (n.setChild b0 (some c2)).node = n.node ∧
    (n.setChild b0 (some c2)).minSize = n.minSize ∧
    (n.setChild b0 (some c2)).isLeaf = false ∧
    childAssoc (n.setChild b0 (some c2)) =
      (childAssoc n).map (fun e => if e.1 = b0 then (b0, c2) else e) := by
  cases n with
  | leaf k v => exact absurd h (by simp [PreShape])
  | node4 m ks cs =>
    obtain ⟨hkl, hcl, hpb, hmin, hmax, hfull, hpad, hsorted, hby⟩ := h
    have hmax4 : m.size.toNat ≤ 4 := by
      simp [node4Max] at hmax
      omega
    rw [childAssoc_node4, packedAssoc_mem] at hmem
    obtain ⟨i0, hi0, hki0, hci0⟩ := hmem
    have hidx : indexByte ks b0 = (i0 : Int) :=
      indexByte_eq (by omega) hki0
        (fun j hj he => by
          have := hsorted j i0 hj hi0
          omega)
    have huniq : ∀ i, i < m.size.toNat → i ≠ i0 → ks.getD i 0 ≠ b0 := by
      intro i hi hne he
      rcases Nat.lt_or_ge i i0 with hlt | hge
      · have := hsorted i i0 hlt hi0
        omega
      · have := hsorted i0 i (by omega) hi
        omega
    have hred : ArtNode.setChild (ArtNode.node4 m ks cs) b0 (some c2) =
        ArtNode.node4 m ks (cs.set i0 (some c2)) := by
      show (if 0 ≤ indexByte ks b0 then
          ArtNode.node4 m ks (cs.set (indexByte ks b0).toNat (some c2))
        else ArtNode.node4 m ks cs) = _
      rw [hidx, if_pos (by omega)]
      simp
    rw [hred]
    have hCset : ∀ i, (cs.set i0 (some c2)).getD i none =
        (if i = i0 then some c2 else cs.getD i none) := by
      intro i
      by_cases hii : i = i0
      · rw [if_pos hii, hii, getD_set_self none (by omega)]
      · rw [if_neg hii, getD_set_ne none (fun he => hii (by omega))]
    refine ⟨?_, rfl, rfl, rfl, ?_⟩
    · refine ⟨hkl, (by rw [List.length_set]; exact hcl), hpb, hmin, hmax,
        ?_, ?_, hsorted, hby⟩
      · intro i hi
        rw [hCset i]
        by_cases hii : i = i0
        · rw [if_pos hii]
          simp
        · rw [if_neg hii]
          exact hfull i hi
      · intro i hi1 hi2
        rw [hCset i, if_neg (by omega)]
        exact hpad i hi1 hi2
    · rw [childAssoc_node4, childAssoc_node4]
      show packedAssoc m.size.toNat ks (cs.set i0 (some c2)) = _
      unfold packedAssoc
      rw [List.map_filterMap]
      refine List.filterMap_congr ?_
      intro i hi
      rw [List.mem_range] at hi
      rw [hCset i]
      by_cases hii : i = i0
      · rw [if_pos hii, hii, hci0]
        show some (ks.getD i0 0, c2) =
          some (if (ks.getD i0 0, cOld).1 = b0 then (b0, c2) else (ks.getD i0 0, cOld))
        rw [if_pos hki0, hki0]
      · rw [if_neg hii]
        cases hc : cs.getD i none with
        | none => rfl
        | some c =>
          show some (ks.getD i 0, c) =
            some (if (ks.getD i 0, c).1 = b0 then (b0, c2) else (ks.getD i 0, c))
          rw [if_neg (huniq i hi hii)]
  | node16 m ks cs =>
    obtain ⟨hkl, hcl, hpb, hmin, hmax, hfull, hpad, hsorted, hby⟩ := h
    have hmax16 : m.size.toNat ≤ 16 := by
      simp [node16Max] at hmax
      omega
    rw [childAssoc_node16, packedAssoc_mem] at hmem
    obtain ⟨i0, hi0, hki0, hci0⟩ := hmem
    have hidx : indexByte ks b0 = (i0 : Int) :=
      indexByte_eq (by omega) hki0
        (fun j hj he => by
          have := hsorted j i0 hj hi0
          omega)
    have huniq : ∀ i, i < m.size.toNat → i ≠ i0 → ks.getD i 0 ≠ b0 := by
      intro i hi hne he
      rcases Nat.lt_or_ge i i0 with hlt | hge
      · have := hsorted i i0 hlt hi0
        omega
      · have := hsorted i0 i (by omega) hi
        omega
    have hred : ArtNode.setChild (ArtNode.node16 m ks cs) b0 (some c2) =
        ArtNode.node16 m ks (cs.set i0 (some c2)) := by
      show (if 0 ≤ indexByte ks b0 then
          ArtNode.node16 m ks (cs.set (indexByte ks b0).toNat (some c2))
        else ArtNode.node16 m ks cs) = _
      rw [hidx, if_pos (by omega)]
      simp
    rw [hred]
    have hCset : ∀ i, (cs.set i0 (some c2)).getD i none =
        (if i = i0 then some c2 else cs.getD i none) := by
      intro i
      by_cases hii : i = i0
      · rw [if_pos hii, hii, getD_set_self none (by omega)]
      · rw [if_neg hii, getD_set_ne none (fun he => hii (by omega))]
    refine ⟨?_, rfl, rfl, rfl, ?_⟩
    · refine ⟨hkl, (by rw [List.length_set]; exact hcl), hpb, hmin, hmax,
        ?_, ?_, hsorted, hby⟩
      · intro i hi
        rw [hCset i]
        by_cases hii : i = i0
        · rw [if_pos hii]
          simp
        · rw [if_neg hii]
          exact hfull i hi
      · intro i hi1 hi2
        rw [hCset i, if_neg (by omega)]
        exact hpad i hi1 hi2
    · rw [childAssoc_node16, childAssoc_node16]
      show packedAssoc m.size.toNat ks (cs.set i0 (some c2)) = _
      unfold packedAssoc
      rw [List.map_filterMap]
      refine List.filterMap_congr ?_
      intro i hi
      rw [List.mem_range] at hi
      rw [hCset i]
      by_cases hii : i = i0
      · rw [if_pos hii, hii, hci0]
        show some (ks.getD i0 0, c2) =
          some (if (ks.getD i0 0, cOld).1 = b0 then (b0, c2) else (ks.getD i0 0, cOld))
        rw [if_pos hki0, hki0]
      · rw [if_neg hii]
        cases hc : cs.getD i none with
        | none => rfl
        | some c =>
          show some (ks.getD i 0, c) =
            some (if (ks.getD i 0, c).1 = b0 then (b0, c2) else (ks.getD i 0, c))
          rw [if_neg (huniq i hi hii)]
  | node48 m ks cs =>
    obtain ⟨hkl, hcl, hpb, hmin, hmax, hc0, hle48, hinj, hiff, hsz⟩ := h
    rw [n48Assoc_mem] at hmem
    obtain ⟨_, hnz, hci0⟩ := hmem
    have hred : ArtNode.setChild (ArtNode.node48 m ks cs) b0 (some c2) =
        ArtNode.node48 m ks (cs.set (ks.getD b0 0) (some c2)) := by
      show (if ks.getD b0 0 ≠ 0 then
          ArtNode.node48 m ks (cs.set (ks.getD b0 0) (some c2))
        else ArtNode.node48 m ks cs) = _
      rw [if_pos hnz]
    rw [hred]
    have hslot : ks.getD b0 0 ≤ 48 := hle48 b0 hb
    have hslot1 : 1 ≤ ks.getD b0 0 := by omega
    have hCset : ∀ i, (cs.set (ks.getD b0 0) (some c2)).getD i none =
        (if i = ks.getD b0 0 then some c2 else cs.getD i none) := by
      intro i
      by_cases hii : i = ks.getD b0 0
      · rw [if_pos hii, hii, getD_set_self none (by omega)]
      · rw [if_neg hii, getD_set_ne none (fun he => hii (by omega))]
    have hassoc : childAssoc (ArtNode.node48 m ks (cs.set (ks.getD b0 0) (some c2)))
        = (childAssoc (ArtNode.node48 m ks cs)).map
          (fun e => if e.1 = b0 then (b0, c2) else e) := by
      rw [childAssoc_node48, childAssoc_node48]
      rw [List.map_filterMap]
      refine List.filterMap_congr ?_
      intro x hx
      rw [List.mem_range] at hx
      by_cases hz : ks.getD x 0 = 0
      · rw [if_pos hz, if_pos hz]
        rfl
      · rw [if_neg hz, if_neg hz]
        rw [hCset (ks.getD x 0)]
        by_cases hxb : x = b0
        · rw [if_pos (by rw [hxb])]
          rw [hxb, hci0]
          show some (b0, c2) =
            some (if (b0, cOld).1 = b0 then (b0, c2) else (b0, cOld))
          rw [if_pos rfl]
        · have hne : ks.getD x 0 ≠ ks.getD b0 0 := by
            intro he
            exact hxb (hinj x b0 hx hb hz he)
          rw [if_neg hne]
          cases hc : cs.getD (ks.getD x 0) none with
          | none => rfl
          | some c =>
            show some (x, c) = some (if (x, c).1 = b0 then (b0, c2) else (x, c))
            rw [if_neg hxb]
    refine ⟨?_, rfl, rfl, rfl, hassoc⟩
    refine ⟨hkl, (by rw [List.length_set]; exact hcl), hpb, hmin, hmax,
      ?_, hle48, hinj, ?_, ?_⟩
    · rw [hCset 0, if_neg (by omega)]
      exact hc0
    · intro sl hsl1 hsl2
      rw [hCset sl]
      by_cases hii : sl = ks.getD b0 0
      · rw [if_pos hii]
        constructor
        · intro _
          exact ⟨b0, hb, hii.symm⟩
        · intro _
          simp
      · rw [if_neg hii]
        exact hiff sl hsl1 hsl2
    · rw [hassoc, List.length_map]
      exact hsz
  | node256 m cs =>
    obtain ⟨hcl, hpb, hmin, hmax, hsz⟩ := h
    rw [n256Assoc_mem] at hmem
    obtain ⟨_, hci0⟩ := hmem
    have hred : ArtNode.setChild (ArtNode.node256 m cs) b0 (some c2) =
        ArtNode.node256 m (cs.set b0 (some c2)) := rfl
    rw [hred]
    have hCset : ∀ i, (cs.set b0 (some c2)).getD i none =
        (if i = b0 then some c2 else cs.getD i none) := by
      intro i
      by_cases hii : i = b0
      · rw [if_pos hii, hii, getD_set_self none (by omega)]
      · rw [if_neg hii, getD_set_ne none (fun he => hii (by omega))]
    have hassoc : childAssoc (ArtNode.node256 m (cs.set b0 (some c2)))
        = (childAssoc (ArtNode.node256 m cs)).map
          (fun e => if e.1 = b0 then (b0, c2) else e) := by
      rw [childAssoc_node256, childAssoc_node256]
      rw [List.map_filterMap]
      refine List.filterMap_congr ?_
      intro x hx
      rw [List.mem_range] at hx
      rw [hCset x]
      by_cases hxb : x = b0
      · rw [if_pos hxb, hxb, hci0]
        show some (b0, c2) =
          some (if (b0, cOld).1 = b0 then (b0, c2) else (b0, cOld))
        rw [if_pos rfl]
      · rw [if_neg hxb]
        cases hc : cs.getD x none with
        | none => rfl
        | some c =>
          show some (x, c) = some (if (x, c).1 = b0 then (b0, c2) else (x, c))
          rw [if_neg hxb]
    refine ⟨?_, rfl, rfl, rfl, hassoc⟩
    refine ⟨(by rw [List.length_set]; exact hcl), hpb, hmin, hmax, ?_⟩
    rw [hassoc, List.length_map]
    exact hsz

/-- Replacing the subtree under one edge byte with one holding the
value-overwritten map rebuilds a well-formed child directory. -/
theorem WFChildren_overwrite {V : Type} {d2 d : Nat} {p : List Nat}
    {k : List Nat} {vold : V} {v2 : V} {b0 : Nat} {c2 : ArtNode V} :
    ∀ {l : List (Nat × ArtNode V)} {M : List (List Nat × V)},
    WFChildren d2 d p l M →
    l.Pairwise (fun x y => x.1 ≠ y.1) →
    (k, vold) ∈ M →
    k.getD (d + p.length) 0 = b0 →
    (∀ cOld Mc, (b0, cOld) ∈ l → WF d2 cOld Mc → (k, vold) ∈ Mc →
      WF d2 c2 (Mc.map (fun kv => if kv.1 = k then (k, v2) else kv))) →
    WFChildren d2 d p (l.map (fun e => if e.1 = b0 then (b0, c2) else e))
      (M.map (fun kv => if kv.1 = k then (k, v2) else kv)) := by
  intro l
  induction l with
  | nil =>
    intro M hch _ hmem _ _
    rw [WFChildren_nil_inv hch] at hmem
    exact absurd hmem (by simp)
  | cons hd rest ih =>
    intro M hch hpw hmem hkb hnew
    obtain ⟨b', c'⟩ := hd
    obtain ⟨Mc, Mr, hM, hwfc, hagree, hrest⟩ := WFChildren_cons_inv hch
    subst hM
    rw [List.pairwise_cons] at hpw
    rw [List.map_cons, List.map_append]
    rcases List.mem_append.mp hmem with hmemc | hmemr
    · -- the key lives under this edge, so b' = b0
      have hbb : b' = b0 := by
        obtain ⟨_, _, hc⟩ := hagree (k, vold) hmemc
        rw [← hkb, hc]
      subst hbb
      have hid : (if ((b', c') : Nat × ArtNode V).1 = b' then (b', c2)
          else (b', c')) = (b', c2) := by
        rw [if_pos rfl]
      rw [hid]
      have hMr : Mr.map (fun kv => if kv.1 = k then (k, v2) else kv) = Mr := by
        refine (List.map_congr_left ?_).trans (List.map_id Mr)
        intro kv hkv
        obtain ⟨b'', c'', Mc'', hmem'', hkv'', _, hagree''⟩ :=
          WFChildren_entry hrest kv hkv
        obtain ⟨_, _, hcb⟩ := hagree'' kv hkv''
        have hne : kv.1 ≠ k := by
          intro he
          have hb2 : b'' = b' := by
            rw [← hcb, he, hkb]
          exact (hpw.1 (b'', c'') hmem'') (by rw [hb2])
        rw [if_neg hne]
        rfl
      have hrmap : rest.map (fun e => if e.1 = b' then (b', c2) else e) = rest := by
        refine (List.map_congr_left ?_).trans (List.map_id rest)
        rintro ⟨b'', c''⟩ hmem''
        rw [if_neg (show b'' ≠ b' from fun he =>
          (hpw.1 (b'', c'') hmem'') (by rw [he]))]
        rfl
      rw [hrmap, hMr]
      refine WFChildren.cons d2 d p b' c2 rest
        (Mc.map (fun kv => if kv.1 = k then (k, v2) else kv)) Mr
        (hnew c' Mc (by simp) hwfc hmemc) ?_ hrest
      intro kv hkv
      rw [List.mem_map] at hkv
      obtain ⟨kv0, hkv0, hkve⟩ := hkv
      by_cases hk0 : kv0.1 = k
      · rw [if_pos hk0] at hkve
        rw [← hkve]
        show KeyAgrees d p b' k
        obtain ⟨h1, h2, h3⟩ := hagree (k, vold) hmemc
        exact ⟨h1, h2, h3⟩
      · rw [if_neg hk0] at hkve
        rw [← hkve]
        exact hagree kv0 hkv0
    · -- the key lives further right, so b' ≠ b0 and this block is untouched
      obtain ⟨b'', c'', Mc'', hmem'', hkv'', _, hagree''⟩ :=
        WFChildren_entry hrest (k, vold) hmemr
      have hb2 : b'' = b0 := by
        obtain ⟨_, _, hcb⟩ := hagree'' (k, vold) hkv''
        rw [← hkb, hcb]
      have hbne : b' ≠ b0 := by
        intro he
        exact (hpw.1 (b'', c'') hmem'') (by rw [hb2, he])
      have hid : (if ((b', c') : Nat × ArtNode V).1 = b0 then (b0, c2)
          else (b', c')) = (b', c') := by
        rw [if_neg hbne]
      rw [hid]
      have hMc : Mc.map (fun kv => if kv.1 = k then (k, v2) else kv) = Mc := by
        refine (List.map_congr_left ?_).trans (List.map_id Mc)
        intro kv hkv
        obtain ⟨_, _, hcb⟩ := hagree kv hkv
        have hne : kv.1 ≠ k := by
          intro he
          rw [he, hkb] at hcb
          exact hbne hcb.symm
        rw [if_neg hne]
        rfl
      rw [hMc]
      exact WFChildren.cons d2 d p b' c' _ Mc _ hwfc hagree
        (ih hrest hpw.2 hmemr hkb
          (fun cOld Mc0 hm hw hk => hnew cOld Mc0 (by simp [hm]) hw hk))

/-! ## Overwriting a stored key: the descent -/

/-- Inserting a key that is already stored rewrites the leaf's value in
place: the helper returns a size increment of 0 and the subtree stores the
same map with only that key's value replaced. -/
theorem insert_overwrite {V : Type} : ∀ (d : Nat) (n : ArtNode V)
    (M : List (List Nat × V)), WF d n M → ∀ (k : List Nat) (vold v2 : V),
    (k, vold) ∈ M →
    ∃ f0, ∀ fuel, f0 ≤ fuel →
      ∃ n2, ArtNode.insertHelper fuel (some n) k v2 (d : Int) = .ok (n2, 0) ∧
        WF d n2 (M.map (fun kv => if kv.1 = k then (k, v2) else kv)) := by
  refine WF_strong_ind _ ?_ ?_
  · intro d k0 v0 hlen hby k vold v2 hkv
    rw [List.mem_singleton] at hkv
    injection hkv with hk hv
    subst hk
    refine ⟨1, ?_⟩
    intro fuel hf
    cases fuel with
    | zero => omega
    | succ g =>
      refine ⟨ArtNode.leaf k v2, ?_, ?_⟩
      · show (if (ArtNode.leaf k v0 : ArtNode V).isLeaf = true then _ else _) = _
        rw [if_pos (show (ArtNode.leaf (V := V) k v0).isLeaf = true from rfl)]
        rw [if_pos (show (ArtNode.leaf (V := V) k v0).isMatch k = true by
          simp [ArtNode.isMatch])]
        rfl
      · have hmap : ([(k, v0)].map (fun kv => if kv.1 = k then (k, v2) else kv))
            = [(k, v2)] := by simp
        rw [hmap]
        exact WF.leaf d k v2 hlen hby
  · intro d n p M hshape hpl hpb hinline hch hih k vold v2 hkv
    have hwf : WF d n M := WF.inner d n p M hshape hpl hpb hinline hch
    obtain ⟨b, c, Mc, hbc, hkMc, hwfc, hagree⟩ := WFChildren_entry hch (k, vold) hkv
    obtain ⟨hklen0, hkag0, hkb0⟩ := hagree (k, vold) hkMc
    have hklen : d + p.length < k.length := hklen0
    have hkag : ∀ j, j < p.length → k.getD (d + j) 0 = p.getD j 0 := hkag0
    have hkb : k.getD (d + p.length) 0 = b := hkb0
    have hMagree := WFChildren_Magree hch
    obtain ⟨f0pm, hpmrun⟩ := prefixMismatch_full hpl hinline hwf hklen hkag hMagree
    obtain ⟨f0c, hcrun⟩ := hih b c Mc hbc hwfc k vold v2 hkMc
    have hb256 : b < 256 := by
      have hbytes := (WF_keys _ _ _ hwfc (k, vold) hkMc).2
      rw [← hkb]
      exact hbytes _ (getD_mem (by omega))
    refine ⟨max f0pm f0c + 1, ?_⟩
    intro fuel hf
    cases fuel with
    | zero => omega
    | succ g =>
      have hg : f0pm ≤ g ∧ f0c ≤ g := by omega
      obtain ⟨c2node, hrec, hwfc2⟩ := hcrun g hg.2
      obtain ⟨hpre2, hnode2, hmin2, hleaf2, hassoc2⟩ :=
        setChild_spec (innerShape_pre hshape) hb256 hbc c2node
      refine ⟨ArtNode.setChild n b (some c2node), ?_, ?_⟩
      · show (if n.isLeaf = true then _ else _) = _
        rw [if_neg (by simp [innerShape_not_leaf hshape])]
        by_cases hpz : p.length = 0
        · -- no compressed path at this node
          show (if n.node.prefixLen ≠ 0 then _ else _) = _
          rw [if_neg (show ¬ n.node.prefixLen ≠ 0 by rw [hpl, hpz]; simp)]
          show Res.bind (arrGet k (d : Int)) _ = _
          have hdk : d < k.length := by omega
          rw [arrGet_getD 0 hdk, Res.bind_ok]
          have hkb2 : k.getD d 0 = b := by
            have h := hkb
            rw [hpz, Nat.add_zero] at h
            exact h
          rw [hkb2]
          rw [findChild_spec (innerShape_pre hshape) hb256]
          rw [assocGet_of_mem (childAssoc_pairwise_ne (innerShape_pre hshape)) hbc]
          show Res.bind (Res.ok (some c)) _ = _
          rw [Res.bind_ok]
          show Res.bind (ArtNode.insertHelper g (some c) k v2 ((d : Int) + 1)) _ = _
          have hcast2 : (d : Int) + 1 = ((d + p.length + 1 : Nat) : Int) := by
            push_cast
            omega
          rw [hcast2, hrec, Res.bind_ok]
        · -- the compressed path matches the key in full
          show (if n.node.prefixLen ≠ 0 then _ else _) = _
          rw [if_pos (show n.node.prefixLen ≠ 0 by
            rw [hpl]
            simpa using hpz)]
          show Res.bind (ArtNode.prefixMismatch g n k (d : Int)) _ = _
          rw [hpmrun g hg.1, Res.bind_ok]
          rw [hpl]
          rw [if_neg (by simp)]
          show Res.bind (arrGet k ((d : Int) + (p.length : Int))) _ = _
          have hcast1 : (d : Int) + (p.length : Int) =
              ((d + p.length : Nat) : Int) := by push_cast; ring
          rw [hcast1, arrGet_getD 0 (by omega), Res.bind_ok]
          rw [hkb]
          rw [findChild_spec (innerShape_pre hshape) hb256]
          rw [assocGet_of_mem (childAssoc_pairwise_ne (innerShape_pre hshape)) hbc]
          show Res.bind (Res.ok (some c)) _ = _
          rw [Res.bind_ok]
          show Res.bind (ArtNode.insertHelper g (some c) k v2
            (((d + p.length : Nat) : Int) + 1)) _ = _
          have hcast2 : ((d + p.length : Nat) : Int) + 1 =
              ((d + p.length + 1 : Nat) : Int) := by push_cast; ring
          rw [hcast2, hrec, Res.bind_ok]
      · refine WF.inner d _ p _ ?_ ?_ hpb ?_ ?_
        · exact preShape_inner hpre2 (by
            rw [hmin2, hnode2]
            exact innerShape_min hshape)
        · rw [hnode2]
          exact hpl
        · intro i hi
          rw [hnode2]
          exact hinline i hi
        · rw [hassoc2]
          refine WFChildren_overwrite hch
            (childAssoc_pairwise_ne (innerShape_pre hshape)) hkv hkb ?_
          intro cOld Mc0 hm hw hk2
          have hceq : cOld = c :=
            assoc_key_unique (childAssoc_pairwise_ne (innerShape_pre hshape)) hm hbc
          subst hceq
          have hMeq : Mc0 = Mc := WF_unique _ _ _ hw Mc hwfc
          subst hMeq
          exact hwfc2

/-! ## Tools for deletion: key uniqueness, filtered maps, fuel monotonicity -/

theorem lexLt_irrefl : ∀ (u : List Nat), lexLt u u = false
  | [] => rfl
  | a :: as => by
    show (if a < a then true else if a < a then false else lexLt as as) = false
    rw [if_neg (lt_irrefl a), if_neg (lt_irrefl a)]
    exact lexLt_irrefl as

/-- Stored keys are pairwise distinct. -/
theorem WF_keys_ne {V : Type} {d : Nat} {n : ArtNode V} {M : List (List Nat × V)}
    (h : WF d n M) : (M.map Prod.fst).Pairwise (fun a b => a ≠ b) := by
  refine List.Pairwise.imp ?_ (WF_sorted d n M h)
  intro a b hlt he
  rw [he, lexLt_irrefl] at hlt
  exact Bool.false_ne_true hlt

theorem mem_filter_ne {α β : Type} [DecidableEq α] {l : List (α × β)}
    {k x : α} {c : β} :
    (x, c) ∈ l.filter (fun e => e.1 != k) ↔ (x, c) ∈ l ∧ x ≠ k := by
  rw [List.mem_filter]
  simp

theorem filter_fst_ne_length {α β : Type} [DecidableEq α] :
    ∀ {l : List (α × β)} {k : α} {v : β},
    (l.map Prod.fst).Pairwise (fun a b => a ≠ b) → (k, v) ∈ l →
    (l.filter (fun e => e.1 != k)).length + 1 = l.length := by
  intro l
  induction l with
  | nil =>
    intro k v _ hm
    exact absurd hm (by simp)
  | cons hd rest ih =>
    intro k v hpw hm
    rw [List.map_cons, List.pairwise_cons] at hpw
    rcases List.mem_cons.mp hm with heq | htl
    · have hhd : hd.1 = k := by rw [← heq]
      rw [List.filter_cons, if_neg (by simp [hhd])]
      have hrest : rest.filter (fun e => e.1 != k) = rest := by
        rw [List.filter_eq_self]
        intro e he
        have hne := hpw.1 e.1 (List.mem_map_of_mem Prod.fst he)
        rw [hhd] at hne
        simp
        exact fun hc => hne hc.symm
      rw [hrest, List.length_cons]
    · have hne : hd.1 ≠ k := hpw.1 k (by
        have := List.mem_map_of_mem Prod.fst htl
        exact this)
      rw [List.filter_cons, if_pos (by simp [hne])]
      have hh := ih hpw.2 htl
      rw [List.length_cons, List.length_cons]
      omega

theorem length_filterMap_countP {α β : Type} (f : α → Option β) :
    ∀ (l : List α), (l.filterMap f).length = l.countP (fun a => (f a).isSome) := by
  intro l
  induction l with
  | nil => rfl
  | cons a as ih =>
    rw [List.filterMap_cons, List.countP_cons]
    cases hf : f a with
    | none => simp [hf, ih]
    | some b => simp [hf, ih]

theorem countP_range_mono (p : Nat → Bool) {s t : Nat} (h : s ≤ t) :
    (List.range s).countP p ≤ (List.range t).countP p := by
  induction t, h using Nat.le_induction with
  | base => exact le_refl _
  | succ t ht ih =>
    rw [List.range_succ, List.countP_append]
    omega

theorem countP_range_succ (p : Nat → Bool) (s : Nat) :
    (List.range (s + 1)).countP p =
      (List.range s).countP p + if p s then 1 else 0 := by
  rw [List.range_succ, List.countP_append]
  by_cases hp : p s
  · rw [if_pos hp]
    simp [hp, List.countP_cons]
  · rw [if_neg hp]
    simp [List.countP_cons, hp]

/-- Unpack a completed `Delete` into its helper run. -/
theorem Delete_run_inv {V : Type} {fuel : Nat} {t : Tree V} {k : List Nat}
    {b : Bool} {t2 : Tree V} (h : Tree.Delete fuel t k = .ok (b, t2)) :
    ∃ r, ArtNode.deleteHelper fuel t.root k 0 = .ok (b, r) ∧
      t2 = ⟨r, t.size - if b then 1 else 0⟩ := by
  have h2 : Res.bind (ArtNode.deleteHelper fuel t.root k 0)
      (fun p => Res.ok (p.1, (⟨p.2, t.size - if p.1 then 1 else 0⟩ : Tree V)))
      = .ok (b, t2) := h
  obtain ⟨a, ha, hfa⟩ := Res.bind_eq_ok h2
  obtain ⟨b2, r⟩ := a
  have hfa3 : Res.ok ((b2, (⟨r, t.size - if b2 then 1 else 0⟩ : Tree V)) :
      Bool × Tree V) = .ok (b, t2) := hfa
  injection hfa3 with hfa4
  injection hfa4 with hb hr
  subst hb
  exact ⟨r, ha, hr.symm⟩

/-- `Delete` is deterministic across budgets once it completes. -/
theorem Delete_mono {V : Type} {fuel fuel' : Nat} {t : Tree V} {k : List Nat}
    {b : Bool} {t2 : Tree V} (h : Tree.Delete fuel t k = .ok (b, t2))
    (hle : fuel ≤ fuel') : Tree.Delete fuel' t k = .ok (b, t2) := by
  obtain ⟨r, ha, ht2⟩ := Delete_run_inv h
  show Res.bind (ArtNode.deleteHelper fuel' t.root k 0) _ = _
  rw [deleteHelper_mono ha (fun hc => Res.noConfusion hc) hle, Res.bind_ok]
  rw [ht2]

/-! ## The N4/N16 RemoveChild left-shift loop -/

theorem removeShift_spec {V : Type} {L : Nat} :
    ∀ (cnt : Nat) (ks : List Nat) (cs : List (Option (ArtNode V))) (i : Int),
    ks.length = L → cs.length = L → 0 ≤ i → i + cnt < L →
    ∃ ks2 cs2, ArtNode.removeShift cnt ks cs i = .ok (ks2, cs2) ∧
      ks2.length = L ∧ cs2.length = L ∧
      (∀ j : Nat, (j : Int) < i ∨ i + cnt < (j : Int) →
        ks2.getD j 0 = ks.getD j 0 ∧ cs2.getD j none = cs.getD j none) ∧
      (∀ j : Nat, i ≤ (j : Int) → (j : Int) < i + cnt →
        ks2.getD j 0 = ks.getD (j + 1) 0 ∧ cs2.getD j none = cs.getD (j + 1) none) := by
  intro cnt
  induction cnt with
  | zero =>
    intro ks cs i hkl hcl h0 hL
    exact ⟨ks, cs, rfl, hkl, hcl, fun j _ => ⟨rfl, rfl⟩, fun j h1 h2 => by omega⟩
  | succ c ih =>
    intro ks cs i hkl hcl h0 hL
    have hget1 : arrGet ks (i + 1) = .ok (ks.getD (i + 1).toNat 0) :=
      arrGet_ok 0 (by omega) (by omega)
    have hget2 : arrGet cs (i + 1) = .ok (cs.getD (i + 1).toNat none) :=
      arrGet_ok none (by omega) (by omega)
    have hset1 : arrSet ks i (ks.getD (i + 1).toNat 0) =
        .ok (ks.set i.toNat (ks.getD (i + 1).toNat 0)) :=
      arrSet_ok _ (by omega) (by omega)
    have hset2 : arrSet cs i (cs.getD (i + 1).toNat none) =
        .ok (cs.set i.toNat (cs.getD (i + 1).toNat none)) :=
      arrSet_ok _ (by omega) (by omega)
    obtain ⟨ks2, cs2, hrun, hl1, hl2, huns, hsh⟩ := ih
      (ks.set i.toNat (ks.getD (i + 1).toNat 0))
      (cs.set i.toNat (cs.getD (i + 1).toNat none))
      (i + 1) (by rw [List.length_set]; exact hkl)
      (by rw [List.length_set]; exact hcl) (by omega) (by omega)
    refine ⟨ks2, cs2, ?_, hl1, hl2, ?_, ?_⟩
    · show Res.bind (arrGet ks (i + 1)) _ = _
      rw [hget1, Res.bind_ok]
      show Res.bind (arrGet cs (i + 1)) _ = _
      rw [hget2, Res.bind_ok]
      show Res.bind (arrSet ks i (ks.getD (i + 1).toNat 0)) _ = _
      rw [hset1, Res.bind_ok]
      show Res.bind (arrSet cs i (cs.getD (i + 1).toNat none)) _ = _
      rw [hset2, Res.bind_ok]
      exact hrun
    · intro j hj
      obtain ⟨e1, e2⟩ := huns j (by omega)
      have hne : i.toNat ≠ j := by omega
      rw [e1, e2, getD_set_ne 0 hne, getD_set_ne none hne]
      exact ⟨rfl, rfl⟩
    · intro j h1 h2
      by_cases hji : (j : Int) = i
      · have hji2 : j = i.toNat := by omega
        obtain ⟨e1, e2⟩ := huns j (by omega)
        rw [e1, e2, hji2, getD_set_self 0 (by omega), getD_set_self none (by omega)]
        have hc1 : i.toNat + 1 = (i + 1).toNat := by omega
        rw [hc1]
        exact ⟨rfl, rfl⟩
      · obtain ⟨e1, e2⟩ := hsh j (by omega) (by omega)
        have hne : i.toNat ≠ j + 1 := by omega
        rw [e1, e2, getD_set_ne 0 hne, getD_set_ne none hne]
        exact ⟨rfl, rfl⟩

/-- The packed-array removal sequence: zero the slot, shift left, leaving
entry `i0` dropped and the tail shifted down one position. -/
theorem packedRemove_arrays {V : Type} {L : Nat} {ks : List Nat}
    {cs : List (Option (ArtNode V))} {s i0 : Nat}
    (hkl : ks.length = L) (hcl : cs.length = L) (hs : s ≤ L) (hi0 : i0 < s) :
    ∃ ks3 cs3, ArtNode.removeShift (s - 1 - i0) (ks.set i0 0) (cs.set i0 none)
        (i0 : Int) = .ok (ks3, cs3) ∧
      ks3.length = L ∧ cs3.length = L ∧
      (∀ j, j < i0 → ks3.getD j 0 = ks.getD j 0 ∧ cs3.getD j none = cs.getD j none) ∧
      (∀ j, i0 ≤ j → j < s - 1 → ks3.getD j 0 = ks.getD (j + 1) 0 ∧
        cs3.getD j none = cs.getD (j + 1) none) ∧
      (∀ j, s ≤ j → ks3.getD j 0 = ks.getD j 0 ∧ cs3.getD j none = cs.getD j none) := by
  obtain ⟨ks3, cs3, hrun, hl1, hl2, huns, hsh⟩ := removeShift_spec (V := V)
    (L := L) (s - 1 - i0) (ks.set i0 0) (cs.set i0 none) (i0 : Int)
    (by rw [List.length_set]; exact hkl) (by rw [List.length_set]; exact hcl)
    (by omega) (by omega)
  refine ⟨ks3, cs3, hrun, hl1, hl2, ?_, ?_, ?_⟩
  · intro j hj
    obtain ⟨e1, e2⟩ := huns j (by omega)
    rw [e1, e2]
    have hne : i0 ≠ j := by omega
    rw [getD_set_ne 0 hne, getD_set_ne none hne]
    exact ⟨rfl, rfl⟩
  · intro j hj1 hj2
    obtain ⟨e1, e2⟩ := hsh j (by omega) (by omega)
    rw [e1, e2]
    have hne : i0 ≠ j + 1 := by omega
    rw [getD_set_ne 0 hne, getD_set_ne none hne]
    exact ⟨rfl, rfl⟩
  · intro j hj
    obtain ⟨e1, e2⟩ := huns j (by omega)
    rw [e1, e2]
    have hne : i0 ≠ j := by omega
    rw [getD_set_ne 0 hne, getD_set_ne none hne]
    exact ⟨rfl, rfl⟩

/-! ## RemoveChild: the per-variant removal bodies -/

theorem removeChild_node4 {V : Type} {m : NodeMeta} {ks : List Nat}
    {cs : List (Option (ArtNode V))} {b0 : Nat} {c0 : ArtNode V}
    (h : PreShape (ArtNode.node4 m ks cs))
    (hmem : (b0, c0) ∈ childAssoc (ArtNode.node4 m ks cs)) :
    ∃ ks4 cs4,
      ArtNode.RemoveChild (ArtNode.node4 m ks cs) b0 =
        (if (ArtNode.node4 (V := V) ⟨m.size - 1, m.prefixLen, m.prefixBytes⟩
              ks4 cs4).node.size <
            (ArtNode.node4 (V := V) ⟨m.size - 1, m.prefixLen, m.prefixBytes⟩
              ks4 cs4).minSize
          then ArtNode.shrink (ArtNode.node4 ⟨m.size - 1, m.prefixLen,
            m.prefixBytes⟩ ks4 cs4)
          else .ok (ArtNode.node4 ⟨m.size - 1, m.prefixLen, m.prefixBytes⟩
            ks4 cs4)) ∧
      PreShape (ArtNode.node4 (V := V) ⟨m.size - 1, m.prefixLen, m.prefixBytes⟩
        ks4 cs4) ∧
      childAssoc (ArtNode.node4 (V := V) ⟨m.size - 1, m.prefixLen,
          m.prefixBytes⟩ ks4 cs4) =
        (childAssoc (ArtNode.node4 m ks cs)).filter (fun e => e.1 != b0) := by
  have hpre := h
  obtain ⟨hkl, hcl, hpb, hmin, hmax, hfull, hpad, hsorted, hby⟩ := h
  have hmax4 : m.size.toNat ≤ 4 := by
    simp [node4Max] at hmax
    omega
  rw [childAssoc_node4, packedAssoc_mem] at hmem
  obtain ⟨i0, hi0, hki0, hci0⟩ := hmem
  have hidx : indexByte ks b0 = (i0 : Int) :=
    indexByte_eq (by omega) hki0
      (fun j hj he => by
        have := hsorted j i0 hj hi0
        omega)
  obtain ⟨ks3, cs3, hrun, hl1, hl2, hlow, hmid, hhigh⟩ :=
    packedRemove_arrays (V := V) (L := 4) hkl hcl hmax4 hi0
  have htn : (m.size - 1).toNat = m.size.toNat - 1 := by omega
  have hset3 : arrSet ks3 (m.size - 1) 0 =
      .ok (ks3.set (m.size.toNat - 1) 0) := by
    rw [arrSet_ok _ (by omega) (by omega), htn]
  have hset4 : arrSet cs3 (m.size - 1) none =
      .ok (cs3.set (m.size.toNat - 1) none) := by
    rw [arrSet_ok _ (by omega) (by omega), htn]
  -- final-array reads
  have hKlow : ∀ j, j < i0 →
      (ks3.set (m.size.toNat - 1) 0).getD j 0 = ks.getD j 0 ∧
      (cs3.set (m.size.toNat - 1) none).getD j none = cs.getD j none := by
    intro j hj
    rw [getD_set_ne 0 (by omega), getD_set_ne none (by omega)]
    exact hlow j hj
  have hKmid : ∀ j, i0 ≤ j → j < m.size.toNat - 1 →
      (ks3.set (m.size.toNat - 1) 0).getD j 0 = ks.getD (j + 1) 0 ∧
      (cs3.set (m.size.toNat - 1) none).getD j none = cs.getD (j + 1) none := by
    intro j h1 h2
    rw [getD_set_ne 0 (by omega), getD_set_ne none (by omega)]
    exact hmid j h1 h2
  have hKtop : (ks3.set (m.size.toNat - 1) 0).getD (m.size.toNat - 1) 0 = 0 ∧
      (cs3.set (m.size.toNat - 1) none).getD (m.size.toNat - 1) none = none := by
    rw [getD_set_self 0 (by omega), getD_set_self none (by omega)]
    exact ⟨rfl, rfl⟩
  have hKhigh : ∀ j, m.size.toNat ≤ j →
      (ks3.set (m.size.toNat - 1) 0).getD j 0 = ks.getD j 0 ∧
      (cs3.set (m.size.toNat - 1) none).getD j none = cs.getD j none := by
    intro j hj
    rw [getD_set_ne 0 (by omega), getD_set_ne none (by omega)]
    exact hhigh j hj
  have hpre2 : PreShape (ArtNode.node4 (V := V)
      ⟨m.size - 1, m.prefixLen, m.prefixBytes⟩
      (ks3.set (m.size.toNat - 1) 0) (cs3.set (m.size.toNat - 1) none)) := by
    refine ⟨by rw [List.length_set]; exact hl1,
      by rw [List.length_set]; exact hl2, hpb,
      (by show (0 : Int) ≤ m.size - 1; omega),
      (by show m.size - 1 ≤ node4Max; simp [node4Max]; omega), ?_, ?_, ?_, ?_⟩
    · intro i hi
      have hi2 : i < (m.size - 1).toNat := hi
      by_cases hilt : i < i0
      · rw [(hKlow i hilt).2]
        exact hfull i (by omega)
      · rw [(hKmid i (by omega) (by omega)).2]
        exact hfull (i + 1) (by omega)
    · intro i hi1 hi2
      have hi1b : (m.size - 1).toNat ≤ i := hi1
      by_cases hie : i = m.size.toNat - 1
      · subst hie
        exact ⟨hKtop.1, hKtop.2⟩
      · obtain ⟨e1, e2⟩ := hKhigh i (by omega)
        rw [e1, e2]
        exact hpad i (by omega) hi2
    · intro i j hij hj
      have hj2 : j < (m.size - 1).toNat := hj
      by_cases hjlt : j < i0
      · rw [(hKlow i (by omega)).1, (hKlow j hjlt).1]
        exact hsorted i j hij (by omega)
      · rw [(hKmid j (by omega) (by omega)).1]
        by_cases hilt : i < i0
        · rw [(hKlow i hilt).1]
          exact hsorted i (j + 1) (by omega) (by omega)
        · rw [(hKmid i (by omega) (by omega)).1]
          exact hsorted (i + 1) (j + 1) (by omega) (by omega)
    · intro i hi
      have hi2 : i < (m.size - 1).toNat := hi
      by_cases hilt : i < i0
      · rw [(hKlow i hilt).1]
        exact hby i (by omega)
      · rw [(hKmid i (by omega) (by omega)).1]
        exact hby (i + 1) (by omega)
  refine ⟨ks3.set (m.size.toNat - 1) 0, cs3.set (m.size.toNat - 1) none,
    ?_, hpre2, ?_⟩
  · -- run the removal body
    show (if indexByte ks b0 < 0 then _ else _) = _
    rw [hidx, if_neg (show ¬ ((i0 : Int) < 0) by omega)]
    have hsetA : arrSet ks ((i0 : Nat) : Int) 0 = .ok (ks.set i0 0) :=
      arrSet_ok _ (by omega) (by omega)
    have hsetB : arrSet cs ((i0 : Nat) : Int) none = .ok (cs.set i0 none) :=
      arrSet_ok _ (by omega) (by omega)
    show Res.bind (arrSet ks ((i0 : Nat) : Int) 0) _ = _
    rw [hsetA, Res.bind_ok]
    show Res.bind (arrSet cs ((i0 : Nat) : Int) none) _ = _
    rw [hsetB, Res.bind_ok]
    have hcnt : (m.size - 1 - ((i0 : Nat) : Int)).toNat = m.size.toNat - 1 - i0 := by
      omega
    show Res.bind (ArtNode.removeShift
        (m.size - 1 - ((i0 : Nat) : Int)).toNat
        (ks.set i0 0) (cs.set i0 none) ((i0 : Nat) : Int)) _ = _
    rw [hcnt, hrun, Res.bind_ok]
    show Res.bind (arrSet ks3 (m.size - 1) 0) _ = _
    rw [hset3, Res.bind_ok]
    show Res.bind (arrSet cs3 (m.size - 1) none) _ = _
    rw [hset4, Res.bind_ok]
    show Res.bind (Res.ok (ArtNode.node4 (V := V)
        ⟨m.size - 1, m.prefixLen, m.prefixBytes⟩
        (ks3.set (m.size.toNat - 1) 0) (cs3.set (m.size.toNat - 1) none))) _ = _
    rw [Res.bind_ok]
  · -- the directory equality
    rw [childAssoc_node4]
    show packedAssoc (m.size - 1).toNat (ks3.set (m.size.toNat - 1) 0)
      (cs3.set (m.size.toNat - 1) none) = _
    rw [htn]
    refine assoc_ext ?_ ?_ ?_
    · have hp2 := childAssoc_pairwise hpre2
      rw [childAssoc_node4] at hp2
      have hp3 : ((⟨m.size - 1, m.prefixLen, m.prefixBytes⟩ : NodeMeta).size).toNat
          = m.size.toNat - 1 := htn
      rw [show ((⟨m.size - 1, m.prefixLen, m.prefixBytes⟩ : NodeMeta).size).toNat
          = m.size.toNat - 1 from htn] at hp2
      exact hp2
    · exact List.Pairwise.filter _ (childAssoc_pairwise hpre)
    · rintro ⟨x, c⟩
      rw [packedAssoc_mem, mem_filter_ne, childAssoc_node4, packedAssoc_mem]
      constructor
      · rintro ⟨j, hj, hkj, hcj⟩
        by_cases hjlt : j < i0
        · obtain ⟨e1, e2⟩ := hKlow j hjlt
          rw [e1] at hkj
          rw [e2] at hcj
          refine ⟨⟨j, by omega, hkj, hcj⟩, ?_⟩
          rw [← hkj, ← hki0]
          have := hsorted j i0 hjlt hi0
          omega
        · obtain ⟨e1, e2⟩ := hKmid j (by omega) (by omega)
          rw [e1] at hkj
          rw [e2] at hcj
          refine ⟨⟨j + 1, by omega, hkj, hcj⟩, ?_⟩
          rw [← hkj, ← hki0]
          have := hsorted i0 (j + 1) (by omega) (by omega)
          omega
      · rintro ⟨⟨i, hi, hki, hci⟩, hne⟩
        have hii0 : i ≠ i0 := by
          intro he
          rw [he, hki0] at hki
          exact hne hki.symm
        by_cases hilt : i < i0
        · refine ⟨i, by omega, ?_, ?_⟩
          · rw [(hKlow i hilt).1]
            exact hki
          · rw [(hKlow i hilt).2]
            exact hci
        · refine ⟨i - 1, by omega, ?_, ?_⟩
          · rw [(hKmid (i - 1) (by omega) (by omega)).1]
            have hi1 : i - 1 + 1 = i := by omega
            rw [hi1]
            exact hki
          · rw [(hKmid (i - 1) (by omega) (by omega)).2]
            have hi1 : i - 1 + 1 = i := by omega
            rw [hi1]
            exact hci

theorem removeChild_node16 {V : Type} {m : NodeMeta} {ks : List Nat}
    {cs : List (Option (ArtNode V))} {b0 : Nat} {c0 : ArtNode V}
    (h : PreShape (ArtNode.node16 m ks cs))
    (hmem : (b0, c0) ∈ childAssoc (ArtNode.node16 m ks cs)) :
    ∃ ks4 cs4,
      ArtNode.RemoveChild (ArtNode.node16 m ks cs) b0 =
        (if (ArtNode.node16 (V := V) ⟨m.size - 1, m.prefixLen, m.prefixBytes⟩
              ks4 cs4).node.size <
            (ArtNode.node16 (V := V) ⟨m.size - 1, m.prefixLen, m.prefixBytes⟩
              ks4 cs4).minSize
          then ArtNode.shrink (ArtNode.node16 ⟨m.size - 1, m.prefixLen,
            m.prefixBytes⟩ ks4 cs4)
          else .ok (ArtNode.node16 ⟨m.size - 1, m.prefixLen, m.prefixBytes⟩
            ks4 cs4)) ∧
      PreShape (ArtNode.node16 (V := V) ⟨m.size - 1, m.prefixLen, m.prefixBytes⟩
        ks4 cs4) ∧
      childAssoc (ArtNode.node16 (V := V) ⟨m.size - 1, m.prefixLen,
          m.prefixBytes⟩ ks4 cs4) =
        (childAssoc (ArtNode.node16 m ks cs)).filter (fun e => e.1 != b0) := by
  have hpre := h
  obtain ⟨hkl, hcl, hpb, hmin, hmax, hfull, hpad, hsorted, hby⟩ := h
  have hmax16 : m.size.toNat ≤ 16 := by
    simp [node16Max] at hmax
    omega
  rw [childAssoc_node16, packedAssoc_mem] at hmem
  obtain ⟨i0, hi0, hki0, hci0⟩ := hmem
  have hidx : indexByte ks b0 = (i0 : Int) :=
    indexByte_eq (by omega) hki0
      (fun j hj he => by
        have := hsorted j i0 hj hi0
        omega)
  obtain ⟨ks3, cs3, hrun, hl1, hl2, hlow, hmid, hhigh⟩ :=
    packedRemove_arrays (V := V) (L := 16) hkl hcl hmax16 hi0
  have htn : (m.size - 1).toNat = m.size.toNat - 1 := by omega
  have hset3 : arrSet ks3 (m.size - 1) 0 =
      .ok (ks3.set (m.size.toNat - 1) 0) := by
    rw [arrSet_ok _ (by omega) (by omega), htn]
  have hset4 : arrSet cs3 (m.size - 1) none =
      .ok (cs3.set (m.size.toNat - 1) none) := by
    rw [arrSet_ok _ (by omega) (by omega), htn]
  have hKlow : ∀ j, j < i0 →
      (ks3.set (m.size.toNat - 1) 0).getD j 0 = ks.getD j 0 ∧
      (cs3.set (m.size.toNat - 1) none).getD j none = cs.getD j none := by
    intro j hj
    rw [getD_set_ne 0 (by omega), getD_set_ne none (by omega)]
    exact hlow j hj
  have hKmid : ∀ j, i0 ≤ j → j < m.size.toNat - 1 →
      (ks3.set (m.size.toNat - 1) 0).getD j 0 = ks.getD (j + 1) 0 ∧
      (cs3.set (m.size.toNat - 1) none).getD j none = cs.getD (j + 1) none := by
    intro j h1 h2
    rw [getD_set_ne 0 (by omega), getD_set_ne none (by omega)]
    exact hmid j h1 h2
  have hKtop : (ks3.set (m.size.toNat - 1) 0).getD (m.size.toNat - 1) 0 = 0 ∧
      (cs3.set (m.size.toNat - 1) none).getD (m.size.toNat - 1) none = none := by
    rw [getD_set_self 0 (by omega), getD_set_self none (by omega)]
    exact ⟨rfl, rfl⟩
  have hKhigh : ∀ j, m.size.toNat ≤ j →
      (ks3.set (m.size.toNat - 1) 0).getD j 0 = ks.getD j 0 ∧
      (cs3.set (m.size.toNat - 1) none).getD j none = cs.getD j none := by
    intro j hj
    rw [getD_set_ne 0 (by omega), getD_set_ne none (by omega)]
    exact hhigh j hj
  have hpre2 : PreShape (ArtNode.node16 (V := V)
      ⟨m.size - 1, m.prefixLen, m.prefixBytes⟩
      (ks3.set (m.size.toNat - 1) 0) (cs3.set (m.size.toNat - 1) none)) := by
    refine ⟨by rw [List.length_set]; exact hl1,
      by rw [List.length_set]; exact hl2, hpb,
      (by show (0 : Int) ≤ m.size - 1; omega),
      (by show m.size - 1 ≤ node16Max; simp [node16Max]; omega), ?_, ?_, ?_, ?_⟩
    · intro i hi
      have hi2 : i < (m.size - 1).toNat := hi
      by_cases hilt : i < i0
      · rw [(hKlow i hilt).2]
        exact hfull i (by omega)
      · rw [(hKmid i (by omega) (by omega)).2]
        exact hfull (i + 1) (by omega)
    · intro i hi1 hi2
      have hi1b : (m.size - 1).toNat ≤ i := hi1
      by_cases hie : i = m.size.toNat - 1
      · subst hie
        exact ⟨hKtop.1, hKtop.2⟩
      · obtain ⟨e1, e2⟩ := hKhigh i (by omega)
        rw [e1, e2]
        exact hpad i (by omega) hi2
    · intro i j hij hj
      have hj2 : j < (m.size - 1).toNat := hj
      by_cases hjlt : j < i0
      · rw [(hKlow i (by omega)).1, (hKlow j hjlt).1]
        exact hsorted i j hij (by omega)
      · rw [(hKmid j (by omega) (by omega)).1]
        by_cases hilt : i < i0
        · rw [(hKlow i hilt).1]
          exact hsorted i (j + 1) (by omega) (by omega)
        · rw [(hKmid i (by omega) (by omega)).1]
          exact hsorted (i + 1) (j + 1) (by omega) (by omega)
    · intro i hi
      have hi2 : i < (m.size - 1).toNat := hi
      by_cases hilt : i < i0
      · rw [(hKlow i hilt).1]
        exact hby i (by omega)
      · rw [(hKmid i (by omega) (by omega)).1]
        exact hby (i + 1) (by omega)
  refine ⟨ks3.set (m.size.toNat - 1) 0, cs3.set (m.size.toNat - 1) none,
    ?_, hpre2, ?_⟩
  · show (if indexByte ks b0 < 0 then _ else _) = _
    rw [hidx, if_neg (show ¬ ((i0 : Int) < 0) by omega)]
    have hsetA : arrSet ks ((i0 : Nat) : Int) 0 = .ok (ks.set i0 0) :=
      arrSet_ok _ (by omega) (by omega)
    have hsetB : arrSet cs ((i0 : Nat) : Int) none = .ok (cs.set i0 none) :=
      arrSet_ok _ (by omega) (by omega)
    show Res.bind (arrSet ks ((i0 : Nat) : Int) 0) _ = _
    rw [hsetA, Res.bind_ok]
    show Res.bind (arrSet cs ((i0 : Nat) : Int) none) _ = _
    rw [hsetB, Res.bind_ok]
    have hcnt : (m.size - 1 - ((i0 : Nat) : Int)).toNat = m.size.toNat - 1 - i0 := by
      omega
    show Res.bind (ArtNode.removeShift
        (m.size - 1 - ((i0 : Nat) : Int)).toNat
        (ks.set i0 0) (cs.set i0 none) ((i0 : Nat) : Int)) _ = _
    rw [hcnt, hrun, Res.bind_ok]
    show Res.bind (arrSet ks3 (m.size - 1) 0) _ = _
    rw [hset3, Res.bind_ok]
    show Res.bind (arrSet cs3 (m.size - 1) none) _ = _
    rw [hset4, Res.bind_ok]
    show Res.bind (Res.ok (ArtNode.node16 (V := V)
        ⟨m.size - 1, m.prefixLen, m.prefixBytes⟩
        (ks3.set (m.size.toNat - 1) 0) (cs3.set (m.size.toNat - 1) none))) _ = _
    rw [Res.bind_ok]
  · rw [childAssoc_node16]
    show packedAssoc (m.size - 1).toNat (ks3.set (m.size.toNat - 1) 0)
      (cs3.set (m.size.toNat - 1) none) = _
    rw [htn]
    refine assoc_ext ?_ ?_ ?_
    · have hp2 := childAssoc_pairwise hpre2
      rw [childAssoc_node16] at hp2
      rw [show ((⟨m.size - 1, m.prefixLen, m.prefixBytes⟩ : NodeMeta).size).toNat
          = m.size.toNat - 1 from htn] at hp2
      exact hp2
    · exact List.Pairwise.filter _ (childAssoc_pairwise hpre)
    · rintro ⟨x, c⟩
      rw [packedAssoc_mem, mem_filter_ne, childAssoc_node16, packedAssoc_mem]
      constructor
      · rintro ⟨j, hj, hkj, hcj⟩
        by_cases hjlt : j < i0
        · obtain ⟨e1, e2⟩ := hKlow j hjlt
          rw [e1] at hkj
          rw [e2] at hcj
          refine ⟨⟨j, by omega, hkj, hcj⟩, ?_⟩
          rw [← hkj, ← hki0]
          have := hsorted j i0 hjlt hi0
          omega
        · obtain ⟨e1, e2⟩ := hKmid j (by omega) (by omega)
          rw [e1] at hkj
          rw [e2] at hcj
          refine ⟨⟨j + 1, by omega, hkj, hcj⟩, ?_⟩
          rw [← hkj, ← hki0]
          have := hsorted i0 (j + 1) (by omega) (by omega)
          omega
      · rintro ⟨⟨i, hi, hki, hci⟩, hne⟩
        have hii0 : i ≠ i0 := by
          intro he
          rw [he, hki0] at hki
          exact hne hki.symm
        by_cases hilt : i < i0
        · refine ⟨i, by omega, ?_, ?_⟩
          · rw [(hKlow i hilt).1]
            exact hki
          · rw [(hKlow i hilt).2]
            exact hci
        · refine ⟨i - 1, by omega, ?_, ?_⟩
          · rw [(hKmid (i - 1) (by omega) (by omega)).1]
            have hi1 : i - 1 + 1 = i := by omega
            rw [hi1]
            exact hki
          · rw [(hKmid (i - 1) (by omega) (by omega)).2]
            have hi1 : i - 1 + 1 = i := by omega
            rw [hi1]
            exact hci

theorem removeChild_node48 {V : Type} {m : NodeMeta} {ks : List Nat}
    {cs : List (Option (ArtNode V))} {b0 : Nat} {c0 : ArtNode V}
    (h : PreShape (ArtNode.node48 m ks cs))
    (hmem : (b0, c0) ∈ childAssoc (ArtNode.node48 m ks cs)) :
    ∃ ks2 cs2,
      ArtNode.RemoveChild (ArtNode.node48 m ks cs) b0 =
        (if (ArtNode.node48 (V := V) ⟨m.size - 1, m.prefixLen, m.prefixBytes⟩
              ks2 cs2).node.size <
            (ArtNode.node48 (V := V) ⟨m.size - 1, m.prefixLen, m.prefixBytes⟩
              ks2 cs2).minSize
          then ArtNode.shrink (ArtNode.node48 ⟨m.size - 1, m.prefixLen,
            m.prefixBytes⟩ ks2 cs2)
          else .ok (ArtNode.node48 ⟨m.size - 1, m.prefixLen, m.prefixBytes⟩
            ks2 cs2)) ∧
      PreShape (ArtNode.node48 (V := V) ⟨m.size - 1, m.prefixLen, m.prefixBytes⟩
        ks2 cs2) ∧
      childAssoc (ArtNode.node48 (V := V) ⟨m.size - 1, m.prefixLen,
          m.prefixBytes⟩ ks2 cs2) =
        (childAssoc (ArtNode.node48 m ks cs)).filter (fun e => e.1 != b0) := by
  have hpre := h
  have hmem0 := hmem
  obtain ⟨hkl, hcl, hpb, hmin, hmax, hc0, hle48, hinj, hiff, hsz⟩ := h
  rw [n48Assoc_mem] at hmem
  obtain ⟨hb0, hnz, hcsl⟩ := hmem
  have hsl48 : ks.getD b0 0 ≤ 48 := hle48 b0 hb0
  have hlen1 : 1 ≤ (childAssoc (ArtNode.node48 m ks cs)).length :=
    List.length_pos.mpr (List.ne_nil_of_mem hmem0)
  have hK : ∀ x, (ks.set b0 0).getD x 0 = (if x = b0 then 0 else ks.getD x 0) := by
    intro x
    by_cases hx : x = b0
    · rw [if_pos hx, hx, getD_set_self 0 (by omega)]
    · rw [if_neg hx, getD_set_ne 0 (fun he => hx (by omega))]
  have hC : ∀ t, (cs.set (ks.getD b0 0) none).getD t none =
      (if t = ks.getD b0 0 then none else cs.getD t none) := by
    intro t
    by_cases ht : t = ks.getD b0 0
    · rw [if_pos ht, ht, getD_set_self none (by omega)]
    · rw [if_neg ht, getD_set_ne none (fun he => ht (by omega))]
  have hassoc : childAssoc (ArtNode.node48 (V := V)
      ⟨m.size - 1, m.prefixLen, m.prefixBytes⟩ (ks.set b0 0)
      (cs.set (ks.getD b0 0) none)) =
      (childAssoc (ArtNode.node48 m ks cs)).filter (fun e => e.1 != b0) := by
    refine assoc_ext (n48Assoc_pairwise_any _ _ _)
      (List.Pairwise.filter _ (childAssoc_pairwise hpre)) ?_
    rintro ⟨x, c⟩
    rw [n48Assoc_mem, mem_filter_ne, n48Assoc_mem]
    constructor
    · rintro ⟨hx, hxnz, hxc⟩
      rw [hK x] at hxnz hxc
      have hxb : x ≠ b0 := by
        intro he
        rw [if_pos he] at hxnz
        exact hxnz rfl
      rw [if_neg hxb] at hxnz hxc
      rw [hC (ks.getD x 0)] at hxc
      have hne : ks.getD x 0 ≠ ks.getD b0 0 := by
        intro he
        exact hxb (hinj x b0 hx hb0 hxnz he)
      rw [if_neg hne] at hxc
      exact ⟨⟨hx, hxnz, hxc⟩, hxb⟩
    · rintro ⟨⟨hx, hxnz, hxc⟩, hxb⟩
      refine ⟨hx, ?_, ?_⟩
      · rw [hK x, if_neg hxb]
        exact hxnz
      · rw [hK x, if_neg hxb, hC (ks.getD x 0),
          if_neg (fun he => hxb (hinj x b0 hx hb0 hxnz he))]
        exact hxc
  refine ⟨ks.set b0 0, cs.set (ks.getD b0 0) none, ?_, ?_, hassoc⟩
  · show (if ((ks.getD b0 0 : Nat) : Int) ≤ 0 then _ else _) = _
    rw [if_neg (show ¬ (((ks.getD b0 0 : Nat) : Int) ≤ 0) by omega)]
    have hsetA : arrSet cs ((ks.getD b0 0 : Nat) : Int) none =
        .ok (cs.set (ks.getD b0 0) none) :=
      arrSet_ok _ (by omega) (by omega)
    have hsetB : arrSet ks ((b0 : Nat) : Int) 0 = .ok (ks.set b0 0) :=
      arrSet_ok _ (by omega) (by omega)
    show Res.bind (arrSet cs ((ks.getD b0 0 : Nat) : Int) none) _ = _
    rw [hsetA, Res.bind_ok]
    show Res.bind (arrSet ks ((b0 : Nat) : Int) 0) _ = _
    rw [hsetB, Res.bind_ok]
    show Res.bind (Res.ok (ArtNode.node48 (V := V)
        ⟨m.size - 1, m.prefixLen, m.prefixBytes⟩ (ks.set b0 0)
        (cs.set (ks.getD b0 0) none))) _ = _
    rw [Res.bind_ok]
  · refine ⟨by rw [List.length_set]; exact hkl,
      by rw [List.length_set]; exact hcl, hpb,
      (by show (0 : Int) ≤ m.size - 1; omega),
      (by show m.size - 1 ≤ node48Max; simp [node48Max] at hmax ⊢; omega),
      ?_, ?_, ?_, ?_, ?_⟩
    · rw [hC 0, if_neg (by omega)]
      exact hc0
    · intro x hx
      rw [hK x]
      by_cases hxb : x = b0
      · rw [if_pos hxb]
        omega
      · rw [if_neg hxb]
        exact hle48 x hx
    · intro b1 b2 hb1 hb2 hnz1 he
      rw [hK b1] at hnz1 he
      rw [hK b2] at he
      by_cases h1 : b1 = b0
      · rw [if_pos h1] at hnz1
        exact absurd rfl hnz1
      · rw [if_neg h1] at hnz1 he
        by_cases h2 : b2 = b0
        · rw [if_pos h2] at he
          exact absurd he hnz1
        · rw [if_neg h2] at he
          exact hinj b1 b2 hb1 hb2 hnz1 he
    · intro t ht1 ht2
      rw [hC t]
      by_cases hts : t = ks.getD b0 0
      · rw [if_pos hts]
        constructor
        · intro hc
          exact absurd hc (by simp)
        · rintro ⟨x, hx, hxe⟩
          rw [hK x] at hxe
          by_cases hxb : x = b0
          · rw [if_pos hxb] at hxe
            omega
          · rw [if_neg hxb] at hxe
            exact absurd (hinj x b0 hx hb0 (by omega) (by rw [hxe, hts])) hxb
      · rw [if_neg hts]
        rw [hiff t ht1 ht2]
        constructor
        · rintro ⟨x, hx, hxe⟩
          refine ⟨x, hx, ?_⟩
          have hxb : x ≠ b0 := by
            intro he
            rw [he] at hxe
            exact hts hxe.symm
          rw [hK x, if_neg hxb]
          exact hxe
        · rintro ⟨x, hx, hxe⟩
          rw [hK x] at hxe
          by_cases hxb : x = b0
          · rw [if_pos hxb] at hxe
            omega
          · rw [if_neg hxb] at hxe
            exact ⟨x, hx, hxe⟩
    · rw [hassoc]
      have hpwf : ((childAssoc (ArtNode.node48 m ks cs)).map Prod.fst).Pairwise
          (fun a b => a ≠ b) :=
        (List.pairwise_map).mpr (childAssoc_pairwise_ne hpre)
      have hflen := filter_fst_ne_length hpwf hmem0
      show (((childAssoc (ArtNode.node48 m ks cs)).filter
        (fun e => e.1 != b0)).length : Int) = m.size - 1
      omega

theorem removeChild_node256 {V : Type} {m : NodeMeta}
    {cs : List (Option (ArtNode V))} {b0 : Nat} {c0 : ArtNode V}
    (h : PreShape (ArtNode.node256 m cs))
    (hmem : (b0, c0) ∈ childAssoc (ArtNode.node256 m cs)) :
    ∃ cs2,
      ArtNode.RemoveChild (ArtNode.node256 m cs) b0 =
        (if (ArtNode.node256 (V := V) ⟨m.size - 1, m.prefixLen, m.prefixBytes⟩
              cs2).node.size <
            (ArtNode.node256 (V := V) ⟨m.size - 1, m.prefixLen, m.prefixBytes⟩
              cs2).minSize
          then ArtNode.shrink (ArtNode.node256 ⟨m.size - 1, m.prefixLen,
            m.prefixBytes⟩ cs2)
          else .ok (ArtNode.node256 ⟨m.size - 1, m.prefixLen, m.prefixBytes⟩
            cs2)) ∧
      PreShape (ArtNode.node256 (V := V) ⟨m.size - 1, m.prefixLen,
        m.prefixBytes⟩ cs2) ∧
      childAssoc (ArtNode.node256 (V := V) ⟨m.size - 1, m.prefixLen,
          m.prefixBytes⟩ cs2) =
        (childAssoc (ArtNode.node256 m cs)).filter (fun e => e.1 != b0) := by
  have hpre := h
  have hmem0 := hmem
  obtain ⟨hcl, hpb, hmin, hmax, hsz⟩ := h
  rw [n256Assoc_mem] at hmem
  obtain ⟨hb0, hcb0⟩ := hmem
  have hlen1 : 1 ≤ (childAssoc (ArtNode.node256 m cs)).length :=
    List.length_pos.mpr (List.ne_nil_of_mem hmem0)
  have hC : ∀ t, (cs.set b0 none).getD t none =
      (if t = b0 then none else cs.getD t none) := by
    intro t
    by_cases ht : t = b0
    · rw [if_pos ht, ht, getD_set_self none (by omega)]
    · rw [if_neg ht, getD_set_ne none (fun he => ht (by omega))]
  have hassoc : childAssoc (ArtNode.node256 (V := V)
      ⟨m.size - 1, m.prefixLen, m.prefixBytes⟩ (cs.set b0 none)) =
      (childAssoc (ArtNode.node256 m cs)).filter (fun e => e.1 != b0) := by
    refine assoc_ext (n256Assoc_pairwise_any _ _)
      (List.Pairwise.filter _ (childAssoc_pairwise hpre)) ?_
    rintro ⟨x, c⟩
    rw [n256Assoc_mem, mem_filter_ne, n256Assoc_mem]
    constructor
    · rintro ⟨hx, hxc⟩
      rw [hC x] at hxc
      have hxb : x ≠ b0 := by
        intro he
        rw [if_pos he] at hxc
        exact Option.noConfusion hxc
      rw [if_neg hxb] at hxc
      exact ⟨⟨hx, hxc⟩, hxb⟩
    · rintro ⟨⟨hx, hxc⟩, hxb⟩
      refine ⟨hx, ?_⟩
      rw [hC x, if_neg hxb]
      exact hxc
  refine ⟨cs.set b0 none, ?_, ?_, hassoc⟩
  · have hsetA : arrSet cs ((b0 : Nat) : Int) none = .ok (cs.set b0 none) :=
      arrSet_ok _ (by omega) (by omega)
    show Res.bind (arrSet cs ((b0 : Nat) : Int) none) _ = _
    rw [hsetA, Res.bind_ok]
    show Res.bind (Res.ok (ArtNode.node256 (V := V)
        ⟨m.size - 1, m.prefixLen, m.prefixBytes⟩ (cs.set b0 none))) _ = _
    rw [Res.bind_ok]
  · refine ⟨by rw [List.length_set]; exact hcl, hpb,
      (by show (0 : Int) ≤ m.size - 1; omega),
      (by show m.size - 1 ≤ node256Max; simp [node256Max] at hmax ⊢; omega), ?_⟩
    rw [hassoc]
    have hpwf : ((childAssoc (ArtNode.node256 m cs)).map Prod.fst).Pairwise
        (fun a b => a ≠ b) :=
      (List.pairwise_map).mpr (childAssoc_pairwise_ne hpre)
    have hflen := filter_fst_ne_length hpwf hmem0
    show (((childAssoc (ArtNode.node256 m cs)).filter
      (fun e => e.1 != b0)).length : Int) = m.size - 1
    omega

/-! ## The shrink copy loops -/

theorem shrink16_fold {V : Type} (ks : List Nat) (cs : List (Option (ArtNode V))) :
    ∀ (s : Nat) (a : List Nat) (b : List (Option (ArtNode V))),
    s ≤ ks.length → s ≤ cs.length → s ≤ a.length → s ≤ b.length →
    ∃ a2 b2, List.foldlM (fun (acc : List Nat × List (Option (ArtNode V)) × Int)
        (i : Nat) => do
        let kv ← arrGet ks (i : Int)
        let cv ← arrGet cs (i : Int)
        let ks4 ← arrSet acc.1 acc.2.2 kv
        let cs4 ← arrSet acc.2.1 acc.2.2 cv
        pure (ks4, cs4, acc.2.2 + 1)) (a, b, (0 : Int)) (List.range s) =
        .ok (a2, b2, ((s : Nat) : Int)) ∧
      a2.length = a.length ∧ b2.length = b.length ∧
      (∀ j, j < s → a2.getD j 0 = ks.getD j 0 ∧ b2.getD j none = cs.getD j none) ∧
      (∀ j, s ≤ j → a2.getD j 0 = a.getD j 0 ∧ b2.getD j none = b.getD j none) := by
  intro s
  induction s with
  | zero =>
    intro a b _ _ _ _
    exact ⟨a, b, rfl, rfl, rfl, fun j hj => by omega, fun j _ => ⟨rfl, rfl⟩⟩
  | succ s ih =>
    intro a b hks hcs ha hb
    obtain ⟨a2, b2, hrun, hal, hbl, hdone, hrest⟩ := ih a b (by omega) (by omega)
      (by omega) (by omega)
    have hsetA : arrSet a2 ((s : Nat) : Int) (ks.getD s 0) =
        .ok (a2.set s (ks.getD s 0)) :=
      arrSet_ok _ (by omega) (by omega)
    have hsetB : arrSet b2 ((s : Nat) : Int) (cs.getD s none) =
        .ok (b2.set s (cs.getD s none)) :=
      arrSet_ok _ (by omega) (by omega)
    have hf : (fun (acc : List Nat × List (Option (ArtNode V)) × Int)
        (i : Nat) => do
        let kv ← arrGet ks (i : Int)
        let cv ← arrGet cs (i : Int)
        let ks4 ← arrSet acc.1 acc.2.2 kv
        let cs4 ← arrSet acc.2.1 acc.2.2 cv
        pure (ks4, cs4, acc.2.2 + 1)) (a2, b2, ((s : Nat) : Int)) s =
        .ok (a2.set s (ks.getD s 0), b2.set s (cs.getD s none),
          ((s + 1 : Nat) : Int)) := by
      show Res.bind (arrGet ks ((s : Nat) : Int)) _ = _
      rw [arrGet_getD 0 (by omega), Res.bind_ok]
      show Res.bind (arrGet cs ((s : Nat) : Int)) _ = _
      rw [arrGet_getD none (by omega), Res.bind_ok]
      show Res.bind (arrSet a2 ((s : Nat) : Int) (ks.getD s 0)) _ = _
      rw [hsetA, Res.bind_ok]
      show Res.bind (arrSet b2 ((s : Nat) : Int) (cs.getD s none)) _ = _
      rw [hsetB, Res.bind_ok]
      show Res.ok (a2.set s (ks.getD s 0), b2.set s (cs.getD s none),
        ((s : Nat) : Int) + 1) = _
      push_cast
      rfl
    refine ⟨a2.set s (ks.getD s 0), b2.set s (cs.getD s none), ?_,
      by rw [List.length_set]; exact hal, by rw [List.length_set]; exact hbl,
      ?_, ?_⟩
    · rw [List.range_succ, foldlM_append_ok hrun]
      exact foldlM_singleton_ok hf
    · intro j hj
      by_cases hjs : j < s
      · have hne : s ≠ j := by omega
        rw [getD_set_ne 0 hne, getD_set_ne none hne]
        exact hdone j hjs
      · have hje : j = s := by omega
        subst hje
        rw [getD_set_self 0 (by omega), getD_set_self none (by omega)]
        exact ⟨rfl, rfl⟩
    · intro j hj
      have hne : s ≠ j := by omega
      rw [getD_set_ne 0 hne, getD_set_ne none hne]
      exact hrest j (by omega)

/-- N16 → N4 shrink: run, shape, header and directory preservation. -/
theorem shrink_node16 {V : Type} {m : NodeMeta} {ks : List Nat}
    {cs : List (Option (ArtNode V))} (h : PreShape (ArtNode.node16 m ks cs))
    (hs : m.size ≤ 4) :
    ∃ n2, ArtNode.shrink (ArtNode.node16 m ks cs) = .ok n2 ∧ PreShape n2 ∧
      n2.node.size = m.size ∧ n2.node.prefixLen = m.prefixLen ∧
      (∀ i : Nat, (i : Int) < goMin m.prefixLen maxPrefixLen →
        n2.node.prefixBytes.getD i 0 = m.prefixBytes.getD i 0) ∧
      n2.minSize = node4Min ∧ n2.isLeaf = false ∧
      childAssoc n2 = childAssoc (ArtNode.node16 m ks cs) := by
  obtain ⟨hkl, hcl, hpb, hmin, hmax, hfull, hpad, hsorted, hby⟩ := h
  obtain ⟨a2, b2, hrun, hal, hbl, hdone, hrest⟩ := shrink16_fold ks cs
    m.size.toNat (List.replicate 4 0) (List.replicate 4 none)
    (by omega) (by omega) (by simp; omega) (by simp; omega)
  rw [List.length_replicate] at hal hbl
  have hk10 : (goMin m.prefixLen maxPrefixLen).toNat ≤ 10 := by
    rw [goMin_eq]
    simp only [maxPrefixLen]
    omega
  have hms : ((m.size.toNat : Nat) : Int) = m.size := by omega
  refine ⟨ArtNode.node4 ⟨m.size, m.prefixLen,
      m.prefixBytes.take (goMin m.prefixLen maxPrefixLen).toNat ++
        (List.replicate 10 0).drop (goMin m.prefixLen maxPrefixLen).toNat⟩
      a2 b2, ?_, ?_, rfl, rfl, ?_, rfl, rfl, ?_⟩
  · show Res.bind (List.foldlM
        (fun (acc : List Nat × List (Option (ArtNode V)) × Int) (i : Nat) => do
          let kv ← arrGet ks (i : Int)
          let cv ← arrGet cs (i : Int)
          let ks4 ← arrSet acc.1 acc.2.2 kv
          let cs4 ← arrSet acc.2.1 acc.2.2 cv
          pure (ks4, cs4, acc.2.2 + 1))
        (List.replicate 4 0, List.replicate 4 none, (0 : Int))
        (List.range m.size.toNat)) _ = _
    rw [hrun, Res.bind_ok]
    show Res.ok (ArtNode.node4 (V := V) ⟨((m.size.toNat : Nat) : Int),
        m.prefixLen,
        m.prefixBytes.take (goMin m.prefixLen maxPrefixLen).toNat ++
          (List.replicate 10 0).drop (goMin m.prefixLen maxPrefixLen).toNat⟩
        a2 b2) = _
    rw [hms]
  · refine ⟨hal, hbl, ?_,
      (by show (0 : Int) ≤ m.size; omega),
      (by show m.size ≤ node4Max; simp [node4Max]; omega), ?_, ?_, ?_, ?_⟩
    · show (m.prefixBytes.take (goMin m.prefixLen maxPrefixLen).toNat ++
        (List.replicate 10 0).drop (goMin m.prefixLen maxPrefixLen).toNat).length = 10
      rw [List.length_append, List.length_take, List.length_drop,
        List.length_replicate, hpb]
      omega
    · intro i hi
      rw [(hdone i hi).2]
      exact hfull i hi
    · intro i hi1 hi2
      obtain ⟨e1, e2⟩ := hrest i hi1
      rw [e1, e2]
      exact ⟨getD_replicate, getD_replicate⟩
    · intro i j hij hj
      have hj2 : j < m.size.toNat := hj
      rw [(hdone i (by omega)).1, (hdone j hj2).1]
      exact hsorted i j hij hj2
    · intro i hi
      rw [(hdone i hi).1]
      exact hby i hi
  · intro i hi
    have hik : i < (goMin m.prefixLen maxPrefixLen).toNat := by omega
    show (m.prefixBytes.take (goMin m.prefixLen maxPrefixLen).toNat ++
      (List.replicate 10 0).drop (goMin m.prefixLen maxPrefixLen).toNat).getD i 0
      = m.prefixBytes.getD i 0
    exact getD_take_append 0 hik (by omega)
  · rw [childAssoc_node4, childAssoc_node16]
    show packedAssoc m.size.toNat a2 b2 = _
    exact packedAssoc_congr hdone

theorem countP_congr_mem {α : Type} {p q : α → Bool} :
    ∀ {l : List α}, (∀ a ∈ l, p a = q a) → l.countP p = l.countP q := by
  intro l
  induction l with
  | nil => intro _; rfl
  | cons a as ih =>
    intro h
    rw [List.countP_cons, List.countP_cons, h a (by simp),
      ih (fun x hx => h x (by simp [hx]))]

theorem shrink48_fold {V : Type} (ks : List Nat) (cs : List (Option (ArtNode V)))
    (hkl : ks.length = 256) (hcl : cs.length = 49)
    (hle48 : ∀ bb, bb < 256 → ks.getD bb 0 ≤ 48)
    (hbound : (List.range 256).countP (fun i => ks.getD i 0 != 0) ≤ 16) :
    ∀ (s : Nat) (a : List Nat) (b : List (Option (ArtNode V))),
    s ≤ 256 → a.length = 16 → b.length = 16 →
    ∃ a2 b2, List.foldlM (fun (acc : List Nat × List (Option (ArtNode V)) × Int)
        (i : Nat) => do
        let idx := ks.getD i 0
        if idx = 0 then pure acc
        else do
          let cv ← arrGet cs (idx : Int)
          let ks16 ← arrSet acc.1 acc.2.2 ((i % 256 : Nat))
          let cs16 ← arrSet acc.2.1 acc.2.2 cv
          pure (ks16, cs16, acc.2.2 + 1)) (a, b, (0 : Int)) (List.range s) =
        .ok (a2, b2,
          (((List.range s).countP (fun i => ks.getD i 0 != 0) : Nat) : Int)) ∧
      a2.length = 16 ∧ b2.length = 16 ∧
      (∀ x, x < s → ks.getD x 0 ≠ 0 →
        a2.getD ((List.range x).countP (fun i => ks.getD i 0 != 0)) 0 = x ∧
        b2.getD ((List.range x).countP (fun i => ks.getD i 0 != 0)) none =
          cs.getD (ks.getD x 0) none) ∧
      (∀ j, (List.range s).countP (fun i => ks.getD i 0 != 0) ≤ j →
        a2.getD j 0 = a.getD j 0 ∧ b2.getD j none = b.getD j none) ∧
      (∀ j, j < (List.range s).countP (fun i => ks.getD i 0 != 0) →
        ∃ x, x < s ∧ ks.getD x 0 ≠ 0 ∧
          (List.range x).countP (fun i => ks.getD i 0 != 0) = j) := by
  intro s
  induction s with
  | zero =>
    intro a b _ hal hbl
    exact ⟨a, b, rfl, hal, hbl, fun x hx => by omega, fun j _ => ⟨rfl, rfl⟩,
      fun j hj => by simp at hj⟩
  | succ s ih =>
    intro a b hs hal hbl
    obtain ⟨a2, b2, hrun, hal2, hbl2, hset, huns, hsurj⟩ :=
      ih a b (by omega) hal hbl
    have hcnt_succ : (List.range (s + 1)).countP (fun i => ks.getD i 0 != 0) =
        (List.range s).countP (fun i => ks.getD i 0 != 0) +
          if (ks.getD s 0 != 0) = true then 1 else 0 :=
      countP_range_succ _ s
    by_cases hz : ks.getD s 0 = 0
    · -- a zero slot is skipped
      have hf : (fun (acc : List Nat × List (Option (ArtNode V)) × Int)
          (i : Nat) => do
          let idx := ks.getD i 0
          if idx = 0 then pure acc
          else do
            let cv ← arrGet cs (idx : Int)
            let ks16 ← arrSet acc.1 acc.2.2 ((i % 256 : Nat))
            let cs16 ← arrSet acc.2.1 acc.2.2 cv
            pure (ks16, cs16, acc.2.2 + 1))
          (a2, b2, (((List.range s).countP (fun i => ks.getD i 0 != 0) : Nat)
            : Int)) s = .ok (a2, b2,
          (((List.range (s + 1)).countP (fun i => ks.getD i 0 != 0) : Nat)
            : Int)) := by
        show (if ks.getD s 0 = 0 then _ else _) = _
        rw [if_pos hz]
        rw [hcnt_succ, if_neg (by simp only [bne_iff_ne, ne_eq]; exact fun hc => hc hz)]
        rfl
      refine ⟨a2, b2, ?_, hal2, hbl2, ?_, ?_, ?_⟩
      · conv_lhs => rw [List.range_succ]
        rw [foldlM_append_ok hrun]
        exact foldlM_singleton_ok hf
      · intro x hx hnx
        have hxs : x < s := by
          rcases Nat.lt_succ_iff_lt_or_eq.mp hx with h | h
          · exact h
          · subst h; exact absurd hz hnx
        exact hset x hxs hnx
      · intro j hj
        refine huns j ?_
        rw [hcnt_succ, if_neg (by simp only [bne_iff_ne, ne_eq]; exact fun hc => hc hz)] at hj
        omega
      · intro j hj
        rw [hcnt_succ, if_neg (by simp only [bne_iff_ne, ne_eq]; exact fun hc => hc hz)] at hj
        obtain ⟨x, hx1, hx2, hx3⟩ := hsurj j (by omega)
        exact ⟨x, by omega, hx2, hx3⟩
    · -- a keyed slot is appended at the running counter
      have hsl : ks.getD s 0 ≤ 48 := hle48 s (by omega)
      have hcν : (List.range (s + 1)).countP (fun i => ks.getD i 0 != 0) =
          (List.range s).countP (fun i => ks.getD i 0 != 0) + 1 := by
        rw [hcnt_succ, if_pos (by simp only [bne_iff_ne, ne_eq]; exact hz)]
      have hccap : (List.range s).countP (fun i => ks.getD i 0 != 0) + 1 ≤ 16 := by
        have h1 := countP_range_mono (fun i => ks.getD i 0 != 0)
          (show s + 1 ≤ 256 by omega)
        omega
      have hsmod : s % 256 = s := Nat.mod_eq_of_lt (by omega)
      have hsetA : arrSet a2
          ((((List.range s).countP (fun i => ks.getD i 0 != 0) : Nat)) : Int)
          (s % 256) =
          .ok (a2.set ((List.range s).countP (fun i => ks.getD i 0 != 0))
            (s % 256)) :=
        arrSet_ok _ (by omega) (by omega)
      have hsetB : arrSet b2
          ((((List.range s).countP (fun i => ks.getD i 0 != 0) : Nat)) : Int)
          (cs.getD (ks.getD s 0) none) =
          .ok (b2.set ((List.range s).countP (fun i => ks.getD i 0 != 0))
            (cs.getD (ks.getD s 0) none)) :=
        arrSet_ok _ (by omega) (by omega)
      have hf : (fun (acc : List Nat × List (Option (ArtNode V)) × Int)
          (i : Nat) => do
          let idx := ks.getD i 0
          if idx = 0 then pure acc
          else do
            let cv ← arrGet cs (idx : Int)
            let ks16 ← arrSet acc.1 acc.2.2 ((i % 256 : Nat))
            let cs16 ← arrSet acc.2.1 acc.2.2 cv
            pure (ks16, cs16, acc.2.2 + 1))
          (a2, b2, (((List.range s).countP (fun i => ks.getD i 0 != 0) : Nat)
            : Int)) s = .ok
          (a2.set ((List.range s).countP (fun i => ks.getD i 0 != 0)) (s % 256),
           b2.set ((List.range s).countP (fun i => ks.getD i 0 != 0))
             (cs.getD (ks.getD s 0) none),
           (((List.range (s + 1)).countP (fun i => ks.getD i 0 != 0) : Nat)
             : Int)) := by
        show (if ks.getD s 0 = 0 then _ else _) = _
        rw [if_neg hz]
        show Res.bind (arrGet cs ((ks.getD s 0 : Nat) : Int)) _ = _
        rw [arrGet_getD none (by omega), Res.bind_ok]
        show Res.bind (arrSet a2
          ((((List.range s).countP (fun i => ks.getD i 0 != 0) : Nat)) : Int)
          (s % 256)) _ = _
        rw [hsetA, Res.bind_ok]
        show Res.bind (arrSet b2
          ((((List.range s).countP (fun i => ks.getD i 0 != 0) : Nat)) : Int)
          (cs.getD (ks.getD s 0) none)) _ = _
        rw [hsetB, Res.bind_ok]
        show Res.ok (_, _,
          ((((List.range s).countP (fun i => ks.getD i 0 != 0) : Nat)) : Int)
            + 1) = _
        rw [hcν]
        push_cast
        rfl
      refine ⟨a2.set ((List.range s).countP (fun i => ks.getD i 0 != 0)) (s % 256),
        b2.set ((List.range s).countP (fun i => ks.getD i 0 != 0))
          (cs.getD (ks.getD s 0) none), ?_,
        by rw [List.length_set]; exact hal2,
        by rw [List.length_set]; exact hbl2, ?_, ?_, ?_⟩
      · conv_lhs => rw [List.range_succ]
        rw [foldlM_append_ok hrun]
        exact foldlM_singleton_ok hf
      · intro x hx hnx
        by_cases hxs : x < s
        · have hrx : (List.range x).countP (fun i => ks.getD i 0 != 0) <
              (List.range s).countP (fun i => ks.getD i 0 != 0) := by
            have h1 : (List.range (x + 1)).countP (fun i => ks.getD i 0 != 0) =
                (List.range x).countP (fun i => ks.getD i 0 != 0) + 1 := by
              rw [countP_range_succ, if_pos (by simp only [bne_iff_ne, ne_eq]; exact hnx)]
            have h2 := countP_range_mono (fun i => ks.getD i 0 != 0)
              (show x + 1 ≤ s by omega)
            omega
          have hne : (List.range s).countP (fun i => ks.getD i 0 != 0) ≠
              (List.range x).countP (fun i => ks.getD i 0 != 0) := by omega
          rw [getD_set_ne 0 hne, getD_set_ne none hne]
          exact hset x hxs hnx
        · have hxe : x = s := by omega
          subst hxe
          rw [getD_set_self 0 (by omega), getD_set_self none (by omega)]
          exact ⟨hsmod, rfl⟩
      · intro j hj
        rw [hcν] at hj
        have hne : (List.range s).countP (fun i => ks.getD i 0 != 0) ≠ j := by
          omega
        rw [getD_set_ne 0 hne, getD_set_ne none hne]
        exact huns j (by omega)
      · intro j hj
        rw [hcν] at hj
        by_cases hjc : j < (List.range s).countP (fun i => ks.getD i 0 != 0)
        · obtain ⟨x, hx1, hx2, hx3⟩ := hsurj j hjc
          exact ⟨x, by omega, hx2, hx3⟩
        · have hje : j = (List.range s).countP (fun i => ks.getD i 0 != 0) := by
            omega
          exact ⟨s, by omega, hz, hje.symm⟩

/-- N48 → N16 shrink: run, shape, header and directory preservation. -/
theorem shrink_node48 {V : Type} {m : NodeMeta} {ks : List Nat}
    {cs : List (Option (ArtNode V))} (h : PreShape (ArtNode.node48 m ks cs))
    (hs : m.size ≤ 16) :
    ∃ n2, ArtNode.shrink (ArtNode.node48 m ks cs) = .ok n2 ∧ PreShape n2 ∧
      n2.node.size = m.size ∧ n2.node.prefixLen = m.prefixLen ∧
      (∀ i : Nat, (i : Int) < goMin m.prefixLen maxPrefixLen →
        n2.node.prefixBytes.getD i 0 = m.prefixBytes.getD i 0) ∧
      n2.minSize = node16Min ∧ n2.isLeaf = false ∧
      childAssoc n2 = childAssoc (ArtNode.node48 m ks cs) := by
  have hpre := h
  obtain ⟨hkl, hcl, hpb, hmin, hmax, hc0, hle48, hinj, hiff, hsz⟩ := h
  have hcntEq : (List.range 256).countP (fun i => ks.getD i 0 != 0) =
      m.size.toNat := by
    have h1 : (childAssoc (ArtNode.node48 m ks cs)).length =
        (List.range 256).countP (fun b =>
          ((fun b => if ks.getD b 0 = 0 then none
            else match cs.getD (ks.getD b 0) none with
              | some c => some (b, c)
              | none => none) b : Option (Nat × ArtNode V)).isSome) := by
      rw [childAssoc_node48]
      exact length_filterMap_countP _ _
    have h2 : (List.range 256).countP (fun b =>
        ((fun b => if ks.getD b 0 = 0 then none
          else match cs.getD (ks.getD b 0) none with
            | some c => some (b, c)
            | none => none) b : Option (Nat × ArtNode V)).isSome) =
        (List.range 256).countP (fun i => ks.getD i 0 != 0) := by
      refine countP_congr_mem ?_
      intro bb hbb
      rw [List.mem_range] at hbb
      by_cases hz : ks.getD bb 0 = 0
      · show (if ks.getD bb 0 = 0 then (none : Option (Nat × ArtNode V))
          else _).isSome = _
        rw [if_pos hz, hz]
        rfl
      · show (if ks.getD bb 0 = 0 then (none : Option (Nat × ArtNode V))
          else _).isSome = _
        rw [if_neg hz]
        have hsl : (cs.getD (ks.getD bb 0) none).isSome :=
          (hiff (ks.getD bb 0) (by omega) (hle48 bb hbb)).mpr ⟨bb, hbb, rfl⟩
        cases hcv : cs.getD (ks.getD bb 0) none with
        | none =>
          rw [hcv] at hsl
          exact absurd hsl (by simp)
        | some c =>
          show (some (bb, c) : Option (Nat × ArtNode V)).isSome =
            (ks.getD bb 0 != 0)
          rw [show (ks.getD bb 0 != 0) = true by
            simp only [bne_iff_ne, ne_eq]
            exact hz]
          rfl
    rw [h1, h2] at hsz
    omega
  have hbound : (List.range 256).countP (fun i => ks.getD i 0 != 0) ≤ 16 := by
    rw [hcntEq]
    omega
  obtain ⟨a2, b2, hrun, hal2, hbl2, hset, huns, hsurj⟩ := shrink48_fold ks cs
    hkl hcl hle48 hbound 256 (List.replicate 16 0) (List.replicate 16 none)
    (le_refl 256) (by simp) (by simp)
  rw [hcntEq] at hrun huns hsurj
  have hrank_lt : ∀ x, x < 256 → ks.getD x 0 ≠ 0 →
      (List.range x).countP (fun i => ks.getD i 0 != 0) < m.size.toNat := by
    intro x hx hnx
    have h1 : (List.range (x + 1)).countP (fun i => ks.getD i 0 != 0) =
        (List.range x).countP (fun i => ks.getD i 0 != 0) + 1 := by
      rw [countP_range_succ, if_pos (by simp only [bne_iff_ne, ne_eq]; exact hnx)]
    have h2 := countP_range_mono (fun i => ks.getD i 0 != 0)
      (show x + 1 ≤ 256 by omega)
    omega
  have hfull2 : ∀ j, j < m.size.toNat → (b2.getD j none).isSome := by
    intro j hj
    obtain ⟨x, hx, hnx, hrk⟩ := hsurj j hj
    rw [← hrk, (hset x hx hnx).2]
    exact (hiff (ks.getD x 0) (by omega) (hle48 x hx)).mpr ⟨x, hx, rfl⟩
  have hsort2 : ∀ i j, i < j → j < m.size.toNat →
      a2.getD i 0 < a2.getD j 0 := by
    intro i j hij hj
    obtain ⟨xi, hxi, hnxi, hrki⟩ := hsurj i (by omega)
    obtain ⟨xj, hxj, hnxj, hrkj⟩ := hsurj j hj
    rw [← hrki, (hset xi hxi hnxi).1, ← hrkj, (hset xj hxj hnxj).1]
    rcases Nat.lt_trichotomy xi xj with hlt | heq | hgt
    · exact hlt
    · subst heq
      omega
    · exfalso
      have h1 : (List.range (xj + 1)).countP (fun i => ks.getD i 0 != 0) =
          (List.range xj).countP (fun i => ks.getD i 0 != 0) + 1 := by
        rw [countP_range_succ,
          if_pos (by simp only [bne_iff_ne, ne_eq]; exact hnxj)]
      have h2 := countP_range_mono (fun i => ks.getD i 0 != 0)
        (show xj + 1 ≤ xi by omega)
      omega
  have hby2 : ∀ i, i < m.size.toNat → a2.getD i 0 < 256 := by
    intro i hi
    obtain ⟨x, hx, hnx, hrk⟩ := hsurj i hi
    rw [← hrk, (hset x hx hnx).1]
    exact hx
  have hms : ((m.size.toNat : Nat) : Int) = m.size := by omega
  have hassoc : packedAssoc m.size.toNat a2 b2 =
      childAssoc (ArtNode.node48 m ks cs) := by
    refine assoc_ext (packedAssoc_pairwise hfull2 hsort2)
      (childAssoc_pairwise hpre) ?_
    rintro ⟨x, c⟩
    rw [packedAssoc_mem, n48Assoc_mem]
    constructor
    · rintro ⟨j, hj, hkj, hcj⟩
      obtain ⟨x', hx', hnx', hrk⟩ := hsurj j hj
      obtain ⟨e1, e2⟩ := hset x' hx' hnx'
      rw [hrk] at e1 e2
      rw [e1] at hkj
      subst hkj
      rw [e2] at hcj
      exact ⟨hx', hnx', hcj⟩
    · rintro ⟨hx, hnx, hcx⟩
      refine ⟨(List.range x).countP (fun i => ks.getD i 0 != 0),
        hrank_lt x hx hnx, (hset x hx hnx).1, ?_⟩
      rw [(hset x hx hnx).2]
      exact hcx
  have hk10 : (goMin m.prefixLen maxPrefixLen).toNat ≤ 10 := by
    rw [goMin_eq]
    simp only [maxPrefixLen]
    omega
  refine ⟨ArtNode.node16 ⟨m.size, m.prefixLen,
      m.prefixBytes.take (goMin m.prefixLen maxPrefixLen).toNat ++
        (List.replicate 10 0).drop (goMin m.prefixLen maxPrefixLen).toNat⟩
      a2 b2, ?_, ?_, rfl, rfl, ?_, rfl, rfl, ?_⟩
  · show Res.bind (List.foldlM
        (fun (acc : List Nat × List (Option (ArtNode V)) × Int) (i : Nat) => do
          let idx := ks.getD i 0
          if idx = 0 then pure acc
          else do
            let cv ← arrGet cs (idx : Int)
            let ks16 ← arrSet acc.1 acc.2.2 ((i % 256 : Nat))
            let cs16 ← arrSet acc.2.1 acc.2.2 cv
            pure (ks16, cs16, acc.2.2 + 1))
        (List.replicate 16 0, List.replicate 16 none, (0 : Int))
        (List.range ks.length)) _ = _
    rw [hkl, hrun, Res.bind_ok]
    show Res.ok (ArtNode.node16 (V := V) ⟨((m.size.toNat : Nat) : Int),
        m.prefixLen,
        m.prefixBytes.take (goMin m.prefixLen maxPrefixLen).toNat ++
          (List.replicate 10 0).drop (goMin m.prefixLen maxPrefixLen).toNat⟩
        a2 b2) = _
    rw [hms]
  · refine ⟨hal2, hbl2, ?_,
      (by show (0 : Int) ≤ m.size; omega),
      (by show m.size ≤ node16Max; simp [node16Max]; omega), ?_, ?_, ?_, ?_⟩
    · show (m.prefixBytes.take (goMin m.prefixLen maxPrefixLen).toNat ++
        (List.replicate 10 0).drop (goMin m.prefixLen maxPrefixLen).toNat).length
        = 10
      rw [List.length_append, List.length_take, List.length_drop,
        List.length_replicate, hpb]
      omega
    · intro i hi
      exact hfull2 i hi
    · intro i hi1 hi2
      have hi1b : m.size.toNat ≤ i := hi1
      obtain ⟨e1, e2⟩ := huns i hi1b
      rw [e1, e2]
      exact ⟨getD_replicate, getD_replicate⟩
    · intro i j hij hj
      have hj2 : j < m.size.toNat := hj
      exact hsort2 i j hij hj2
    · intro i hi
      exact hby2 i hi
  · intro i hi
    have hik : i < (goMin m.prefixLen maxPrefixLen).toNat := by omega
    show (m.prefixBytes.take (goMin m.prefixLen maxPrefixLen).toNat ++
      (List.replicate 10 0).drop (goMin m.prefixLen maxPrefixLen).toNat).getD i 0
      = m.prefixBytes.getD i 0
    exact getD_take_append 0 hik (by omega)
  · rw [childAssoc_node16]
    show packedAssoc m.size.toNat a2 b2 = _
    exact hassoc

theorem shrink256_fold {V : Type} (cs : List (Option (ArtNode V)))
    (hcl : cs.length = 256)
    (hbound : (List.range 256).countP (fun i => (cs.getD i none).isSome) ≤ 48) :
    ∀ (s : Nat) (a : List Nat) (b : List (Option (ArtNode V))),
    s ≤ 256 → a.length = 256 → b.length = 49 →
    ∃ a2 b2, List.foldlM (fun (acc : List Nat × List (Option (ArtNode V)) × Int)
        (i : Nat) => do
        match cs.getD ((i % 256 : Nat)) none with
        | none => pure acc
        | some c => do
          let cs48 ← arrSet acc.2.1 (acc.2.2 + 1) (some c)
          let ks48 ← arrSet acc.1 ((i % 256 : Nat)) (((acc.2.2 + 1).toNat % 256 : Nat))
          pure (ks48, cs48, acc.2.2 + 1)) (a, b, (0 : Int)) (List.range s) =
        .ok (a2, b2,
          (((List.range s).countP (fun i => (cs.getD i none).isSome) : Nat) : Int)) ∧
      a2.length = 256 ∧ b2.length = 49 ∧
      (∀ x, x < s → ∀ c, cs.getD x none = some c →
        a2.getD x 0 = (List.range x).countP (fun i => (cs.getD i none).isSome) + 1 ∧
        b2.getD ((List.range x).countP (fun i => (cs.getD i none).isSome) + 1)
          none = some c) ∧
      (∀ x, (s ≤ x ∨ cs.getD x none = none) → a2.getD x 0 = a.getD x 0) ∧
      (∀ j, j = 0 ∨ (List.range s).countP (fun i => (cs.getD i none).isSome) < j →
        b2.getD j none = b.getD j none) ∧
      (∀ j, j < (List.range s).countP (fun i => (cs.getD i none).isSome) →
        ∃ x, x < s ∧ (cs.getD x none).isSome ∧
          (List.range x).countP (fun i => (cs.getD i none).isSome) = j) := by
  intro s
  induction s with
  | zero =>
    intro a b _ hal hbl
    exact ⟨a, b, rfl, hal, hbl, fun x hx => by omega, fun x _ => rfl,
      fun j _ => rfl, fun j hj => by simp at hj⟩
  | succ s ih =>
    intro a b hs hal hbl
    obtain ⟨a2, b2, hrun, hal2, hbl2, hset, hauns, hbuns, hsurj⟩ :=
      ih a b (by omega) hal hbl
    have hsmod : s % 256 = s := Nat.mod_eq_of_lt (by omega)
    have hrank1 : ∀ x, x < 256 → (cs.getD x none).isSome →
        (List.range (x + 1)).countP (fun i => (cs.getD i none).isSome) =
        (List.range x).countP (fun i => (cs.getD i none).isSome) + 1 := by
      intro x _ hx
      rw [countP_range_succ, if_pos hx]
    have hrank0 : ∀ x, cs.getD x none = none →
        (List.range (x + 1)).countP (fun i => (cs.getD i none).isSome) =
        (List.range x).countP (fun i => (cs.getD i none).isSome) := by
      intro x hx
      rw [countP_range_succ, if_neg (by rw [hx]; simp)]
      omega
    cases hcv : cs.getD s none with
    | none =>
      have hf : (fun (acc : List Nat × List (Option (ArtNode V)) × Int)
          (i : Nat) => do
          match cs.getD ((i % 256 : Nat)) none with
          | none => pure acc
          | some c => do
            let cs48 ← arrSet acc.2.1 (acc.2.2 + 1) (some c)
            let ks48 ← arrSet acc.1 ((i % 256 : Nat))
              (((acc.2.2 + 1).toNat % 256 : Nat))
            pure (ks48, cs48, acc.2.2 + 1))
          (a2, b2, (((List.range s).countP
            (fun i => (cs.getD i none).isSome) : Nat) : Int)) s = .ok (a2, b2,
          (((List.range (s + 1)).countP
            (fun i => (cs.getD i none).isSome) : Nat) : Int)) := by
        show (match cs.getD ((s % 256 : Nat)) none with
          | none => _
          | some c => _) = _
        rw [hsmod, hcv, hrank0 s hcv]
        rfl
      refine ⟨a2, b2, ?_, hal2, hbl2, ?_, ?_, ?_, ?_⟩
      · conv_lhs => rw [List.range_succ]
        rw [foldlM_append_ok hrun]
        exact foldlM_singleton_ok hf
      · intro x hx c hc
        have hxs : x < s := by
          rcases Nat.lt_succ_iff_lt_or_eq.mp hx with h | h
          · exact h
          · subst h
            rw [hcv] at hc
            exact absurd hc (by simp)
        exact hset x hxs c hc
      · intro x hx
        refine hauns x ?_
        rcases hx with h | h
        · by_cases hxs : s ≤ x
          · exact Or.inl hxs
          · have : x = s := by omega
            subst this
            exact Or.inr hcv
        · exact Or.inr h
      · intro j hj
        refine hbuns j ?_
        rw [hrank0 s hcv] at hj
        exact hj
      · intro j hj
        rw [hrank0 s hcv] at hj
        obtain ⟨x, hx1, hx2, hx3⟩ := hsurj j hj
        exact ⟨x, by omega, hx2, hx3⟩
    | some c =>
      have hcsome : (cs.getD s none).isSome := by rw [hcv]; rfl
      have hcν : (List.range (s + 1)).countP (fun i => (cs.getD i none).isSome) =
          (List.range s).countP (fun i => (cs.getD i none).isSome) + 1 :=
        hrank1 s (by omega) hcsome
      have hccap : (List.range s).countP (fun i => (cs.getD i none).isSome) + 1
          ≤ 48 := by
        have h1 := countP_range_mono (fun i => (cs.getD i none).isSome)
          (show s + 1 ≤ 256 by omega)
        omega
      have hsetB : arrSet b2
          ((((List.range s).countP (fun i => (cs.getD i none).isSome) : Nat))
            : Int) (some c) =
          .ok (b2.set ((List.range s).countP
            (fun i => (cs.getD i none).isSome)) (some c)) :=
        arrSet_ok _ (by omega) (by omega)
      have hsetB2 : arrSet b2
          (((((List.range s).countP (fun i => (cs.getD i none).isSome) : Nat))
            : Int) + 1) (some c) =
          .ok (b2.set ((List.range s).countP
            (fun i => (cs.getD i none).isSome) + 1) (some c)) := by
        have hc2 : ((((List.range s).countP
            (fun i => (cs.getD i none).isSome) : Nat)) : Int) + 1 =
            (((List.range s).countP (fun i => (cs.getD i none).isSome)
              + 1 : Nat) : Int) := by push_cast; ring
        rw [hc2]
        exact arrSet_ok _ (by omega) (by omega)
      have hsetA : arrSet a2 ((s : Nat) : Int)
          ((((((List.range s).countP (fun i => (cs.getD i none).isSome) : Nat))
            : Int) + 1).toNat % 256 : Nat) =
          .ok (a2.set s ((List.range s).countP
            (fun i => (cs.getD i none).isSome) + 1)) := by
        have hv : (((((List.range s).countP
            (fun i => (cs.getD i none).isSome) : Nat)) : Int) + 1).toNat % 256 =
            (List.range s).countP (fun i => (cs.getD i none).isSome) + 1 := by
          omega
        rw [hv]
        exact arrSet_ok _ (by omega) (by omega)
      have hf : (fun (acc : List Nat × List (Option (ArtNode V)) × Int)
          (i : Nat) => do
          match cs.getD ((i % 256 : Nat)) none with
          | none => pure acc
          | some c => do
            let cs48 ← arrSet acc.2.1 (acc.2.2 + 1) (some c)
            let ks48 ← arrSet acc.1 ((i % 256 : Nat))
              (((acc.2.2 + 1).toNat % 256 : Nat))
            pure (ks48, cs48, acc.2.2 + 1))
          (a2, b2, (((List.range s).countP
            (fun i => (cs.getD i none).isSome) : Nat) : Int)) s = .ok
          (a2.set s ((List.range s).countP
            (fun i => (cs.getD i none).isSome) + 1),
           b2.set ((List.range s).countP
            (fun i => (cs.getD i none).isSome) + 1) (some c),
           (((List.range (s + 1)).countP
            (fun i => (cs.getD i none).isSome) : Nat) : Int)) := by
        show (match cs.getD ((s % 256 : Nat)) none with
          | none => _
          | some c => _) = _
        rw [hsmod, hcv]
        show Res.bind (arrSet b2
          (((((List.range s).countP (fun i => (cs.getD i none).isSome) : Nat))
            : Int) + 1) (some c)) _ = _
        rw [hsetB2, Res.bind_ok]
        show Res.bind (arrSet a2 ((s : Nat) : Int)
          ((((((List.range s).countP (fun i => (cs.getD i none).isSome) : Nat))
            : Int) + 1).toNat % 256 : Nat)) _ = _
        rw [hsetA, Res.bind_ok]
        show Res.ok (_, _,
          ((((List.range s).countP (fun i => (cs.getD i none).isSome) : Nat))
            : Int) + 1) = _
        rw [hcν]
        push_cast
        rfl
      refine ⟨a2.set s ((List.range s).countP
          (fun i => (cs.getD i none).isSome) + 1),
        b2.set ((List.range s).countP
          (fun i => (cs.getD i none).isSome) + 1) (some c), ?_,
        by rw [List.length_set]; exact hal2,
        by rw [List.length_set]; exact hbl2, ?_, ?_, ?_, ?_⟩
      · conv_lhs => rw [List.range_succ]
        rw [foldlM_append_ok hrun]
        exact foldlM_singleton_ok hf
      · intro x hx c2 hc2
        by_cases hxs : x < s
        · have hx2 : (cs.getD x none).isSome := by rw [hc2]; rfl
          have hrx : (List.range x).countP (fun i => (cs.getD i none).isSome) <
              (List.range s).countP (fun i => (cs.getD i none).isSome) := by
            have h1 := hrank1 x (by omega) hx2
            have h2 := countP_range_mono (fun i => (cs.getD i none).isSome)
              (show x + 1 ≤ s by omega)
            omega
          have hnea : s ≠ x := by omega
          have hneb : (List.range s).countP (fun i => (cs.getD i none).isSome)
              + 1 ≠ (List.range x).countP (fun i => (cs.getD i none).isSome)
              + 1 := by omega
          rw [getD_set_ne 0 hnea, getD_set_ne none hneb]
          exact hset x hxs c2 hc2
        · have hxe : x = s := by omega
          subst hxe
          rw [hcv] at hc2
          injection hc2 with hc2
          subst hc2
          rw [getD_set_self 0 (by omega), getD_set_self none (by omega)]
          exact ⟨rfl, rfl⟩
      · intro x hx
        have hxns : x ≠ s := by
          intro he
          subst he
          rcases hx with h | h
          · omega
          · rw [hcv] at h
            exact Option.noConfusion h
        rw [getD_set_ne 0 (fun he => hxns he.symm)]
        refine hauns x ?_
        rcases hx with h | h
        · exact Or.inl (by omega)
        · exact Or.inr h
      · intro j hj
        rw [hcν] at hj
        have hne : (List.range s).countP (fun i => (cs.getD i none).isSome)
            + 1 ≠ j := by omega
        rw [getD_set_ne none hne]
        exact hbuns j (by omega)
      · intro j hj
        rw [hcν] at hj
        by_cases hjc : j < (List.range s).countP (fun i => (cs.getD i none).isSome)
        · obtain ⟨x, hx1, hx2, hx3⟩ := hsurj j hjc
          exact ⟨x, by omega, hx2, hx3⟩
        · have hje : j = (List.range s).countP
              (fun i => (cs.getD i none).isSome) := by omega
          exact ⟨s, by omega, hcsome, hje.symm⟩

/-- N256 → N48 shrink: run, shape, header and directory preservation. -/
theorem shrink_node256 {V : Type} {m : NodeMeta}
    {cs : List (Option (ArtNode V))} (h : PreShape (ArtNode.node256 m cs))
    (hs : m.size ≤ 48) :
    ∃ n2, ArtNode.shrink (ArtNode.node256 m cs) = .ok n2 ∧ PreShape n2 ∧
      n2.node.size = m.size ∧ n2.node.prefixLen = m.prefixLen ∧
      (∀ i : Nat, (i : Int) < goMin m.prefixLen maxPrefixLen →
        n2.node.prefixBytes.getD i 0 = m.prefixBytes.getD i 0) ∧
      n2.minSize = node48Min ∧ n2.isLeaf = false ∧
      childAssoc n2 = childAssoc (ArtNode.node256 m cs) := by
  have hpre := h
  obtain ⟨hcl, hpb, hmin, hmax, hsz⟩ := h
  have hcntEq : (List.range 256).countP (fun i => (cs.getD i none).isSome) =
      m.size.toNat := by
    have h1 : (childAssoc (ArtNode.node256 m cs)).length =
        (List.range 256).countP (fun b =>
          ((fun b => match cs.getD b none with
            | some c => some (b, c)
            | none => none) b : Option (Nat × ArtNode V)).isSome) := by
      rw [childAssoc_node256]
      exact length_filterMap_countP _ _
    have h2 : (List.range 256).countP (fun b =>
        ((fun b => match cs.getD b none with
          | some c => some (b, c)
          | none => none) b : Option (Nat × ArtNode V)).isSome) =
        (List.range 256).countP (fun i => (cs.getD i none).isSome) := by
      refine countP_congr_mem ?_
      intro bb _
      cases hcv : cs.getD bb none with
      | none =>
        show (match cs.getD bb none with
          | some c => some (bb, c)
          | none => (none : Option (Nat × ArtNode V))).isSome = _
        rw [hcv]
        rfl
      | some c =>
        show (match cs.getD bb none with
          | some c => some (bb, c)
          | none => (none : Option (Nat × ArtNode V))).isSome = _
        rw [hcv]
        rfl
    rw [h1, h2] at hsz
    omega
  have hbound : (List.range 256).countP (fun i => (cs.getD i none).isSome)
      ≤ 48 := by
    rw [hcntEq]
    omega
  obtain ⟨a2, b2, hrun, hal2, hbl2, hset, hauns, hbuns, hsurj⟩ :=
    shrink256_fold cs hcl hbound 256 (List.replicate 256 0)
    (List.replicate 49 none) (le_refl 256) (by simp) (by simp)
  rw [hcntEq] at hrun hbuns hsurj
  have hrank_lt : ∀ x, x < 256 → (cs.getD x none).isSome →
      (List.range x).countP (fun i => (cs.getD i none).isSome) <
        m.size.toNat := by
    intro x hx hsome
    have h1 : (List.range (x + 1)).countP (fun i => (cs.getD i none).isSome) =
        (List.range x).countP (fun i => (cs.getD i none).isSome) + 1 := by
      rw [countP_range_succ, if_pos hsome]
    have h2 := countP_range_mono (fun i => (cs.getD i none).isSome)
      (show x + 1 ≤ 256 by omega)
    omega
  have hms : ((m.size.toNat : Nat) : Int) = m.size := by omega
  have hassoc : childAssoc (ArtNode.node48 (V := V)
      ⟨m.size, m.prefixLen,
        m.prefixBytes.take (goMin m.prefixLen maxPrefixLen).toNat ++
          (List.replicate 10 0).drop (goMin m.prefixLen maxPrefixLen).toNat⟩
      a2 b2) = childAssoc (ArtNode.node256 m cs) := by
    refine assoc_ext (n48Assoc_pairwise_any _ _ _)
      (childAssoc_pairwise hpre) ?_
    rintro ⟨x, c⟩
    rw [n48Assoc_mem, n256Assoc_mem]
    constructor
    · rintro ⟨hx, hnz, hc⟩
      cases hcv : cs.getD x none with
      | none =>
        rw [hauns x (Or.inr hcv), getD_replicate] at hnz
        exact absurd rfl hnz
      | some c2 =>
        obtain ⟨e1, e2⟩ := hset x hx c2 hcv
        rw [e1] at hc
        rw [e2] at hc
        injection hc with hc
        exact ⟨hx, by rw [hc]⟩
    · rintro ⟨hx, hc⟩
      obtain ⟨e1, e2⟩ := hset x hx c hc
      refine ⟨hx, ?_, ?_⟩
      · rw [e1]
        omega
      · rw [e1]
        exact e2
  have hk10 : (goMin m.prefixLen maxPrefixLen).toNat ≤ 10 := by
    rw [goMin_eq]
    simp only [maxPrefixLen]
    omega
  refine ⟨ArtNode.node48 ⟨m.size, m.prefixLen,
      m.prefixBytes.take (goMin m.prefixLen maxPrefixLen).toNat ++
        (List.replicate 10 0).drop (goMin m.prefixLen maxPrefixLen).toNat⟩
      a2 b2, ?_, ?_, rfl, rfl, ?_, rfl, rfl, hassoc⟩
  · show Res.bind (List.foldlM
        (fun (acc : List Nat × List (Option (ArtNode V)) × Int) (i : Nat) => do
          match cs.getD ((i % 256 : Nat)) none with
          | none => pure acc
          | some c => do
            let cs48 ← arrSet acc.2.1 (acc.2.2 + 1) (some c)
            let ks48 ← arrSet acc.1 ((i % 256 : Nat))
              (((acc.2.2 + 1).toNat % 256 : Nat))
            pure (ks48, cs48, acc.2.2 + 1))
        (List.replicate 256 0, List.replicate 49 none, (0 : Int))
        (List.range cs.length)) _ = _
    rw [hcl, hrun, Res.bind_ok]
    show Res.ok (ArtNode.node48 (V := V) ⟨((m.size.toNat : Nat) : Int),
        m.prefixLen,
        m.prefixBytes.take (goMin m.prefixLen maxPrefixLen).toNat ++
          (List.replicate 10 0).drop (goMin m.prefixLen maxPrefixLen).toNat⟩
        a2 b2) = _
    rw [hms]
  · refine ⟨hal2, hbl2, ?_,
      (by show (0 : Int) ≤ m.size; omega),
      (by show m.size ≤ node48Max; simp [node48Max]; omega), ?_, ?_, ?_, ?_, ?_⟩
    · show (m.prefixBytes.take (goMin m.prefixLen maxPrefixLen).toNat ++
        (List.replicate 10 0).drop (goMin m.prefixLen maxPrefixLen).toNat).length
        = 10
      rw [List.length_append, List.length_take, List.length_drop,
        List.length_replicate, hpb]
      omega
    · rw [hbuns 0 (Or.inl rfl)]
      exact getD_replicate
    · intro bb hbb
      cases hcv : cs.getD bb none with
      | none =>
        rw [hauns bb (Or.inr hcv), getD_replicate]
        omega
      | some c =>
        rw [(hset bb hbb c hcv).1]
        have := hrank_lt bb hbb (by rw [hcv]; rfl)
        omega
    · intro b1 b2x hb1 hb2 hnz1 he
      cases hcv1 : cs.getD b1 none with
      | none =>
        rw [hauns b1 (Or.inr hcv1), getD_replicate] at hnz1
        exact absurd rfl hnz1
      | some c1 =>
        cases hcv2 : cs.getD b2x none with
        | none =>
          rw [hauns b2x (Or.inr hcv2), getD_replicate] at he
          rw [(hset b1 hb1 c1 hcv1).1] at he
          omega
        | some c2 =>
          rw [(hset b1 hb1 c1 hcv1).1, (hset b2x hb2 c2 hcv2).1] at he
          have hre : (List.range b1).countP (fun i => (cs.getD i none).isSome) =
              (List.range b2x).countP (fun i => (cs.getD i none).isSome) := by
            omega
          rcases Nat.lt_trichotomy b1 b2x with hlt | heq | hgt
          · exfalso
            have h1 : (List.range (b1 + 1)).countP
                (fun i => (cs.getD i none).isSome) =
                (List.range b1).countP (fun i => (cs.getD i none).isSome) + 1 := by
              rw [countP_range_succ, if_pos (by rw [hcv1]; rfl)]
            have h2 := countP_range_mono (fun i => (cs.getD i none).isSome)
              (show b1 + 1 ≤ b2x by omega)
            omega
          · exact heq
          · exfalso
            have h1 : (List.range (b2x + 1)).countP
                (fun i => (cs.getD i none).isSome) =
                (List.range b2x).countP (fun i => (cs.getD i none).isSome) + 1 := by
              rw [countP_range_succ, if_pos (by rw [hcv2]; rfl)]
            have h2 := countP_range_mono (fun i => (cs.getD i none).isSome)
              (show b2x + 1 ≤ b1 by omega)
            omega
    · intro t ht1 ht2
      constructor
      · intro hsome
        by_cases htc : m.size.toNat < t
        · rw [hbuns t (Or.inr htc), getD_replicate] at hsome
          exact absurd hsome (by simp)
        · obtain ⟨x, hx, hxs, hrk⟩ := hsurj (t - 1) (by omega)
          cases hcv : cs.getD x none with
          | none =>
            rw [hcv] at hxs
            exact absurd hxs (by simp)
          | some c =>
            refine ⟨x, hx, ?_⟩
            rw [(hset x hx c hcv).1, hrk]
            omega
      · rintro ⟨bb, hbb, he⟩
        cases hcv : cs.getD bb none with
        | none =>
          rw [hauns bb (Or.inr hcv), getD_replicate] at he
          omega
        | some c =>
          obtain ⟨e1, e2⟩ := hset bb hbb c hcv
          rw [e1] at he
          rw [he] at e2
          rw [e2]
          rfl
    · rw [hassoc]
      exact hsz
  · intro i hi
    have hik : i < (goMin m.prefixLen maxPrefixLen).toNat := by omega
    show (m.prefixBytes.take (goMin m.prefixLen maxPrefixLen).toNat ++
      (List.replicate 10 0).drop (goMin m.prefixLen maxPrefixLen).toNat).getD i 0
      = m.prefixBytes.getD i 0
    exact getD_take_append 0 hik (by omega)

/-! ## The N4 collapse: path merging -/

theorem getD_append_left {α : Type} {l1 l2 : List α} {i : Nat} (d : α)
    (h : i < l1.length) : (l1 ++ l2).getD i d = l1.getD i d := by
  rw [List.getD_eq_getElem _ d (by rw [List.length_append]; omega),
    List.getD_eq_getElem _ d h]
  exact List.getElem_append_left h

theorem getD_append_right {α : Type} {l1 l2 : List α} {i : Nat} (d : α)
    (h : l1.length ≤ i) : (l1 ++ l2).getD i d = l2.getD (i - l1.length) d := by
  by_cases h2 : i < l1.length + l2.length
  · rw [List.getD_eq_getElem _ d (by rw [List.length_append]; omega),
      List.getD_eq_getElem _ d (by omega)]
    exact List.getElem_append_right h
  · rw [List.getD_eq_default _ d (by rw [List.length_append]; omega),
      List.getD_eq_default _ d (by omega)]

theorem childAssoc_withMeta {V : Type} {c : ArtNode V} {m2 : NodeMeta}
    (hsz : m2.size = c.node.size) :
    childAssoc (c.withMeta m2) = childAssoc c := by
  cases c with
  | leaf k v => rfl
  | node4 m ks cs =>
    show (List.range m2.size.toNat).filterMap _ = (List.range m.size.toNat).filterMap _
    rw [show m2.size = m.size from hsz]
  | node16 m ks cs =>
    show (List.range m2.size.toNat).filterMap _ = (List.range m.size.toNat).filterMap _
    rw [show m2.size = m.size from hsz]
  | node48 m ks cs => rfl
  | node256 m cs => rfl

theorem innerShape_withMeta {V : Type} {c : ArtNode V} {m2 : NodeMeta}
    (h : InnerShape c) (hsz : m2.size = c.node.size)
    (hbl : m2.prefixBytes.length = 10) : InnerShape (c.withMeta m2) := by
  cases c with
  | leaf k v => exact absurd h (by simp [InnerShape])
  | node4 m ks cs =>
    obtain ⟨h1, h2, _, h4, h5, h6, h7, h8, h9⟩ := h
    have hsz2 : m2.size = m.size := hsz
    exact ⟨h1, h2, hbl, by rw [hsz2]; exact h4, by rw [hsz2]; exact h5,
      by rw [hsz2]; exact h6, by rw [hsz2]; exact h7, by rw [hsz2]; exact h8,
      by rw [hsz2]; exact h9⟩
  | node16 m ks cs =>
    obtain ⟨h1, h2, _, h4, h5, h6, h7, h8, h9⟩ := h
    have hsz2 : m2.size = m.size := hsz
    exact ⟨h1, h2, hbl, by rw [hsz2]; exact h4, by rw [hsz2]; exact h5,
      by rw [hsz2]; exact h6, by rw [hsz2]; exact h7, by rw [hsz2]; exact h8,
      by rw [hsz2]; exact h9⟩
  | node48 m ks cs =>
    obtain ⟨h1, h2, _, h4, h5, h6, h7, h8, h9, h10⟩ := h
    have hsz2 : m2.size = m.size := hsz
    refine ⟨h1, h2, hbl, by rw [hsz2]; exact h4, by rw [hsz2]; exact h5,
      h6, h7, h8, h9, ?_⟩
    have hca : childAssoc (ArtNode.node48 m2 ks cs) =
        childAssoc (ArtNode.node48 m ks cs) := rfl
    rw [hca, hsz2]
    exact h10
  | node256 m cs =>
    obtain ⟨h1, _, h3, h4, h5⟩ := h
    have hsz2 : m2.size = m.size := hsz
    refine ⟨h1, hbl, by rw [hsz2]; exact h3, by rw [hsz2]; exact h4, ?_⟩
    have hca : childAssoc (ArtNode.node256 m2 cs) =
        childAssoc (ArtNode.node256 m cs) := rfl
    rw [hca, hsz2]
    exact h5

/-- Re-rooting a child directory: keys agreeing with the parent path and
the surviving edge byte make the directory well-formed on the merged path. -/
theorem WFChildren_reroot {V : Type} {d2 d : Nat} {p pc : List Nat} {b1 : Nat} :
    ∀ {l : List (Nat × ArtNode V)} {M : List (List Nat × V)},
    WFChildren d2 (d + p.length + 1) pc l M →
    (∀ kv ∈ M, KeyAgrees d p b1 kv.1) →
    WFChildren d2 d (p ++ b1 :: pc) l M := by
  intro l
  induction l with
  | nil =>
    intro M hch _
    rw [WFChildren_nil_inv hch]
    exact WFChildren.nil d2 d (p ++ b1 :: pc)
  | cons hd rest ih =>
    intro M hch hout
    obtain ⟨b', c'⟩ := hd
    obtain ⟨Mc, Mr, hM, hwfc, hagree, hrest⟩ := WFChildren_cons_inv hch
    subst hM
    refine WFChildren.cons d2 d (p ++ b1 :: pc) b' c' rest Mc Mr hwfc ?_
      (ih hrest (fun kv hkv => hout kv (List.mem_append_right _ hkv)))
    intro kv hkv
    obtain ⟨hlen, hbytes, hedge⟩ := hagree kv hkv
    obtain ⟨hlen0, hbytes0, hedge0⟩ := hout kv (List.mem_append_left _ hkv)
    have hlp : (p ++ b1 :: pc).length = p.length + 1 + pc.length := by
      rw [List.length_append, List.length_cons]
      omega
    refine ⟨by omega, ?_, ?_⟩
    · intro j hj
      rw [hlp] at hj
      by_cases hjp : j < p.length
      · rw [getD_append_left 0 hjp]
        exact hbytes0 j hjp
      · rw [getD_append_right 0 (by omega)]
        by_cases hje : j = p.length
        · subst hje
          rw [Nat.sub_self]
          exact hedge0
        · have hj2 : j - p.length = (j - p.length - 1) + 1 := by omega
          rw [hj2]
          show kv.1.getD (d + j) 0 = pc.getD (j - p.length - 1) 0
          have hidx : d + j = (d + p.length + 1) + (j - p.length - 1) := by omega
          rw [hidx]
          exact hbytes (j - p.length - 1) (by omega)
    · rw [hlp]
      have hidx : d + (p.length + 1 + pc.length) =
          (d + p.length + 1) + pc.length := by omega
      rw [hidx]
      exact hedge

/-- Rebuild well-formedness for the collapsed child carrying the merged
compressed path. -/
theorem collapse_WF_build {V : Type} {d : Nat} {p pc : List Nat} {b1 : Nat}
    {c1 : ArtNode V} {Mc : List (List Nat × V)} {newBytes : List Nat}
    (hshape1 : InnerShape c1)
    (hplc : c1.node.prefixLen = (pc.length : Int))
    (hpcb : ∀ b ∈ pc, b < 256)
    (hch1 : WFChildren ((d + p.length + 1) + pc.length + 1) (d + p.length + 1)
      pc (childAssoc c1) Mc)
    (hagree : ∀ kv ∈ Mc, KeyAgrees d p b1 kv.1)
    (hpb2 : ∀ b ∈ p, b < 256) (hb1 : b1 < 256)
    (hnbl : newBytes.length = 10)
    (hinl2 : ∀ i, i < min (p.length + 1 + pc.length) 10 →
      newBytes.getD i 0 = (p ++ b1 :: pc).getD i 0) :
    WF d (c1.withMeta ⟨c1.node.size, c1.node.prefixLen + (p.length : Int) + 1,
      newBytes⟩) Mc := by
  have hlp : (p ++ b1 :: pc).length = p.length + 1 + pc.length := by
    rw [List.length_append, List.length_cons]
    omega
  have hmeta : (c1.withMeta ⟨c1.node.size,
      c1.node.prefixLen + (p.length : Int) + 1, newBytes⟩).node =
      ⟨c1.node.size, c1.node.prefixLen + (p.length : Int) + 1, newBytes⟩ := by
    cases c1 with
    | leaf k v => exact absurd hshape1 (by simp [InnerShape])
    | node4 m ks cs => rfl
    | node16 m ks cs => rfl
    | node48 m ks cs => rfl
    | node256 m cs => rfl
  refine WF.inner d _ (p ++ b1 :: pc) Mc ?_ ?_ ?_ ?_ ?_
  · exact innerShape_withMeta hshape1 rfl hnbl
  · rw [hmeta]
    show c1.node.prefixLen + (p.length : Int) + 1 = _
    rw [hplc, hlp]
    push_cast
    ring
  · intro b hb
    rcases List.mem_append.mp hb with h | h
    · exact hpb2 b h
    · rcases List.mem_cons.mp h with h2 | h2
      · rw [h2]
        exact hb1
      · exact hpcb b h2
  · intro i hi
    rw [hmeta]
    show newBytes.getD i 0 = _
    rw [hlp] at hi
    exact hinl2 i hi
  · have hca2 : childAssoc (c1.withMeta ⟨c1.node.size,
        c1.node.prefixLen + (p.length : Int) + 1, newBytes⟩) = childAssoc c1 :=
      childAssoc_withMeta rfl
    rw [hca2]
    have hd2 : d + (p ++ b1 :: pc).length + 1 =
        (d + p.length + 1) + pc.length + 1 := by
      rw [hlp]
      omega
    rw [hd2]
    exact WFChildren_reroot hch1 hagree

theorem innerShape_pblen {V : Type} {n : ArtNode V} (h : InnerShape n) :
    n.node.prefixBytes.length = 10 := by
  cases n with
  | leaf k v => exact absurd h (by simp [InnerShape])
  | node4 m ks cs => exact h.2.2.1
  | node16 m ks cs => exact h.2.2.1
  | node48 m ks cs => exact h.2.2.1
  | node256 m cs => exact h.2.1

theorem memcpy_length (dst src : List Nat) (n : Int) :
    (memcpy dst src n).length = dst.length := by
  show (src.take (min n.toNat (min src.length dst.length)) ++
    dst.drop (min n.toNat (min src.length dst.length))).length = dst.length
  rw [List.length_append, List.length_take, List.length_drop]
  omega

theorem getD_memcpy_lt {dst src : List Nat} {n : Int} {i : Nat}
    (h1 : (i : Int) < n) (h2 : i < src.length) (h3 : i < dst.length) :
    (memcpy dst src n).getD i 0 = src.getD i 0 := by
  show (src.take (min n.toNat (min src.length dst.length)) ++
    dst.drop (min n.toNat (min src.length dst.length))).getD i 0 = src.getD i 0
  exact getD_take_append 0 (by omega) h2

/-- Collapsing an N4 with a single remaining child: the run succeeds and the
result is well-formed on the merged path. -/
theorem shrink_collapse_WF {V : Type} {d : Nat} {m : NodeMeta} {ks : List Nat}
    {cs : List (Option (ArtNode V))} {p : List Nat} {b1 : Nat} {c1 : ArtNode V}
    {Mc : List (List Nat × V)}
    (hpb10 : m.prefixBytes.length = 10)
    (hpl : m.prefixLen = (p.length : Int))
    (hinl : ∀ i, i < min p.length 10 → m.prefixBytes.getD i 0 = p.getD i 0)
    (hpb2 : ∀ b ∈ p, b < 256)
    (hcs0 : cs.getD 0 none = some c1)
    (hks0 : ks.getD 0 0 = b1) (hb1 : b1 < 256)
    (hwfc : WF (d + p.length + 1) c1 Mc)
    (hagree : ∀ kv ∈ Mc, KeyAgrees d p b1 kv.1) :
    ∃ n2, ArtNode.shrink (ArtNode.node4 m ks cs) = .ok n2 ∧ WF d n2 Mc := by
  by_cases hleaf : c1.isLeaf = true
  · -- a leaf child replaces the node unchanged
    cases c1 with
    | leaf kl vl =>
      obtain ⟨hMc, hdl, hbl⟩ := WF_leaf_inv hwfc
      refine ⟨ArtNode.leaf kl vl, ?_, ?_⟩
      · show (match cs.getD 0 none with
          | none => (Res.oob : Res (ArtNode V))
          | some c => _) = _
        rw [hcs0]
        show (if ¬ (ArtNode.leaf kl vl : ArtNode V).isLeaf = true
          then _ else _) = _
        rw [if_neg (fun hn => hn rfl)]
      · rw [hMc]
        exact WF.leaf d kl vl (by omega) hbl
    | node4 m1 ks1 cs1 => simp [ArtNode.isLeaf] at hleaf
    | node16 m1 ks1 cs1 => simp [ArtNode.isLeaf] at hleaf
    | node48 m1 ks1 cs1 => simp [ArtNode.isLeaf] at hleaf
    | node256 m1 cs1 => simp [ArtNode.isLeaf] at hleaf
  · -- an inner child absorbs the prefix and the edge byte
    have hnl : c1.isLeaf = false := by
      cases hcl : c1.isLeaf
      · rfl
      · exact absurd hcl hleaf
    have hcnd : ¬ c1.isLeaf = true := by
      rw [hnl]
      simp
    obtain ⟨pc, hshape1, hplc, hpcb, hinlc, hch1⟩ := WF_inv_inner hwfc hnl
    have hc1pb : c1.node.prefixBytes.length = 10 := innerShape_pblen hshape1
    rcases Nat.lt_or_ge p.length 10 with hplt | hpge
    · have hlt1 : m.prefixLen < maxPrefixLen := by
        rw [hpl]
        simp only [maxPrefixLen]
        omega
      have hset1 : arrSet m.prefixBytes m.prefixLen (ks.getD 0 0) =
          .ok (m.prefixBytes.set m.prefixLen.toNat (ks.getD 0 0)) := by
        exact arrSet_ok _ (by rw [hpl]; omega) (by rw [hpl, hpb10]; omega)
      rcases Nat.lt_or_ge (p.length + 1) 10 with hplt2 | hpge2
      · -- the child path still fits after the edge byte: a tail is copied in
        have h2pos : m.prefixLen + 1 < maxPrefixLen := by
          rw [hpl]
          simp only [maxPrefixLen]
          omega
        have hdrop : arrDrop (m.prefixBytes.set m.prefixLen.toNat (ks.getD 0 0))
            (m.prefixLen + 1) =
            .ok ((m.prefixBytes.set m.prefixLen.toNat (ks.getD 0 0)).drop
              (m.prefixLen + 1).toNat) := by
          exact arrDrop_ok (by rw [hpl]; omega)
            (by rw [List.length_set, hpb10, hpl]; omega)
        refine ⟨c1.withMeta ⟨c1.node.size, c1.node.prefixLen + m.prefixLen + 1,
          memcpy c1.node.prefixBytes
            (List.take (m.prefixLen + 1).toNat
                (m.prefixBytes.set m.prefixLen.toNat (ks.getD 0 0)) ++
              memcpy ((m.prefixBytes.set m.prefixLen.toNat (ks.getD 0 0)).drop
                  (m.prefixLen + 1).toNat)
                c1.node.prefixBytes
                (goMin c1.node.prefixLen (maxPrefixLen - (m.prefixLen + 1))))
            (goMin ((m.prefixLen + 1) +
                goMin c1.node.prefixLen (maxPrefixLen - (m.prefixLen + 1)))
              maxPrefixLen)⟩, ?_, ?_⟩
        · show (match cs.getD 0 none with
            | none => (Res.oob : Res (ArtNode V))
            | some c => _) = _
          rw [hcs0]
          show (if ¬ c1.isLeaf = true then _ else _) = _
          rw [if_pos hcnd]
          show (if m.prefixLen < maxPrefixLen then _ else _) = _
          rw [if_pos hlt1]
          show Res.bind (arrSet m.prefixBytes m.prefixLen (ks.getD 0 0)) _ = _
          rw [hset1, Res.bind_ok]
          show (if m.prefixLen + 1 < maxPrefixLen then _ else _) = _
          rw [if_pos h2pos]
          show Res.bind (arrDrop
            (m.prefixBytes.set m.prefixLen.toNat (ks.getD 0 0))
            (m.prefixLen + 1)) _ = _
          rw [hdrop, Res.bind_ok]
          rfl
        · rw [hpl]
          refine collapse_WF_build hshape1 hplc hpcb hch1 hagree hpb2 hb1 ?_ ?_
          · rw [memcpy_length]
            exact hc1pb
          · intro i hi
            have htn1 : ((p.length : Int)).toNat = p.length := by omega
            have htn2 : ((p.length : Int) + 1).toNat = p.length + 1 := by omega
            have hcplv : goMin c1.node.prefixLen
                (maxPrefixLen - ((p.length : Int) + 1)) =
                ((min pc.length (9 - p.length) : Nat) : Int) := by
              rw [hplc, goMin_eq]
              simp only [maxPrefixLen]
              omega
            have hP1len : (m.prefixBytes.set ((p.length : Int)).toNat
                (ks.getD 0 0)).length = 10 := by
              rw [List.length_set]
              exact hpb10
            have hT0len : ((m.prefixBytes.set ((p.length : Int)).toNat
                (ks.getD 0 0)).drop ((p.length : Int) + 1).toNat).length =
                9 - p.length := by
              rw [List.length_drop, hP1len, htn2]
              omega
            have hTlen : (memcpy ((m.prefixBytes.set ((p.length : Int)).toNat
                (ks.getD 0 0)).drop ((p.length : Int) + 1).toNat)
                c1.node.prefixBytes
                (goMin c1.node.prefixLen
                  (maxPrefixLen - ((p.length : Int) + 1)))).length =
                9 - p.length := by
              rw [memcpy_length]
              exact hT0len
            have hP2len : (List.take ((p.length : Int) + 1).toNat
                (m.prefixBytes.set ((p.length : Int)).toNat (ks.getD 0 0)) ++
                memcpy ((m.prefixBytes.set ((p.length : Int)).toNat
                    (ks.getD 0 0)).drop ((p.length : Int) + 1).toNat)
                  c1.node.prefixBytes
                  (goMin c1.node.prefixLen
                    (maxPrefixLen - ((p.length : Int) + 1)))).length = 10 := by
              rw [List.length_append, List.length_take, hTlen, htn2, hP1len]
              omega
            have hiK : i < p.length + 1 + min pc.length (9 - p.length) := by
              omega
            rw [getD_memcpy_lt
              (show (i : Int) < goMin (((p.length : Int) + 1) +
                  goMin c1.node.prefixLen
                    (maxPrefixLen - ((p.length : Int) + 1))) maxPrefixLen by
                rw [hcplv, goMin_eq]
                simp only [maxPrefixLen]
                omega)
              (show i < (List.take ((p.length : Int) + 1).toNat
                  (m.prefixBytes.set ((p.length : Int)).toNat (ks.getD 0 0)) ++
                  memcpy ((m.prefixBytes.set ((p.length : Int)).toNat
                      (ks.getD 0 0)).drop ((p.length : Int) + 1).toNat)
                    c1.node.prefixBytes
                    (goMin c1.node.prefixLen
                      (maxPrefixLen - ((p.length : Int) + 1)))).length by
                rw [hP2len]
                omega)
              (show i < c1.node.prefixBytes.length by rw [hc1pb]; omega)]
            by_cases hip : i < p.length + 1
            · rw [getD_take_append 0
                (show i < ((p.length : Int) + 1).toNat by omega)
                (show i < (m.prefixBytes.set ((p.length : Int)).toNat
                  (ks.getD 0 0)).length by rw [hP1len]; omega)]
              by_cases hip2 : i < p.length
              · rw [getD_set_ne 0 (show ((p.length : Int)).toNat ≠ i by omega),
                  getD_append_left 0 hip2]
                exact hinl i (by omega)
              · rw [show ((p.length : Int)).toNat = i by omega,
                  getD_set_self 0 (show i < m.prefixBytes.length by
                    rw [hpb10]; omega),
                  hks0, getD_append_right 0 (show p.length ≤ i by omega),
                  show i - p.length = 0 by omega]
                rfl
            · have hlt2 : (List.take ((p.length : Int) + 1).toNat
                  (m.prefixBytes.set ((p.length : Int)).toNat
                    (ks.getD 0 0))).length = p.length + 1 := by
                rw [List.length_take, htn2, hP1len]
                omega
              rw [getD_append_right 0 (by rw [hlt2]; omega), hlt2]
              rw [getD_memcpy_lt
                (show ((i - (p.length + 1) : Nat) : Int) <
                    goMin c1.node.prefixLen
                      (maxPrefixLen - ((p.length : Int) + 1)) by
                  rw [hcplv]
                  omega)
                (show i - (p.length + 1) < c1.node.prefixBytes.length by
                  rw [hc1pb]
                  omega)
                (show i - (p.length + 1) <
                    ((m.prefixBytes.set ((p.length : Int)).toNat
                      (ks.getD 0 0)).drop ((p.length : Int) + 1).toNat).length by
                  rw [hT0len]
                  omega)]
              rw [hinlc (i - (p.length + 1)) (by omega)]
              rw [getD_append_right 0 (show p.length ≤ i by omega)]
              rw [show i - p.length = (i - (p.length + 1)) + 1 by omega,
                List.getD_cons_succ]
      · -- the edge byte fills the buffer: no room for the child path
        have h2neg : ¬ (m.prefixLen + 1 < maxPrefixLen) := by
          rw [hpl]
          simp only [maxPrefixLen]
          omega
        refine ⟨c1.withMeta ⟨c1.node.size, c1.node.prefixLen + m.prefixLen + 1,
          memcpy c1.node.prefixBytes
            (m.prefixBytes.set m.prefixLen.toNat (ks.getD 0 0))
            (goMin (m.prefixLen + 1) maxPrefixLen)⟩, ?_, ?_⟩
        · show (match cs.getD 0 none with
            | none => (Res.oob : Res (ArtNode V))
            | some c => _) = _
          rw [hcs0]
          show (if ¬ c1.isLeaf = true then _ else _) = _
          rw [if_pos hcnd]
          show (if m.prefixLen < maxPrefixLen then _ else _) = _
          rw [if_pos hlt1]
          show Res.bind (arrSet m.prefixBytes m.prefixLen (ks.getD 0 0)) _ = _
          rw [hset1, Res.bind_ok]
          show (if m.prefixLen + 1 < maxPrefixLen then _ else _) = _
          rw [if_neg h2neg]
          rfl
        · rw [hpl]
          refine collapse_WF_build hshape1 hplc hpcb hch1 hagree hpb2 hb1 ?_ ?_
          · rw [memcpy_length]
            exact hc1pb
          · intro i hi
            have hi10 : i < 10 := by omega
            rw [getD_memcpy_lt
              (show (i : Int) < goMin ((p.length : Int) + 1) maxPrefixLen by
                rw [goMin_eq]
                simp only [maxPrefixLen]
                omega)
              (show i < (m.prefixBytes.set ((p.length : Int)).toNat
                (ks.getD 0 0)).length by rw [List.length_set, hpb10]; omega)
              (show i < c1.node.prefixBytes.length by rw [hc1pb]; omega)]
            by_cases hip2 : i < p.length
            · rw [getD_set_ne 0 (show ((p.length : Int)).toNat ≠ i by omega),
                getD_append_left 0 hip2]
              exact hinl i (by omega)
            · have hie : i = p.length := by omega
              rw [show ((p.length : Int)).toNat = i by omega,
                getD_set_self 0 (show i < m.prefixBytes.length by
                  rw [hpb10]; omega),
                hks0, getD_append_right 0 (show p.length ≤ i by omega),
                show i - p.length = 0 by omega]
              rfl
    · -- the buffer is already full: it is copied into the child unchanged
      have hA1 : ¬ (m.prefixLen < maxPrefixLen) := by
        rw [hpl]
        simp only [maxPrefixLen]
        omega
      refine ⟨c1.withMeta ⟨c1.node.size, c1.node.prefixLen + m.prefixLen + 1,
        memcpy c1.node.prefixBytes m.prefixBytes
          (goMin m.prefixLen maxPrefixLen)⟩, ?_, ?_⟩
      · show (match cs.getD 0 none with
          | none => (Res.oob : Res (ArtNode V))
          | some c => _) = _
        rw [hcs0]
        show (if ¬ c1.isLeaf = true then _ else _) = _
        rw [if_pos hcnd]
        show (if m.prefixLen < maxPrefixLen then _ else _) = _
        rw [if_neg hA1]
        show (if m.prefixLen < maxPrefixLen then _ else _) = _
        rw [if_neg hA1]
        rfl
      · rw [hpl]
        refine collapse_WF_build hshape1 hplc hpcb hch1 hagree hpb2 hb1 ?_ ?_
        · rw [memcpy_length]
          exact hc1pb
        · intro i hi
          have hi10 : i < 10 := by omega
          rw [getD_memcpy_lt
            (show (i : Int) < goMin ((p.length : Int)) maxPrefixLen by
              rw [goMin_eq]
              simp only [maxPrefixLen]
              omega)
            (show i < m.prefixBytes.length by rw [hpb10]; omega)
            (show i < c1.node.prefixBytes.length by rw [hc1pb]; omega),
            getD_append_left 0 (show i < p.length by omega)]
          exact hinl i (by omega)
/-! ## Claim theorems -/

/-- C1: the claim — reachable tree, non-nil key, Insert runs to completion
without a runtime error — is the spec's stated intent (`searchHelper` and
`deleteHelper` both guard the `key[depth]` read), but `insertHelper` reads
`key[depth]` (tree.go line 124) and `key[depth+mismatch]` (line 116) with no
bounds guard.  On the tree built by Insert([97]), Insert([97,97]) — both
succeed, size 2 — a further Insert([97]) reaches depth 1 past the end of the
key and traps with an index-out-of-range panic. -/
theorem C1_insert_key_depth_out_of_range_trap :
    (runInserts 50 [([97], (1 : Nat)), ([97, 97], 2)]).map Tree.Size = .ok 2 ∧
    ((runInserts 50 [([97], (1 : Nat)), ([97, 97], 2)]).bind
      (fun t => t.Insert 50 [97] 3)).isOob = true := by
  exact ⟨by decide, by decide⟩

/-- C7: on a full N256 (size 256, every byte occupied), `addChild` must trap
per the spec; the code instead breaks out of the switch silently: the call
returns normally (no trap), the size is unchanged, and the child under byte 5
is still the old leaf (key [9]), not the new one. -/
theorem C7_full_n256_addChild_silently_drops_child :
    (ArtNode.addChild fullNode256Ex 5 (ArtNode.mkLeaf [5] 5)).isOob = false ∧
    (ArtNode.addChild fullNode256Ex 5 (ArtNode.mkLeaf [5] 5)).map
      (fun n => n.node.size) = .ok 256 ∧
    ((ArtNode.addChild fullNode256Ex 5 (ArtNode.mkLeaf [5] 5)).bind
      (fun n => ArtNode.findChild (some n) 5)).map
      (fun c => c.map ArtNode.Key) = .ok (some [9]) := by
  exact ⟨by decide, by decide, by decide⟩

/-- C10: inserting the empty key into an empty tree succeeds — Search([])
returns the value and Size() is 1 — yet Delete([]) returns false on every
tree and leaves it unchanged (the `len(key) == 0` guard fires first), so the
empty-key entry can never be removed. -/
theorem C10_empty_key_insert_search_but_never_deletable :
    ((runInserts 5 [([], (7 : Nat))]).bind (fun t => t.Search 5 []) = .ok (some 7)) ∧
    ((runInserts 5 [([], (7 : Nat))]).map Tree.Size = .ok 1) ∧
    (∀ (V : Type) (t : Tree V) (fuel : Nat), t.Delete (fuel + 1) [] = .ok (false, t)) :=
  ⟨by decide, by decide, fun _ t fuel => delete_empty_key_eq t fuel⟩

/-- C2 counterexample: the two keys [97] and [97, 0] are distinct, both
inserts complete, yet Search([97, 0]) returns the absent value, not the most
recently inserted value 2: the byte-0 edge of the split (the terminated key
[97]) aliases the genuine 0 byte of [97, 0]. -/
theorem C2_cx_distinct_keys_not_found :
    ([[97], [97, 0]] : List (List Nat)).Pairwise (· ≠ ·) ∧
    (runInserts 50 [([97], (1 : Nat)), ([97, 0], 2)]).map Tree.Size = .ok 2 ∧
    (runInserts 50 [([97], (1 : Nat)), ([97, 0], 2)]).bind
      (fun t => t.Search 50 [97, 0]) = .ok none := by
  exact ⟨by decide, by decide, by decide⟩

/-- C3 counterexample: on the reachable tree with keys [97] and [97, 0], the
key [97, 0] is present (it was inserted), yet re-inserting it bumps Size()
from 2 to 3 — the descent lands on the aliased leaf [97], misses the match,
and splits in a fresh leaf instead of overwriting — and the subsequent search
still cannot find it. -/
theorem C3_cx_overwrite_grows_size :
    (runInserts 50 [([97], (1 : Nat)), ([97, 0], 2)]).map Tree.Size = .ok 2 ∧
    ((runInserts 50 [([97], (1 : Nat)), ([97, 0], 2)]).bind
      (fun t => t.Insert 50 [97, 0] 3)).map Tree.Size = .ok 3 ∧
    ((runInserts 50 [([97], (1 : Nat)), ([97, 0], 2)]).bind
      (fun t => (t.Insert 50 [97, 0] 3).bind
        (fun t2 => t2.Search 50 [97, 0]))) = .ok none := by
  exact ⟨by decide, by decide, by decide⟩

/-- C5 counterexample: after Insert([97]), Insert([97,0,98]), Insert([97,0,99])
— all successful — Each visits the leaves with keys [97], [97,0,99],
[97,0,98]: not in ascending lexicographic order.  The third insert descends
through the aliased 0 edge onto the leaf [97] and splits it, hanging
[97,0,99] under the 0 edge that sorts before [97,0,98]'s position. -/
theorem C5_cx_each_out_of_order :
    ((runInserts 50 [([97], (1 : Nat)), ([97, 0, 98], 2), ([97, 0, 99], 3)]).bind
      (fun t => t.Each 50)).map leafKeys = .ok [[97], [97, 0, 99], [97, 0, 98]] ∧
    ((runInserts 50 [([97], (1 : Nat)), ([97, 0, 98], 2), ([97, 0, 99], 3)]).bind
      (fun t => t.Each 50)).map (fun l => ascending (leafKeys l)) = .ok false := by
  exact ⟨by decide, by decide⟩

/-- C6 counterexample: after the reachable operations Insert([97]),
Insert([97,0]) the root is an N4 whose key array begins [0, 0]: `keys[0:size]`
is not strictly ascending (both children hang on the byte-0 edge). -/
theorem C6_cx_duplicate_key_bytes :
    (runInserts 50 [([97], (1 : Nat)), ([97, 0], 2)]).map
      (fun t => match t.root with
        | some n => strictKeysOK n
        | none => true) = .ok false := by
  decide

/-- C8 counterexample: a reachable full N16 whose key array carries the
duplicate 0 produced by edge aliasing (keys [0] and [0,0] collide on edge 0).
Before growing, the child under byte 0 is the leaf [0]; `grow` writes
`keyIndex[keys[i]] = i+1` for both duplicates, so after the N16→N48 grow the
child under byte 0 is the leaf [0,0]: the grow transition does not preserve
the child directory. -/
theorem C8_cx_grow_changes_child_directory :
    (runInserts 80 dupSeq).bind (fun t =>
      match t.root with
      | some n => do
        let before ← ArtNode.findChild (some n) 0
        let g ← ArtNode.grow n
        let after ← ArtNode.findChild (some g) 0
        pure (n.isFull, n.node.size, before.map ArtNode.Key, after.map ArtNode.Key)
      | none => .oob) = .ok (true, 16, some [0], some [0, 0]) := by
  decide

set_option maxHeartbeats 2000000 in
/-- C9: when an N4 shrinks, its slot is replaced by its child `children[0]`.
If the child is an inner node, its `prefixLen` becomes
`child.prefixLen + Lp + 1` (`Lp` the N4's prefixLen) and its inline buffer
holds the concatenation of the N4's stored prefix, the edge byte `keys[0]`,
and the child's former stored prefix, truncated to `P = 10` bytes; a leaf
child simply replaces the N4 with no prefix update. -/
theorem C9_n4_shrink_collapse_merges_prefixes {V : Type} (m : NodeMeta)
    (ks : List Nat) (cs : List (Option (ArtNode V))) (c : ArtNode V)
    (hc : cs.getD 0 none = some c) (hLp : 0 ≤ m.prefixLen)
    (hbuf : m.prefixBytes.length = 10) :
    (c.isLeaf = true → ArtNode.shrink (.node4 m ks cs) = .ok c) ∧
    (c.isLeaf = false → 0 ≤ c.node.prefixLen → c.node.prefixBytes.length = 10 →
      ∃ B, ArtNode.shrink (.node4 m ks cs) =
          .ok (c.withMeta ⟨c.node.size, c.node.prefixLen + m.prefixLen + 1, B⟩) ∧
        B.take (goMin (c.node.prefixLen + m.prefixLen + 1) maxPrefixLen).toNat =
          (m.prefixBytes.take (goMin m.prefixLen maxPrefixLen).toNat ++
            ks.getD 0 0 :: c.node.prefixBytes.take (goMin c.node.prefixLen maxPrefixLen).toNat).take
            (goMin (c.node.prefixLen + m.prefixLen + 1) maxPrefixLen).toNat) := by
  have hc2 : cs[0]?.getD none = some c := by simpa [List.getD] using hc
  constructor
  · intro hleaf
    simp [ArtNode.shrink, hc2, hleaf]
  · intro hinner hLc hcbuf
    by_cases h10 : m.prefixLen < maxPrefixLen
    · -- inline space left after the parent prefix
      have hset : arrSet m.prefixBytes m.prefixLen (ks[0]?.getD 0) =
          .ok (m.prefixBytes.set m.prefixLen.toNat (ks[0]?.getD 0)) :=
        arrSet_ok _ hLp (by rw [hbuf]; simp [maxPrefixLen] at h10; omega)
      by_cases h9 : m.prefixLen + 1 < maxPrefixLen
      · -- room for child prefix bytes too
        have hdrop : arrDrop (m.prefixBytes.set m.prefixLen.toNat (ks[0]?.getD 0))
            (m.prefixLen + 1) =
            .ok ((m.prefixBytes.set m.prefixLen.toNat (ks[0]?.getD 0)).drop
              (m.prefixLen + 1).toNat) :=
          arrDrop_ok (by omega) (by rw [List.length_set, hbuf]; simp [maxPrefixLen] at h9; omega)
        refine ⟨memcpy c.node.prefixBytes
            (List.take (m.prefixLen + 1).toNat
              (m.prefixBytes.set m.prefixLen.toNat (ks[0]?.getD 0)) ++
              memcpy ((m.prefixBytes.set m.prefixLen.toNat (ks[0]?.getD 0)).drop
                  (m.prefixLen + 1).toNat)
                c.node.prefixBytes (goMin c.node.prefixLen (maxPrefixLen - (m.prefixLen + 1))))
            (goMin (m.prefixLen + 1 + goMin c.node.prefixLen (maxPrefixLen - (m.prefixLen + 1)))
              maxPrefixLen),
          by simp [ArtNode.shrink, List.getD, hc2, hinner, h10, h9, hset, hdrop, Res.bind], ?_⟩
        simp only [goMin_eq, maxPrefixLen] at h9 h10 ⊢
        obtain ⟨l, hl⟩ : ∃ n : Nat, m.prefixLen = (n : Int) := ⟨m.prefixLen.toNat, by omega⟩
        obtain ⟨lc, hlc⟩ : ∃ n : Nat, c.node.prefixLen = (n : Int) := ⟨c.node.prefixLen.toNat, by omega⟩
        rw [hl] at h9 h10 ⊢
        rw [hlc]
        simp only [memcpy, List.length_set, List.length_drop, List.length_take,
          List.length_append, hbuf, hcbuf]
        have e1 : ((l : Int) + 1).toNat = l + 1 := by omega
        have e9 : ((l : Int)).toNat = l := by omega
        rw [e1, e9]
        have e2 : (((lc : Int)) ⊓ (10 - ((l : Int) + 1))).toNat = lc ⊓ (9 - l) := by omega
        rw [e2]
        have e3 : lc ⊓ (9 - l) ⊓ (10 ⊓ (10 - (l + 1))) = lc ⊓ (9 - l) := by omega
        rw [e3]
        have e4 : (((l : Int) + 1 + ((lc : Int)) ⊓ (10 - ((l : Int) + 1))) ⊓ 10).toNat
            = l + 1 + lc ⊓ (9 - l) := by omega
        rw [e4]
        have e5 : (l + 1 + lc ⊓ (9 - l)) ⊓
              (((l + 1) ⊓ 10 + (lc ⊓ (9 - l) ⊓ 10 + (10 - (l + 1) - lc ⊓ (9 - l)))) ⊓ 10)
            = l + 1 + lc ⊓ (9 - l) := by omega
        rw [e5]
        have e6 : (((lc : Int) + (l : Int) + 1) ⊓ 10).toNat = l + 1 + lc ⊓ (9 - l) := by omega
        rw [e6]
        have e7 : (((l : Int)) ⊓ 10).toNat = l := by omega
        rw [e7]
        have e8 : (((lc : Int)) ⊓ 10).toNat = lc ⊓ 10 := by omega
        rw [e8]
        simp only [List.getD, List.get?_eq_getElem?]
        rw [c9_take_lhs m.prefixBytes c.node.prefixBytes (ks[0]?.getD 0) l (lc ⊓ (9 - l))
          (l + 1 + lc ⊓ (9 - l)) hbuf hcbuf (by omega) (by omega) rfl]
        rw [c9_take_rhs m.prefixBytes c.node.prefixBytes (ks[0]?.getD 0) l (lc ⊓ (9 - l))
          (l + 1 + lc ⊓ (9 - l)) lc hbuf hcbuf (by omega) (by omega) (by omega) rfl]
      · -- l = 9: the edge byte fills the buffer; no room for child bytes
        refine ⟨memcpy c.node.prefixBytes (m.prefixBytes.set m.prefixLen.toNat (ks[0]?.getD 0))
            (goMin (m.prefixLen + 1) maxPrefixLen),
          by simp [ArtNode.shrink, List.getD, hc2, hinner, h10, h9, hset, Res.bind], ?_⟩
        simp only [goMin_eq, maxPrefixLen] at h9 h10 ⊢
        obtain ⟨l, hl⟩ : ∃ n : Nat, m.prefixLen = (n : Int) := ⟨m.prefixLen.toNat, by omega⟩
        obtain ⟨lc, hlc⟩ : ∃ n : Nat, c.node.prefixLen = (n : Int) := ⟨c.node.prefixLen.toNat, by omega⟩
        rw [hl] at h9 h10 ⊢
        rw [hlc]
        have hl9 : l = 9 := by omega
        subst hl9
        simp only [memcpy, List.length_set, hbuf, hcbuf]
        have e1 : ((((9 : Nat) : Int) + 1) ⊓ 10).toNat = 10 := by omega
        have e2 : (((9 : Nat) : Int)).toNat = 9 := by omega
        rw [e1, e2]
        have e3 : (10 : Nat) ⊓ (10 ⊓ 10) = 10 := by omega
        rw [e3]
        have e4 : (((lc : Int) + ((9 : Nat) : Int) + 1) ⊓ 10).toNat = 10 := by omega
        rw [e4]
        have e5 : ((((9 : Nat) : Int)) ⊓ 10).toNat = 9 := by omega
        rw [e5]
        have e6 : (((lc : Int)) ⊓ 10).toNat = lc ⊓ 10 := by omega
        rw [e6]
        simp only [List.getD, List.get?_eq_getElem?]
        rw [List.take_append_of_le_length
          (by simp [List.length_take, List.length_set, hbuf])]
        rw [List.take_take]
        have e7 : (10 : Nat) ⊓ 10 = 10 := by omega
        rw [e7]
        rw [show (10 : Nat) = 9 + 1 from rfl, take_set_succ m.prefixBytes 9 _ (by omega)]
        rw [List.take_append_eq_append_take]
        have e8 : ((m.prefixBytes.take 9).length) = 9 := by simp [hbuf]
        rw [e8, List.take_take]
        have e9 : (9 + 1) ⊓ 9 = 9 := by omega
        rw [e9]
        have e10 : 9 + 1 - 9 = 1 := by omega
        rw [e10]
        simp
    · -- the parent prefix already fills the inline buffer
      refine ⟨memcpy c.node.prefixBytes m.prefixBytes (goMin m.prefixLen maxPrefixLen),
        by simp [ArtNode.shrink, List.getD, hc2, hinner, h10, Res.bind], ?_⟩
      simp only [goMin_eq, maxPrefixLen] at h10 ⊢
      obtain ⟨l, hl⟩ : ∃ n : Nat, m.prefixLen = (n : Int) := ⟨m.prefixLen.toNat, by omega⟩
      obtain ⟨lc, hlc⟩ : ∃ n : Nat, c.node.prefixLen = (n : Int) := ⟨c.node.prefixLen.toNat, by omega⟩
      rw [hl] at h10 ⊢
      rw [hlc]
      simp only [memcpy, hbuf, hcbuf]
      have e1 : (((l : Int)) ⊓ 10).toNat = 10 := by omega
      rw [e1]
      have e2 : (10 : Nat) ⊓ (10 ⊓ 10) = 10 := by omega
      rw [e2]
      have e3 : (((lc : Int) + (l : Int) + 1) ⊓ 10).toNat = 10 := by omega
      rw [e3]
      have e4 : (((lc : Int)) ⊓ 10).toNat = lc ⊓ 10 := by omega
      rw [e4]
      rw [List.take_append_of_le_length (by simp [List.length_take, hbuf])]
      rw [List.take_append_of_le_length (by simp [List.length_take, hbuf])]

/-- Witness for the N4 collapse theorem at a concrete node: an N4 with prefix
[5,6] (Lp = 2) and edge byte 7 to a surviving inner child with prefix [8]
(Lc = 1). -/
theorem C9_n4_shrink_collapse_witness :
    (c9Children.getD 0 none = some c9Child ∧ 0 ≤ c9ParentMeta.prefixLen ∧
      c9ParentMeta.prefixBytes.length = 10) ∧
    ((c9Child.isLeaf = true → ArtNode.shrink (.node4 c9ParentMeta c9Keys c9Children) = .ok c9Child) ∧
     (c9Child.isLeaf = false → 0 ≤ c9Child.node.prefixLen → c9Child.node.prefixBytes.length = 10 →
      ∃ B, ArtNode.shrink (.node4 c9ParentMeta c9Keys c9Children) =
          .ok (c9Child.withMeta ⟨c9Child.node.size,
            c9Child.node.prefixLen + c9ParentMeta.prefixLen + 1, B⟩) ∧
        B.take (goMin (c9Child.node.prefixLen + c9ParentMeta.prefixLen + 1) maxPrefixLen).toNat =
          (c9ParentMeta.prefixBytes.take (goMin c9ParentMeta.prefixLen maxPrefixLen).toNat ++
            c9Keys.getD 0 0 ::
              c9Child.node.prefixBytes.take (goMin c9Child.node.prefixLen maxPrefixLen).toNat).take
            (goMin (c9Child.node.prefixLen + c9ParentMeta.prefixLen + 1) maxPrefixLen).toNat)) :=
  ⟨⟨rfl, by decide, by decide⟩,
   C9_n4_shrink_collapse_merges_prefixes c9ParentMeta c9Keys c9Children c9Child
     rfl (by decide) (by decide)⟩


/-- C8 (amended): on an inner node satisfying its variant's structural
invariant (strictly ascending, duplicate-free key arrays for N4/N16 and an
injective, consistent slot table for N48), every grow transition succeeds and
preserves the metadata — `size`, `prefixLen`, and the inline prefix bytes up
to `min(prefixLen, P)` — and the child directory: the child reachable under
every byte after growing equals the child reachable under that byte before. -/
theorem C8_grow_preserves_meta_and_directory {V : Type} {n : ArtNode V}
    (h : PreShape n) :
    ∃ g, ArtNode.grow n = .ok g ∧
      g.node.size = n.node.size ∧ g.node.prefixLen = n.node.prefixLen ∧
      (∀ i : Nat, (i : Int) < goMin n.node.prefixLen maxPrefixLen →
        g.node.prefixBytes.getD i 0 = n.node.prefixBytes.getD i 0) ∧
      childAssoc g = childAssoc n ∧
      (∀ b, b < 256 → ArtNode.findChild (some g) b = ArtNode.findChild (some n) b) := by
  cases n with
  | leaf k v => exact absurd h (by simp [PreShape])
  | node4 m ks cs =>
    obtain ⟨g, hrun, hpre, hsz, hpl, _, hinl, hassoc, _⟩ := grow_spec4 h
    refine ⟨g, hrun, hsz, hpl, hinl, hassoc, ?_⟩
    intro b hb
    rw [findChild_spec hpre hb, findChild_spec h hb, hassoc]
  | node16 m ks cs =>
    obtain ⟨g, hrun, hpre, hsz, hpl, _, hinl, hassoc, _⟩ := grow_spec16 h
    refine ⟨g, hrun, hsz, hpl, hinl, hassoc, ?_⟩
    intro b hb
    rw [findChild_spec hpre hb, findChild_spec h hb, hassoc]
  | node48 m ks cs =>
    obtain ⟨g, hrun, hpre, hsz, hpl, _, hinl, hassoc, _⟩ := grow_spec48 h
    refine ⟨g, hrun, hsz, hpl, hinl, hassoc, ?_⟩
    intro b hb
    rw [findChild_spec hpre hb, findChild_spec h hb, hassoc]
  | node256 m cs =>
    exact ⟨ArtNode.node256 m cs, rfl, rfl, rfl, fun i _ => rfl, rfl,
      fun b hb => rfl⟩

/-- C8 witness: a shaped one-child N4 grows with its directory intact. -/
theorem C8_grow_preserves_meta_and_directory_witness :
    PreShape (ArtNode.node4 (V := Nat) ⟨1, 0, List.replicate 10 0⟩ [5, 0, 0, 0]
      [some (ArtNode.mkLeaf [5] 7), none, none, none]) ∧
    ∃ g, ArtNode.grow (ArtNode.node4 (V := Nat) ⟨1, 0, List.replicate 10 0⟩
        [5, 0, 0, 0] [some (ArtNode.mkLeaf [5] 7), none, none, none]) = .ok g ∧
      childAssoc g = childAssoc (ArtNode.node4 (V := Nat) ⟨1, 0, List.replicate 10 0⟩
        [5, 0, 0, 0] [some (ArtNode.mkLeaf [5] 7), none, none, none]) := by
  have hp : PreShape (ArtNode.node4 (V := Nat) ⟨1, 0, List.replicate 10 0⟩
      [5, 0, 0, 0] [some (ArtNode.mkLeaf [5] 7), none, none, none]) := by
    refine ⟨rfl, rfl, by simp, by decide, by decide, ?_, ?_, ?_, ?_⟩
    · intro i hi
      have hi2 : i < 1 := hi
      have h0 : i = 0 := by omega
      subst h0
      rfl
    · intro i h1 h2
      have h1b : 1 ≤ i := h1
      interval_cases i <;> exact ⟨rfl, rfl⟩
    · intro i j hij hj
      have hj2 : j < 1 := hj
      omega
    · intro i hi
      have hi2 : i < 1 := hi
      have h0 : i = 0 := by omega
      subst h0
      decide
  refine ⟨hp, ?_⟩
  obtain ⟨g, h1, _, _, _, h5, _⟩ := C8_grow_preserves_meta_and_directory hp
  exact ⟨g, h1, h5⟩

/-- C2 (amended): Search finds everything actually stored — on every tree
satisfying the structural well-formedness invariant `TreeWF` (variant shape
invariants, keys agreeing with the compressed paths and edge bytes), Search
of a stored key returns its stored value with enough budget.  Insert
sequences in which one key is a proper prefix of another can produce trees
outside `TreeWF`, where this round trip fails. -/
theorem C2_search_finds_stored_pairs {V : Type} {t : Tree V}
    {M : List (List Nat × V)} (h : TreeWF t M) {k : List Nat} {v : V}
    (hkv : (k, v) ∈ M) :
    ∃ f0, ∀ fuel, f0 ≤ fuel → Tree.Search fuel t k = .ok (some v) := by
  obtain ⟨hsz, hroot⟩ := h
  rcases hroot with ⟨hnone, hM⟩ | ⟨n, hr, hwf⟩
  · rw [hM] at hkv
    exact absurd hkv (by simp)
  · obtain ⟨f0, hrun⟩ := search_found 0 n M hwf k v hkv
    refine ⟨f0, ?_⟩
    intro fuel hf
    show ArtNode.searchHelper fuel t.root k 0 = _
    rw [hr]
    have hc : ((0 : Nat) : Int) = (0 : Int) := rfl
    rw [← hc]
    exact hrun fuel hf
/-- C2 witness: a one-leaf tree stores ([5], 7) and Search returns 7. -/
theorem C2_search_finds_stored_pairs_witness :
    TreeWF (⟨some (ArtNode.mkLeaf [5] 7), 1⟩ : Tree Nat) [([5], 7)] ∧
    ([5], 7) ∈ [([5], 7)] ∧
    ∃ f0, ∀ fuel, f0 ≤ fuel →
      Tree.Search fuel (⟨some (ArtNode.mkLeaf [5] 7), 1⟩ : Tree Nat) [5] =
        .ok (some 7) := by
  have hwf : TreeWF (⟨some (ArtNode.mkLeaf [5] 7), 1⟩ : Tree Nat) [([5], 7)] := by
    refine ⟨by decide, Or.inr ⟨ArtNode.mkLeaf [5] 7, rfl, ?_⟩⟩
    exact WF.leaf 0 [5] 7 (by decide) (by decide)
  have hm : (([5], 7) : List Nat × Nat) ∈ [(([5] : List Nat), (7 : Nat))] := by
    simp
  exact ⟨hwf, hm, C2_search_finds_stored_pairs hwf hm⟩


/-- C6 (amended): the child-table primitive maintains the claimed node
invariants — `addChild(b, child)` on an inner node satisfying its variant's
structural invariant, with an edge byte `b` not yet present in the node,
returns a node whose size lies within its variant's [min, max] bounds and
whose N4/N16 key arrays are strictly ascending on `keys[0:size]` with
`keys[i]` corresponding to `children[i]` (the directory is the old one plus
the new edge, in sorted order).  Reachable trees, however, can carry nodes
that violate the invariant (see the counterexample), because byte-0 edge
aliasing inserts a duplicate key byte. -/
theorem C6_addChild_keeps_bounds_and_order {V : Type} {n : ArtNode V} {b : Nat}
    {child : ArtNode V} (h : InnerShape n) (hb : b < 256)
    (hfresh : assocGet b (childAssoc n) = none) :
    ∃ n2, ArtNode.addChild n b child = .ok n2 ∧
      sizeBoundsOK n2 = true ∧ strictKeysOK n2 = true ∧
      childAssoc n2 = assocPut b child (childAssoc n) := by
  obtain ⟨n2, hrun, hsh, _, _, _, hassoc⟩ := addChild_spec h hb hfresh
  exact ⟨n2, hrun, sizeBoundsOK_of_shape hsh, strictKeysOK_of_shape hsh, hassoc⟩

/-- C6 witness: adding edge byte 4 to a shaped two-child N4. -/
theorem C6_addChild_keeps_bounds_and_order_witness :
    InnerShape (ArtNode.node4 (V := Nat) ⟨2, 0, List.replicate 10 0⟩ [3, 5, 0, 0]
      [some (ArtNode.mkLeaf [3] 1), some (ArtNode.mkLeaf [5] 2), none, none]) ∧
    (4 < 256) ∧
    assocGet 4 (childAssoc (ArtNode.node4 (V := Nat) ⟨2, 0, List.replicate 10 0⟩
      [3, 5, 0, 0]
      [some (ArtNode.mkLeaf [3] 1), some (ArtNode.mkLeaf [5] 2), none, none])) =
      none ∧
    ∃ n2, ArtNode.addChild (ArtNode.node4 (V := Nat) ⟨2, 0, List.replicate 10 0⟩
        [3, 5, 0, 0]
        [some (ArtNode.mkLeaf [3] 1), some (ArtNode.mkLeaf [5] 2), none, none])
        4 (ArtNode.mkLeaf [4] 9) = .ok n2 ∧
      sizeBoundsOK n2 = true ∧ strictKeysOK n2 = true ∧
      childAssoc n2 = assocPut 4 (ArtNode.mkLeaf [4] 9)
        (childAssoc (ArtNode.node4 (V := Nat) ⟨2, 0, List.replicate 10 0⟩
          [3, 5, 0, 0]
          [some (ArtNode.mkLeaf [3] 1), some (ArtNode.mkLeaf [5] 2), none,
            none])) := by
  have hsh : InnerShape (ArtNode.node4 (V := Nat) ⟨2, 0, List.replicate 10 0⟩
      [3, 5, 0, 0]
      [some (ArtNode.mkLeaf [3] 1), some (ArtNode.mkLeaf [5] 2), none, none]) := by
    refine ⟨rfl, rfl, by simp, by decide, by decide, ?_, ?_, ?_, ?_⟩
    · intro i hi
      have hi2 : i < 2 := hi
      interval_cases i <;> rfl
    · intro i h1 h2
      have h1b : 2 ≤ i := h1
      interval_cases i <;> exact ⟨rfl, rfl⟩
    · intro i j hij hj
      have hj2 : j < 2 := hj
      interval_cases j
      · omega
      · have hi0 : i = 0 := by omega
        subst hi0
        decide
    · intro i hi
      have hi2 : i < 2 := hi
      interval_cases i <;> decide
  exact ⟨hsh, by decide, rfl,
    C6_addChild_keeps_bounds_and_order hsh (by decide) rfl⟩


/-- C5 (amended): on every tree satisfying the structural well-formedness
invariant `TreeWF` — which insert sequences with one key a proper prefix of
another can violate — `Each` visits the leaves in ascending lexicographic
key order: the visited leaf keys are exactly the stored keys, in directory
(pre-)order, and that order is strictly ascending. -/
theorem C5_each_ascending_on_wf {V : Type} {t : Tree V}
    {M : List (List Nat × V)} (h : TreeWF t M) :
    ∃ f0, ∀ fuel, f0 ≤ fuel → ∃ L, Tree.Each fuel t = .ok L ∧
      leafKeys L = M.map Prod.fst ∧ ascending (leafKeys L) = true := by
  obtain ⟨hsz, hroot⟩ := h
  rcases hroot with ⟨hnone, hM⟩ | ⟨n, hr, hwf⟩
  · refine ⟨1, ?_⟩
    intro fuel hfu
    refine ⟨[], ?_, ?_, rfl⟩
    · show ArtNode.eachList fuel t.root = _
      rw [hnone]
      exact eachList_none hfu
    · rw [hM]
      rfl
  · obtain ⟨f0, hrun⟩ := each_spec 0 n M hwf
    have hsort := WF_sorted 0 n M hwf
    refine ⟨f0, ?_⟩
    intro fuel hfu
    obtain ⟨L, hok, hkeys⟩ := hrun fuel hfu
    refine ⟨L, ?_, hkeys, ?_⟩
    · show ArtNode.eachList fuel t.root = _
      rw [hr]
      exact hok
    · rw [hkeys]
      refine ascending_of_pairwise (List.Pairwise.imp ?_ hsort)
      intro k1 k2 hlt
      rw [List.drop_zero, List.drop_zero] at hlt
      exact hlt

/-- C5 witness: the one-leaf tree storing ([3], 1). -/
theorem C5_each_ascending_on_wf_witness :
    TreeWF (⟨some (ArtNode.mkLeaf [3] 1), 1⟩ : Tree Nat) [([3], 1)] ∧
    ∃ f0, ∀ fuel, f0 ≤ fuel → ∃ L,
      Tree.Each fuel (⟨some (ArtNode.mkLeaf [3] 1), 1⟩ : Tree Nat) = .ok L ∧
      leafKeys L = [(([3] : List Nat), (1 : Nat))].map Prod.fst ∧
      ascending (leafKeys L) = true := by
  have hwf : TreeWF (⟨some (ArtNode.mkLeaf [3] 1), 1⟩ : Tree Nat) [([3], 1)] :=
    ⟨by decide, Or.inr ⟨ArtNode.mkLeaf [3] 1, rfl,
      WF.leaf 0 [3] 1 (by decide) (by decide)⟩⟩
  exact ⟨hwf, C5_each_ascending_on_wf hwf⟩

/-- C3 (amended): overwrite keeps the size and search sees the new value —
on every tree satisfying the structural well-formedness invariant `TreeWF`,
inserting `(k, v2)` for an already-stored key `k` succeeds with `Size()`
unchanged, the tree then stores the same map with `k`'s value replaced by
`v2`, and `Search(k)` returns `v2` with enough budget.  On reachable trees
with byte-0 edge aliasing the unamended claim fails (counterexample). -/
theorem C3_overwrite_preserves_size_and_search {V : Type} {t : Tree V}
    {M : List (List Nat × V)} (hwf : TreeWF t M) {k : List Nat} {vold : V}
    (hkv : (k, vold) ∈ M) (v2 : V) :
    ∃ f0, ∀ fuel, f0 ≤ fuel →
      ∃ t2, Tree.Insert fuel t k v2 = .ok t2 ∧
        t2.Size = t.Size ∧
        TreeWF t2 (M.map (fun kv => if kv.1 = k then (k, v2) else kv)) ∧
        ∃ f1, ∀ fuel2, f1 ≤ fuel2 → Tree.Search fuel2 t2 k = .ok (some v2) := by
  obtain ⟨hsz, hroot⟩ := hwf
  rcases hroot with ⟨hnone, hM⟩ | ⟨n, hr, hwfn⟩
  · rw [hM] at hkv
    exact absurd hkv (by simp)
  · obtain ⟨f0, hrun⟩ := insert_overwrite 0 n M hwfn k vold v2 hkv
    refine ⟨f0, ?_⟩
    intro fuel hf
    obtain ⟨n2, hih, hwf2⟩ := hrun fuel hf
    have hmem2 : (k, v2) ∈ M.map (fun kv => if kv.1 = k then (k, v2) else kv) := by
      rw [List.mem_map]
      exact ⟨(k, vold), hkv, by simp⟩
    obtain ⟨f1, hsr⟩ := search_found 0 n2 _ hwf2 k v2 hmem2
    refine ⟨⟨some n2, t.size⟩, ?_, rfl, ?_, ⟨f1, ?_⟩⟩
    · show Res.bind (ArtNode.insertHelper fuel t.root k v2 0) _ = _
      have hih0 : ArtNode.insertHelper fuel t.root k v2 0 = Res.ok (n2, 0) := by
        rw [hr]
        exact hih
      rw [hih0, Res.bind_ok]
      show Res.ok (⟨some n2, t.size + 0⟩ : Tree V) = _
      rw [Int.add_zero]
    · refine ⟨?_, Or.inr ⟨n2, rfl, hwf2⟩⟩
      show t.size = _
      rw [List.length_map]
      exact hsz
    · intro fuel2 hf2
      show ArtNode.searchHelper fuel2 (some n2) k 0 = _
      exact hsr fuel2 hf2

/-- C3 witness: overwriting the stored pair ([7], 5) with value 6 on a
one-leaf tree. -/
theorem C3_overwrite_preserves_size_and_search_witness :
    TreeWF (⟨some (ArtNode.mkLeaf [7] 5), 1⟩ : Tree Nat) [([7], 5)] ∧
    (([7], 5) : List Nat × Nat) ∈ [(([7] : List Nat), (5 : Nat))] ∧
    ∃ f0, ∀ fuel, f0 ≤ fuel →
      ∃ t2, Tree.Insert fuel (⟨some (ArtNode.mkLeaf [7] 5), 1⟩ : Tree Nat) [7] 6
          = .ok t2 ∧
        t2.Size = (⟨some (ArtNode.mkLeaf [7] 5), 1⟩ : Tree Nat).Size ∧
        TreeWF t2 ([([7], 5)].map
          (fun kv => if kv.1 = [7] then (([7] : List Nat), (6 : Nat)) else kv)) ∧
        ∃ f1, ∀ fuel2, f1 ≤ fuel2 →
          Tree.Search fuel2 t2 [7] = .ok (some 6) := by
  have hwf : TreeWF (⟨some (ArtNode.mkLeaf [7] 5), 1⟩ : Tree Nat) [([7], 5)] :=
    ⟨by decide, Or.inr ⟨ArtNode.mkLeaf [7] 5, rfl,
      WF.leaf 0 [7] 5 (by decide) (by decide)⟩⟩
  have hm : (([7], 5) : List Nat × Nat) ∈ [(([7] : List Nat), (5 : Nat))] := by
    simp
  exact ⟨hwf, hm, C3_overwrite_preserves_size_and_search hwf hm 6⟩

end Art
